import Mathlib

/-!
# precise-calc: exact rational expression calculator

A shallow embedding of `pkg/calculator` (tokenizer, number parsers, structural
parser, shunting-yard conversion, postfix evaluator, `Calculate`).

Conventions of the embedding.

* A Go `string` holding well-formed UTF-8 text is a `List Char` (its code
  points).  Byte offsets and byte indexing are recovered through the UTF-8
  width / leading byte of each code point.
* `*big.Rat` is `ℚ`, `*big.Int` is `ℤ`; positions (`int`) are `Nat`, they are
  bounded by the input length.
* A Go `(value, error)` result is an `Outcome`: `ok v`, `err e`, or `fault`
  for a run-time fault (index out of range).
* The index loop `for i < len(runes)` over `runes` is carried as the pair of
  the index `i` and the unread suffix `runes[i:]`.
-/

namespace PreciseCalc

/-! ## types.go, errors.go -/

inductive TokenType where
  | NumberToken
  | OperatorToken
  | WhitespaceToken
  deriving DecidableEq, Repr

/-- The struct `Token`; its field `Type` is named `Typ` (`Type` is reserved). -/
structure Token where
  Typ : TokenType
  Value : List Char
  Position : Nat
  deriving DecidableEq, Repr

structure Operator where
  Symbol : Nat
  Precedence : Nat
  deriving DecidableEq, Repr

/-- The four error shapes of `errors.go`. -/
inductive CalcError where
  | EmptyExpression
  | InvalidCharacter (Character : Char) (Position : Nat)
  | ParseError (Message : String) (Position : Nat)
  | DivisionByZero (Position : Nat)
  deriving DecidableEq, Repr

/-- Result of a Go function returning `(value, error)`; `fault` is a run-time
fault (an index out of range). -/
inductive Outcome (α : Type) where
  | ok (v : α)
  | err (e : CalcError)
  | fault
  deriving DecidableEq, Repr

/-- The map `OperatorMap`, looked up by rune value; a missing key yields the
zero `Operator`. -/
def OperatorMap (r : Nat) : Operator :=
  if r = '+'.toNat then ⟨'+'.toNat, 1⟩
  else if r = '-'.toNat then ⟨'-'.toNat, 1⟩
  else if r = 'x'.toNat then ⟨'x'.toNat, 2⟩
  else if r = '/'.toNat then ⟨'/'.toNat, 2⟩
  else ⟨0, 0⟩

/-- Whether `OperatorMap` has the key. -/
def OperatorMapHas (r : Nat) : Bool :=
  r = '+'.toNat || r = '-'.toNat || r = 'x'.toNat || r = '/'.toNat

/-! ## Go library: unicode, strings, regexp -/

/-- The Go function `unicode.IsSpace`. -/
def unicodeIsSpace (ch : Char) : Bool :=
  let n := ch.toNat
  (0x09 ≤ n && n ≤ 0x0D) || n = 0x20 || n = 0x85 || n = 0xA0 || n = 0x1680 ||
  (0x2000 ≤ n && n ≤ 0x200A) || n = 0x2028 || n = 0x2029 || n = 0x202F ||
  n = 0x205F || n = 0x3000

/-- Width in bytes of the UTF-8 encoding of a code point. -/
def utf8Width (ch : Char) : Nat :=
  let n := ch.toNat
  if n < 0x80 then 1 else if n < 0x800 then 2 else if n < 0x10000 then 3 else 4

/-- First byte of the UTF-8 encoding of a code point. -/
def utf8Lead (ch : Char) : Nat :=
  let n := ch.toNat
  if n < 0x80 then n
  else if n < 0x800 then 0xC0 + n / 64
  else if n < 0x10000 then 0xE0 + n / 4096
  else 0xF0 + n / 262144

/-- The Go function `strings.TrimSpace`. -/
def TrimSpace (s : List Char) : List Char :=
  ((s.dropWhile unicodeIsSpace).reverse.dropWhile unicodeIsSpace).reverse

/-- Membership in the character class of `ValidCharacterSet`,
`[A-Fa-f0-9x+\-\s\t\n/.]`; the class `\s` of Go regexps is `[\t\n\f\r ]`. -/
def inValidCharacterClass (ch : Char) : Bool :=
  let n := ch.toNat
  ('A'.toNat ≤ n && n ≤ 'F'.toNat) || ('a'.toNat ≤ n && n ≤ 'f'.toNat) ||
  ('0'.toNat ≤ n && n ≤ '9'.toNat) || ch = 'x' || ch = '+' || ch = '-' ||
  n = 0x09 || n = 0x0A || n = 0x0C || n = 0x0D || n = 0x20 ||
  ch = '/' || ch = '.'

/-- The match `ValidCharacterSet.MatchString`: the whole text is in the class. -/
def ValidCharacterSetMatch (s : List Char) : Bool :=
  s.all inValidCharacterClass

/-! ## tokenizer.go -/

def isValidCharacter (ch : Char) : Bool :=
  ('A'.toNat ≤ ch.toNat && ch.toNat ≤ 'F'.toNat) ||
  ('a'.toNat ≤ ch.toNat && ch.toNat ≤ 'f'.toNat) ||
  ('0'.toNat ≤ ch.toNat && ch.toNat ≤ '9'.toNat) ||
  ch = 'x' || ch = 'X' ||
  ch = '+' || ch = '-' ||
  ch = '.' || ch = '/' ||
  unicodeIsSpace ch

def isOperator (ch : Char) : Bool :=
  OperatorMapHas ch.toNat

def isDigit (ch : Char) : Bool :=
  '0'.toNat ≤ ch.toNat && ch.toNat ≤ '9'.toNat

def isHexDigit (ch : Char) : Bool :=
  isDigit ch || ('A'.toNat ≤ ch.toNat && ch.toNat ≤ 'F'.toNat) ||
  ('a'.toNat ≤ ch.toNat && ch.toNat ≤ 'f'.toNat)

/-- The test `len(tokens) == 0 || tokens[len(tokens)-1].Type == OperatorToken`. -/
def atStartOrAfterOperator (tokens : List Token) : Bool :=
  match tokens.getLast? with
  | none => true
  | some t => t.Typ = TokenType.OperatorToken

/-- The test `i+1 < len(runes) && runes[i] == '0' && (runes[i+1] == 'x' ||
runes[i+1] == 'X')` on the suffix `runes[i:]`. -/
def hasHexPrefix (rest : List Char) : Bool :=
  match rest with
  | c0 :: c1 :: _ => c0 = '0' && (c1 = 'x' || c1 = 'X')
  | _ => false

/-- The function `isStartOfNumber(runes, i, tokens)`, on the suffix `runes[i:]`. -/
def isStartOfNumber (rest : List Char) (tokens : List Token) : Bool :=
  match rest with
  | [] => false
  | c :: rest1 =>
    if c ≠ '-' then false
    else
      match rest1 with
      | [] => false
      | next :: _ =>
        if isDigit next || next = '.' then atStartOrAfterOperator tokens
        else if hasHexPrefix rest1 then atStartOrAfterOperator tokens
        else false

/-- The part of `parseNumberToken` after the optional sign, on the suffix
`runes[i:]`: the text scanned and the suffix left unread. -/
def parseNumberBody (r1 : List Char) : List Char × List Char :=
  if hasHexPrefix r1 then
    (r1.take 2 ++ (r1.drop 2).takeWhile isHexDigit, (r1.drop 2).dropWhile isHexDigit)
  else
    match r1.dropWhile isDigit with
    | c :: t =>
      if c = '.' then
        (r1.takeWhile isDigit ++ c :: t.takeWhile isDigit, t.dropWhile isDigit)
      else (r1.takeWhile isDigit, c :: t)
    | [] => (r1.takeWhile isDigit, [])

/-- The function `parseNumberToken(runes, i)`, on the suffix `runes[i:]`:
returns the token text `runes[start:newPos]` and the suffix `runes[newPos:]`. -/
def parseNumberToken (rest : List Char) : List Char × List Char :=
  match rest with
  | c :: t =>
    if c = '-' then (c :: (parseNumberBody t).1, (parseNumberBody t).2)
    else parseNumberBody rest
  | [] => parseNumberBody []

/-- The condition guarding the number branch of the loop of `Tokenize`. -/
def startsNumber (rest : List Char) (tokens : List Token) : Bool :=
  match rest with
  | [] => false
  | ch :: _ =>
    isDigit ch || ch = '.' || hasHexPrefix rest ||
    (ch = '-' && isStartOfNumber rest tokens)

/-- The loop `for i < len(runes)` of `Tokenize`; `rest` is `runes[i:]`.  The
first argument bounds the number of iterations; `none` is returned when it is
exhausted. -/
def tokenizeLoop : Nat → List Char → Nat → List Token → Option (Outcome (List Token))
  | 0, _, _, _ => none
  | fuel + 1, rest, i, tokens =>
    match rest with
    | [] => some (Outcome.ok tokens)
    | ch :: rest1 =>
      if unicodeIsSpace ch then tokenizeLoop fuel rest1 (i + 1) tokens
      else if startsNumber rest tokens then
        let r := parseNumberToken rest
        tokenizeLoop fuel r.2 (i + r.1.length)
          (tokens ++ [⟨TokenType.NumberToken, r.1, i⟩])
      else if isOperator ch then
        tokenizeLoop fuel rest1 (i + 1)
          (tokens ++ [⟨TokenType.OperatorToken, [ch], i⟩])
      else some (Outcome.err (CalcError.InvalidCharacter ch i))

/-- The loop `for i, ch := range expression` of `Tokenize`: `i` is the byte
offset of `ch`. -/
def findInvalidCharacter : List Char → Nat → Option (Char × Nat)
  | [], _ => none
  | ch :: rest, i =>
    if !isValidCharacter ch then some (ch, i)
    else findInvalidCharacter rest (i + utf8Width ch)

/-- The function `Tokenize`.  `none` would mean the loop did not finish within
`len(runes) + 1` iterations. -/
def Tokenize (expression : List Char) : Option (Outcome (List Token)) :=
  if TrimSpace expression = [] then some (Outcome.err CalcError.EmptyExpression)
  else
    match (if !ValidCharacterSetMatch expression
           then findInvalidCharacter expression 0 else none) with
    | some (ch, i) => some (Outcome.err (CalcError.InvalidCharacter ch i))
    | none => tokenizeLoop (expression.length + 1) expression 0 []

/-! ## Go library: math/big

`Int.SetString` and `Rat.SetString` follow `nat.scan`, `scanSign`,
`scanExponent` and `Rat.SetString` of `math/big` (natconv.go, intconv.go,
ratconv.go).  Mantissas are unbounded; exponents are `int64` values as in the
library: `scanExponent` fails on an exponent outside the `int64` range, sums of
exponents wrap, and `Rat.SetString` refuses a power of five beyond `10^6` and a
power of two beyond `10^7`.  The count of fraction digits is taken as it is (a
Go string has fewer than `2^63` bytes). -/

/-- Two's-complement wrap of an integer to the `int64` range. -/
def wrap64 (x : Int) : Int :=
  (x + 9223372036854775808) % 18446744073709551616 - 9223372036854775808

/-- Digit value of a byte in `nat.scan`; `63` (`MaxBase + 1`) for a byte that
is no digit in any base. -/
def digitValue (ch : Char) : Nat :=
  let n := ch.toNat
  if '0'.toNat ≤ n ∧ n ≤ '9'.toNat then n - '0'.toNat
  else if 'a'.toNat ≤ n ∧ n ≤ 'z'.toNat then n - 'a'.toNat + 10
  else if 'A'.toNat ≤ n ∧ n ≤ 'Z'.toNat then n - 'A'.toNat + 10
  else 63

/-- State of the digit loop of `nat.scan` when it stops. -/
structure ScanState where
  res : Nat
  count : Nat
  dp : Option Nat
  prev : Char
  invalSep : Bool
  rest : List Char
  deriving DecidableEq, Repr

/-- The digit loop of `nat.scan`: `base0` is `base == 0`, `b` the actual base. -/
def scanLoop (base0 : Bool) (b : Nat) :
    Bool → Char → Bool → Nat → Option Nat → Nat → List Char → ScanState
  | _, prev, invalSep, count, dp, acc, [] => ⟨acc, count, dp, prev, invalSep, []⟩
  | fracOk, prev, invalSep, count, dp, acc, ch :: rest =>
    if ch = '.' ∧ fracOk = true then
      scanLoop base0 b false '.' (invalSep || prev = '_') count (some count) acc rest
    else if ch = '_' ∧ base0 = true then
      scanLoop base0 b fracOk '_' (invalSep || prev ≠ '0') count dp acc rest
    else if digitValue ch ≥ b then
      ⟨acc, count, dp, prev, invalSep, ch :: rest⟩
    else
      scanLoop base0 b fracOk '0' invalSep (count + 1) dp (acc * b + digitValue ch) rest

/-- Result of `nat.scan`: value, actual base, digit count (minus the number of
fraction digits when there is a radix point), error flag, unread input. -/
structure ScanResult where
  res : Nat
  b : Nat
  count : Int
  err : Bool
  rest : List Char
  deriving DecidableEq, Repr

/-- The epilogue of `nat.scan`, after the digit loop. -/
def scanFinish (b : Nat) (octalPrefix : Bool) (st : ScanState) : ScanResult :=
  let sepErr : Bool := st.invalSep || st.prev = '_'
  if st.count = 0 then
    if octalPrefix then ⟨0, 10, 1, sepErr, st.rest⟩
    else ⟨st.res, b, 0, true, st.rest⟩
  else
    match st.dp with
    | some dp => ⟨st.res, b, (dp : Int) - (st.count : Int), sepErr, st.rest⟩
    | none => ⟨st.res, b, (st.count : Int), sepErr, st.rest⟩

/-- The function `nat.scan(r, base, fracOk)` for `base` 0 or an explicit base
in `2..36`. -/
def natScan (s : List Char) (base : Nat) (fracOk : Bool) : ScanResult :=
  if base ≠ 0 then
    scanFinish base false (scanLoop false base fracOk '.' false 0 none 0 s)
  else
    match s with
    | [] => scanFinish 10 false (scanLoop true 10 fracOk '.' false 0 none 0 [])
    | ch :: rest =>
      if ch ≠ '0' then
        scanFinish 10 false (scanLoop true 10 fracOk '.' false 0 none 0 s)
      else
        match rest with
        | [] => scanFinish 10 false (scanLoop true 10 fracOk '0' false 1 none 0 [])
        | c1 :: rest1 =>
          if c1 = 'b' ∨ c1 = 'B' then
            scanFinish 2 false (scanLoop true 2 fracOk '0' false 0 none 0 rest1)
          else if c1 = 'o' ∨ c1 = 'O' then
            scanFinish 8 false (scanLoop true 8 fracOk '0' false 0 none 0 rest1)
          else if c1 = 'x' ∨ c1 = 'X' then
            scanFinish 16 false (scanLoop true 16 fracOk '0' false 0 none 0 rest1)
          else if fracOk then
            scanFinish 10 false (scanLoop true 10 fracOk '0' false 1 none 0 rest)
          else
            scanFinish 8 true (scanLoop true 8 fracOk '0' false 0 none 0 rest)

/-- The function `scanSign`: `none` at end of input, else the sign and the
unread input. -/
def scanSign (s : List Char) : Option (Bool × List Char) :=
  match s with
  | [] => none
  | ch :: rest =>
    if ch = '-' then some (true, rest)
    else if ch = '+' then some (false, rest)
    else some (false, s)

/-- The method `(*big.Int).SetString(s, base)`. -/
def IntSetString (s : List Char) (base : Nat) : Option Int :=
  match scanSign s with
  | none => none
  | some (neg, r) =>
    let m := natScan r base false
    if m.err then none
    else if m.rest ≠ [] then none
    else some (if neg then -(m.res : Int) else (m.res : Int))

/-- The digit loop of `scanExponent`: digits seen, `prev`, `invalSep`,
`hasDigits`, unread input. -/
def scanExpDigits :
    Nat → Char → Bool → Bool → List Char → Nat × Char × Bool × Bool × List Char
  | acc, prev, invalSep, hasDigits, [] => (acc, prev, invalSep, hasDigits, [])
  | acc, prev, invalSep, hasDigits, ch :: rest =>
    if '0'.toNat ≤ ch.toNat ∧ ch.toNat ≤ '9'.toNat then
      scanExpDigits (acc * 10 + (ch.toNat - '0'.toNat)) '0' invalSep true rest
    else if ch = '_' then
      scanExpDigits acc '_' (invalSep || prev ≠ '0') hasDigits rest
    else (acc, prev, invalSep, hasDigits, ch :: rest)

/-- The function `scanExponent(r, true, true)`: `none` on error (no digits, a
misplaced separator, or `strconv.ParseInt` out of the `int64` range), else the
exponent, its base and the unread input. -/
def scanExponent (s : List Char) : Option (Int × Nat × List Char) :=
  match s with
  | [] => some (0, 10, [])
  | ch :: rest =>
    if ch = 'e' ∨ ch = 'E' ∨ ch = 'p' ∨ ch = 'P' then
      let ebase : Nat := if ch = 'e' ∨ ch = 'E' then 10 else 2
      let neg : Bool :=
        match rest with
        | c :: _ => c = '-'
        | [] => false
      let r1 : List Char :=
        match rest with
        | c :: t => if c = '+' ∨ c = '-' then t else rest
        | [] => rest
      match scanExpDigits 0 '.' false false r1 with
      | (n, prev, invalSep, hasDigits, r2) =>
        if !hasDigits then none
        else if invalSep || prev = '_' then none
        else
          let v : Int := if neg then -(n : Int) else (n : Int)
          if v < -9223372036854775808 ∨ 9223372036854775807 < v then none
          else some (v, ebase, r2)
    else some (0, 10, s)

/-- The rational `m * 2^e2 * 5^e5`. -/
def scaleRat (m : Nat) (e2 e5 : Int) : ℚ :=
  (m : ℚ) * (2 : ℚ) ^ e2 * (5 : ℚ) ^ e5

/-- The fraction form `a/b` of `Rat.SetString`: numerator and denominator. -/
def scanFraction (s : List Char) : Option (Int × Nat) :=
  let a := s.takeWhile (fun c => c ≠ '/')
  let bs := (s.dropWhile (fun c => c ≠ '/')).drop 1
  match IntSetString a 0 with
  | none => none
  | some n =>
    let d := natScan bs 0 false
    if d.err then none
    else if d.rest ≠ [] then none
    else if d.res = 0 then none
    else some (n, d.res)

/-- The floating-point form of `Rat.SetString`: sign, mantissa, and the
exponents `exp2` and `exp5` of 2 and of 5 contributed by the radix point and
the exponent, added in `int64`. -/
def scanFloat (s : List Char) : Option (Bool × Nat × Int × Int) :=
  match scanSign s with
  | none => none
  | some (neg, r) =>
    let m := natScan r 0 true
    if m.err then none
    else
      match scanExponent m.rest with
      | none => none
      | some (exp, ebase, r2) =>
        if r2 ≠ [] then none
        else
          let d : Int := if m.count < 0 then m.count else 0
          let f2 : Int :=
            if m.b = 10 ∨ m.b = 2 then d
            else if m.b = 8 then wrap64 (d * 3) else wrap64 (d * 4)
          let f5 : Int := if m.b = 10 then d else 0
          let e5 : Int := if ebase = 10 then wrap64 (f5 + exp) else f5
          let e2 : Int := wrap64 (f2 + exp)
          some (neg, m.res, e2, e5)

/-- The method `(*big.Rat).SetString(s)`.  A zero mantissa gives 0 at once;
otherwise a power of five beyond `10^6` (`n > 1e6`, or `-n` overflowing) and a
power of two beyond `10^7` make it fail. -/
def RatSetString (s : List Char) : Option ℚ :=
  if s = [] then none
  else if s.contains '/' then
    match scanFraction s with
    | none => none
    | some (n, d) => some ((n : ℚ) / (d : ℚ))
  else
    match scanFloat s with
    | none => none
    | some (neg, m, e2, e5) =>
      if m = 0 then some 0
      else
        let n : Int := if e5 < 0 then wrap64 (-e5) else e5
        if e5 ≠ 0 ∧ (n < 0 ∨ 1000000 < n) then none
        else if e2 < -10000000 ∨ 10000000 < e2 then none
        else some (if neg then -(scaleRat m e2 e5) else scaleRat m e2 e5)

/-! ## number_parser.go -/

def ParseDecimal (s : List Char) : Outcome ℚ :=
  let s := TrimSpace s
  if s = [] then Outcome.err (CalcError.ParseError "Empty decimal number" 0)
  else if s.contains 'e' || s.contains 'E' then
    Outcome.err (CalcError.ParseError "Scientific notation not supported" 0)
  else
    match RatSetString s with
    | none => Outcome.err (CalcError.ParseError "Invalid decimal format" 0)
    | some rat => Outcome.ok rat

def ParseHexadecimal (s : List Char) : Outcome ℚ :=
  let s := TrimSpace s
  if s = [] then Outcome.err (CalcError.ParseError "Empty hex number" 0)
  else
    let negative : Bool := s.take 1 = ['-']
    let s := if negative then s.drop 1 else s
    if s.take 2 ≠ ['0', 'x'] ∧ s.take 2 ≠ ['0', 'X'] then
      Outcome.err (CalcError.ParseError "Hex number must start with 0x" 0)
    else
      let hexDigits := s.drop 2
      if hexDigits = [] then
        Outcome.err (CalcError.ParseError "No hex digits after 0x" 2)
      else
        match IntSetString hexDigits 16 with
        | none => Outcome.err (CalcError.ParseError "Invalid hex digits" 2)
        | some bigInt =>
          Outcome.ok (((if negative then -bigInt else bigInt : Int) : ℚ))

/-! ## parser.go -/

/-- The struct `Expression`. -/
structure Expression where
  Original : List Char
  Tokens : List Token
  PostfixTokens : List Token
  Result : Option ℚ

/-- The conversion `rune(token.Value[0])`: the first byte of the value, or
`none` when the value is empty (index out of range). -/
def firstByte (v : List Char) : Option Nat :=
  match v with
  | [] => none
  | c :: _ => some (utf8Lead c)

/-- The inner loop of `InfixToPostfix` popping the operators of precedence at
least `prec`; the head of `operatorStack` is its top.  `none` is a fault. -/
def popOperators (prec : Nat) :
    List Token → List Token → Option (List Token × List Token)
  | output, [] => some (output, [])
  | output, stackTop :: stack =>
    match firstByte stackTop.Value with
    | none => none
    | some r =>
      if (OperatorMap r).Precedence ≥ prec then
        popOperators prec (output ++ [stackTop]) stack
      else some (output, stackTop :: stack)

/-- The main loop of `InfixToPostfix` over the remaining tokens. -/
def infixLoop : List Token → List Token → List Token → Option (List Token × List Token)
  | [], output, operatorStack => some (output, operatorStack)
  | token :: rest, output, operatorStack =>
    match token.Typ with
    | TokenType.NumberToken => infixLoop rest (output ++ [token]) operatorStack
    | TokenType.OperatorToken =>
      match firstByte token.Value with
      | none => none
      | some r =>
        match popOperators (OperatorMap r).Precedence output operatorStack with
        | none => none
        | some (output1, stack1) => infixLoop rest output1 (token :: stack1)
    | TokenType.WhitespaceToken => infixLoop rest output operatorStack

def InfixToPostfix (tokens : List Token) : Outcome (List Token) :=
  match infixLoop tokens [] [] with
  | none => Outcome.fault
  | some (output, operatorStack) => Outcome.ok (output ++ operatorStack)

/-- The alternation loop of `ParseExpression`, from index `i`. -/
def checkAlternation : Nat → List Token → Option CalcError
  | _, [] => none
  | i, token :: rest =>
    if i % 2 = 0 then
      if token.Typ ≠ TokenType.NumberToken then
        some (CalcError.ParseError "Expected number" token.Position)
      else checkAlternation (i + 1) rest
    else
      if token.Typ ≠ TokenType.OperatorToken then
        some (CalcError.ParseError "Expected operator" token.Position)
      else checkAlternation (i + 1) rest

def ParseExpression (tokens : List Token) : Outcome Expression :=
  match tokens.head?, tokens.getLast? with
  | some first, some last =>
    if first.Typ ≠ TokenType.NumberToken then
      Outcome.err (CalcError.ParseError "Expression must start with a number" first.Position)
    else if last.Typ ≠ TokenType.NumberToken then
      Outcome.err (CalcError.ParseError "Expression must end with a number" last.Position)
    else
      match checkAlternation 0 tokens with
      | some e => Outcome.err e
      | none =>
        match InfixToPostfix tokens with
        | Outcome.ok postfixTokens => Outcome.ok ⟨[], tokens, postfixTokens, none⟩
        | Outcome.err e => Outcome.err e
        | Outcome.fault => Outcome.fault
  | _, _ => Outcome.err CalcError.EmptyExpression

/-! ## evaluator.go -/

def performOperation (left right : ℚ) (operator : Nat) (position : Nat) : Outcome ℚ :=
  if operator = '+'.toNat then Outcome.ok (left + right)
  else if operator = '-'.toNat then Outcome.ok (left - right)
  else if operator = 'x'.toNat then Outcome.ok (left * right)
  else if operator = '/'.toNat then
    if right = 0 then Outcome.err (CalcError.DivisionByZero position)
    else Outcome.ok (left / right)
  else
    Outcome.err (CalcError.ParseError
      ("Unknown operator: " ++ String.singleton (Char.ofNat operator)) position)

/-- The number branch of `EvaluatePostfix`: dispatch on the `0x` / `-0x`
prefix of the literal. -/
def parseNumberValue (token : Token) : Outcome ℚ :=
  match (if token.Value.take 2 = ['0', 'x'] then ParseHexadecimal token.Value
         else if token.Value.take 3 = ['-', '0', 'x'] then ParseHexadecimal token.Value
         else ParseDecimal token.Value) with
  | Outcome.ok num => Outcome.ok num
  | _ => Outcome.err (CalcError.ParseError
      ("Invalid number format: " ++ String.mk token.Value) token.Position)

/-- The body of the loop of `EvaluatePostfix` for one token; the head of
`stack` is its top. -/
def evalStep (token : Token) (stack : List ℚ) : Outcome (List ℚ) :=
  match token.Typ with
  | TokenType.NumberToken =>
    match parseNumberValue token with
    | Outcome.ok num => Outcome.ok (num :: stack)
    | Outcome.err e => Outcome.err e
    | Outcome.fault => Outcome.fault
  | TokenType.OperatorToken =>
    match stack with
    | right :: left :: stack1 =>
      match firstByte token.Value with
      | none => Outcome.fault
      | some r =>
        match performOperation left right r token.Position with
        | Outcome.ok result => Outcome.ok (result :: stack1)
        | Outcome.err e => Outcome.err e
        | Outcome.fault => Outcome.fault
    | _ => Outcome.err (CalcError.ParseError "Insufficient operands for operator"
        token.Position)
  | TokenType.WhitespaceToken => Outcome.ok stack

/-- The loop of `EvaluatePostfix`. -/
def evalLoop : List Token → List ℚ → Outcome (List ℚ)
  | [], stack => Outcome.ok stack
  | token :: rest, stack =>
    match evalStep token stack with
    | Outcome.ok stack1 => evalLoop rest stack1
    | Outcome.err e => Outcome.err e
    | Outcome.fault => Outcome.fault

def EvaluatePostfix (tokens : List Token) : Outcome ℚ :=
  match evalLoop tokens [] with
  | Outcome.ok [v] => Outcome.ok v
  | Outcome.ok _ => Outcome.err (CalcError.ParseError "Invalid expression structure" 0)
  | Outcome.err e => Outcome.err e
  | Outcome.fault => Outcome.fault

/-! ## calculator.go -/

/-- The function `Calculate`; `none` would mean the loop of `Tokenize` did not
finish. -/
def Calculate (expression : List Char) : Option (Outcome ℚ) :=
  let expression := TrimSpace expression
  if expression = [] then some (Outcome.err CalcError.EmptyExpression)
  else
    match Tokenize expression with
    | none => none
    | some (Outcome.err e) => some (Outcome.err e)
    | some Outcome.fault => some Outcome.fault
    | some (Outcome.ok tokens) =>
      match ParseExpression tokens with
      | Outcome.err e => some (Outcome.err e)
      | Outcome.fault => some Outcome.fault
      | Outcome.ok expr => some (EvaluatePostfix expr.PostfixTokens)

/-! ## Structural parser: shape of accepted sequences -/

/-- Strict alternation Number, Operator, …, Number: odd length, a Number at
every even index and an Operator at every odd index. -/
def WellShaped (tokens : List Token) : Prop :=
  tokens.length % 2 = 1 ∧
  ∀ (i : Nat) (t : Token), tokens[i]? = some t →
    (i % 2 = 0 → t.Typ = TokenType.NumberToken) ∧
    (i % 2 = 1 → t.Typ = TokenType.OperatorToken)

/-! ## Tokenizer: auxiliary predicates -/

/-- The text is empty or consists only of whitespace. -/
def Blank (s : List Char) : Prop :=
  ∀ c ∈ s, unicodeIsSpace c = true

/-- Length in bytes of the UTF-8 encoding of a text. -/
def utf8Length (s : List Char) : Nat :=
  (s.map utf8Width).sum

/-- The next characters are a digit, a `.`, or a `0x`/`0X` prefix. -/
def followedByNumberStart (rest : List Char) : Bool :=
  match rest with
  | [] => false
  | next :: _ => isDigit next || next = '.' || hasHexPrefix rest

/-! ## Number parsers: reference values -/

/-- Value of a decimal or hexadecimal digit, upper and lower case alike. -/
def hexDigitValue (c : Char) : Nat :=
  if '0'.toNat ≤ c.toNat ∧ c.toNat ≤ '9'.toNat then c.toNat - '0'.toNat
  else if 'a'.toNat ≤ c.toNat ∧ c.toNat ≤ 'f'.toNat then c.toNat - 'a'.toNat + 10
  else c.toNat - 'A'.toNat + 10

/-- The number written by the digits `ds` in base `b`, most significant first. -/
def positional (b : Nat) (ds : List Char) : Nat :=
  ds.foldl (fun acc c => acc * b + hexDigitValue c) 0

/-! ## Reference infix evaluation -/

/-- One operator/operand pair of the reference infix evaluation.  The state is
the total `sum` of the finished terms, the sign `neg` of the additive operator
in front of the current term, and the value `term` of the current term: `x` and
`/` extend the current term at once (they bind tighter, left to right), `+` and
`-` close it into the total (left to right) and open a new term. -/
def infixStep (sum : ℚ) (neg : Bool) (term : ℚ) (r : Nat) (v : ℚ) : Option (ℚ × Bool × ℚ) :=
  if r = '+'.toNat then some (if neg then sum - term else sum + term, false, v)
  else if r = '-'.toNat then some (if neg then sum - term else sum + term, true, v)
  else if r = 'x'.toNat then some (sum, neg, term * v)
  else if r = '/'.toNat then (if v = 0 then none else some (sum, neg, term / v))
  else none

/-- Reference infix evaluation of the operator/operand pairs `o1 n1 … ok nk`
from the state `(sum, neg, term)`; `none` when a literal does not parse, an
operator symbol is not one of `+ - x /`, or a division by zero occurs. -/
def infixGo : ℚ × Bool × ℚ → List Token → Option ℚ
  | (sum, neg, term), [] => some (if neg then sum - term else sum + term)
  | _, [_] => none
  | (sum, neg, term), o :: n :: rest =>
    match firstByte o.Value, parseNumberValue n with
    | some r, Outcome.ok v =>
      match infixStep sum neg term r v with
      | some st => infixGo st rest
      | none => none
    | _, _ => none

/-- Reference infix value of `n0 o1 n1 … ok nk`: `x` and `/` bind tighter than
`+` and `-`, operators of equal precedence apply left to right. -/
def infixValue : List Token → Option ℚ
  | [] => none
  | n0 :: rest =>
    match parseNumberValue n0 with
    | Outcome.ok v => infixGo (0, false, v) rest
    | _ => none

/-- The tail `o1 n1 … ok nk` of a well-shaped sequence: Operator and Number
tokens in pairs. -/
inductive AltTail : List Token → Prop where
  | nil : AltTail []
  | cons (o n : Token) (rest : List Token) :
      o.Typ = TokenType.OperatorToken → n.Typ = TokenType.NumberToken →
      AltTail rest → AltTail (o :: n :: rest)

/-- The additive operators left on the operator stack: they stay for an
incoming `x` or `/`, are popped by an incoming `+` or `-`, and applied to a
term value `y` above the values `B` they give the new total. -/
def AddOps (addops : List Token) (B : List ℚ) (sum : ℚ) (neg : Bool) : Prop :=
  (∀ x, popOperators 2 x addops = some (x, addops)) ∧
  (∀ x, popOperators 1 x addops = some (x ++ addops, [])) ∧
  (∀ y, evalLoop addops (y :: B) = Outcome.ok [if neg then sum - y else sum + y])

/-- Invariant of the loop of `InfixToPostfix` against the reference state:
popping the multiplicative operators leaves an output that evaluates to the
current term above `B`, and the remaining operators are additive. -/
def ShuntInv (output opStack : List Token) (sum : ℚ) (neg : Bool) (term : ℚ) : Prop :=
  ∃ out2 addops B, popOperators 2 output opStack = some (out2, addops) ∧
    evalLoop out2 [] = Outcome.ok (term :: B) ∧ AddOps addops B sum neg

/-! ## Tokenizer: layout of the tokens in the input -/

/-- The code points of `s` from `t.Position` on spell the token text. -/
def Spelled (s : List Char) (t : Token) : Prop :=
  (s.drop t.Position).take t.Value.length = t.Value

/-- Token `a` lies wholly before token `b`. -/
def Before (a b : Token) : Prop :=
  a.Position < b.Position ∧ a.Position + a.Value.length ≤ b.Position

/-! ## Letters -/

/-- An ASCII letter `a`-`z` or `A`-`Z`. -/
def isAsciiLetter (c : Char) : Bool :=
  ('a'.toNat ≤ c.toNat && c.toNat ≤ 'z'.toNat) || ('A'.toNat ≤ c.toNat && c.toNat ≤ 'Z'.toNat)

/-! ## The decimal literal grammar -/

/-- The unsigned part of the decimal grammar, `\d+(\.\d*)?|\.\d+`. -/
def matchesDecimalBody (b : List Char) : Bool :=
  match b.dropWhile isDigit with
  | [] => !(b.takeWhile isDigit).isEmpty
  | c :: r => c = '.' && r.all isDigit && (!(b.takeWhile isDigit).isEmpty || !r.isEmpty)

/-- The decimal literal grammar `-?(\d+(\.\d*)?|\.\d+)`. -/
def matchesDecimal (s : List Char) : Bool :=
  match s with
  | [] => false
  | c :: t => if c = '-' then matchesDecimalBody t else matchesDecimalBody s

/-- The fraction digits of a decimal text: what follows its first `.`. -/
def fractionDigits (t : List Char) : List Char :=
  (t.dropWhile (fun c => c ≠ '.')).drop 1

/-- A character `Rat.SetString` can read in some text: an ASCII letter or digit
or one of `.` `_` `+` `-` `/`. -/
def readableBySetString (c : Char) : Bool :=
  isAsciiLetter c || isDigit c || c = '.' || c = '_' || c = '+' || c = '-' || c = '/'

/-! ## Structural parser: the offending token -/

/-- The token at index `i` is not of the kind a Number/Operator alternation
has there: a Number at even indices, an Operator at odd ones. -/
def BreaksAlternation (i : Nat) (t : Token) : Prop :=
  (i % 2 = 0 ∧ t.Typ ≠ TokenType.NumberToken) ∨
  (i % 2 = 1 ∧ t.Typ ≠ TokenType.OperatorToken)

/-- The messages of the structural checks of `ParseExpression`. -/
def structuralMessages : List String :=
  ["Expression must start with a number", "Expression must end with a number",
   "Expected number", "Expected operator"]

/-! ## Postfix sequences: stack depth -/

/-- Outcome of following the stack depth through a postfix sequence: the
Position of the first operator reached with fewer than two values, or the depth
after the last token. -/
inductive Depth where
  | underflow (position : Nat) : Depth
  | depth (n : Nat) : Depth
  deriving DecidableEq, Repr

/-- Stack depth through a postfix sequence from depth `d`: a Number pushes one
value, an Operator needs two values and leaves one. -/
def postfixDepth : List Token → Nat → Depth
  | [], d => Depth.depth d
  | t :: rest, d =>
    match t.Typ with
    | TokenType.NumberToken => postfixDepth rest (d + 1)
    | TokenType.OperatorToken =>
      if d < 2 then Depth.underflow t.Position else postfixDepth rest (d - 1)
    | TokenType.WhitespaceToken => postfixDepth rest d

/-! ## Tokenizer: form of the token texts -/

/-- The text of a literal after its optional leading `-`. -/
def unsignedText (v : List Char) : List Char :=
  match v with
  | c :: t => if c = '-' then t else v
  | [] => []

/-- A `0x`/`0X` prefix followed by hex digits only, possibly none. -/
def isHexText (b : List Char) : Bool :=
  hasHexPrefix b && (b.drop 2).all isHexDigit

/-- A run of digits optionally followed by `.` and more digits, either run
possibly empty. -/
def isDecimalText (b : List Char) : Bool :=
  match b.dropWhile isDigit with
  | [] => true
  | c :: t => c = '.' && t.all isDigit

/-- The form of a number text in the spec's words: an optional leading `-`,
then either a `0x`/`0X` prefix followed by one or more hex digits, or a run of
digits optionally followed by `.` and more digits (read generously: either run
may be empty). -/
def specNumberText (v : List Char) : Bool :=
  (isHexText (unsignedText v) && decide (2 < (unsignedText v).length)) ||
  isDecimalText (unsignedText v)

/-- The form of the number texts the tokenizer emits: an optional leading `-`,
then a non-empty text that is either a `0x`/`0X` prefix followed by hex digits,
possibly none, or a run of digits optionally followed by `.` and more digits,
either run possibly empty. -/
def emittedNumberText (v : List Char) : Bool :=
  !(unsignedText v).isEmpty &&
  (isHexText (unsignedText v) || isDecimalText (unsignedText v))

/-! ## Reference postfix order -/

/-- Precedence of an Operator token, looked up by the first byte of its
Value. -/
def tokenPrecedence (o : Token) : Nat :=
  match firstByte o.Value with
  | some r => (OperatorMap r).Precedence
  | none => 0

/-- Reference postfix order of the pairs `o1 n1 … ok nk` that follow a first
operand: an operator of precedence 2 stands right after its right operand; an
operator of precedence 1 waits (`pending`) until the next operator of
precedence 1, or the end, and then stands before that operator's operand. -/
def postfixGo : Option Token → List Token → List Token
  | pending, o :: n :: rest =>
    if tokenPrecedence o = 2 then n :: o :: postfixGo pending rest
    else pending.toList ++ n :: postfixGo (some o) rest
  | pending, _ => pending.toList

/-- One of the two errors of `EvaluatePostfix` about the shape of the postfix
sequence. -/
def StackError (e : CalcError) : Prop :=
  ∃ p, e = CalcError.ParseError "Insufficient operands for operator" p ∨
    e = CalcError.ParseError "Invalid expression structure" p

/-! ## Division by a zero literal in the infix sequence -/

/-- The token is a `/` Operator token. -/
def isDivision (o : Token) : Bool :=
  decide (o.Typ = TokenType.OperatorToken) && decide (firstByte o.Value = some '/'.toNat)

/-- The token is a Number token whose literal has the value zero. -/
def isZeroLiteral (n : Token) : Bool :=
  decide (n.Typ = TokenType.NumberToken) && decide (parseNumberValue n = Outcome.ok 0)

/-- Position of the leftmost `/` token that is immediately followed by a zero
literal, if there is one. -/
def firstZeroDivision : List Token → Option Nat
  | [] => none
  | o :: tl =>
    match tl with
    | [] => none
    | n :: _ =>
      if isDivision o && isZeroLiteral n then some o.Position else firstZeroDivision tl

/-! ## Tokenizer: whitespace at the token boundaries -/

/-- A token text of an input together with the whitespace that follows it in
the input (`gap`) and in the padded input (`padded`). -/
structure Segment where
  text : List Char
  gap : List Char
  padded : List Char

/-- The input spelled by the segments: every token text followed by its gap. -/
def originalText : List Segment → List Char
  | [] => []
  | g :: rest => g.text ++ (g.gap ++ originalText rest)

/-- The padded input: every token text followed by its padded gap. -/
def paddedText : List Segment → List Char
  | [] => []
  | g :: rest => g.text ++ (g.padded ++ paddedText rest)

/-- Kind and Value of a token, without its Position. -/
def kindValue (t : Token) : TokenType × List Char :=
  (t.Typ, t.Value)

/-- The loop of `Tokenize` started on the unread text `rest` at index `i` with
the tokens `tokens` ends with the tokens `ts`. -/
def Runs (rest : List Char) (i : Nat) (tokens ts : List Token) : Prop :=
  ∃ fuel, tokenizeLoop fuel rest i tokens = some (Outcome.ok ts)

/-- The first character of `y2`, if any, is whitespace or the first character
of `y`. -/
def HeadCompat (y y2 : List Char) : Prop :=
  ∀ c, y2.head? = some c → unicodeIsSpace c = true ∨ y.head? = some c

/-! # Theorems -/

/-! ## Structural parser -/

theorem popOperators_total (prec : Nat) (stack : List Token) :
    ∀ output : List Token, (∀ t ∈ stack, t.Value ≠ []) →
      ∃ out st, popOperators prec output stack = some (out, st) ∧
        (∀ t ∈ st, t.Value ≠ []) := by
  induction stack with
  | nil => intro output _; exact ⟨output, [], rfl, by simp⟩
  | cons top stack ih =>
    intro output h
    have htop : top.Value ≠ [] := h top (by simp)
    have hrest : ∀ t ∈ stack, t.Value ≠ [] := fun t ht => h t (by simp [ht])
    obtain ⟨c, cs, hc⟩ : ∃ c cs, top.Value = c :: cs := by
      cases hv : top.Value with
      | nil => exact absurd hv htop
      | cons c cs => exact ⟨c, cs, rfl⟩
    unfold popOperators
    simp only [hc, firstByte]
    by_cases hp : (OperatorMap (utf8Lead c)).Precedence ≥ prec
    · simp only [hp, if_true]
      exact ih _ hrest
    · simp only [hp, if_false]
      exact ⟨output, top :: stack, rfl, h⟩

theorem infixLoop_total (tokens : List Token) :
    ∀ output stack : List Token,
      (∀ t ∈ tokens, t.Typ = TokenType.OperatorToken → t.Value ≠ []) →
      (∀ t ∈ stack, t.Value ≠ []) →
      ∃ r, infixLoop tokens output stack = some r := by
  induction tokens with
  | nil => intro output stack _ _; exact ⟨_, rfl⟩
  | cons token rest ih =>
    intro output stack h hs
    have hrest : ∀ t ∈ rest, t.Typ = TokenType.OperatorToken → t.Value ≠ [] :=
      fun t ht => h t (by simp [ht])
    unfold infixLoop
    cases hty : token.Typ with
    | NumberToken => simpa using ih _ _ hrest hs
    | WhitespaceToken => simpa using ih _ _ hrest hs
    | OperatorToken =>
      have hv : token.Value ≠ [] := h token (by simp) hty
      obtain ⟨c, cs, hc⟩ : ∃ c cs, token.Value = c :: cs := by
        cases hv2 : token.Value with
        | nil => exact absurd hv2 hv
        | cons c cs => exact ⟨c, cs, rfl⟩
      obtain ⟨out, st, hpop, hst⟩ :=
        popOperators_total (OperatorMap (utf8Lead c)).Precedence stack output hs
      simp only [hc, firstByte, hpop]
      apply ih _ _ hrest
      intro t ht
      rcases List.mem_cons.1 ht with rfl | ht
      · exact hv
      · exact hst t ht

theorem InfixToPostfix_ok (tokens : List Token)
    (h : ∀ t ∈ tokens, t.Typ = TokenType.OperatorToken → t.Value ≠ []) :
    ∃ ts, InfixToPostfix tokens = Outcome.ok ts := by
  obtain ⟨⟨out, st⟩, hr⟩ := infixLoop_total tokens [] [] h (by simp)
  exact ⟨out ++ st, by simp [InfixToPostfix, hr]⟩

theorem checkAlternation_none (tokens : List Token) :
    ∀ k : Nat, checkAlternation k tokens = none ↔
      ∀ (i : Nat) (t : Token), tokens[i]? = some t →
        ((k + i) % 2 = 0 → t.Typ = TokenType.NumberToken) ∧
        ((k + i) % 2 = 1 → t.Typ = TokenType.OperatorToken) := by
  induction tokens with
  | nil => intro k; simp [checkAlternation]
  | cons token rest ih =>
    intro k
    unfold checkAlternation
    constructor
    · intro h i t hi
      by_cases hk : k % 2 = 0
      · simp only [hk, if_true] at h
        by_cases hn : token.Typ = TokenType.NumberToken
        · simp only [hn, ne_eq, not_true_eq_false, if_false] at h
          cases i with
          | zero =>
            simp at hi; subst hi
            exact ⟨fun _ => hn, fun h1 => by simp at h1; omega⟩
          | succ j =>
            have := (ih (k + 1)).1 h j t (by simpa using hi)
            rw [show k + (j + 1) = k + 1 + j by omega]; exact this
        · simp [hn] at h
      · simp only [hk, if_false] at h
        by_cases hn : token.Typ = TokenType.OperatorToken
        · simp only [hn, ne_eq, not_true_eq_false, if_false] at h
          cases i with
          | zero =>
            simp at hi; subst hi
            exact ⟨fun h1 => by simp at h1; omega, fun _ => hn⟩
          | succ j =>
            have := (ih (k + 1)).1 h j t (by simpa using hi)
            rw [show k + (j + 1) = k + 1 + j by omega]; exact this
        · simp [hn] at h
    · intro h
      have h0 := h 0 token (by simp)
      have hr : checkAlternation (k + 1) rest = none := by
        apply (ih (k + 1)).2
        intro i t hi
        have := h (i + 1) t (by simpa using hi)
        rw [show k + 1 + i = k + (i + 1) by omega]; exact this
      by_cases hk : k % 2 = 0
      · have hn := h0.1 (by simpa using hk)
        simp [hk, hn, hr]
      · have hn := h0.2 (by simp; omega)
        simp [hk, hn, hr]

theorem checkAlternation_err (tokens : List Token) :
    ∀ (k : Nat) (e : CalcError), checkAlternation k tokens = some e →
      ∃ m p, e = CalcError.ParseError m p := by
  induction tokens with
  | nil => intro k e h; simp [checkAlternation] at h
  | cons token rest ih =>
    intro k e h
    unfold checkAlternation at h
    split at h
    · split at h
      · exact ⟨_, _, (Option.some.inj h).symm⟩
      · exact ih _ _ h
    · split at h
      · exact ⟨_, _, (Option.some.inj h).symm⟩
      · exact ih _ _ h

/-- `ParseExpression` succeeds exactly on the well-shaped sequences (given
that no fault occurs), and then returns the postfix form of its argument. -/
theorem ParseExpression_ok_iff (tokens : List Token)
    (h : ∀ t ∈ tokens, t.Typ = TokenType.OperatorToken → t.Value ≠ []) :
    (∃ e, ParseExpression tokens = Outcome.ok e) ↔ WellShaped tokens := by
  obtain ⟨ts, hts⟩ := InfixToPostfix_ok tokens h
  cases tokens with
  | nil => simp [ParseExpression, WellShaped]
  | cons first rest =>
    have hlast : ∃ last, (first :: rest).getLast? = some last ∧
        (first :: rest)[rest.length]? = some last := by
      refine ⟨(first :: rest).getLast (by simp), ?_, ?_⟩
      · exact List.getLast?_eq_getLast _ _
      · rw [List.getLast_eq_getElem]
        simp
    obtain ⟨last, hl1, hl2⟩ := hlast
    simp only [ParseExpression, List.head?_cons, hl1]
    constructor
    · rintro ⟨e, he⟩
      by_cases h1 : first.Typ = TokenType.NumberToken
      · by_cases h2 : last.Typ = TokenType.NumberToken
        · simp only [h1, h2, ne_eq, not_true_eq_false, if_false] at he
          cases hc : checkAlternation 0 (first :: rest) with
          | some e2 => simp [hc] at he
          | none =>
            have halt := (checkAlternation_none _ 0).1 hc
            refine ⟨?_, fun i t hi => by simpa using halt i t hi⟩
            have := halt rest.length last hl2
            simp only [List.length_cons]
            by_contra hodd
            have h3 := this.2 (by omega)
            rw [h2] at h3; cases h3
        · simp [h1, h2] at he
      · simp [h1] at he
    · rintro ⟨hlen, halt⟩
      have h1 : first.Typ = TokenType.NumberToken := (halt 0 first (by simp)).1 (by simp)
      have h2 : last.Typ = TokenType.NumberToken :=
        (halt rest.length last hl2).1 (by simp only [List.length_cons] at hlen; omega)
      have hc : checkAlternation 0 (first :: rest) = none :=
        (checkAlternation_none _ 0).2 (fun i t hi => by simpa using halt i t hi)
      simp [h1, h2, hc, hts]

theorem ParseExpression_cases (tokens : List Token) (hne : tokens ≠ [])
    (h : ∀ t ∈ tokens, t.Typ = TokenType.OperatorToken → t.Value ≠ []) :
    (∃ e, ParseExpression tokens = Outcome.ok e) ∨
    (∃ m p, ParseExpression tokens = Outcome.err (CalcError.ParseError m p)) := by
  obtain ⟨ts, hts⟩ := InfixToPostfix_ok tokens h
  cases tokens with
  | nil => exact absurd rfl hne
  | cons first rest =>
    obtain ⟨last, hl1⟩ : ∃ last, (first :: rest).getLast? = some last :=
      ⟨_, List.getLast?_eq_getLast _ (by simp)⟩
    simp only [ParseExpression, List.head?_cons, hl1]
    by_cases h1 : first.Typ = TokenType.NumberToken
    · by_cases h2 : last.Typ = TokenType.NumberToken
      · cases hc : checkAlternation 0 (first :: rest) with
        | some e2 =>
          obtain ⟨m, p, rfl⟩ := checkAlternation_err _ _ _ hc
          right; exact ⟨m, p, by simp [h1, h2]⟩
        | none => left; simp [h1, h2, hts]
      · right
        exact ⟨"Expression must end with a number", last.Position, by simp [h1, h2]⟩
    · right
      exact ⟨"Expression must start with a number", first.Position, by simp [h1]⟩

/-- C7: for token sequences whose Operator tokens have a non-empty Value,
`ParseExpression` fails with EmptyExpression iff the sequence is empty, succeeds
iff the sequence strictly alternates Number, Operator, …, Number (odd length),
and fails with a ParseError in every remaining case. -/
theorem C7_ParseExpression_shape (tokens : List Token)
    (h : ∀ t ∈ tokens, t.Typ = TokenType.OperatorToken → t.Value ≠ []) :
    (ParseExpression tokens = Outcome.err CalcError.EmptyExpression ↔ tokens = []) ∧
    ((∃ e, ParseExpression tokens = Outcome.ok e) ↔ WellShaped tokens) ∧
    (tokens ≠ [] → ¬ WellShaped tokens →
      ∃ m p, ParseExpression tokens = Outcome.err (CalcError.ParseError m p)) := by
  refine ⟨?_, ParseExpression_ok_iff tokens h, ?_⟩
  · constructor
    · intro he
      by_contra hne
      rcases ParseExpression_cases tokens hne h with ⟨e, h1⟩ | ⟨m, p, h1⟩
      · rw [h1] at he; cases he
      · rw [h1] at he; cases he
    · rintro rfl; rfl
  · intro hne hns
    rcases ParseExpression_cases tokens hne h with ⟨e, h1⟩ | h1
    · exact absurd ((ParseExpression_ok_iff tokens h).1 ⟨e, h1⟩) hns
    · exact h1

/-- C7 at the tokens of `5 +` (a trailing operator): a ParseError. -/
theorem C7_ParseExpression_shape_witness :
    (∀ t ∈ [(⟨TokenType.NumberToken, ['5'], 0⟩ : Token),
        ⟨TokenType.OperatorToken, ['+'], 2⟩],
      t.Typ = TokenType.OperatorToken → t.Value ≠ []) ∧
    ((ParseExpression [(⟨TokenType.NumberToken, ['5'], 0⟩ : Token),
        ⟨TokenType.OperatorToken, ['+'], 2⟩] =
        Outcome.err CalcError.EmptyExpression ↔
      [(⟨TokenType.NumberToken, ['5'], 0⟩ : Token),
        ⟨TokenType.OperatorToken, ['+'], 2⟩] = []) ∧
    ((∃ e, ParseExpression [(⟨TokenType.NumberToken, ['5'], 0⟩ : Token),
        ⟨TokenType.OperatorToken, ['+'], 2⟩] = Outcome.ok e) ↔
      WellShaped [(⟨TokenType.NumberToken, ['5'], 0⟩ : Token),
        ⟨TokenType.OperatorToken, ['+'], 2⟩]) ∧
    ([(⟨TokenType.NumberToken, ['5'], 0⟩ : Token),
        ⟨TokenType.OperatorToken, ['+'], 2⟩] ≠ [] →
      ¬ WellShaped [(⟨TokenType.NumberToken, ['5'], 0⟩ : Token),
        ⟨TokenType.OperatorToken, ['+'], 2⟩] →
      ∃ m p, ParseExpression [(⟨TokenType.NumberToken, ['5'], 0⟩ : Token),
        ⟨TokenType.OperatorToken, ['+'], 2⟩] =
        Outcome.err (CalcError.ParseError m p))) :=
  ⟨by decide, C7_ParseExpression_shape _ (by decide)⟩

/-! ## Tokenizer -/

theorem TrimSpace_eq_nil_iff (s : List Char) : TrimSpace s = [] ↔ Blank s := by
  unfold TrimSpace Blank
  rw [List.reverse_eq_nil_iff, List.dropWhile_eq_nil_iff]
  constructor
  · intro h
    have h2 : s.dropWhile unicodeIsSpace = [] := by
      cases hd : s.dropWhile unicodeIsSpace with
      | nil => rfl
      | cons a l =>
        have h3 := List.head_dropWhile_not unicodeIsSpace s (by simp [hd])
        simp only [hd, List.head_cons] at h3
        have h4 := h a (by simp [hd])
        rw [h4] at h3; cases h3
    exact List.dropWhile_eq_nil_iff.1 h2
  · intro h
    have h2 : s.dropWhile unicodeIsSpace = [] := List.dropWhile_eq_nil_iff.2 h
    simp [h2]

theorem TrimSpace_not_blank (s : List Char) (h : TrimSpace s ≠ []) :
    ¬ Blank (TrimSpace s) := by
  intro hb
  unfold TrimSpace at h hb
  have hne : (s.dropWhile unicodeIsSpace).reverse.dropWhile unicodeIsSpace ≠ [] := by
    intro h0; exact h (by rw [h0]; rfl)
  have h3 := List.head_dropWhile_not unicodeIsSpace _ hne
  have h4 := hb _ (List.mem_reverse.2 (List.head_mem hne))
  rw [h4] at h3; cases h3

theorem parseNumberBody_append (r1 : List Char) :
    (parseNumberBody r1).1 ++ (parseNumberBody r1).2 = r1 := by
  unfold parseNumberBody
  by_cases hh : hasHexPrefix r1 = true
  · simp [hh, List.append_assoc]
  · simp only [hh, Bool.false_eq_true, if_false]
    have := List.takeWhile_append_dropWhile isDigit r1
    cases hd : r1.dropWhile isDigit with
    | nil =>
      rw [hd] at this
      simpa using this
    | cons c t =>
      rw [hd] at this
      by_cases hc : c = '.'
      · simp only [hc, if_true, List.append_assoc, List.cons_append,
          List.takeWhile_append_dropWhile]
        rw [← hc]; exact this
      · simp only [hc, Bool.false_eq_true, if_false]; exact this

theorem parseNumberToken_append (rest : List Char) :
    (parseNumberToken rest).1 ++ (parseNumberToken rest).2 = rest := by
  unfold parseNumberToken
  cases rest with
  | nil => exact parseNumberBody_append []
  | cons c t =>
    by_cases hc : c = '-'
    · simp only [hc, if_true, List.cons_append, parseNumberBody_append]
    · simp only [hc, Bool.false_eq_true, if_false]; exact parseNumberBody_append _

theorem hasHexPrefix_head (ch : Char) (rest1 : List Char)
    (h : hasHexPrefix (ch :: rest1) = true) : ch = '0' := by
  cases rest1 with
  | nil => simp [hasHexPrefix] at h
  | cons c1 t =>
    simp only [hasHexPrefix, Bool.and_eq_true, decide_eq_true_eq] at h
    exact h.1

theorem parseNumberToken_ne_nil (rest : List Char) (tokens : List Token)
    (h : startsNumber rest tokens = true) : (parseNumberToken rest).1 ≠ [] := by
  cases rest with
  | nil => simp [startsNumber] at h
  | cons ch rest1 =>
    unfold parseNumberToken
    by_cases hc : ch = '-'
    · simp [hc]
    · simp only [hc, Bool.false_eq_true, if_false]
      have hd : isDigit ch = true ∨ ch = '.' := by
        simp only [startsNumber, hc, decide_False, Bool.false_and, Bool.or_false,
          Bool.or_eq_true, decide_eq_true_eq] at h
        rcases h with (h | h) | h
        · exact Or.inl h
        · exact Or.inr h
        · left; rw [hasHexPrefix_head _ _ h]; decide
      unfold parseNumberBody
      by_cases hh : hasHexPrefix (ch :: rest1) = true
      · simp [hh]
      · simp only [hh, Bool.false_eq_true, if_false]
        rcases hd with hd | hd
        · have h1 : (ch :: rest1).takeWhile isDigit ≠ [] := by
            simp [List.takeWhile, hd]
          split
          · split
            · intro h2; exact h1 (List.append_eq_nil.1 h2).1
            · exact h1
          · exact h1
        · subst hd
          have h1 : isDigit '.' = false := by decide
          simp [List.dropWhile, List.takeWhile, h1]

theorem parseNumberToken_length_lt (rest : List Char) (tokens : List Token)
    (h : startsNumber rest tokens = true) :
    (parseNumberToken rest).2.length < rest.length := by
  have h1 := congrArg List.length (parseNumberToken_append rest)
  have h2 := parseNumberToken_ne_nil rest tokens h
  have h3 : 0 < (parseNumberToken rest).1.length := List.length_pos.2 h2
  rw [List.length_append] at h1
  omega

/-- The loop of `Tokenize` finishes within `len(runes) + 1` iterations. -/
theorem tokenizeLoop_total (fuel : Nat) :
    ∀ (rest : List Char) (i : Nat) (tokens : List Token), rest.length < fuel →
      ∃ r, tokenizeLoop fuel rest i tokens = some r := by
  induction fuel with
  | zero => intro rest i tokens h; omega
  | succ fuel ih =>
    intro rest i tokens h
    cases rest with
    | nil => exact ⟨_, rfl⟩
    | cons ch rest1 =>
      unfold tokenizeLoop
      simp only [List.length_cons] at h
      by_cases hs : unicodeIsSpace ch = true
      · simp only [hs, if_true]; exact ih _ _ _ (by omega)
      · simp only [hs, Bool.false_eq_true, if_false]
        by_cases hn : startsNumber (ch :: rest1) tokens = true
        · simp only [hn, if_true]
          have := parseNumberToken_length_lt _ _ hn
          simp only [List.length_cons] at this
          exact ih _ _ _ (by omega)
        · simp only [hn, Bool.false_eq_true, if_false]
          by_cases ho : isOperator ch = true
          · simp only [ho, if_true]; exact ih _ _ _ (by omega)
          · simp only [ho, Bool.false_eq_true, if_false]; exact ⟨_, rfl⟩

/-- The loop of `Tokenize` fails only with InvalidCharacter, never faults, and
on success returns at least the tokens it started with, and one more when
unread non-blank text remained. -/
theorem tokenizeLoop_result (fuel : Nat) :
    ∀ (rest : List Char) (i : Nat) (tokens : List Token) (r : Outcome (List Token)),
      tokenizeLoop fuel rest i tokens = some r →
      (∃ c p, r = Outcome.err (CalcError.InvalidCharacter c p)) ∨
      (∃ ts, r = Outcome.ok ts ∧ tokens.length ≤ ts.length ∧
        (¬ Blank rest → tokens.length < ts.length)) := by
  induction fuel with
  | zero => intro rest i tokens r h; simp [tokenizeLoop] at h
  | succ fuel ih =>
    intro rest i tokens r h
    cases rest with
    | nil =>
      simp only [tokenizeLoop, Option.some.injEq] at h
      right; exact ⟨tokens, h.symm, le_refl _, fun hb => absurd (by simp [Blank]) hb⟩
    | cons ch rest1 =>
      unfold tokenizeLoop at h
      by_cases hs : unicodeIsSpace ch = true
      · simp only [hs, if_true] at h
        rcases ih _ _ _ _ h with h1 | ⟨ts, h1, h2, h3⟩
        · exact Or.inl h1
        · right
          refine ⟨ts, h1, h2, fun hb => h3 (fun hb1 => hb ?_)⟩
          intro c hc
          rcases List.mem_cons.1 hc with rfl | hc
          · exact hs
          · exact hb1 c hc
      · simp only [hs, Bool.false_eq_true, if_false] at h
        by_cases hn : startsNumber (ch :: rest1) tokens = true
        · simp only [hn, if_true] at h
          rcases ih _ _ _ _ h with h1 | ⟨ts, h1, h2, _⟩
          · exact Or.inl h1
          · right
            simp only [List.length_append, List.length_singleton] at h2
            exact ⟨ts, h1, by omega, fun _ => by omega⟩
        · simp only [hn, Bool.false_eq_true, if_false] at h
          by_cases ho : isOperator ch = true
          · simp only [ho, if_true] at h
            rcases ih _ _ _ _ h with h1 | ⟨ts, h1, h2, _⟩
            · exact Or.inl h1
            · right
              simp only [List.length_append, List.length_singleton] at h2
              exact ⟨ts, h1, by omega, fun _ => by omega⟩
          · simp only [ho, Bool.false_eq_true, if_false, Option.some.injEq] at h
            left; exact ⟨ch, i, h.symm⟩

theorem Tokenize_empty_iff (s : List Char) :
    Tokenize s = some (Outcome.err CalcError.EmptyExpression) ↔ Blank s := by
  rw [← TrimSpace_eq_nil_iff]
  unfold Tokenize
  by_cases h : TrimSpace s = []
  · simp [h]
  · simp only [h, if_false, iff_false]
    split
    · intro h1; cases h1
    · intro h1
      rcases tokenizeLoop_result _ _ _ _ _ h1 with ⟨c, p, h2⟩ | ⟨ts, h2, _⟩
      · cases h2
      · cases h2

theorem Tokenize_ok_ne_nil (s : List Char) (ts : List Token) (hb : ¬ Blank s)
    (h : Tokenize s = some (Outcome.ok ts)) : ts ≠ [] := by
  unfold Tokenize at h
  have hne : TrimSpace s ≠ [] := fun h0 => hb ((TrimSpace_eq_nil_iff s).1 h0)
  simp only [hne, if_false] at h
  split at h
  · cases h
  · rcases tokenizeLoop_result _ _ _ _ _ h with ⟨c, p, h2⟩ | ⟨ts2, h2, _, h4⟩
    · cases h2
    · cases h2
      have := h4 hb
      simp only [List.length_nil] at this
      exact List.length_pos.1 this

theorem ParseExpression_empty (tokens : List Token)
    (h : ParseExpression tokens = Outcome.err CalcError.EmptyExpression) :
    tokens = [] := by
  cases tokens with
  | nil => rfl
  | cons first rest =>
    exfalso
    obtain ⟨last, hl1⟩ : ∃ last, (first :: rest).getLast? = some last :=
      ⟨_, List.getLast?_eq_getLast _ (by simp)⟩
    simp only [ParseExpression, List.head?_cons, hl1] at h
    split at h
    · cases h
    · split at h
      · cases h
      · split at h
        · rename_i e hc
          obtain ⟨m, p, rfl⟩ := checkAlternation_err _ _ _ hc
          cases h
        · rename_i h1 h2 h3 h4
          revert h
          unfold InfixToPostfix
          cases infixLoop (first :: rest) [] [] <;> simp

theorem parseNumberValue_err (token : Token) (e : CalcError)
    (h : parseNumberValue token = Outcome.err e) : ∃ m p, e = CalcError.ParseError m p := by
  unfold parseNumberValue at h
  split at h
  · cases h
  · exact ⟨_, _, (Outcome.err.inj h).symm⟩

theorem parseNumberValue_not_fault (token : Token) :
    parseNumberValue token ≠ Outcome.fault := by
  unfold parseNumberValue
  split <;> simp

theorem performOperation_err (left right : ℚ) (r position : Nat) (e : CalcError)
    (h : performOperation left right r position = Outcome.err e) :
    (∃ m, e = CalcError.ParseError m position) ∨
    (e = CalcError.DivisionByZero position ∧ r = '/'.toNat ∧ right = 0) := by
  unfold performOperation at h
  split at h
  · cases h
  · split at h
    · cases h
    · split at h
      · cases h
      · split at h
        · split at h
          · rename_i h1 h2
            right; exact ⟨(Outcome.err.inj h).symm, h1, h2⟩
          · cases h
        · left; exact ⟨_, (Outcome.err.inj h).symm⟩

theorem evalStep_err (token : Token) (stack : List ℚ) (e : CalcError)
    (h : evalStep token stack = Outcome.err e) :
    (∃ m p, e = CalcError.ParseError m p) ∨ (∃ p, e = CalcError.DivisionByZero p) := by
  unfold evalStep at h
  split at h
  · split at h
    · cases h
    · rename_i e2 hp
      cases h
      obtain ⟨m, p, hm⟩ := parseNumberValue_err _ _ hp
      exact Or.inl ⟨m, p, hm⟩
    · cases h
  · split at h
    · split at h
      · cases h
      · split at h
        · cases h
        · rename_i e2 hp
          cases h
          rcases performOperation_err _ _ _ _ _ hp with ⟨m, hm⟩ | ⟨hm, _⟩
          · exact Or.inl ⟨m, _, hm⟩
          · exact Or.inr ⟨_, hm⟩
        · cases h
    · cases h
      exact Or.inl ⟨_, _, rfl⟩
  · cases h

theorem evalLoop_err (tokens : List Token) :
    ∀ (stack : List ℚ) (e : CalcError), evalLoop tokens stack = Outcome.err e →
      (∃ m p, e = CalcError.ParseError m p) ∨ (∃ p, e = CalcError.DivisionByZero p) := by
  induction tokens with
  | nil => intro stack e h; simp [evalLoop] at h
  | cons token rest ih =>
    intro stack e h
    unfold evalLoop at h
    split at h
    · exact ih _ _ h
    · rename_i e2 hp
      cases h
      exact evalStep_err _ _ _ hp
    · cases h

theorem EvaluatePostfix_err (tokens : List Token) (e : CalcError)
    (h : EvaluatePostfix tokens = Outcome.err e) :
    (∃ m p, e = CalcError.ParseError m p) ∨ (∃ p, e = CalcError.DivisionByZero p) := by
  unfold EvaluatePostfix at h
  split at h
  · cases h
  · cases h; exact Or.inl ⟨_, _, rfl⟩
  · rename_i e2 h2
    cases h
    exact evalLoop_err _ _ _ h2
  · cases h

/-- C8: `Tokenize` fails with EmptyExpression iff the input is empty or all
whitespace, and so does `Calculate`: a non-blank input never yields
EmptyExpression. -/
theorem C8_empty_expression_iff_blank (s : List Char) :
    (Tokenize s = some (Outcome.err CalcError.EmptyExpression) ↔ Blank s) ∧
    (Calculate s = some (Outcome.err CalcError.EmptyExpression) ↔ Blank s) := by
  refine ⟨Tokenize_empty_iff s, ?_⟩
  unfold Calculate
  by_cases h : TrimSpace s = []
  · simp [h, (TrimSpace_eq_nil_iff s).1 h]
  · have hb : ¬ Blank s := fun hb => h ((TrimSpace_eq_nil_iff s).2 hb)
    have hb2 := TrimSpace_not_blank s h
    simp only [h, if_false, hb, iff_false]
    intro hc
    split at hc
    · cases hc
    · rename_i e he
      cases hc
      exact hb2 ((Tokenize_empty_iff _).1 he)
    · cases hc
    · rename_i tokens ht
      have hne := Tokenize_ok_ne_nil _ _ hb2 ht
      split at hc
      · rename_i e he
        cases hc
        exact hne (ParseExpression_empty _ he)
      · cases hc
      · have hc2 := Option.some.inj hc
        rcases EvaluatePostfix_err _ _ hc2 with ⟨m, p, h3⟩ | ⟨p, h3⟩
        · cases h3
        · cases h3

theorem isValidCharacter_of_class (ch : Char) (h : inValidCharacterClass ch = true) :
    isValidCharacter ch = true := by
  simp only [inValidCharacterClass, Bool.or_eq_true, Bool.and_eq_true,
    decide_eq_true_eq] at h
  simp only [isValidCharacter, unicodeIsSpace, Bool.or_eq_true, Bool.and_eq_true,
    decide_eq_true_eq]
  rcases h with (((((((((((h | h) | h) | h) | h) | h) | h) | h) | h) | h) | h) | h) | h
  all_goals (simp only [h]; simp)

theorem not_space_of_invalid (ch : Char) (h : isValidCharacter ch = false) :
    unicodeIsSpace ch = false := by
  cases hs : unicodeIsSpace ch with
  | false => rfl
  | true => simp [isValidCharacter, hs] at h

theorem ValidCharacterSetMatch_false (pre post : List Char) (c : Char)
    (hc : isValidCharacter c = false) :
    ValidCharacterSetMatch (pre ++ c :: post) = false := by
  cases hm : ValidCharacterSetMatch (pre ++ c :: post) with
  | false => rfl
  | true =>
    have := List.all_eq_true.1 hm c (by simp)
    rw [isValidCharacter_of_class c this] at hc
    cases hc

theorem findInvalidCharacter_first (pre : List Char) :
    ∀ (post : List Char) (c : Char) (i : Nat),
      (∀ x ∈ pre, isValidCharacter x = true) → isValidCharacter c = false →
      findInvalidCharacter (pre ++ c :: post) i = some (c, i + utf8Length pre) := by
  induction pre with
  | nil => intro post c i _ hc; simp [findInvalidCharacter, hc, utf8Length]
  | cons a pre ih =>
    intro post c i hpre hc
    have ha : isValidCharacter a = true := hpre a (by simp)
    have := ih post c (i + utf8Width a) (fun x hx => hpre x (by simp [hx])) hc
    show findInvalidCharacter (a :: (pre ++ c :: post)) i = _
    rw [findInvalidCharacter]
    simp only [ha, Bool.not_true, Bool.false_eq_true, if_false]
    rw [this]
    simp [utf8Length, Nat.add_assoc]

/-- The pre-check of `Tokenize` reports the leftmost character outside the
allowed set, at its byte offset. -/
theorem Tokenize_invalid (pre post : List Char) (c : Char)
    (hpre : ∀ x ∈ pre, isValidCharacter x = true) (hc : isValidCharacter c = false) :
    Tokenize (pre ++ c :: post) =
      some (Outcome.err (CalcError.InvalidCharacter c (utf8Length pre))) := by
  have hnb : TrimSpace (pre ++ c :: post) ≠ [] := by
    intro h0
    have := (TrimSpace_eq_nil_iff _).1 h0 c (by simp)
    rw [not_space_of_invalid c hc] at this
    cases this
  unfold Tokenize
  simp only [hnb, if_false, ValidCharacterSetMatch_false pre post c hc, Bool.not_false,
    if_true, findInvalidCharacter_first pre post c 0 hpre hc, Nat.zero_add]

/-- C9: when the input contains a character outside the allowed set (the set
accepted by `isValidCharacter`: hex digits, `x`, `X`, `+`, `-`, `.`, `/`,
whitespace), `Tokenize` fails with InvalidCharacter carrying the leftmost such
character, whatever precedes or follows it. -/
theorem C9_invalid_character_leftmost (pre post : List Char) (c : Char)
    (hpre : ∀ x ∈ pre, isValidCharacter x = true) (hc : isValidCharacter c = false) :
    ∃ p, Tokenize (pre ++ c :: post) = some (Outcome.err (CalcError.InvalidCharacter c p)) :=
  ⟨_, Tokenize_invalid pre post c hpre hc⟩

/-- C9 at the input `5 + @`: the character reported is `@`. -/
theorem C9_invalid_character_leftmost_witness :
    (∀ x ∈ ['5', ' ', '+', ' '], isValidCharacter x = true) ∧
    isValidCharacter '@' = false ∧
    ∃ p, Tokenize (['5', ' ', '+', ' '] ++ '@' :: []) =
      some (Outcome.err (CalcError.InvalidCharacter '@' p)) :=
  ⟨by decide, by decide, C9_invalid_character_leftmost _ _ _ (by decide) (by decide)⟩

/-- C10, evaluated at the input U+00A0 `@`: the offending `@` is at code-point
offset 1, and `Tokenize` reports position 2, its byte offset; on the ASCII
input `5 + @` the two offsets agree and position 4 is reported. -/
theorem C10_position_is_byte_offset :
    Tokenize [Char.ofNat 0xA0, '@'] =
      some (Outcome.err (CalcError.InvalidCharacter '@' 2)) ∧
    ([Char.ofNat 0xA0, '@'] : List Char)[1]? = some '@' ∧
    isValidCharacter (Char.ofNat 0xA0) = true ∧
    Tokenize ['5', ' ', '+', ' ', '@'] =
      some (Outcome.err (CalcError.InvalidCharacter '@' 4)) := by
  decide

/-- C6: in the loop of `Tokenize`, a `-` begins a Number token iff it is
immediately followed by a digit, a `.` or a `0x`/`0X` prefix and either no
token has been emitted yet or the last emitted token is an Operator; otherwise
it is emitted as an Operator token.  So `5-3` gives [5, -, 3], `-5+3` gives
[-5, +, 3] and `5 - -3` gives [5, -, -3]. -/
theorem C6_minus_disambiguation :
    (∀ (fuel : Nat) (rest1 : List Char) (i : Nat) (tokens : List Token),
      tokenizeLoop (fuel + 1) ('-' :: rest1) i tokens =
        if followedByNumberStart rest1 = true ∧ atStartOrAfterOperator tokens = true then
          tokenizeLoop fuel (parseNumberToken ('-' :: rest1)).2
            (i + (parseNumberToken ('-' :: rest1)).1.length)
            (tokens ++ [⟨TokenType.NumberToken, (parseNumberToken ('-' :: rest1)).1, i⟩])
        else
          tokenizeLoop fuel rest1 (i + 1) (tokens ++ [⟨TokenType.OperatorToken, ['-'], i⟩])) ∧
    (∀ rest1 : List Char, (parseNumberToken ('-' :: rest1)).1.head? = some '-') ∧
    Tokenize ['5', '-', '3'] = some (Outcome.ok
      [⟨TokenType.NumberToken, ['5'], 0⟩, ⟨TokenType.OperatorToken, ['-'], 1⟩,
       ⟨TokenType.NumberToken, ['3'], 2⟩]) ∧
    Tokenize ['-', '5', '+', '3'] = some (Outcome.ok
      [⟨TokenType.NumberToken, ['-', '5'], 0⟩, ⟨TokenType.OperatorToken, ['+'], 2⟩,
       ⟨TokenType.NumberToken, ['3'], 3⟩]) ∧
    Tokenize ['5', ' ', '-', ' ', '-', '3'] = some (Outcome.ok
      [⟨TokenType.NumberToken, ['5'], 0⟩, ⟨TokenType.OperatorToken, ['-'], 2⟩,
       ⟨TokenType.NumberToken, ['-', '3'], 4⟩]) := by
  refine ⟨?_, ?_, by decide, by decide, by decide⟩
  · intro fuel rest1 i tokens
    have hsp : unicodeIsSpace '-' = false := by decide
    have hdg : isDigit '-' = false := by decide
    have hop : isOperator '-' = true := by decide
    have hhex : hasHexPrefix ('-' :: rest1) = false := by
      cases rest1 <;> simp [hasHexPrefix]
    have hsn : startsNumber ('-' :: rest1) tokens =
        (followedByNumberStart rest1 && atStartOrAfterOperator tokens) := by
      cases rest1 with
      | nil => simp [startsNumber, isStartOfNumber, followedByNumberStart, hdg, hhex]
      | cons next rest2 =>
        simp only [startsNumber, isStartOfNumber, followedByNumberStart, hdg, hhex]
        by_cases h1 : (isDigit next || decide (next = '.')) = true
        · simp [h1]
        · by_cases h2 : hasHexPrefix (next :: rest2) = true
          · simp [h1, h2]
          · simp [h1, h2]
    rw [tokenizeLoop]
    simp only [hsp, Bool.false_eq_true, if_false, hsn, hop, if_true, Bool.and_eq_true]
  · intro rest1
    simp [parseNumberToken]

/-! ## Postfix evaluator -/

theorem evalLoop_append (a : List Token) :
    ∀ (b : List Token) (stack : List ℚ),
      evalLoop (a ++ b) stack =
        match evalLoop a stack with
        | Outcome.ok stack1 => evalLoop b stack1
        | Outcome.err e => Outcome.err e
        | Outcome.fault => Outcome.fault := by
  induction a with
  | nil => intro b stack; simp [evalLoop]
  | cons t a ih =>
    intro b stack
    simp only [List.cons_append, evalLoop]
    cases evalStep t stack with
    | ok s1 => exact ih b s1
    | err e => rfl
    | fault => rfl

theorem evalStep_number (t : Token) (v : ℚ) (stack : List ℚ)
    (ht : t.Typ = TokenType.NumberToken) (hv : parseNumberValue t = Outcome.ok v) :
    evalStep t stack = Outcome.ok (v :: stack) := by
  simp [evalStep, ht, hv]

theorem evalStep_operator (t : Token) (r : Nat) (right left : ℚ) (stack : List ℚ)
    (ht : t.Typ = TokenType.OperatorToken) (hr : firstByte t.Value = some r) :
    evalStep t (right :: left :: stack) =
      match performOperation left right r t.Position with
      | Outcome.ok result => Outcome.ok (result :: stack)
      | Outcome.err e => Outcome.err e
      | Outcome.fault => Outcome.fault := by
  simp [evalStep, ht, hr]

theorem evalStep_divisionByZero (t : Token) (stack : List ℚ) (p : Nat) :
    evalStep t stack = Outcome.err (CalcError.DivisionByZero p) ↔
      t.Typ = TokenType.OperatorToken ∧ firstByte t.Value = some '/'.toNat ∧
      t.Position = p ∧ ∃ left st, stack = 0 :: left :: st := by
  constructor
  · intro h
    unfold evalStep at h
    split at h
    · split at h
      · cases h
      · rename_i e hp
        obtain ⟨m, q, hm⟩ := parseNumberValue_err _ _ hp
        rw [hm] at h; cases h
      · cases h
    · rename_i hty
      split at h
      · split at h
        · cases h
        · rename_i right left st1 _ r hr
          split at h
          · cases h
          · rename_i e hp
            rcases performOperation_err _ _ _ _ _ hp with ⟨m, hm⟩ | ⟨hm, h1, h2⟩
            · rw [hm] at h; cases h
            · rw [hm] at h
              cases h
              exact ⟨hty, by rw [hr, h1], rfl, left, st1, by rw [h2]⟩
          · cases h
      · cases h
    · cases h
  · rintro ⟨hty, hr, hp, left, st, rfl⟩
    rw [evalStep_operator t _ 0 left st hty hr]
    simp [performOperation, hp]

theorem evalLoop_divisionByZero (tokens : List Token) :
    ∀ (stack : List ℚ) (p : Nat),
      evalLoop tokens stack = Outcome.err (CalcError.DivisionByZero p) ↔
      ∃ pre t post left st, tokens = pre ++ t :: post ∧
        t.Typ = TokenType.OperatorToken ∧ firstByte t.Value = some '/'.toNat ∧
        t.Position = p ∧ evalLoop pre stack = Outcome.ok (0 :: left :: st) := by
  induction tokens with
  | nil =>
    intro stack p
    simp [evalLoop]
  | cons tok rest ih =>
    intro stack p
    constructor
    · intro h
      unfold evalLoop at h
      split at h
      · rename_i s1 hs
        obtain ⟨pre, t, post, left, st, h1, h2, h3, h4, h5⟩ := (ih _ _).1 h
        refine ⟨tok :: pre, t, post, left, st, by rw [h1]; rfl, h2, h3, h4, ?_⟩
        simp only [evalLoop, hs, h5]
      · rename_i e hs
        cases h
        obtain ⟨h2, h3, h4, left, st, h5⟩ := (evalStep_divisionByZero _ _ _).1 hs
        exact ⟨[], tok, rest, left, st, rfl, h2, h3, h4, by simp [evalLoop, h5]⟩
      · cases h
    · rintro ⟨pre, t, post, left, st, h1, h2, h3, h4, h5⟩
      rw [h1, evalLoop_append, h5]
      simp only [evalLoop]
      rw [(evalStep_divisionByZero t (0 :: left :: st) p).2 ⟨h2, h3, h4, left, st, rfl⟩]

theorem EvaluatePostfix_divisionByZero (tokens : List Token) (p : Nat) :
    EvaluatePostfix tokens = Outcome.err (CalcError.DivisionByZero p) ↔
      evalLoop tokens [] = Outcome.err (CalcError.DivisionByZero p) := by
  unfold EvaluatePostfix
  cases h : evalLoop tokens [] with
  | ok st =>
    cases st with
    | nil => simp
    | cons v st1 => cases st1 <;> simp
  | err e => simp
  | fault => simp

theorem wrap64_id (x : Int) (h1 : -9223372036854775808 ≤ x) (h2 : x < 9223372036854775808) :
    wrap64 x = x := by
  unfold wrap64
  omega

/-- The guard of `Rat.SetString` on the power of five lets exponents of
magnitude at most `10^6` pass. -/
theorem exp5_guard_pass (e5 : Int) (h1 : -1000000 ≤ e5) (h2 : e5 ≤ 1000000) :
    ¬ (e5 ≠ 0 ∧ ((if e5 < 0 then wrap64 (-e5) else e5) < 0 ∨
      1000000 < (if e5 < 0 then wrap64 (-e5) else e5))) := by
  by_cases h : e5 < 0
  · rw [if_pos h, wrap64_id (-e5) (by omega) (by omega)]
    omega
  · rw [if_neg h]
    omega

/-- Value of a decimal-dispatched literal from the result of `scanFloat`. -/
theorem parseNumberValue_float (v : List Char) (neg : Bool) (m : Nat) (e2 e5 : Int)
    (ty : TokenType) (p : Nat)
    (h0 : v.take 2 ≠ ['0', 'x']) (h1 : v.take 3 ≠ ['-', '0', 'x'])
    (h2 : TrimSpace v ≠ [])
    (h3 : (TrimSpace v).contains 'e' = false)
    (h4 : (TrimSpace v).contains 'E' = false)
    (h5 : (TrimSpace v).contains '/' = false)
    (h6 : scanFloat (TrimSpace v) = some (neg, m, e2, e5))
    (h7 : m = 0 ∨ (-1000000 ≤ e5 ∧ e5 ≤ 1000000 ∧ -10000000 ≤ e2 ∧ e2 ≤ 10000000)) :
    parseNumberValue ⟨ty, v, p⟩ =
      Outcome.ok (if m = 0 then 0 else if neg then -(scaleRat m e2 e5) else scaleRat m e2 e5) := by
  unfold parseNumberValue ParseDecimal RatSetString
  simp only [h0, h1, h2, h3, h4, h5, h6, if_false, Bool.or_false, Bool.false_eq_true]
  by_cases hm : m = 0
  · simp [hm]
  · have hb := h7.resolve_left hm
    have hg5 := exp5_guard_pass e5 hb.1 hb.2.1
    have hg2 : ¬ (e2 < -10000000 ∨ 10000000 < e2) := by omega
    by_cases hn : neg = true
    · simp only [hm, if_false, hg5, hg2, hn, if_true]
    · simp only [hm, if_false, hg5, hg2, hn]

/-- Value of a hex-dispatched literal from the result of `Int.SetString`. -/
theorem parseNumberValue_hex (v : List Char) (n : Int) (ty : TokenType) (p : Nat)
    (h0 : v.take 2 = ['0', 'x'])
    (h1 : TrimSpace v = v)
    (h2 : IntSetString (v.drop 2) 16 = some n) :
    parseNumberValue ⟨ty, v, p⟩ = Outcome.ok (n : ℚ) := by
  have hne : v ≠ [] := by
    intro h; rw [h] at h0; cases h0
  have hneg : v.take 1 ≠ ['-'] := by
    cases v with
    | nil => simp
    | cons c cs =>
      cases cs with
      | nil => simp at h0
      | cons c1 cs1 =>
        simp only [List.take_succ_cons, List.take_zero, List.cons.injEq, and_true] at h0
        simp [h0.1]
  have hd : v.drop 2 ≠ [] := by
    intro h; rw [h] at h2; simp [IntSetString, scanSign] at h2
  unfold parseNumberValue ParseHexadecimal
  simp [h0, h1, hne, hneg, hd, h2]

/-- C3: for Number tokens `a`, `b` whose literals parse to `va`, `vb`,
`EvaluatePostfix [a, b, op]` returns exactly `va op vb` for each operator
`+`, `-`, `x`, `/` (with `vb ≠ 0` for `/`), `a` being the left operand. -/
theorem C3_binary_operation_exact (a b : Token) (va vb : ℚ) (p : Nat)
    (ha : a.Typ = TokenType.NumberToken) (hb : b.Typ = TokenType.NumberToken)
    (hva : parseNumberValue a = Outcome.ok va) (hvb : parseNumberValue b = Outcome.ok vb) :
    EvaluatePostfix [a, b, ⟨TokenType.OperatorToken, ['+'], p⟩] = Outcome.ok (va + vb) ∧
    EvaluatePostfix [a, b, ⟨TokenType.OperatorToken, ['-'], p⟩] = Outcome.ok (va - vb) ∧
    EvaluatePostfix [a, b, ⟨TokenType.OperatorToken, ['x'], p⟩] = Outcome.ok (va * vb) ∧
    (vb ≠ 0 →
      EvaluatePostfix [a, b, ⟨TokenType.OperatorToken, ['/'], p⟩] = Outcome.ok (va / vb)) := by
  have hadd : firstByte ['+'] = some '+'.toNat := by decide
  have hsub : firstByte ['-'] = some '-'.toNat := by decide
  have hmul : firstByte ['x'] = some 'x'.toNat := by decide
  have hdiv : firstByte ['/'] = some '/'.toNat := by decide
  refine ⟨?_, ?_, ?_, ?_⟩
  · simp only [EvaluatePostfix, evalLoop, evalStep_number a va _ ha hva,
      evalStep_number b vb _ hb hvb,
      evalStep_operator ⟨TokenType.OperatorToken, ['+'], p⟩ _ vb va [] rfl hadd]
    simp [performOperation]
  · simp only [EvaluatePostfix, evalLoop, evalStep_number a va _ ha hva,
      evalStep_number b vb _ hb hvb,
      evalStep_operator ⟨TokenType.OperatorToken, ['-'], p⟩ _ vb va [] rfl hsub]
    simp [performOperation]
  · simp only [EvaluatePostfix, evalLoop, evalStep_number a va _ ha hva,
      evalStep_number b vb _ hb hvb,
      evalStep_operator ⟨TokenType.OperatorToken, ['x'], p⟩ _ vb va [] rfl hmul]
    simp [performOperation]
  · intro hne
    simp only [EvaluatePostfix, evalLoop, evalStep_number a va _ ha hva,
      evalStep_number b vb _ hb hvb,
      evalStep_operator ⟨TokenType.OperatorToken, ['/'], p⟩ _ vb va [] rfl hdiv]
    simp [performOperation, hne]

theorem parse_0_1 (p : Nat) :
    parseNumberValue ⟨TokenType.NumberToken, ['0', '.', '1'], p⟩ = Outcome.ok (1 / 10) := by
  rw [parseNumberValue_float ['0', '.', '1'] false 1 (-1) (-1) _ _ (by decide) (by decide) (by decide)
    (by decide) (by decide) (by decide) (by decide)
      (by decide)]
  norm_num [scaleRat]

theorem parse_0_2 (p : Nat) :
    parseNumberValue ⟨TokenType.NumberToken, ['0', '.', '2'], p⟩ = Outcome.ok (1 / 5) := by
  rw [parseNumberValue_float ['0', '.', '2'] false 2 (-1) (-1) _ _ (by decide) (by decide) (by decide)
    (by decide) (by decide) (by decide) (by decide)
      (by decide)]
  norm_num [scaleRat]

/-- C3 at the tokens `0.1`, `0.2`: the sum is exactly 3/10, and the other three
operations are exact as well. -/
theorem C3_binary_operation_exact_witness :
    EvaluatePostfix [⟨TokenType.NumberToken, ['0', '.', '1'], 0⟩,
      ⟨TokenType.NumberToken, ['0', '.', '2'], 2⟩,
      ⟨TokenType.OperatorToken, ['+'], 4⟩] = Outcome.ok (3 / 10) ∧
    EvaluatePostfix [⟨TokenType.NumberToken, ['0', '.', '1'], 0⟩,
      ⟨TokenType.NumberToken, ['0', '.', '2'], 2⟩,
      ⟨TokenType.OperatorToken, ['-'], 4⟩] = Outcome.ok (-1 / 10) ∧
    EvaluatePostfix [⟨TokenType.NumberToken, ['0', '.', '1'], 0⟩,
      ⟨TokenType.NumberToken, ['0', '.', '2'], 2⟩,
      ⟨TokenType.OperatorToken, ['/'], 4⟩] = Outcome.ok (1 / 2) := by
  have h := C3_binary_operation_exact ⟨TokenType.NumberToken, ['0', '.', '1'], 0⟩
    ⟨TokenType.NumberToken, ['0', '.', '2'], 2⟩ (1 / 10) (1 / 5) 4 rfl rfl
    (parse_0_1 0) (parse_0_2 2)
  refine ⟨?_, ?_, ?_⟩
  · rw [h.1]; norm_num
  · rw [h.2.1]; norm_num
  · rw [h.2.2.2 (by norm_num)]; norm_num

/-- C5: `EvaluatePostfix` fails with DivisionByZero at position `p` exactly
when it reaches a `/` operator token at Position `p` with a right operand (top
of the stack) equal to zero; the literals `0`, `0.0`, `-0` and `0x0` all have
the value zero. -/
theorem C5_division_by_zero :
    (∀ (tokens : List Token) (p : Nat),
      EvaluatePostfix tokens = Outcome.err (CalcError.DivisionByZero p) ↔
      ∃ pre t post left st, tokens = pre ++ t :: post ∧
        t.Typ = TokenType.OperatorToken ∧ firstByte t.Value = some '/'.toNat ∧
        t.Position = p ∧ evalLoop pre [] = Outcome.ok (0 :: left :: st)) ∧
    (∀ q : Nat, parseNumberValue ⟨TokenType.NumberToken, ['0'], q⟩ = Outcome.ok 0) ∧
    (∀ q : Nat, parseNumberValue ⟨TokenType.NumberToken, ['0', '.', '0'], q⟩ = Outcome.ok 0) ∧
    (∀ q : Nat, parseNumberValue ⟨TokenType.NumberToken, ['-', '0'], q⟩ = Outcome.ok 0) ∧
    (∀ q : Nat, parseNumberValue ⟨TokenType.NumberToken, ['0', 'x', '0'], q⟩ = Outcome.ok 0) ∧
    EvaluatePostfix [⟨TokenType.NumberToken, ['5'], 0⟩, ⟨TokenType.NumberToken, ['0'], 2⟩,
      ⟨TokenType.OperatorToken, ['/'], 4⟩] = Outcome.err (CalcError.DivisionByZero 4) := by
  have z1 : ∀ q : Nat, parseNumberValue ⟨TokenType.NumberToken, ['0'], q⟩ = Outcome.ok 0 := by
    intro q
    rw [parseNumberValue_float ['0'] false 0 0 0 _ _ (by decide) (by decide) (by decide)
      (by decide) (by decide) (by decide) (by decide) (by decide)]
    simp
  have h5 : ∀ q : Nat, parseNumberValue ⟨TokenType.NumberToken, ['5'], q⟩ = Outcome.ok 5 := by
    intro q
    rw [parseNumberValue_float ['5'] false 5 0 0 _ _ (by decide) (by decide) (by decide)
      (by decide) (by decide) (by decide) (by decide) (by decide)]
    norm_num [scaleRat]
  refine ⟨?_, z1, ?_, ?_, ?_, ?_⟩
  · intro tokens p
    rw [EvaluatePostfix_divisionByZero]
    exact evalLoop_divisionByZero tokens [] p
  · intro q
    rw [parseNumberValue_float ['0', '.', '0'] false 0 (-1) (-1) _ _ (by decide) (by decide) (by decide)
      (by decide) (by decide) (by decide) (by decide) (by decide)]
    simp
  · intro q
    rw [parseNumberValue_float ['-', '0'] true 0 0 0 _ _ (by decide) (by decide) (by decide)
      (by decide) (by decide) (by decide) (by decide) (by decide)]
    simp
  · intro q
    rw [parseNumberValue_hex ['0', 'x', '0'] 0 _ _ (by decide) (by decide) (by decide)]
    simp
  · rw [EvaluatePostfix_divisionByZero, evalLoop_divisionByZero]
    refine ⟨[⟨TokenType.NumberToken, ['5'], 0⟩, ⟨TokenType.NumberToken, ['0'], 2⟩],
      ⟨TokenType.OperatorToken, ['/'], 4⟩, [], 5, [], rfl, rfl, by decide, rfl, ?_⟩
    simp only [evalLoop, evalStep_number _ 5 _ rfl (h5 0), evalStep_number _ 0 _ rfl (z1 2)]

/-! ## Number parsers -/

theorem TrimSpace_id (s : List Char)
    (hh : ∀ c, s.head? = some c → unicodeIsSpace c = false)
    (hl : ∀ c, s.getLast? = some c → unicodeIsSpace c = false) :
    TrimSpace s = s := by
  unfold TrimSpace
  have h1 : s.dropWhile unicodeIsSpace = s := by
    cases s with
    | nil => rfl
    | cons a t =>
      have := hh a rfl
      simp [List.dropWhile, this]
  rw [h1]
  have h2 : s.reverse.dropWhile unicodeIsSpace = s.reverse := by
    cases hr : s.reverse with
    | nil => rfl
    | cons a t =>
      have hla : s.getLast? = some a := by
        rw [← List.head?_reverse, hr]; rfl
      have := hl a hla
      simp [List.dropWhile, this]
  rw [h2, List.reverse_reverse]

theorem isDigit_bounds (c : Char) (h : isDigit c = true) : 48 ≤ c.toNat ∧ c.toNat ≤ 57 := by
  simpa [isDigit] using h

theorem isHexDigit_bounds (c : Char) (h : isHexDigit c = true) :
    (48 ≤ c.toNat ∧ c.toNat ≤ 57) ∨ (65 ≤ c.toNat ∧ c.toNat ≤ 70) ∨
    (97 ≤ c.toNat ∧ c.toNat ≤ 102) := by
  simp only [isHexDigit, isDigit, Bool.or_eq_true, Bool.and_eq_true, decide_eq_true_eq] at h
  rcases h with (h | h) | h
  · exact Or.inl (by simpa using h)
  · exact Or.inr (Or.inl (by simpa using h))
  · exact Or.inr (Or.inr (by simpa using h))

theorem isHexDigit_of_isDigit (c : Char) (h : isDigit c = true) : isHexDigit c = true := by
  simp [isHexDigit, h]

theorem hexDigit_ne (c : Char) (h : isHexDigit c = true) (d : Char)
    (hd : isHexDigit d = false) : c ≠ d := by
  rintro rfl
  rw [h] at hd; cases hd

theorem hexDigit_not_space (c : Char) (h : isHexDigit c = true) :
    unicodeIsSpace c = false := by
  have hb := isHexDigit_bounds c h
  simp only [unicodeIsSpace, Bool.or_eq_false_iff, Bool.and_eq_false_imp,
    decide_eq_true_eq, decide_eq_false_iff_not]
  omega

theorem digitValue_hex (c : Char) (h : isHexDigit c = true) :
    digitValue c = hexDigitValue c ∧ digitValue c < 16 := by
  have hb := isHexDigit_bounds c h
  have e0 : '0'.toNat = 48 := rfl
  have e9 : '9'.toNat = 57 := rfl
  have ea : 'a'.toNat = 97 := rfl
  have ef : 'f'.toNat = 102 := rfl
  have ez : 'z'.toNat = 122 := rfl
  have eA : 'A'.toNat = 65 := rfl
  have eZ : 'Z'.toNat = 90 := rfl
  simp only [digitValue, hexDigitValue, e0, e9, ea, ef, ez, eA, eZ]
  rcases hb with hb | hb | hb
  · rw [if_pos hb, if_pos hb]; exact ⟨rfl, by omega⟩
  · have h1 : ¬ (48 ≤ c.toNat ∧ c.toNat ≤ 57) := by omega
    have h2 : ¬ (97 ≤ c.toNat ∧ c.toNat ≤ 122) := by omega
    have h3 : ¬ (97 ≤ c.toNat ∧ c.toNat ≤ 102) := by omega
    have h4 : 65 ≤ c.toNat ∧ c.toNat ≤ 90 := by omega
    rw [if_neg h1, if_neg h2, if_pos h4, if_neg h1, if_neg h3]; exact ⟨rfl, by omega⟩
  · have h1 : ¬ (48 ≤ c.toNat ∧ c.toNat ≤ 57) := by omega
    have h2 : 97 ≤ c.toNat ∧ c.toNat ≤ 122 := by omega
    rw [if_neg h1, if_pos h2, if_neg h1, if_pos hb]; exact ⟨rfl, by omega⟩

theorem digitValue_dec (c : Char) (h : isDigit c = true) :
    digitValue c = hexDigitValue c ∧ digitValue c < 10 := by
  have hb := isDigit_bounds c h
  have e0 : '0'.toNat = 48 := rfl
  have e9 : '9'.toNat = 57 := rfl
  simp only [digitValue, hexDigitValue, e0, e9]
  rw [if_pos hb, if_pos hb]; exact ⟨rfl, by omega⟩

/-- The digit loop of `nat.scan` over a run of digits of the base. -/
theorem scanLoop_digits (base0 : Bool) (b : Nat) (ds : List Char) :
    ∀ (fracOk : Bool) (prev : Char) (inv : Bool) (count : Nat) (dp : Option Nat)
      (acc : Nat) (rest : List Char),
      (∀ c ∈ ds, c ≠ '.' ∧ c ≠ '_' ∧ digitValue c < b) →
      scanLoop base0 b fracOk prev inv count dp acc (ds ++ rest) =
        scanLoop base0 b fracOk (if ds = [] then prev else '0') inv (count + ds.length) dp
          (ds.foldl (fun a c => a * b + digitValue c) acc) rest := by
  induction ds with
  | nil => intro fracOk prev inv count dp acc rest _; simp
  | cons d ds ih =>
    intro fracOk prev inv count dp acc rest h
    obtain ⟨h1, h2, h3⟩ := h d (by simp)
    have hrest : ∀ c ∈ ds, c ≠ '.' ∧ c ≠ '_' ∧ digitValue c < b :=
      fun c hc => h c (by simp [hc])
    show scanLoop base0 b fracOk prev inv count dp acc (d :: (ds ++ rest)) = _
    rw [scanLoop]
    simp only [h1, h2, false_and, if_false, ge_iff_le, Nat.not_le.2 h3]
    rw [ih _ _ _ _ _ _ _ hrest]
    simp only [List.foldl_cons, List.length_cons, reduceCtorEq, if_false]
    by_cases hds : ds = []
    · simp [hds]
    · simp only [hds, if_false]
      congr 1
      omega

theorem foldl_digitValue_eq (b : Nat) (ds : List Char)
    (h : ∀ c ∈ ds, digitValue c = hexDigitValue c) :
    ∀ acc : Nat, ds.foldl (fun a c => a * b + digitValue c) acc =
      ds.foldl (fun a c => a * b + hexDigitValue c) acc := by
  induction ds with
  | nil => intro acc; rfl
  | cons d ds ih =>
    intro acc
    simp only [List.foldl_cons, h d (by simp)]
    exact ih (fun c hc => h c (by simp [hc])) _

theorem TrimSpace_id_of_all (s : List Char) (h : ∀ c ∈ s, unicodeIsSpace c = false) :
    TrimSpace s = s :=
  TrimSpace_id s (fun c hc => h c (List.mem_of_mem_head? hc))
    (fun c hc => h c (List.mem_of_getLast?_eq_some hc))

theorem natScan_hexDigits (h : List Char) (hne : h ≠ [])
    (hh : ∀ c ∈ h, isHexDigit c = true) :
    natScan h 16 false = ⟨positional 16 h, 16, (h.length : Int), false, []⟩ := by
  have hds : ∀ c ∈ h, c ≠ '.' ∧ c ≠ '_' ∧ digitValue c < 16 := fun c hc =>
    ⟨hexDigit_ne c (hh c hc) '.' (by decide), hexDigit_ne c (hh c hc) '_' (by decide),
      (digitValue_hex c (hh c hc)).2⟩
  have hl := scanLoop_digits false 16 h false '.' false 0 none 0 [] hds
  rw [List.append_nil] at hl
  have hlen : h.length ≠ 0 := fun h0 => hne (List.length_eq_zero.1 h0)
  unfold natScan
  simp only [ne_eq, OfNat.ofNat_ne_zero, not_false_eq_true, if_true, hl, hne, if_false,
    Nat.zero_add]
  rw [foldl_digitValue_eq 16 h (fun c hc => (digitValue_hex c (hh c hc)).1)]
  simp [scanLoop, scanFinish, hlen, positional]

theorem IntSetString_hexDigits (h : List Char) (hne : h ≠ [])
    (hh : ∀ c ∈ h, isHexDigit c = true) :
    IntSetString h 16 = some (positional 16 h : Int) := by
  obtain ⟨c, t, rfl⟩ : ∃ c t, h = c :: t := by
    cases h with
    | nil => exact absurd rfl hne
    | cons c t => exact ⟨c, t, rfl⟩
  have hc := hh c (by simp)
  have h1 : c ≠ '-' := hexDigit_ne c hc '-' (by decide)
  have h2 : c ≠ '+' := hexDigit_ne c hc '+' (by decide)
  unfold IntSetString
  simp only [scanSign, h1, h2, if_false, natScan_hexDigits (c :: t) hne hh]
  simp

/-- C4: for a non-empty string `h` of hex digits and either prefix `0x` or
`0X`, `ParseHexadecimal` returns the integer `h` read in base 16 (digit case
ignored) as a rational, and the negated integer with a leading `-`. -/
theorem C4_hexadecimal_value (h : List Char) (x : Char) (hne : h ≠ [])
    (hh : ∀ c ∈ h, isHexDigit c = true) (hx : x = 'x' ∨ x = 'X') :
    ParseHexadecimal ('0' :: x :: h) = Outcome.ok (((positional 16 h : Int) : ℚ)) ∧
    ParseHexadecimal ('-' :: '0' :: x :: h) =
      Outcome.ok (((-(positional 16 h : Int) : Int) : ℚ)) := by
  have hxs : unicodeIsSpace x = false := by
    rcases hx with rfl | rfl <;> decide
  have hsp : ∀ c ∈ '-' :: '0' :: x :: h, unicodeIsSpace c = false := by
    intro c hc
    simp only [List.mem_cons] at hc
    rcases hc with rfl | rfl | rfl | hc
    · decide
    · decide
    · exact hxs
    · exact hexDigit_not_space c (hh c hc)
  have hsp2 : ∀ c ∈ '0' :: x :: h, unicodeIsSpace c = false :=
    fun c hc => hsp c (List.mem_cons_of_mem _ hc)
  have hpre : ¬ x = 'x' → x = 'X' := fun hn => hx.resolve_left hn
  have hi := IntSetString_hexDigits h hne hh
  constructor
  · unfold ParseHexadecimal
    simp only [TrimSpace_id_of_all _ hsp2]
    simp [hne, hi]
    exact hpre
  · unfold ParseHexadecimal
    simp only [TrimSpace_id_of_all _ hsp]
    simp [hne, hi]
    exact hpre

/-- C4 at the digits `FF` with prefix `0x`: 255 and -255. -/
theorem C4_hexadecimal_value_witness :
    ParseHexadecimal ['0', 'x', 'F', 'F'] = Outcome.ok 255 ∧
    ParseHexadecimal ['-', '0', 'x', 'F', 'F'] = Outcome.ok (-255) := by
  have h := C4_hexadecimal_value ['F', 'F'] 'x' (by decide) (by decide) (Or.inl rfl)
  have hv : positional 16 ['F', 'F'] = 255 := by decide
  rw [hv] at h
  constructor
  · rw [h.1]; norm_num
  · rw [h.2]; norm_num

theorem digit_ne (c : Char) (h : isDigit c = true) (d : Char) (hd : isDigit d = false) :
    c ≠ d := by
  rintro rfl
  rw [h] at hd; cases hd

theorem scanLoop_decDigits (ds : List Char) (hds : ∀ c ∈ ds, isDigit c = true)
    (fracOk : Bool) (prev : Char) (inv : Bool) (count : Nat) (dp : Option Nat)
    (acc : Nat) (rest : List Char) :
    scanLoop true 10 fracOk prev inv count dp acc (ds ++ rest) =
      scanLoop true 10 fracOk (if ds = [] then prev else '0') inv (count + ds.length) dp
        (ds.foldl (fun a c => a * 10 + hexDigitValue c) acc) rest := by
  rw [scanLoop_digits true 10 ds fracOk prev inv count dp acc rest (fun c hc =>
    ⟨digit_ne c (hds c hc) '.' (by decide), digit_ne c (hds c hc) '_' (by decide),
      (digitValue_dec c (hds c hc)).2⟩)]
  rw [foldl_digitValue_eq 10 ds (fun c hc => (digitValue_dec c (hds c hc)).1)]

/-- With `base == 0` and `fracOk`, a leading `0` that is not followed by a base
letter is scanned as an ordinary decimal digit. -/
theorem natScan_decimal_start (r : List Char)
    (h : ∀ c1 rest1, r = '0' :: c1 :: rest1 → isDigit c1 = true ∨ c1 = '.') :
    natScan r 0 true = scanFinish 10 false (scanLoop true 10 true '.' false 0 none 0 r) := by
  unfold natScan
  simp only [ne_eq, not_true_eq_false, if_false]
  cases r with
  | nil => rfl
  | cons ch rest =>
    by_cases hch : ch = '0'
    · subst hch
      simp only [ne_eq, not_true_eq_false, if_false]
      cases rest with
      | nil => simp [scanLoop, digitValue]
      | cons c1 rest1 =>
        have hc1 := h c1 rest1 rfl
        have hnb : ∀ d : Char, isDigit d = false → d ≠ '.' → c1 ≠ d := by
          intro d hd hdot
          rcases hc1 with hc1 | hc1
          · exact digit_ne c1 hc1 d hd
          · rw [hc1]; exact fun e => hdot e.symm
        have n1 := hnb 'b' (by decide) (by decide)
        have n2 := hnb 'B' (by decide) (by decide)
        have n3 := hnb 'o' (by decide) (by decide)
        have n4 := hnb 'O' (by decide) (by decide)
        have n5 := hnb 'x' (by decide) (by decide)
        have n6 := hnb 'X' (by decide) (by decide)
        simp only [n1, n2, n3, n4, n5, n6, or_self, if_false, if_true]
        congr 1
    · simp only [ne_eq, hch, not_false_eq_true, if_true]

/-- The mantissa scan of a decimal literal with a radix point. -/
theorem natScan_decimal_point (I F : List Char) (hI : ∀ c ∈ I, isDigit c = true)
    (hF : ∀ c ∈ F, isDigit c = true) (hne : I ++ F ≠ []) :
    natScan (I ++ '.' :: F) 0 true =
      ⟨positional 10 (I ++ F), 10, -(F.length : Int), false, []⟩ := by
  have hstart : ∀ c1 rest1, I ++ '.' :: F = '0' :: c1 :: rest1 →
      isDigit c1 = true ∨ c1 = '.' := by
    intro c1 rest1 he
    cases I with
    | nil =>
      simp only [List.nil_append, List.cons.injEq] at he
      exact absurd he.1 (by decide)
    | cons a I1 =>
      cases I1 with
      | nil =>
        simp only [List.cons_append, List.nil_append, List.cons.injEq] at he
        exact Or.inr he.2.1.symm
      | cons b I2 =>
        simp only [List.cons_append, List.cons.injEq] at he
        left; rw [← he.2.1]; exact hI b (by simp)
  rw [natScan_decimal_start _ hstart, scanLoop_decDigits I hI]
  rw [scanLoop]
  simp only [true_and, if_true]
  have hF2 := scanLoop_decDigits F hF false '.'
    (false || decide ((if I = [] then '.' else '0') = '_')) (0 + I.length)
    (some (0 + I.length)) (I.foldl (fun a c => a * 10 + hexDigitValue c) 0) []
  rw [List.append_nil] at hF2
  rw [hF2]
  have hlen : 0 + I.length + F.length ≠ 0 := by
    intro h0
    apply hne
    have h1 : I.length = 0 := by omega
    have h2 : F.length = 0 := by omega
    rw [List.length_eq_zero.1 h1, List.length_eq_zero.1 h2]; rfl
  have hprevI : ((if I = [] then '.' else '0') = '_') = False := by
    by_cases hi : I = [] <;> simp [hi]
  have hprevF : ((if F = [] then '.' else '0') = '_') = False := by
    by_cases hf : F = [] <;> simp [hf]
  simp only [scanLoop, scanFinish, hlen, if_false, hprevI, hprevF, decide_False,
    Bool.or_self, positional, List.foldl_append]
  congr 1
  push_cast
  omega

/-- The mantissa scan of a decimal literal without a radix point. -/
theorem natScan_decimal_int (I : List Char) (hI : ∀ c ∈ I, isDigit c = true)
    (hne : I ≠ []) :
    natScan I 0 true = ⟨positional 10 I, 10, (I.length : Int), false, []⟩ := by
  have hstart : ∀ c1 rest1, I = '0' :: c1 :: rest1 → isDigit c1 = true ∨ c1 = '.' := by
    intro c1 rest1 he
    left; exact hI c1 (by rw [he]; simp)
  have h1 := scanLoop_decDigits I hI true '.' false 0 none 0 []
  rw [List.append_nil] at h1
  have hlen : 0 + I.length ≠ 0 := by
    intro h0
    exact hne (List.length_eq_zero.1 (by omega))
  rw [natScan_decimal_start _ hstart, h1]
  simp [scanLoop, scanFinish, hlen, hne, positional]

theorem scaleRat_neg_pow (m k : Nat) :
    scaleRat m (-(k : Int)) (-(k : Int)) = (m : ℚ) / 10 ^ k := by
  unfold scaleRat
  rw [zpow_neg, zpow_neg, zpow_natCast, zpow_natCast,
    show (10 : ℚ) = 2 * 5 by norm_num, mul_pow]
  field_simp

theorem decChar_facts (c : Char) (h : isDigit c = true ∨ c = '.' ∨ c = '-') :
    unicodeIsSpace c = false ∧ c ≠ 'e' ∧ c ≠ 'E' ∧ c ≠ '/' ∧ c ≠ '+' := by
  rcases h with h | rfl | rfl
  · refine ⟨?_, digit_ne c h _ (by decide), digit_ne c h _ (by decide),
      digit_ne c h _ (by decide), digit_ne c h _ (by decide)⟩
    exact hexDigit_not_space c (isHexDigit_of_isDigit c h)
  · decide
  · decide

/-- `Rat.SetString` on an optional `-` followed by a body of digits and at most
one point, from the mantissa scan of the body: the value when the mantissa is
zero or the guards on the exponents let the count of fraction digits pass. -/
theorem RatSetString_decimal_scan (neg : Bool) (body : List Char) (m k : Nat) (cnt : Int)
    (hbody : ∀ c ∈ body, isDigit c = true ∨ c = '.') (hne : body ≠ [])
    (hscan : natScan body 0 true = ⟨m, 10, cnt, false, []⟩)
    (hd : (if cnt < 0 then cnt else 0) = -(k : Int)) :
    RatSetString (if neg = true then '-' :: body else body) =
      if m = 0 then some 0
      else if wrap64 (-(k : Int)) ≠ 0 ∧
          ((if wrap64 (-(k : Int)) < 0 then wrap64 (-wrap64 (-(k : Int)))
              else wrap64 (-(k : Int))) < 0 ∨
            1000000 < (if wrap64 (-(k : Int)) < 0 then wrap64 (-wrap64 (-(k : Int)))
              else wrap64 (-(k : Int)))) then none
      else if wrap64 (-(k : Int)) < -10000000 ∨ 10000000 < wrap64 (-(k : Int)) then none
      else some (if neg = true then -(scaleRat m (wrap64 (-(k : Int))) (wrap64 (-(k : Int))))
        else scaleRat m (wrap64 (-(k : Int))) (wrap64 (-(k : Int)))) := by
  have hall : ∀ c ∈ (if neg = true then '-' :: body else body),
      isDigit c = true ∨ c = '.' ∨ c = '-' := by
    intro c hc
    by_cases hn : neg = true
    · simp only [hn, if_true, List.mem_cons] at hc
      rcases hc with rfl | hc
      · exact Or.inr (Or.inr rfl)
      · rcases hbody c hc with h | h
        · exact Or.inl h
        · exact Or.inr (Or.inl h)
    · simp only [hn, if_false] at hc
      rcases hbody c hc with h | h
      · exact Or.inl h
      · exact Or.inr (Or.inl h)
  have hsne : (if neg = true then '-' :: body else body) ≠ [] := by
    by_cases hn : neg = true <;> simp [hn, hne]
  have hslash : (if neg = true then '-' :: body else body).contains '/' = false := by
    cases hcn : (if neg = true then '-' :: body else body).contains '/' with
    | false => rfl
    | true =>
      have hm : '/' ∈ (if neg = true then '-' :: body else body) := by
        simpa using hcn
      exact absurd rfl (decChar_facts _ (hall _ hm)).2.2.2.1
  have hsign : scanSign (if neg = true then '-' :: body else body) = some (neg, body) := by
    by_cases hn : neg = true
    · simp [hn, scanSign]
    · have hn2 : neg = false := by simpa using hn
      obtain ⟨c, t, rfl⟩ : ∃ c t, body = c :: t := by
        cases body with
        | nil => exact absurd rfl hne
        | cons c t => exact ⟨c, t, rfl⟩
      have hc := hbody c (by simp)
      have hf := decChar_facts c (hc.elim Or.inl (fun h => Or.inr (Or.inl h)))
      have hminus : c ≠ '-' := by
        rcases hc with hc | hc
        · exact digit_ne c hc _ (by decide)
        · rw [hc]; decide
      simp [hn2, scanSign, hminus, hf.2.2.2.2]
  have hfloat : scanFloat (if neg = true then '-' :: body else body) =
      some (neg, m, wrap64 (-(k : Int)), wrap64 (-(k : Int))) := by
    unfold scanFloat
    simp only [hsign, hscan, Bool.false_eq_true, if_false, scanExponent, ne_eq,
      not_true_eq_false, true_or, if_true, hd, add_zero]
  unfold RatSetString
  simp only [hsne, if_false, hslash, Bool.false_eq_true, hfloat, ne_eq]

/-- The value `Rat.SetString` gives to an optional `-` followed by a body of
digits and at most one point with at most `10^6` fraction digits, or with a
zero mantissa. -/
theorem RatSetString_decimal (neg : Bool) (body : List Char) (m k : Nat) (cnt : Int)
    (hbody : ∀ c ∈ body, isDigit c = true ∨ c = '.') (hne : body ≠ [])
    (hscan : natScan body 0 true = ⟨m, 10, cnt, false, []⟩)
    (hd : (if cnt < 0 then cnt else 0) = -(k : Int))
    (hk : k ≤ 1000000 ∨ m = 0) :
    RatSetString (if neg = true then '-' :: body else body) =
      some (if neg = true then -((m : ℚ) / 10 ^ k) else (m : ℚ) / 10 ^ k) := by
  rw [RatSetString_decimal_scan neg body m k cnt hbody hne hscan hd]
  by_cases hm : m = 0
  · simp [hm]
  · have hk2 : k ≤ 1000000 := hk.resolve_right hm
    rw [wrap64_id (-(k : Int)) (by omega) (by omega)]
    have hg5 := exp5_guard_pass (-(k : Int)) (by omega) (by omega)
    have hg2 : ¬ (-(k : Int) < -10000000 ∨ 10000000 < -(k : Int)) := by omega
    simp only [hm, if_false, hg5, hg2, scaleRat_neg_pow]

/-- `Rat.SetString` refuses a non-zero mantissa with more than `10^6` fraction
digits. -/
theorem RatSetString_decimal_fail (neg : Bool) (body : List Char) (m k : Nat) (cnt : Int)
    (hbody : ∀ c ∈ body, isDigit c = true ∨ c = '.') (hne : body ≠ [])
    (hscan : natScan body 0 true = ⟨m, 10, cnt, false, []⟩)
    (hd : (if cnt < 0 then cnt else 0) = -(k : Int))
    (hm : m ≠ 0) (hk : 1000000 < k) (hk2 : k < 9223372036854775808) :
    RatSetString (if neg = true then '-' :: body else body) = none := by
  rw [RatSetString_decimal_scan neg body m k cnt hbody hne hscan hd]
  rw [wrap64_id (-(k : Int)) (by omega) (by omega)]
  have hneg : -(k : Int) < 0 := by omega
  have hg : -(k : Int) ≠ 0 ∧
      ((if -(k : Int) < 0 then wrap64 (- -(k : Int)) else -(k : Int)) < 0 ∨
        1000000 < (if -(k : Int) < 0 then wrap64 (- -(k : Int)) else -(k : Int))) := by
    rw [if_pos hneg, wrap64_id (- -(k : Int)) (by omega) (by omega)]
    omega
  rw [if_neg hm, if_pos hg]

/-- `ParseDecimal` on an optional `-` followed by digits and at most one point
hands the text to `Rat.SetString`. -/
theorem ParseDecimal_decimal_pre (neg : Bool) (body : List Char)
    (hbody : ∀ c ∈ body, isDigit c = true ∨ c = '.') (hne : body ≠ []) :
    ParseDecimal (if neg = true then '-' :: body else body) =
      match RatSetString (if neg = true then '-' :: body else body) with
      | none => Outcome.err (CalcError.ParseError "Invalid decimal format" 0)
      | some rat => Outcome.ok rat := by
  have hall : ∀ c ∈ (if neg = true then '-' :: body else body),
      isDigit c = true ∨ c = '.' ∨ c = '-' := by
    intro c hc
    by_cases hn : neg = true
    · simp only [hn, if_true, List.mem_cons] at hc
      rcases hc with rfl | hc
      · exact Or.inr (Or.inr rfl)
      · rcases hbody c hc with h | h
        · exact Or.inl h
        · exact Or.inr (Or.inl h)
    · simp only [hn, if_false] at hc
      rcases hbody c hc with h | h
      · exact Or.inl h
      · exact Or.inr (Or.inl h)
  have hsne : (if neg = true then '-' :: body else body) ≠ [] := by
    by_cases hn : neg = true <;> simp [hn, hne]
  have hno : ∀ d : Char, (∀ c, (isDigit c = true ∨ c = '.' ∨ c = '-') → c ≠ d) →
      (if neg = true then '-' :: body else body).contains d = false := by
    intro d hdd
    cases hcn : (if neg = true then '-' :: body else body).contains d with
    | false => rfl
    | true =>
      have hm : d ∈ (if neg = true then '-' :: body else body) := by
        simpa using hcn
      exact absurd rfl (hdd d (hall d hm))
  have he := hno 'e' (fun c hc => (decChar_facts c hc).2.1)
  have hE := hno 'E' (fun c hc => (decChar_facts c hc).2.2.1)
  unfold ParseDecimal
  simp only [TrimSpace_id_of_all _ (fun c hc => (decChar_facts c (hall c hc)).1), hsne,
    if_false, he, hE, Bool.or_self, Bool.false_eq_true]

/-- `ParseDecimal` on an optional `-` followed by digits and at most one point. -/
theorem ParseDecimal_decimal (neg : Bool) (body : List Char) (m k : Nat) (cnt : Int)
    (hbody : ∀ c ∈ body, isDigit c = true ∨ c = '.') (hne : body ≠ [])
    (hscan : natScan body 0 true = ⟨m, 10, cnt, false, []⟩)
    (hd : (if cnt < 0 then cnt else 0) = -(k : Int))
    (hk : k ≤ 1000000 ∨ m = 0) :
    ParseDecimal (if neg = true then '-' :: body else body) =
      Outcome.ok (if neg = true then -((m : ℚ) / 10 ^ k) else (m : ℚ) / 10 ^ k) := by
  rw [ParseDecimal_decimal_pre neg body hbody hne,
    RatSetString_decimal neg body m k cnt hbody hne hscan hd hk]

/-- `ParseDecimal` rejects a non-zero literal with more than `10^6` fraction
digits. -/
theorem ParseDecimal_decimal_fail (neg : Bool) (body : List Char) (m k : Nat) (cnt : Int)
    (hbody : ∀ c ∈ body, isDigit c = true ∨ c = '.') (hne : body ≠ [])
    (hscan : natScan body 0 true = ⟨m, 10, cnt, false, []⟩)
    (hd : (if cnt < 0 then cnt else 0) = -(k : Int))
    (hm : m ≠ 0) (hk : 1000000 < k) (hk2 : k < 9223372036854775808) :
    ParseDecimal (if neg = true then '-' :: body else body) =
      Outcome.err (CalcError.ParseError "Invalid decimal format" 0) := by
  rw [ParseDecimal_decimal_pre neg body hbody hne,
    RatSetString_decimal_fail neg body m k cnt hbody hne hscan hd hm hk hk2]

theorem point_body (I F : List Char) (hI : ∀ c ∈ I, isDigit c = true)
    (hF : ∀ c ∈ F, isDigit c = true) :
    ∀ c ∈ I ++ '.' :: F, isDigit c = true ∨ c = '.' := by
  intro c hc
  simp only [List.mem_append, List.mem_cons] at hc
  rcases hc with hc | rfl | hc
  · exact Or.inl (hI c hc)
  · exact Or.inr rfl
  · exact Or.inl (hF c hc)

theorem fraction_count (k : Nat) : (if -(k : Int) < 0 then -(k : Int) else 0) = -(k : Int) := by
  by_cases hk : (-(k : Int)) < 0
  · simp [hk]
  · have : (k : Int) = 0 := by omega
    simp [this]

/-- Leading zeros do not change the number written. -/
theorem positional_replicate_zero (n : Nat) (l : List Char) :
    positional 10 (List.replicate n '0' ++ l) = positional 10 l := by
  unfold positional
  rw [List.foldl_append]
  congr 1
  induction n with
  | zero => rfl
  | succ n ih =>
    rw [List.replicate_succ, List.foldl_cons]
    have h0 : 0 * 10 + hexDigitValue '0' = 0 := by decide
    rw [h0]
    exact ih

theorem replicate_zero_digits (n : Nat) (l : List Char) (hl : ∀ c ∈ l, isDigit c = true) :
    ∀ c ∈ List.replicate n '0' ++ l, isDigit c = true := by
  intro c hc
  rcases List.mem_append.1 hc with h | h
  · rw [(List.mem_replicate.1 h).2]; decide
  · exact hl c h

/-- `ParseDecimal` on `0.` followed by `n` zeros and further digits `l` that
write a non-zero number: rejected when there are more than `10^6` fraction
digits, accepted otherwise. -/
theorem ParseDecimal_small_fraction (n : Nat) (l : List Char)
    (hl : ∀ c ∈ l, isDigit c = true) (hv : positional 10 l ≠ 0) :
    (n + l.length ≤ 1000000 →
      ∃ v, ParseDecimal ('0' :: '.' :: (List.replicate n '0' ++ l)) = Outcome.ok v) ∧
    (1000000 < n + l.length → n + l.length < 9223372036854775808 →
      ParseDecimal ('0' :: '.' :: (List.replicate n '0' ++ l)) =
        Outcome.err (CalcError.ParseError "Invalid decimal format" 0)) := by
  have hF := replicate_zero_digits n l hl
  have hI : ∀ c ∈ ['0'], isDigit c = true := by decide
  have hm : positional 10 (['0'] ++ (List.replicate n '0' ++ l)) ≠ 0 := by
    have he : ['0'] ++ (List.replicate n '0' ++ l) = List.replicate (n + 1) '0' ++ l := by
      rw [List.replicate_succ]; rfl
    rw [he, positional_replicate_zero]
    exact hv
  have hlen : (List.replicate n '0' ++ l).length = n + l.length := by
    rw [List.length_append, List.length_replicate]
  have hne : ['0'] ++ '.' :: (List.replicate n '0' ++ l) ≠ [] := by
    intro h; cases h
  constructor
  · intro hk
    have h := ParseDecimal_decimal false (['0'] ++ '.' :: (List.replicate n '0' ++ l))
      _ (List.replicate n '0' ++ l).length _ (point_body _ _ hI hF) hne
      (natScan_decimal_point ['0'] _ hI hF (by intro h; cases h)) (fraction_count _)
      (Or.inl (by rw [hlen]; exact hk))
    exact ⟨_, h⟩
  · intro hk hk2
    exact ParseDecimal_decimal_fail false (['0'] ++ '.' :: (List.replicate n '0' ++ l))
      _ (List.replicate n '0' ++ l).length _ (point_body _ _ hI hF) hne
      (natScan_decimal_point ['0'] _ hI hF (by intro h; cases h)) (fraction_count _) hm
      (by rw [hlen]; exact hk) (by rw [hlen]; exact hk2)

/-- The guards of `Rat.SetString` at work: an exponent outside `int64` is an
error even after a zero mantissa, a power of five beyond `10^6` and a power of
two beyond `10^7` are refused, and the bounds themselves pass. -/
theorem RatSetString_guards :
    RatSetString ("0p99999999999999999999".toList) = none ∧
    RatSetString ("1e1000001".toList) = none ∧
    RatSetString ("1e-1000001".toList) = none ∧
    RatSetString ("1p10000001".toList) = none ∧
    RatSetString ("0e1000001".toList) = some 0 ∧
    (RatSetString ("1e-9223372036854775808".toList)) = none := by
  refine ⟨by decide, by decide, by decide, by decide, ?_, by decide⟩
  unfold RatSetString
  rw [if_neg (by decide), if_neg (by decide),
    show scanFloat ("0e1000001".toList) = some (false, 0, 1000001, 1000001) by decide]
  rfl

/-- C2, as stated, fails at `0.` followed by `10^6` zeros and a `1`: the text is
of the decimal grammar and `ParseDecimal` rejects it, `Rat.SetString` refusing a
power of five beyond `10^6`. -/
theorem C2_long_fraction_rejected :
    (∀ c ∈ List.replicate 1000000 '0' ++ ['1'], isDigit c = true) ∧
    ParseDecimal ('0' :: '.' :: (List.replicate 1000000 '0' ++ ['1'])) =
      Outcome.err (CalcError.ParseError "Invalid decimal format" 0) :=
  ⟨replicate_zero_digits 1000000 ['1'] (by decide),
   (ParseDecimal_small_fraction 1000000 ['1'] (by decide) (by decide)).2
     (Nat.lt_succ_self 1000000) (by decide)⟩

/-- C2, amended: on a text of the decimal grammar (optional `-`, integer digits
`I`, optionally `.` and fraction digits `F`, not both empty) with at most `10^6`
fraction digits, or with only zero digits, `ParseDecimal` succeeds with exactly
`sign * N / 10^|F|`, `N` being the base-10 number written by the digits of `I`
followed by those of `F`; with more than `10^6` fraction digits and a non-zero
digit it fails with a ParseError. -/
theorem C2_decimal_value (neg : Bool) (I F : List Char)
    (hI : ∀ c ∈ I, isDigit c = true) (hF : ∀ c ∈ F, isDigit c = true) :
    (I ≠ [] →
      ParseDecimal (if neg = true then '-' :: I else I) =
        Outcome.ok (if neg = true then -(positional 10 I : ℚ) else (positional 10 I : ℚ))) ∧
    (I ++ F ≠ [] → F.length ≤ 1000000 ∨ positional 10 (I ++ F) = 0 →
      ParseDecimal (if neg = true then '-' :: (I ++ '.' :: F) else I ++ '.' :: F) =
        Outcome.ok (if neg = true then -((positional 10 (I ++ F) : ℚ) / 10 ^ F.length)
          else (positional 10 (I ++ F) : ℚ) / 10 ^ F.length)) ∧
    (1000000 < F.length → F.length < 9223372036854775808 → positional 10 (I ++ F) ≠ 0 →
      ParseDecimal (if neg = true then '-' :: (I ++ '.' :: F) else I ++ '.' :: F) =
        Outcome.err (CalcError.ParseError "Invalid decimal format" 0)) := by
  refine ⟨?_, ?_, ?_⟩
  · intro hne
    have hd : (if (I.length : Int) < 0 then (I.length : Int) else 0) = -((0 : Nat) : Int) := by
      have : ¬ ((I.length : Int) < 0) := by omega
      simp [this]
    have h := ParseDecimal_decimal neg I _ 0 _ (fun c hc => Or.inl (hI c hc)) hne
      (natScan_decimal_int I hI hne) hd (Or.inl (by omega))
    simpa using h
  · intro hne hk
    exact ParseDecimal_decimal neg (I ++ '.' :: F) _ F.length _ (point_body I F hI hF)
      (by simp) (natScan_decimal_point I F hI hF hne) (fraction_count _) hk
  · intro hk hk2 hm
    have hne : I ++ F ≠ [] := by
      intro h0
      rw [h0] at hm
      exact hm rfl
    exact ParseDecimal_decimal_fail neg (I ++ '.' :: F) _ F.length _ (point_body I F hI hF)
      (by simp) (natScan_decimal_point I F hI hF hne) (fraction_count _) hm hk hk2

/-- C2 (amended) at the literals `0.1`, `-3.14`, `.5`, `5.` and `42`: the values
1/10, -157/50, 1/2, 5 and 42. -/
theorem C2_decimal_value_witness :
    ParseDecimal ['0', '.', '1'] = Outcome.ok (1 / 10) ∧
    ParseDecimal ['-', '3', '.', '1', '4'] = Outcome.ok (-157 / 50) ∧
    ParseDecimal ['.', '5'] = Outcome.ok (1 / 2) ∧
    ParseDecimal ['5', '.'] = Outcome.ok 5 ∧
    ParseDecimal ['4', '2'] = Outcome.ok 42 := by
  have h1 := (C2_decimal_value false ['0'] ['1'] (by decide) (by decide)).2.1 (by decide)
    (Or.inl (by decide))
  have h2 := (C2_decimal_value true ['3'] ['1', '4'] (by decide) (by decide)).2.1 (by decide)
    (Or.inl (by decide))
  have h3 := (C2_decimal_value false [] ['5'] (by decide) (by decide)).2.1 (by decide)
    (Or.inl (by decide))
  have h4 := (C2_decimal_value false ['5'] [] (by decide) (by decide)).2.1 (by decide)
    (Or.inl (by decide))
  have h5 := (C2_decimal_value false ['4', '2'] [] (by decide) (by decide)).1 (by decide)
  have v1 : positional 10 (['0'] ++ ['1']) = 1 := by decide
  have v2 : positional 10 (['3'] ++ ['1', '4']) = 314 := by decide
  have v3 : positional 10 ([] ++ ['5']) = 5 := by decide
  have v4 : positional 10 (['5'] ++ []) = 5 := by decide
  have v5 : positional 10 ['4', '2'] = 42 := by decide
  rw [v1] at h1; rw [v2] at h2; rw [v3] at h3; rw [v4] at h4; rw [v5] at h5
  refine ⟨?_, ?_, ?_, ?_, ?_⟩
  · simp only [Bool.false_eq_true, if_false, List.cons_append, List.nil_append] at h1
    rw [h1]; norm_num
  · simp only [if_true, List.cons_append, List.nil_append] at h2
    rw [h2]; norm_num
  · simp only [Bool.false_eq_true, if_false, List.nil_append] at h3
    rw [h3]; norm_num
  · simp only [Bool.false_eq_true, if_false, List.cons_append, List.nil_append] at h4
    rw [h4]; norm_num
  · simp only [Bool.false_eq_true, if_false] at h5
    rw [h5]; norm_num

/-! ## Shunting-yard conversion against the reference infix value -/

theorem popOperators_mono (st : List Token) :
    ∀ (output out2 rest : List Token), popOperators 2 output st = some (out2, rest) →
      popOperators 1 output st = popOperators 1 out2 rest := by
  induction st with
  | nil =>
    intro output out2 rest h
    simp only [popOperators, Option.some.injEq, Prod.mk.injEq] at h
    rw [← h.1, ← h.2]
  | cons top st ih =>
    intro output out2 rest h
    unfold popOperators at h
    cases hb : firstByte top.Value with
    | none => simp [hb] at h
    | some r =>
      simp only [hb] at h
      by_cases hp : (OperatorMap r).Precedence ≥ 2
      · simp only [hp, if_true] at h
        have hp1 : (OperatorMap r).Precedence ≥ 1 := by omega
        rw [← ih _ _ _ h]
        conv_lhs => unfold popOperators
        simp only [hb, hp1, if_true]
      · simp only [hp, if_false, Option.some.injEq, Prod.mk.injEq] at h
        rw [← h.1, ← h.2]

theorem popOperators_append (p : Nat) (st : List Token) :
    ∀ (output out rest : List Token), popOperators p output st = some (out, rest) →
      out ++ rest = output ++ st := by
  induction st with
  | nil =>
    intro output out rest h
    simp only [popOperators, Option.some.injEq, Prod.mk.injEq] at h
    rw [← h.1, ← h.2]
  | cons top st ih =>
    intro output out rest h
    unfold popOperators at h
    cases hb : firstByte top.Value with
    | none => simp [hb] at h
    | some r =>
      simp only [hb] at h
      by_cases hp : (OperatorMap r).Precedence ≥ p
      · simp only [hp, if_true] at h
        rw [ih _ _ _ h]; simp
      · simp only [hp, if_false, Option.some.injEq, Prod.mk.injEq] at h
        rw [← h.1, ← h.2]

theorem evalLoop_number (n : Token) (v : ℚ) (S : List ℚ)
    (hn : n.Typ = TokenType.NumberToken) (hv : parseNumberValue n = Outcome.ok v) :
    evalLoop [n] S = Outcome.ok (v :: S) := by
  simp [evalLoop, evalStep_number n v S hn hv]

theorem evalLoop_operator (o : Token) (r : Nat) (y x res : ℚ) (B : List ℚ)
    (ho : o.Typ = TokenType.OperatorToken) (hr : firstByte o.Value = some r)
    (hop : performOperation x y r o.Position = Outcome.ok res) :
    evalLoop [o] (y :: x :: B) = Outcome.ok (res :: B) := by
  simp [evalLoop, evalStep_operator o r y x B ho hr, hop]

theorem AddOps_nil : AddOps [] [] 0 false := by
  refine ⟨fun x => rfl, fun x => by simp [popOperators], fun y => ?_⟩
  simp [evalLoop]

theorem AddOps_single (o : Token) (r : Nat) (total : ℚ) (neg : Bool)
    (ho : o.Typ = TokenType.OperatorToken) (hr : firstByte o.Value = some r)
    (hcase : (r = '+'.toNat ∧ neg = false) ∨ (r = '-'.toNat ∧ neg = true)) :
    AddOps [o] [total] total neg := by
  have hprec : (OperatorMap r).Precedence = 1 := by
    rcases hcase with ⟨rfl, _⟩ | ⟨rfl, _⟩ <;> decide
  refine ⟨fun x => ?_, fun x => ?_, fun y => ?_⟩
  · simp [popOperators, hr, hprec]
  · simp [popOperators, hr, hprec]
  · rcases hcase with ⟨rfl, rfl⟩ | ⟨rfl, rfl⟩
    · rw [evalLoop_operator o _ y total (total + y) [] ho hr (by simp [performOperation])]
      simp
    · rw [evalLoop_operator o _ y total (total - y) [] ho hr (by
        simp [performOperation])]
      simp

theorem ShuntInv_init (n0 : Token) (v : ℚ) (hn : n0.Typ = TokenType.NumberToken)
    (hv : parseNumberValue n0 = Outcome.ok v) : ShuntInv [n0] [] 0 false v :=
  ⟨[n0], [], [], rfl, evalLoop_number n0 v [] hn hv, AddOps_nil⟩

/-- One operator/operand pair: the pop performed by `InfixToPostfix` keeps the
invariant in step with the reference state. -/
theorem ShuntInv_step (output opStack : List Token) (sum : ℚ) (neg : Bool) (term : ℚ)
    (o n : Token) (r : Nat) (v : ℚ) (sum1 : ℚ) (neg1 : Bool) (term1 : ℚ)
    (hinv : ShuntInv output opStack sum neg term)
    (ho : o.Typ = TokenType.OperatorToken) (hn : n.Typ = TokenType.NumberToken)
    (hr : firstByte o.Value = some r) (hv : parseNumberValue n = Outcome.ok v)
    (hstep : infixStep sum neg term r v = some (sum1, neg1, term1)) :
    ∃ output1 stack1,
      popOperators (OperatorMap r).Precedence output opStack = some (output1, stack1) ∧
      ShuntInv (output1 ++ [n]) (o :: stack1) sum1 neg1 term1 := by
  obtain ⟨out2, addops, B, hpop, hev, hadd⟩ := hinv
  obtain ⟨ha2, ha1, haev⟩ := hadd
  have hpop1 : popOperators 1 output opStack = some (out2 ++ addops, []) := by
    rw [popOperators_mono _ _ _ _ hpop, ha1]
  have hflush : evalLoop (out2 ++ addops) [] =
      Outcome.ok [if neg then sum - term else sum + term] := by
    rw [evalLoop_append, hev]; exact haev term
  -- the state after an additive operator
  have hadditive : ∀ (negNew : Bool),
      ((r = '+'.toNat ∧ negNew = false) ∨ (r = '-'.toNat ∧ negNew = true)) →
      ∃ output1 stack1,
        popOperators (OperatorMap r).Precedence output opStack = some (output1, stack1) ∧
        ShuntInv (output1 ++ [n]) (o :: stack1)
          (if neg then sum - term else sum + term) negNew v := by
    intro negNew hcase
    have hprec : (OperatorMap r).Precedence = 1 := by
      rcases hcase with ⟨rfl, _⟩ | ⟨rfl, _⟩ <;> decide
    refine ⟨out2 ++ addops, [], by rw [hprec]; exact hpop1, ?_⟩
    refine ⟨out2 ++ addops ++ [n], [o], [if neg then sum - term else sum + term], ?_, ?_,
      AddOps_single o r _ negNew ho hr hcase⟩
    · simp [popOperators, hr, hprec]
    · rw [evalLoop_append, hflush]
      exact evalLoop_number n v _ hn hv
  -- the state after a multiplicative operator
  have hmult : ∀ (res : ℚ), (OperatorMap r).Precedence = 2 →
      (∀ pos, performOperation term v r pos = Outcome.ok res) →
      ∃ output1 stack1,
        popOperators (OperatorMap r).Precedence output opStack = some (output1, stack1) ∧
        ShuntInv (output1 ++ [n]) (o :: stack1) sum neg res := by
    intro res hprec hop
    refine ⟨out2, addops, by rw [hprec]; exact hpop, ?_⟩
    refine ⟨out2 ++ [n] ++ [o], addops, B, ?_, ?_, ha2, ha1, haev⟩
    · rw [popOperators]
      simp only [hr, hprec, ge_iff_le, le_refl, if_true]
      exact ha2 _
    · rw [evalLoop_append, evalLoop_append, hev]
      simp only [evalLoop_number n v _ hn hv]
      exact evalLoop_operator o r v term res B ho hr (hop _)
  unfold infixStep at hstep
  by_cases h1 : r = '+'.toNat
  · simp only [h1, if_true, Option.some.injEq, Prod.mk.injEq] at hstep
    obtain ⟨rfl, rfl, rfl⟩ := hstep
    exact hadditive false (Or.inl ⟨h1, rfl⟩)
  · by_cases h2 : r = '-'.toNat
    · simp only [h1, h2, if_true, if_false, Option.some.injEq, Prod.mk.injEq] at hstep
      have h2b : ('-'.toNat = '+'.toNat) = False := by simp
      simp only [h2b, if_false, Option.some.injEq, Prod.mk.injEq] at hstep
      obtain ⟨rfl, rfl, rfl⟩ := hstep
      exact hadditive true (Or.inr ⟨h2, rfl⟩)
    · by_cases h3 : r = 'x'.toNat
      · simp only [h1, h2, h3, if_true, if_false, Option.some.injEq, Prod.mk.injEq] at hstep
        obtain ⟨rfl, rfl, rfl⟩ := hstep
        subst h3
        exact hmult _ (by decide) (fun pos => by simp [performOperation])
      · by_cases h4 : r = '/'.toNat
        · simp only [h1, h2, h3, h4, if_true, if_false] at hstep
          by_cases hz : v = 0
          · simp [hz] at hstep
          · simp only [hz, if_false, Option.some.injEq, Prod.mk.injEq] at hstep
            obtain ⟨rfl, rfl, rfl⟩ := hstep
            subst h4
            exact hmult _ (by decide) (fun pos => by simp [performOperation, hz])
        · rw [if_neg h1, if_neg h2, if_neg h3, if_neg h4] at hstep
          cases hstep

/-- The loop of `InfixToPostfix` over the rest of a well-shaped sequence ends
in an output and operator stack whose concatenation evaluates to the reference
value. -/
theorem infixLoop_correct (rest : List Token) (halt : AltTail rest) :
    ∀ (output opStack : List Token) (sum : ℚ) (neg : Bool) (term v : ℚ),
      ShuntInv output opStack sum neg term →
      infixGo (sum, neg, term) rest = some v →
      ∃ out st, infixLoop rest output opStack = some (out, st) ∧
        evalLoop (out ++ st) [] = Outcome.ok [v] := by
  induction halt with
  | nil =>
    intro output opStack sum neg term v hinv hgo
    simp only [infixGo, Option.some.injEq] at hgo
    obtain ⟨out2, addops, B, hpop, hev, ha2, ha1, haev⟩ := hinv
    refine ⟨output, opStack, rfl, ?_⟩
    rw [← popOperators_append _ _ _ _ _ hpop, evalLoop_append, hev, ← hgo]
    exact haev term
  | cons o n rest ho hn _ ih =>
    intro output opStack sum neg term v hinv hgo
    rw [infixGo] at hgo
    cases hr : firstByte o.Value with
    | none => simp [hr] at hgo
    | some r =>
      cases hv : parseNumberValue n with
      | err e => simp [hr, hv] at hgo
      | fault => simp [hr, hv] at hgo
      | ok vn =>
        simp only [hr, hv] at hgo
        cases hs : infixStep sum neg term r vn with
        | none => simp [hs] at hgo
        | some st1 =>
          obtain ⟨sum1, neg1, term1⟩ := st1
          simp only [hs] at hgo
          obtain ⟨output1, stack1, hpop, hinv1⟩ :=
            ShuntInv_step output opStack sum neg term o n r vn sum1 neg1 term1
              hinv ho hn hr hv hs
          obtain ⟨out, st, hl, he⟩ := ih _ _ _ _ _ _ hinv1 hgo
          refine ⟨out, st, ?_, he⟩
          rw [infixLoop]
          simp only [ho, hr, hpop]
          rw [infixLoop]
          simp only [hn]
          exact hl

theorem AltTail_of_parity : ∀ (rest : List Token), rest.length % 2 = 0 →
    (∀ (i : Nat) (t : Token), rest[i]? = some t →
      (i % 2 = 0 → t.Typ = TokenType.OperatorToken) ∧
      (i % 2 = 1 → t.Typ = TokenType.NumberToken)) → AltTail rest
  | [], _, _ => AltTail.nil
  | [_], hl, _ => absurd hl (by simp)
  | o :: n :: rest, hl, h =>
    AltTail.cons o n rest ((h 0 o (by simp)).1 rfl) ((h 1 n (by simp)).2 rfl)
      (AltTail_of_parity rest (by simp only [List.length_cons] at hl; omega)
        (fun i t hi => by
          have h2 := h (i + 2) t (by simpa using hi)
          exact ⟨fun h0 => h2.1 (by omega), fun h1 => h2.2 (by omega)⟩))

theorem WellShaped_cons (tokens : List Token) (h : WellShaped tokens) :
    ∃ n0 rest, tokens = n0 :: rest ∧ n0.Typ = TokenType.NumberToken ∧ AltTail rest := by
  obtain ⟨hlen, halt⟩ := h
  cases tokens with
  | nil => simp at hlen
  | cons n0 rest =>
    refine ⟨n0, rest, rfl, (halt 0 n0 (by simp)).1 rfl, ?_⟩
    apply AltTail_of_parity rest (by simp only [List.length_cons] at hlen; omega)
    intro i t hi
    have h2 := halt (i + 1) t (by simpa using hi)
    exact ⟨fun h0 => h2.2 (by omega), fun h1 => h2.1 (by omega)⟩

theorem ParseExpression_ok_shape (tokens : List Token) (e : Expression)
    (h : ParseExpression tokens = Outcome.ok e) :
    WellShaped tokens ∧ InfixToPostfix tokens = Outcome.ok e.PostfixTokens := by
  cases tokens with
  | nil => simp [ParseExpression] at h
  | cons first rest =>
    obtain ⟨last, hl1, hl2⟩ : ∃ last, (first :: rest).getLast? = some last ∧
        (first :: rest)[rest.length]? = some last := by
      refine ⟨(first :: rest).getLast (by simp), List.getLast?_eq_getLast _ _, ?_⟩
      rw [List.getLast_eq_getElem]
      simp
    simp only [ParseExpression, List.head?_cons, hl1] at h
    by_cases h1 : first.Typ = TokenType.NumberToken
    · by_cases h2 : last.Typ = TokenType.NumberToken
      · simp only [h1, h2, ne_eq, not_true_eq_false, if_false] at h
        cases hc : checkAlternation 0 (first :: rest) with
        | some e2 => simp [hc] at h
        | none =>
          simp only [hc] at h
          have halt := (checkAlternation_none _ 0).1 hc
          cases hi : InfixToPostfix (first :: rest) with
          | err e3 => simp [hi] at h
          | fault => simp [hi] at h
          | ok ts =>
            simp only [hi, Outcome.ok.injEq] at h
            refine ⟨⟨?_, fun i t hit => by simpa using halt i t hit⟩, by rw [← h]⟩
            have := halt rest.length last hl2
            simp only [List.length_cons]
            by_contra hodd
            have h3 := this.2 (by omega)
            rw [h2] at h3; cases h3
      · simp [h1, h2] at h
    · simp [h1] at h

/-- C1: for a token sequence accepted by `ParseExpression` whose reference infix
value is defined (every literal parses, every operator symbol is one of
`+ - x /`, no division by zero), evaluating the postfix form produced by
`InfixToPostfix` gives exactly the reference infix value, in which `x` and `/`
bind tighter than `+` and `-` and equal precedence applies left to right. -/
theorem C1_postfix_value_eq_infix_value (tokens : List Token) (e : Expression) (v : ℚ)
    (hp : ParseExpression tokens = Outcome.ok e) (hv : infixValue tokens = some v) :
    InfixToPostfix tokens = Outcome.ok e.PostfixTokens ∧
    EvaluatePostfix e.PostfixTokens = Outcome.ok v := by
  obtain ⟨hshape, hpost⟩ := ParseExpression_ok_shape tokens e hp
  refine ⟨hpost, ?_⟩
  obtain ⟨n0, rest, rfl, hn0, halt⟩ := WellShaped_cons tokens hshape
  rw [infixValue] at hv
  cases hv0 : parseNumberValue n0 with
  | err e1 => simp [hv0] at hv
  | fault => simp [hv0] at hv
  | ok v0 =>
    simp only [hv0] at hv
    obtain ⟨out, st, hl, he⟩ := infixLoop_correct rest halt [n0] [] 0 false v0 v
      (ShuntInv_init n0 v0 hn0 hv0) hv
    have hloop : infixLoop (n0 :: rest) [] [] = some (out, st) := by
      rw [infixLoop]
      simp only [hn0, List.nil_append]
      exact hl
    have hpost2 : e.PostfixTokens = out ++ st := by
      have : InfixToPostfix (n0 :: rest) = Outcome.ok (out ++ st) := by
        simp [InfixToPostfix, hloop]
      rw [this] at hpost
      exact (Outcome.ok.inj hpost).symm
    rw [hpost2]
    simp [EvaluatePostfix, he]

/-- Value of an unsigned decimal integer literal. -/
theorem parseNumberValue_nat (I : List Char) (ty : TokenType) (p : Nat)
    (hI : ∀ c ∈ I, isDigit c = true) (hne : I ≠ []) :
    parseNumberValue ⟨ty, I, p⟩ = Outcome.ok (positional 10 I : ℚ) := by
  have h0 : I.take 2 ≠ ['0', 'x'] := by
    intro h
    have hx : 'x' ∈ I.take 2 := by rw [h]; simp
    exact absurd (hI 'x' (List.mem_of_mem_take hx)) (by decide)
  have h1 : I.take 3 ≠ ['-', '0', 'x'] := by
    intro h
    have hx : 'x' ∈ I.take 3 := by rw [h]; simp
    exact absurd (hI 'x' (List.mem_of_mem_take hx)) (by decide)
  have hd : (if (I.length : Int) < 0 then (I.length : Int) else 0) = -((0 : Nat) : Int) := by
    have : ¬ ((I.length : Int) < 0) := by omega
    simp [this]
  have h := ParseDecimal_decimal false I _ 0 _ (fun c hc => Or.inl (hI c hc)) hne
    (natScan_decimal_int I hI hne) hd (Or.inl (by omega))
  simp only [Bool.false_eq_true, if_false, pow_zero, div_one] at h
  simp only [parseNumberValue, h0, h1, if_false, h]

/-- C1 at the tokens of `2 + 3 x 4`, `20 / 4 + 1` and `10 - 2 x 3 + 1`: the
postfix forms evaluate to 14, 6 and 5. -/
theorem C1_postfix_value_eq_infix_value_witness :
    EvaluatePostfix [⟨TokenType.NumberToken, ['2'], 0⟩, ⟨TokenType.NumberToken, ['3'], 4⟩,
      ⟨TokenType.NumberToken, ['4'], 8⟩, ⟨TokenType.OperatorToken, ['x'], 6⟩,
      ⟨TokenType.OperatorToken, ['+'], 2⟩] = Outcome.ok 14 ∧
    EvaluatePostfix [⟨TokenType.NumberToken, ['2', '0'], 0⟩, ⟨TokenType.NumberToken, ['4'], 5⟩,
      ⟨TokenType.OperatorToken, ['/'], 3⟩, ⟨TokenType.NumberToken, ['1'], 9⟩,
      ⟨TokenType.OperatorToken, ['+'], 7⟩] = Outcome.ok 6 ∧
    EvaluatePostfix [⟨TokenType.NumberToken, ['1', '0'], 0⟩, ⟨TokenType.NumberToken, ['2'], 5⟩,
      ⟨TokenType.NumberToken, ['3'], 9⟩, ⟨TokenType.OperatorToken, ['x'], 7⟩,
      ⟨TokenType.OperatorToken, ['-'], 3⟩, ⟨TokenType.NumberToken, ['1'], 13⟩,
      ⟨TokenType.OperatorToken, ['+'], 11⟩] = Outcome.ok 5 := by
  have p1 : ∀ q, parseNumberValue ⟨TokenType.NumberToken, ['1'], q⟩ = Outcome.ok 1 := by
    intro q
    have h := parseNumberValue_nat ['1'] TokenType.NumberToken q (by decide) (by decide)
    rw [show positional 10 ['1'] = 1 by decide] at h
    simpa using h
  have p2 : ∀ q, parseNumberValue ⟨TokenType.NumberToken, ['2'], q⟩ = Outcome.ok 2 := by
    intro q
    have h := parseNumberValue_nat ['2'] TokenType.NumberToken q (by decide) (by decide)
    rw [show positional 10 ['2'] = 2 by decide] at h
    simpa using h
  have p3 : ∀ q, parseNumberValue ⟨TokenType.NumberToken, ['3'], q⟩ = Outcome.ok 3 := by
    intro q
    have h := parseNumberValue_nat ['3'] TokenType.NumberToken q (by decide) (by decide)
    rw [show positional 10 ['3'] = 3 by decide] at h
    simpa using h
  have p4 : ∀ q, parseNumberValue ⟨TokenType.NumberToken, ['4'], q⟩ = Outcome.ok 4 := by
    intro q
    have h := parseNumberValue_nat ['4'] TokenType.NumberToken q (by decide) (by decide)
    rw [show positional 10 ['4'] = 4 by decide] at h
    simpa using h
  have p10 : ∀ q, parseNumberValue ⟨TokenType.NumberToken, ['1', '0'], q⟩ = Outcome.ok 10 := by
    intro q
    have h := parseNumberValue_nat ['1', '0'] TokenType.NumberToken q (by decide) (by decide)
    rw [show positional 10 ['1', '0'] = 10 by decide] at h
    simpa using h
  have p20 : ∀ q, parseNumberValue ⟨TokenType.NumberToken, ['2', '0'], q⟩ = Outcome.ok 20 := by
    intro q
    have h := parseNumberValue_nat ['2', '0'] TokenType.NumberToken q (by decide) (by decide)
    rw [show positional 10 ['2', '0'] = 20 by decide] at h
    simpa using h
  have e1 : '+'.toNat = 43 := rfl
  have e2 : '-'.toNat = 45 := rfl
  have e3 : 'x'.toNat = 120 := rfl
  have e4 : '/'.toNat = 47 := rfl
  have bplus : firstByte ['+'] = some 43 := by decide
  have bminus : firstByte ['-'] = some 45 := by decide
  have btimes : firstByte ['x'] = some 120 := by decide
  have bdiv : firstByte ['/'] = some 47 := by decide
  refine ⟨?_, ?_, ?_⟩
  · refine (C1_postfix_value_eq_infix_value
      [⟨TokenType.NumberToken, ['2'], 0⟩, ⟨TokenType.OperatorToken, ['+'], 2⟩,
       ⟨TokenType.NumberToken, ['3'], 4⟩, ⟨TokenType.OperatorToken, ['x'], 6⟩,
       ⟨TokenType.NumberToken, ['4'], 8⟩]
      ⟨[], _, [⟨TokenType.NumberToken, ['2'], 0⟩, ⟨TokenType.NumberToken, ['3'], 4⟩,
        ⟨TokenType.NumberToken, ['4'], 8⟩, ⟨TokenType.OperatorToken, ['x'], 6⟩,
        ⟨TokenType.OperatorToken, ['+'], 2⟩], none⟩ 14 rfl ?_).2
    norm_num [infixValue, infixGo, infixStep, e1, e2, e3, e4, p2, p3, p4, bplus, btimes]
  · refine (C1_postfix_value_eq_infix_value
      [⟨TokenType.NumberToken, ['2', '0'], 0⟩, ⟨TokenType.OperatorToken, ['/'], 3⟩,
       ⟨TokenType.NumberToken, ['4'], 5⟩, ⟨TokenType.OperatorToken, ['+'], 7⟩,
       ⟨TokenType.NumberToken, ['1'], 9⟩]
      ⟨[], _, [⟨TokenType.NumberToken, ['2', '0'], 0⟩, ⟨TokenType.NumberToken, ['4'], 5⟩,
        ⟨TokenType.OperatorToken, ['/'], 3⟩, ⟨TokenType.NumberToken, ['1'], 9⟩,
        ⟨TokenType.OperatorToken, ['+'], 7⟩], none⟩ 6 rfl ?_).2
    norm_num [infixValue, infixGo, infixStep, e1, e2, e3, e4, p20, p4, p1, bplus, bdiv]
  · refine (C1_postfix_value_eq_infix_value
      [⟨TokenType.NumberToken, ['1', '0'], 0⟩, ⟨TokenType.OperatorToken, ['-'], 3⟩,
       ⟨TokenType.NumberToken, ['2'], 5⟩, ⟨TokenType.OperatorToken, ['x'], 7⟩,
       ⟨TokenType.NumberToken, ['3'], 9⟩, ⟨TokenType.OperatorToken, ['+'], 11⟩,
       ⟨TokenType.NumberToken, ['1'], 13⟩]
      ⟨[], _, [⟨TokenType.NumberToken, ['1', '0'], 0⟩, ⟨TokenType.NumberToken, ['2'], 5⟩,
        ⟨TokenType.NumberToken, ['3'], 9⟩, ⟨TokenType.OperatorToken, ['x'], 7⟩,
        ⟨TokenType.OperatorToken, ['-'], 3⟩, ⟨TokenType.NumberToken, ['1'], 13⟩,
        ⟨TokenType.OperatorToken, ['+'], 11⟩], none⟩ 5 rfl ?_).2
    norm_num [infixValue, infixGo, infixStep, e1, e2, e3, e4, p10, p2, p3, p1, bplus, bminus, btimes]

/-! ## Termination of the tokenizer -/

/-- `Tokenize` returns on every input: the loop never exhausts its bound. -/
theorem Tokenize_total (s : List Char) : ∃ r, Tokenize s = some r := by
  unfold Tokenize
  split
  · exact ⟨_, rfl⟩
  · split
    · exact ⟨_, rfl⟩
    · exact tokenizeLoop_total _ _ _ _ (Nat.lt_succ_self _)

/-! ## Number parsers: rejected and padded texts -/

theorem mem_dropWhile_of_not (p : Char → Bool) (c : Char) (hc : p c = false) :
    ∀ l : List Char, c ∈ l → c ∈ l.dropWhile p := by
  intro l
  induction l with
  | nil => intro h; exact h
  | cons a t ih =>
    intro h
    by_cases ha : p a = true
    · rw [List.dropWhile_cons_of_pos ha]
      rcases List.mem_cons.1 h with rfl | h
      · rw [ha] at hc; cases hc
      · exact ih h
    · rw [List.dropWhile_cons_of_neg ha]; exact h

theorem mem_TrimSpace (s : List Char) (c : Char) (hc : unicodeIsSpace c = false)
    (h : c ∈ s) : c ∈ TrimSpace s := by
  unfold TrimSpace
  apply List.mem_reverse.2
  apply mem_dropWhile_of_not _ _ hc
  apply List.mem_reverse.2
  exact mem_dropWhile_of_not _ _ hc _ h

/-- C17: `ParseDecimal` returns a ParseError for the empty string, for every
whitespace-only string and for every text containing `e` or `E`. -/
theorem C17_decimal_rejects_blank_and_exponent :
    ParseDecimal [] = Outcome.err (CalcError.ParseError "Empty decimal number" 0) ∧
    (∀ s : List Char, Blank s →
      ParseDecimal s = Outcome.err (CalcError.ParseError "Empty decimal number" 0)) ∧
    (∀ s : List Char, ('e' ∈ s ∨ 'E' ∈ s) →
      ∃ m p, ParseDecimal s = Outcome.err (CalcError.ParseError m p)) := by
  refine ⟨by decide, ?_, ?_⟩
  · intro s hb
    unfold ParseDecimal
    simp [(TrimSpace_eq_nil_iff s).2 hb]
  · intro s hs
    have hmem : 'e' ∈ TrimSpace s ∨ 'E' ∈ TrimSpace s := by
      rcases hs with h | h
      · exact Or.inl (mem_TrimSpace s 'e' (by decide) h)
      · exact Or.inr (mem_TrimSpace s 'E' (by decide) h)
    have hne : TrimSpace s ≠ [] := by
      intro h0
      rw [h0] at hmem
      simp at hmem
    have hc : ((TrimSpace s).contains 'e' || (TrimSpace s).contains 'E') = true := by
      rcases hmem with h | h
      · simp [h]
      · simp [h]
    unfold ParseDecimal
    simp only [hne, if_false, hc, if_true]
    exact ⟨_, _, rfl⟩

/-- C17 at the texts of three blanks and `123e10`. -/
theorem C17_decimal_rejects_blank_and_exponent_witness :
    ParseDecimal [' ', ' ', ' '] =
      Outcome.err (CalcError.ParseError "Empty decimal number" 0) ∧
    ∃ m p, ParseDecimal ['1', '2', '3', 'e', '1', '0'] =
      Outcome.err (CalcError.ParseError m p) :=
  ⟨C17_decimal_rejects_blank_and_exponent.2.1 [' ', ' ', ' '] (by unfold Blank; decide),
   C17_decimal_rejects_blank_and_exponent.2.2 ['1', '2', '3', 'e', '1', '0']
     (Or.inl (by decide))⟩

theorem positional_snoc_zero (l : List Char) :
    positional 10 (l ++ ['0']) = positional 10 l * 10 := by
  unfold positional
  rw [List.foldl_append]
  simp [hexDigitValue]

theorem cons_cons_append_snoc (a b : Char) (R l : List Char) (c : Char) :
    (a :: b :: (R ++ l)) ++ [c] = a :: b :: (R ++ (l ++ [c])) := by
  simp

/-- C19, as stated, fails at the literal `0.` followed by `999999` zeros and a
`1`: `ParseDecimal` accepts it, with its `10^6` fraction digits, and rejects the
literal padded with one more `0`. -/
theorem C19_padding_rejected_at_limit :
    (∃ v, ParseDecimal ('0' :: '.' :: (List.replicate 999999 '0' ++ ['1'])) = Outcome.ok v) ∧
    ParseDecimal (('0' :: '.' :: (List.replicate 999999 '0' ++ ['1'])) ++ ['0']) =
      Outcome.err (CalcError.ParseError "Invalid decimal format" 0) :=
  ⟨(ParseDecimal_small_fraction 999999 ['1'] (by decide) (by decide)).1 (Nat.le_refl 1000000),
   (cons_cons_append_snoc '0' '.' (List.replicate 999999 '0') ['1'] '0').symm ▸
     (ParseDecimal_small_fraction 999999 ['1', '0'] (by decide) (by decide)).2
       (Nat.lt_succ_self 1000000) (by decide)⟩

/-- C19, amended: for a decimal literal `d` with a decimal point (optional `-`,
digits `I`, `.`, digits `F`) that `ParseDecimal` accepts and that has fewer than
`10^6` fraction digits, or only zero digits, `ParseDecimal (d ++ "0")` succeeds
with the same rational: trailing zero padding keeps the value. -/
theorem C19_trailing_zero_padding (neg : Bool) (I F : List Char) (v : ℚ)
    (hI : ∀ c ∈ I, isDigit c = true) (hF : ∀ c ∈ F, isDigit c = true)
    (hlen : F.length < 1000000 ∨ positional 10 (I ++ F) = 0)
    (hd : ParseDecimal (if neg = true then '-' :: (I ++ '.' :: F) else I ++ '.' :: F) =
      Outcome.ok v) :
    ParseDecimal ((if neg = true then '-' :: (I ++ '.' :: F) else I ++ '.' :: F) ++ ['0']) =
      Outcome.ok v := by
  have hbody : ∀ G : List Char, (∀ c ∈ G, isDigit c = true) →
      ∀ c ∈ I ++ '.' :: G, isDigit c = true ∨ c = '.' := by
    intro G hG c hc
    simp only [List.mem_append, List.mem_cons] at hc
    rcases hc with hc | rfl | hc
    · exact Or.inl (hI c hc)
    · exact Or.inr rfl
    · exact Or.inl (hG c hc)
  have hcnt : ∀ k : Nat, (if -(k : Int) < 0 then -(k : Int) else 0) = -(k : Int) := by
    intro k
    by_cases hk : (-(k : Int)) < 0
    · simp [hk]
    · have : (k : Int) = 0 := by omega
      simp [this]
  by_cases hne : I ++ F = []
  · exfalso
    have hI0 : I = [] := (List.append_eq_nil.1 hne).1
    have hF0 : F = [] := (List.append_eq_nil.1 hne).2
    subst hI0; subst hF0
    cases neg
    · have : ParseDecimal ['.'] =
          Outcome.err (CalcError.ParseError "Invalid decimal format" 0) := by decide
      simp only [Bool.false_eq_true, if_false, List.nil_append] at hd
      rw [this] at hd; cases hd
    · have : ParseDecimal ['-', '.'] =
          Outcome.err (CalcError.ParseError "Invalid decimal format" 0) := by decide
      simp only [if_true, List.nil_append] at hd
      rw [this] at hd; cases hd
  · have hF2 : ∀ c ∈ F ++ ['0'], isDigit c = true := by
      intro c hc
      rcases List.mem_append.1 hc with hc | hc
      · exact hF c hc
      · simp only [List.mem_singleton] at hc
        rw [hc]; decide
    have hne2 : I ++ (F ++ ['0']) ≠ [] := by simp
    have hk1 : F.length ≤ 1000000 ∨ positional 10 (I ++ F) = 0 :=
      hlen.elim (fun h => Or.inl (by omega)) Or.inr
    have hk2 : (F ++ ['0']).length ≤ 1000000 ∨ positional 10 (I ++ (F ++ ['0'])) = 0 := by
      rcases hlen with h | h
      · left
        rw [List.length_append, List.length_singleton]
        omega
      · right
        rw [← List.append_assoc, positional_snoc_zero, h]
    have h1 := ParseDecimal_decimal neg (I ++ '.' :: F) _ F.length _ (hbody F hF) (by simp)
      (natScan_decimal_point I F hI hF hne) (hcnt _) hk1
    have h2 := ParseDecimal_decimal neg (I ++ '.' :: (F ++ ['0'])) _ (F ++ ['0']).length _
      (hbody _ hF2) (by simp) (natScan_decimal_point I (F ++ ['0']) hI hF2 hne2) (hcnt _) hk2
    have hshape : (if neg = true then '-' :: (I ++ '.' :: F) else I ++ '.' :: F) ++ ['0'] =
        if neg = true then '-' :: (I ++ '.' :: (F ++ ['0'])) else I ++ '.' :: (F ++ ['0']) := by
      cases neg <;> simp
    rw [hshape, h2]
    rw [h1] at hd
    have hv := Outcome.ok.inj hd
    rw [← hv, ← List.append_assoc, positional_snoc_zero]
    have hpow : (10 : ℚ) ^ (F ++ ['0']).length = 10 ^ F.length * 10 := by
      rw [List.length_append, List.length_singleton, pow_succ]
    rw [hpow]
    have h10 : (10 : ℚ) ^ F.length ≠ 0 := pow_ne_zero _ (by norm_num)
    congr 1
    cases neg
    · simp only [Bool.false_eq_true, if_false]
      push_cast
      field_simp
      ring
    · simp only [if_true]
      push_cast
      field_simp
      ring

/-- C19 (amended) at the literal `0.1`: `0.10` has the same value 1/10. -/
theorem C19_trailing_zero_padding_witness :
    ParseDecimal ['0', '.', '1'] = Outcome.ok (1 / 10) ∧
    ParseDecimal ['0', '.', '1', '0'] = Outcome.ok (1 / 10) := by
  have h1 : ParseDecimal ['0', '.', '1'] = Outcome.ok (1 / 10) := by
    have h := ParseDecimal_decimal false ['0', '.', '1'] 1 1 (-1) (by decide) (by decide)
      (by decide) (by decide) (Or.inl (by decide))
    simp only [Bool.false_eq_true, if_false] at h
    rw [h]; norm_num
  exact ⟨h1, C19_trailing_zero_padding false ['0'] ['1'] (1 / 10) (by decide) (by decide)
    (Or.inl (by decide)) h1⟩

/-! ## Calculate: pipeline evaluation at concrete inputs -/

/-- `Calculate` on a non-blank input whose trimmed text tokenizes and parses:
the result is the evaluation of the postfix tokens. -/
theorem Calculate_of_steps (s : List Char) (ts : List Token) (e : Expression)
    (h1 : TrimSpace s ≠ []) (h2 : Tokenize (TrimSpace s) = some (Outcome.ok ts))
    (h3 : ParseExpression ts = Outcome.ok e) :
    Calculate s = some (EvaluatePostfix e.PostfixTokens) := by
  unfold Calculate
  simp only [h1, if_false, h2, h3]

/-- `ParseHexadecimal` on a prefix `0x`/`0X` followed by hex digits, with and
without a leading `-`. -/
theorem ParseHexadecimal_hexDigits (h : List Char) (x : Char) (hne : h ≠ [])
    (hh : ∀ c ∈ h, isHexDigit c = true) (hx : x = 'x' ∨ x = 'X') :
    ParseHexadecimal ('0' :: x :: h) = Outcome.ok (((positional 16 h : Int) : ℚ)) ∧
    ParseHexadecimal ('-' :: '0' :: x :: h) =
      Outcome.ok (((-(positional 16 h : Int) : Int) : ℚ)) := by
  have hxs : unicodeIsSpace x = false := by
    rcases hx with rfl | rfl <;> decide
  have hsp : ∀ c ∈ '-' :: '0' :: x :: h, unicodeIsSpace c = false := by
    intro c hc
    simp only [List.mem_cons] at hc
    rcases hc with rfl | rfl | rfl | hc
    · decide
    · decide
    · exact hxs
    · exact hexDigit_not_space c (hh c hc)
  have hsp2 : ∀ c ∈ '0' :: x :: h, unicodeIsSpace c = false :=
    fun c hc => hsp c (List.mem_cons_of_mem _ hc)
  have hpre : ¬ x = 'x' → x = 'X' := fun hn => hx.resolve_left hn
  have hi := IntSetString_hexDigits h hne hh
  constructor
  · unfold ParseHexadecimal
    simp only [TrimSpace_id_of_all _ hsp2]
    simp [hne, hi]
    exact hpre
  · unfold ParseHexadecimal
    simp only [TrimSpace_id_of_all _ hsp]
    simp [hne, hi]
    exact hpre

/-- C13, evaluated at the digit `E`: `0xE` is 14, but `0XE` and `-0XE` are sent
to `ParseDecimal` (only the lower-case prefix dispatches to the hex parser),
which rejects them for containing `E`; `0XF` still evaluates to 15. -/
theorem C13_uppercase_prefix_with_E :
    Calculate ['0', 'x', 'E'] = some (Outcome.ok 14) ∧
    Calculate ['0', 'X', 'E'] =
      some (Outcome.err (CalcError.ParseError "Invalid number format: 0XE" 0)) ∧
    Calculate ['-', '0', 'x', 'E'] = some (Outcome.ok (-14)) ∧
    Calculate ['-', '0', 'X', 'E'] =
      some (Outcome.err (CalcError.ParseError "Invalid number format: -0XE" 0)) ∧
    ParseHexadecimal ['0', 'X', 'E'] = Outcome.ok 14 ∧
    Calculate ['0', 'X', 'F'] = some (Outcome.ok 15) := by
  refine ⟨?_, by decide, ?_, by decide, ?_, ?_⟩
  · rw [Calculate_of_steps ['0', 'x', 'E'] [⟨TokenType.NumberToken, ['0', 'x', 'E'], 0⟩]
      ⟨[], _, [⟨TokenType.NumberToken, ['0', 'x', 'E'], 0⟩], none⟩ (by decide) (by decide) rfl]
    have hp := parseNumberValue_hex ['0', 'x', 'E'] 14 TokenType.NumberToken 0
      (by decide) (by decide) (by decide)
    simp only [EvaluatePostfix, evalLoop, evalStep_number _ _ _ rfl hp]
    norm_num
  · rw [Calculate_of_steps ['-', '0', 'x', 'E']
      [⟨TokenType.NumberToken, ['-', '0', 'x', 'E'], 0⟩]
      ⟨[], _, [⟨TokenType.NumberToken, ['-', '0', 'x', 'E'], 0⟩], none⟩
      (by decide) (by decide) rfl]
    have hh := (ParseHexadecimal_hexDigits ['E'] 'x' (by decide) (by decide) (Or.inl rfl)).2
    have hp : parseNumberValue ⟨TokenType.NumberToken, ['-', '0', 'x', 'E'], 0⟩ =
        Outcome.ok (-14) := by
      simp only [parseNumberValue]
      rw [if_neg (by decide), if_pos (by decide), hh,
        show positional 16 ['E'] = 14 by decide]
      norm_num
    simp only [EvaluatePostfix, evalLoop, evalStep_number _ _ _ rfl hp]
  · have hh := (ParseHexadecimal_hexDigits ['E'] 'X' (by decide) (by decide) (Or.inr rfl)).1
    rw [hh, show positional 16 ['E'] = 14 by decide]
    norm_num
  · rw [Calculate_of_steps ['0', 'X', 'F'] [⟨TokenType.NumberToken, ['0', 'X', 'F'], 0⟩]
      ⟨[], _, [⟨TokenType.NumberToken, ['0', 'X', 'F'], 0⟩], none⟩ (by decide) (by decide) rfl]
    have hp : parseNumberValue ⟨TokenType.NumberToken, ['0', 'X', 'F'], 0⟩ = Outcome.ok 15 := by
      rw [parseNumberValue_float ['0', 'X', 'F'] false 15 0 0 _ _ (by decide) (by decide)
        (by decide) (by decide) (by decide) (by decide) (by decide)
        (by decide)]
      norm_num [scaleRat]
    simp only [EvaluatePostfix, evalLoop, evalStep_number _ _ _ rfl hp]

/-- C12, evaluated at inputs with two leading blanks: `Calculate` tokenizes the
trimmed text, so the positions it reports are offsets in the trimmed text.  For
`  5 / 0` the `/` is at offset 4 of the input and DivisionByZero carries 2; for
`  5 +` the ParseError carries 2 instead of 4; for `  @` InvalidCharacter
carries 0 instead of 2.  `Tokenize` itself, given the untrimmed text, places the
`/` at 4. -/
theorem C12_positions_relative_to_trimmed_text :
    Calculate [' ', ' ', '5', ' ', '/', ' ', '0'] =
      some (Outcome.err (CalcError.DivisionByZero 2)) ∧
    ([' ', ' ', '5', ' ', '/', ' ', '0'] : List Char)[4]? = some '/' ∧
    Tokenize [' ', ' ', '5', ' ', '/', ' ', '0'] = some (Outcome.ok
      [⟨TokenType.NumberToken, ['5'], 2⟩, ⟨TokenType.OperatorToken, ['/'], 4⟩,
       ⟨TokenType.NumberToken, ['0'], 6⟩]) ∧
    Calculate [' ', ' ', '5', ' ', '+'] =
      some (Outcome.err (CalcError.ParseError "Expression must end with a number" 2)) ∧
    Calculate [' ', ' ', '@'] = some (Outcome.err (CalcError.InvalidCharacter '@' 0)) := by
  refine ⟨?_, by decide, by decide, by decide, by decide⟩
  rw [Calculate_of_steps [' ', ' ', '5', ' ', '/', ' ', '0']
    [⟨TokenType.NumberToken, ['5'], 0⟩, ⟨TokenType.OperatorToken, ['/'], 2⟩,
     ⟨TokenType.NumberToken, ['0'], 4⟩]
    ⟨[], _, [⟨TokenType.NumberToken, ['5'], 0⟩, ⟨TokenType.NumberToken, ['0'], 4⟩,
      ⟨TokenType.OperatorToken, ['/'], 2⟩], none⟩ (by decide) (by decide) rfl]
  have h5 : parseNumberValue ⟨TokenType.NumberToken, ['5'], 0⟩ = Outcome.ok 5 := by
    have h := parseNumberValue_nat ['5'] TokenType.NumberToken 0 (by decide) (by decide)
    rw [show positional 10 ['5'] = 5 by decide] at h
    simpa using h
  have h0 : parseNumberValue ⟨TokenType.NumberToken, ['0'], 4⟩ = Outcome.ok 0 := by
    have h := parseNumberValue_nat ['0'] TokenType.NumberToken 4 (by decide) (by decide)
    rw [show positional 10 ['0'] = 0 by decide] at h
    simpa using h
  have hev : EvaluatePostfix [⟨TokenType.NumberToken, ['5'], 0⟩,
      ⟨TokenType.NumberToken, ['0'], 4⟩, ⟨TokenType.OperatorToken, ['/'], 2⟩] =
      Outcome.err (CalcError.DivisionByZero 2) := by
    rw [EvaluatePostfix_divisionByZero, evalLoop_divisionByZero]
    refine ⟨[⟨TokenType.NumberToken, ['5'], 0⟩, ⟨TokenType.NumberToken, ['0'], 4⟩],
      ⟨TokenType.OperatorToken, ['/'], 2⟩, [], 5, [], rfl, rfl, by decide, rfl, ?_⟩
    simp only [evalLoop, evalStep_number _ 5 _ rfl h5, evalStep_number _ 0 _ rfl h0]
  exact congrArg some hev

/-! ## Tokenizer: which characters are reported as invalid -/

theorem findInvalidCharacter_some (s : List Char) :
    ∀ (i : Nat) (c : Char) (p : Nat), findInvalidCharacter s i = some (c, p) →
      isValidCharacter c = false := by
  induction s with
  | nil => intro i c p h; simp [findInvalidCharacter] at h
  | cons a t ih =>
    intro i c p h
    rw [findInvalidCharacter] at h
    by_cases ha : isValidCharacter a = true
    · simp only [ha, Bool.not_true, Bool.false_eq_true, if_false] at h
      exact ih _ _ _ h
    · have ha2 : isValidCharacter a = false := by simpa using ha
      simp only [ha2, Bool.not_false, if_true, Option.some.injEq, Prod.mk.injEq] at h
      rw [← h.1]; exact ha2

/-- The character reported by the loop of `Tokenize` is not whitespace, cannot
start a number and is no operator. -/
theorem tokenizeLoop_invalid (fuel : Nat) :
    ∀ (rest : List Char) (i : Nat) (tokens : List Token) (c : Char) (p : Nat),
      tokenizeLoop fuel rest i tokens =
        some (Outcome.err (CalcError.InvalidCharacter c p)) →
      unicodeIsSpace c = false ∧ isDigit c = false ∧ c ≠ '.' ∧ isOperator c = false := by
  induction fuel with
  | zero => intro rest i tokens c p h; simp [tokenizeLoop] at h
  | succ fuel ih =>
    intro rest i tokens c p h
    cases rest with
    | nil => simp [tokenizeLoop] at h
    | cons ch rest1 =>
      unfold tokenizeLoop at h
      by_cases hs : unicodeIsSpace ch = true
      · simp only [hs, if_true] at h
        exact ih _ _ _ _ _ h
      · simp only [hs, Bool.false_eq_true, if_false] at h
        by_cases hn : startsNumber (ch :: rest1) tokens = true
        · simp only [hn, if_true] at h
          exact ih _ _ _ _ _ h
        · simp only [hn, Bool.false_eq_true, if_false] at h
          by_cases ho : isOperator ch = true
          · simp only [ho, if_true] at h
            exact ih _ _ _ _ _ h
          · simp only [ho, Bool.false_eq_true, if_false, Option.some.injEq,
              Outcome.err.injEq, CalcError.InvalidCharacter.injEq] at h
            obtain ⟨rfl, _⟩ := h
            have hn2 : startsNumber (ch :: rest1) tokens = false := by simpa using hn
            simp only [startsNumber, Bool.or_eq_false_iff, decide_eq_false_iff_not] at hn2
            exact ⟨by simpa using hs, hn2.1.1.1, hn2.1.1.2, by simpa using ho⟩

theorem Tokenize_invalid_cases (s : List Char) (c : Char) (p : Nat)
    (h : Tokenize s = some (Outcome.err (CalcError.InvalidCharacter c p))) :
    isValidCharacter c = false ∨
    (unicodeIsSpace c = false ∧ isDigit c = false ∧ c ≠ '.' ∧ isOperator c = false) := by
  unfold Tokenize at h
  split at h
  · cases h
  · split at h
    · rename_i ch i hf
      simp only [Option.some.injEq, Outcome.err.injEq, CalcError.InvalidCharacter.injEq] at h
      obtain ⟨rfl, rfl⟩ := h
      left
      split at hf
      · exact findInvalidCharacter_some _ _ _ _ hf
      · cases hf
    · exact Or.inr (tokenizeLoop_invalid _ _ _ _ _ _ h)

theorem char_eq_of_toNat (c d : Char) (h : c.toNat = d.toNat) : c = d := by
  have h1 : Char.ofNat c.toNat = Char.ofNat d.toNat := by rw [h]
  simpa using h1

theorem ParseExpression_not_invalidCharacter (tokens : List Token) (c : Char) (p : Nat) :
    ParseExpression tokens ≠ Outcome.err (CalcError.InvalidCharacter c p) := by
  intro he
  cases tokens with
  | nil => simp [ParseExpression] at he
  | cons first rest =>
    obtain ⟨last, hl1⟩ : ∃ last, (first :: rest).getLast? = some last :=
      ⟨_, List.getLast?_eq_getLast _ (by simp)⟩
    simp only [ParseExpression, List.head?_cons, hl1] at he
    split at he
    · cases he
    · split at he
      · cases he
      · split at he
        · rename_i e3 hc
          obtain ⟨m, q, rfl⟩ := checkAlternation_err _ _ _ hc
          cases he
        · revert he
          unfold InfixToPostfix
          cases infixLoop (first :: rest) [] [] <;> simp

theorem Calculate_invalid_from_Tokenize (s : List Char) (c : Char) (p : Nat)
    (h : Calculate s = some (Outcome.err (CalcError.InvalidCharacter c p))) :
    Tokenize (TrimSpace s) = some (Outcome.err (CalcError.InvalidCharacter c p)) := by
  unfold Calculate at h
  by_cases h0 : TrimSpace s = []
  · simp [h0] at h
  · simp only [h0, if_false] at h
    split at h
    · cases h
    · rename_i e he
      have h2 := Outcome.err.inj (Option.some.inj h)
      rw [he, h2]
    · cases h
    · split at h
      · rename_i tokens ht x e he
        have h2 := Outcome.err.inj (Option.some.inj h)
        subst h2
        exact absurd he (ParseExpression_not_invalidCharacter _ _ _)
      · cases h
      · have h2 := Option.some.inj h
        rcases EvaluatePostfix_err _ _ h2 with ⟨m, q, h3⟩ | ⟨q, h3⟩
        · cases h3
        · cases h3

theorem valid_not_token_start (c : Char) (hv : isValidCharacter c = true)
    (h : unicodeIsSpace c = false ∧ isDigit c = false ∧ c ≠ '.' ∧ isOperator c = false) :
    (isHexDigit c = true ∧ isDigit c = false) ∨ c = 'X' := by
  obtain ⟨hs, hd, hdot, ho⟩ := h
  have hop : c ≠ '+' ∧ c ≠ '-' ∧ c ≠ 'x' ∧ c ≠ '/' := by
    refine ⟨?_, ?_, ?_, ?_⟩ <;> (rintro rfl; revert ho; decide)
  have hd2 : ¬ ('0'.toNat ≤ c.toNat ∧ c.toNat ≤ '9'.toNat) := by
    intro hh
    have : isDigit c = true := by
      simp only [isDigit, Bool.and_eq_true, decide_eq_true_eq]
      exact hh
    rw [this] at hd; cases hd
  simp only [isValidCharacter, hs, Bool.or_false, Bool.or_eq_true, Bool.and_eq_true,
    decide_eq_true_eq] at hv
  rcases hv with ((((((((hv | hv) | hv) | hv) | hv) | hv) | hv) | hv) | hv)
  · left
    refine ⟨?_, hd⟩
    simp only [isHexDigit, Bool.or_eq_true, Bool.and_eq_true, decide_eq_true_eq]
    exact Or.inl (Or.inr hv)
  · left
    refine ⟨?_, hd⟩
    simp only [isHexDigit, Bool.or_eq_true, Bool.and_eq_true, decide_eq_true_eq]
    exact Or.inr hv
  · exact absurd hv hd2
  · exact absurd hv hop.2.2.1
  · exact Or.inr hv
  · exact absurd hv hop.1
  · exact absurd hv hop.2.1
  · exact absurd hv hdot
  · exact absurd hv hop.2.2.2

/-- C14, as stated, fails at the input `A`: `Tokenize` reports InvalidCharacter
for `A`, a character of the allowed set. -/
theorem C14_allowed_character_reported :
    Tokenize ['A'] = some (Outcome.err (CalcError.InvalidCharacter 'A' 0)) ∧
    isValidCharacter 'A' = true ∧
    ¬ (∀ (s : List Char) (c : Char) (p : Nat),
        Tokenize s = some (Outcome.err (CalcError.InvalidCharacter c p)) →
        isValidCharacter c = false) := by
  refine ⟨by decide, by decide, ?_⟩
  intro h
  have := h ['A'] 'A' 0 (by decide)
  revert this
  decide

/-- C14, amended: when `Tokenize` or `Calculate` fails with InvalidCharacter,
the character is outside the allowed set, or it is one of the letters `A`-`F`,
`a`-`f`, `X` (allowed only inside a hex literal) met where no literal is being
scanned; it is never whitespace, a digit, `.` or an operator symbol. -/
theorem C14_invalid_character_kinds (s : List Char) (c : Char) (p : Nat)
    (h : Tokenize s = some (Outcome.err (CalcError.InvalidCharacter c p)) ∨
      Calculate s = some (Outcome.err (CalcError.InvalidCharacter c p))) :
    (isValidCharacter c = false ∨ (isHexDigit c = true ∧ isDigit c = false) ∨ c = 'X') ∧
    unicodeIsSpace c = false ∧ isDigit c = false ∧ c ≠ '.' ∧ isOperator c = false := by
  have ht : ∃ s2, Tokenize s2 = some (Outcome.err (CalcError.InvalidCharacter c p)) := by
    rcases h with h | h
    · exact ⟨s, h⟩
    · exact ⟨_, Calculate_invalid_from_Tokenize s c p h⟩
  obtain ⟨s2, h2⟩ := ht
  have hcases := Tokenize_invalid_cases s2 c p h2
  have hconj : unicodeIsSpace c = false ∧ isDigit c = false ∧ c ≠ '.' ∧
      isOperator c = false := by
    rcases hcases with hinv | hc
    · refine ⟨not_space_of_invalid c hinv, ?_, ?_, ?_⟩
      · cases hd : isDigit c with
        | false => rfl
        | true =>
          have hb := isDigit_bounds c hd
          have : isValidCharacter c = true := by
            simp only [isValidCharacter, Bool.or_eq_true, Bool.and_eq_true, decide_eq_true_eq]
            exact Or.inl (Or.inl (Or.inl (Or.inl (Or.inl (Or.inl (Or.inl (Or.inr hb)))))))
          rw [this] at hinv; cases hinv
      · rintro rfl; revert hinv; decide
      · cases ho : isOperator c with
        | false => rfl
        | true =>
          exfalso
          simp only [isOperator, OperatorMapHas, Bool.or_eq_true, decide_eq_true_eq] at ho
          have hc4 : c = '+' ∨ c = '-' ∨ c = 'x' ∨ c = '/' := by
            rcases ho with ((ho | ho) | ho) | ho
            · exact Or.inl (char_eq_of_toNat _ _ ho)
            · exact Or.inr (Or.inl (char_eq_of_toNat _ _ ho))
            · exact Or.inr (Or.inr (Or.inl (char_eq_of_toNat _ _ ho)))
            · exact Or.inr (Or.inr (Or.inr (char_eq_of_toNat _ _ ho)))
          rcases hc4 with rfl | rfl | rfl | rfl <;> (revert hinv; decide)
    · exact hc
  refine ⟨?_, hconj⟩
  cases hv : isValidCharacter c with
  | false => exact Or.inl rfl
  | true => exact Or.inr (valid_not_token_start c hv hconj)

/-- C14 (amended) at the input `A`: the reported character is a hex letter. -/
theorem C14_invalid_character_kinds_witness :
    (isValidCharacter 'A' = false ∨ (isHexDigit 'A' = true ∧ isDigit 'A' = false) ∨
      'A' = 'X') ∧
    unicodeIsSpace 'A' = false ∧ isDigit 'A' = false ∧ 'A' ≠ '.' ∧ isOperator 'A' = false :=
  C14_invalid_character_kinds ['A'] 'A' 0 (Or.inl (by decide))

/-! ## Tokenizer: positions -/

theorem drop_of_drop_append (s v r : List Char) (i : Nat) (h : s.drop i = v ++ r) :
    s.drop (i + v.length) = r := by
  have h1 : (s.drop i).drop v.length = r := by rw [h, List.drop_left]
  rw [List.drop_drop] at h1
  exact h1

theorem Spelled_of_drop (s v r : List Char) (i : Nat) (ty : TokenType)
    (h : s.drop i = v ++ r) : Spelled s ⟨ty, v, i⟩ := by
  unfold Spelled
  simp only [h, List.take_left]

/-- The loop of `Tokenize` places every token where its text stands in the
input, each token wholly before the next. -/
theorem tokenizeLoop_layout (s : List Char) (fuel : Nat) :
    ∀ (rest : List Char) (i : Nat) (tokens ts : List Token),
      s.drop i = rest →
      (∀ t ∈ tokens, Spelled s t ∧ t.Value ≠ [] ∧ t.Position + t.Value.length ≤ i) →
      tokens.Pairwise Before →
      tokenizeLoop fuel rest i tokens = some (Outcome.ok ts) →
      (∀ t ∈ ts, Spelled s t ∧ t.Value ≠ []) ∧ ts.Pairwise Before := by
  induction fuel with
  | zero => intro rest i tokens ts _ _ _ h; simp [tokenizeLoop] at h
  | succ fuel ih =>
    intro rest i tokens ts hdrop hinv hpw h
    have hstep : ∀ (v r : List Char) (ty : TokenType), s.drop i = v ++ r → v ≠ [] →
        tokenizeLoop fuel r (i + v.length) (tokens ++ [⟨ty, v, i⟩]) = some (Outcome.ok ts) →
        (∀ t ∈ ts, Spelled s t ∧ t.Value ≠ []) ∧ ts.Pairwise Before := by
      intro v r ty hv hne hrun
      have hlen : 0 < v.length := List.length_pos.2 hne
      refine ih r (i + v.length) _ ts (drop_of_drop_append s v r i hv) ?_ ?_ hrun
      · intro t ht
        rcases List.mem_append.1 ht with ht | ht
        · obtain ⟨h1, h2, h3⟩ := hinv t ht
          exact ⟨h1, h2, by omega⟩
        · simp only [List.mem_singleton] at ht
          subst ht
          exact ⟨Spelled_of_drop s v r i ty hv, hne, le_refl _⟩
      · rw [List.pairwise_append]
        refine ⟨hpw, List.pairwise_singleton _ _, ?_⟩
        intro a ha b hb
        simp only [List.mem_singleton] at hb
        subst hb
        obtain ⟨_, h2, h3⟩ := hinv a ha
        have : 0 < a.Value.length := List.length_pos.2 h2
        exact ⟨by show a.Position < i; omega, h3⟩
    cases rest with
    | nil =>
      simp only [tokenizeLoop, Option.some.injEq, Outcome.ok.injEq] at h
      subst h
      exact ⟨fun t ht => ⟨(hinv t ht).1, (hinv t ht).2.1⟩, hpw⟩
    | cons ch rest1 =>
      unfold tokenizeLoop at h
      by_cases hs : unicodeIsSpace ch = true
      · simp only [hs, if_true] at h
        have hd1 : s.drop (i + 1) = rest1 := by
          have := drop_of_drop_append s [ch] rest1 i (by simpa using hdrop)
          simpa using this
        exact ih rest1 (i + 1) tokens ts hd1
          (fun t ht => ⟨(hinv t ht).1, (hinv t ht).2.1, by have := (hinv t ht).2.2; omega⟩)
          hpw h
      · simp only [hs, Bool.false_eq_true, if_false] at h
        by_cases hn : startsNumber (ch :: rest1) tokens = true
        · simp only [hn, if_true] at h
          exact hstep _ _ _ (by rw [hdrop]; exact (parseNumberToken_append _).symm)
            (parseNumberToken_ne_nil _ _ hn) h
        · simp only [hn, Bool.false_eq_true, if_false] at h
          by_cases ho : isOperator ch = true
          · simp only [ho, if_true] at h
            exact hstep [ch] rest1 _ (by simpa using hdrop) (by simp) h
          · simp [ho] at h

/-- C11: when `Tokenize` succeeds, the code points of the input from each
token's Position spell exactly the token's Value, Positions are strictly
increasing in output order, and each token ends before the next one starts;
`  5  +  0xFF  ` gives positions 2, 5, 8. -/
theorem C11_token_positions (s : List Char) (ts : List Token)
    (h : Tokenize s = some (Outcome.ok ts)) :
    (∀ t ∈ ts, (s.drop t.Position).take t.Value.length = t.Value ∧ t.Value ≠ []) ∧
    ts.Pairwise (fun a b => a.Position < b.Position) ∧
    ts.Pairwise (fun a b => a.Position + a.Value.length ≤ b.Position) := by
  unfold Tokenize at h
  split at h
  · cases h
  · split at h
    · cases h
    · have hl := tokenizeLoop_layout s _ s 0 [] ts rfl (by simp) List.Pairwise.nil h
      exact ⟨hl.1, hl.2.imp (fun hab => hab.1), hl.2.imp (fun hab => hab.2)⟩

/-- C11 at the input `  5  +  0xFF  `: the tokens are at positions 2, 5, 8. -/
theorem C11_token_positions_witness :
    Tokenize [' ', ' ', '5', ' ', ' ', '+', ' ', ' ', '0', 'x', 'F', 'F', ' ', ' '] =
      some (Outcome.ok [⟨TokenType.NumberToken, ['5'], 2⟩,
        ⟨TokenType.OperatorToken, ['+'], 5⟩,
        ⟨TokenType.NumberToken, ['0', 'x', 'F', 'F'], 8⟩]) ∧
    ((∀ t ∈ [(⟨TokenType.NumberToken, ['5'], 2⟩ : Token),
        ⟨TokenType.OperatorToken, ['+'], 5⟩,
        ⟨TokenType.NumberToken, ['0', 'x', 'F', 'F'], 8⟩],
      (([' ', ' ', '5', ' ', ' ', '+', ' ', ' ', '0', 'x', 'F', 'F', ' ', ' '] :
        List Char).drop t.Position).take t.Value.length = t.Value ∧ t.Value ≠ []) ∧
    [(⟨TokenType.NumberToken, ['5'], 2⟩ : Token),
        ⟨TokenType.OperatorToken, ['+'], 5⟩,
        ⟨TokenType.NumberToken, ['0', 'x', 'F', 'F'], 8⟩].Pairwise
      (fun a b => a.Position < b.Position) ∧
    [(⟨TokenType.NumberToken, ['5'], 2⟩ : Token),
        ⟨TokenType.OperatorToken, ['+'], 5⟩,
        ⟨TokenType.NumberToken, ['0', 'x', 'F', 'F'], 8⟩].Pairwise
      (fun a b => a.Position + a.Value.length ≤ b.Position)) :=
  ⟨by decide, C11_token_positions _ _ (by decide)⟩

/-! ## Totality of the pipeline -/

theorem Tokenize_values_ne_nil (s : List Char) (ts : List Token)
    (h : Tokenize s = some (Outcome.ok ts)) : ∀ t ∈ ts, t.Value ≠ [] := by
  unfold Tokenize at h
  split at h
  · cases h
  · split at h
    · cases h
    · exact fun t ht =>
        ((tokenizeLoop_layout s _ s 0 [] ts rfl (by simp) List.Pairwise.nil h).1 t ht).2

theorem Tokenize_cases (s : List Char) :
    (∃ ts, Tokenize s = some (Outcome.ok ts)) ∨ (∃ e, Tokenize s = some (Outcome.err e)) := by
  obtain ⟨r, hr⟩ := Tokenize_total s
  unfold Tokenize at hr ⊢
  split
  · exact Or.inr ⟨_, rfl⟩
  · rename_i hne
    simp only [hne, if_false] at hr
    split
    · exact Or.inr ⟨_, rfl⟩
    · rename_i hf
      simp only [hf] at hr
      rcases tokenizeLoop_result _ _ _ _ _ hr with ⟨c, p, h2⟩ | ⟨ts, h2, _⟩
      · right; exact ⟨_, by rw [hr, h2]⟩
      · left; exact ⟨ts, by rw [hr, h2]⟩

theorem popOperators_mem (p : Nat) (st output out rest : List Token)
    (h : popOperators p output st = some (out, rest)) :
    ∀ t, t ∈ out ++ rest ↔ t ∈ output ++ st := by
  intro t
  rw [popOperators_append p st output out rest h]

theorem infixLoop_mem (tokens : List Token) :
    ∀ (output stack out st : List Token),
      infixLoop tokens output stack = some (out, st) →
      ∀ t ∈ out ++ st, t ∈ output ++ stack ++ tokens := by
  induction tokens with
  | nil =>
    intro output stack out st h t ht
    simp only [infixLoop, Option.some.injEq, Prod.mk.injEq] at h
    rw [← h.1, ← h.2] at ht
    simpa using ht
  | cons token rest ih =>
    intro output stack out st h t ht
    unfold infixLoop at h
    cases hty : token.Typ with
    | NumberToken =>
      simp only [hty] at h
      have := ih _ _ _ _ h t ht
      simp only [List.mem_append, List.mem_cons, List.mem_singleton] at this ⊢
      tauto
    | WhitespaceToken =>
      simp only [hty] at h
      have := ih _ _ _ _ h t ht
      simp only [List.mem_append, List.mem_cons] at this ⊢
      tauto
    | OperatorToken =>
      simp only [hty] at h
      cases hb : firstByte token.Value with
      | none => simp [hb] at h
      | some r =>
        simp only [hb] at h
        cases hp : popOperators (OperatorMap r).Precedence output stack with
        | none => simp [hp] at h
        | some pr =>
          obtain ⟨out1, st1⟩ := pr
          simp only [hp] at h
          have h1 := ih _ _ _ _ h t ht
          have h2 := popOperators_mem _ _ _ _ _ hp t
          simp only [List.mem_append, List.mem_cons] at h1 h2 ⊢
          tauto

theorem InfixToPostfix_mem (tokens post : List Token)
    (h : InfixToPostfix tokens = Outcome.ok post) : ∀ t ∈ post, t ∈ tokens := by
  unfold InfixToPostfix at h
  cases hl : infixLoop tokens [] [] with
  | none => simp [hl] at h
  | some pr =>
    obtain ⟨out, st⟩ := pr
    simp only [hl, Outcome.ok.injEq] at h
    intro t ht
    rw [← h] at ht
    simpa using infixLoop_mem tokens [] [] out st hl t ht

theorem performOperation_not_fault (left right : ℚ) (r p : Nat) :
    performOperation left right r p ≠ Outcome.fault := by
  unfold performOperation
  split
  · simp
  · split
    · simp
    · split
      · simp
      · split
        · split <;> simp
        · simp

theorem evalStep_not_fault (t : Token) (stack : List ℚ)
    (h : t.Typ = TokenType.OperatorToken → t.Value ≠ []) :
    evalStep t stack ≠ Outcome.fault := by
  unfold evalStep
  cases hty : t.Typ with
  | NumberToken =>
    simp only []
    have := parseNumberValue_not_fault t
    cases hp : parseNumberValue t with
    | ok v => simp
    | err e => simp
    | fault => exact absurd hp this
  | WhitespaceToken => simp
  | OperatorToken =>
    simp only []
    obtain ⟨c, cs, hc⟩ : ∃ c cs, t.Value = c :: cs := by
      cases hv : t.Value with
      | nil => exact absurd hv (h hty)
      | cons c cs => exact ⟨c, cs, rfl⟩
    match stack with
    | [] => simp
    | [_] => simp
    | right :: left :: st =>
      simp only [hc, firstByte]
      have := performOperation_not_fault left right (utf8Lead c) t.Position
      cases hp : performOperation left right (utf8Lead c) t.Position with
      | ok v => simp
      | err e => simp
      | fault => exact absurd hp this

theorem evalLoop_not_fault (tokens : List Token) :
    ∀ (stack : List ℚ), (∀ t ∈ tokens, t.Typ = TokenType.OperatorToken → t.Value ≠ []) →
      evalLoop tokens stack ≠ Outcome.fault := by
  induction tokens with
  | nil => intro stack _; simp [evalLoop]
  | cons t rest ih =>
    intro stack h
    unfold evalLoop
    have hs := evalStep_not_fault t stack (h t (by simp))
    cases he : evalStep t stack with
    | ok st => exact ih st (fun u hu => h u (by simp [hu]))
    | err e => simp
    | fault => exact absurd he hs

theorem EvaluatePostfix_not_fault (tokens : List Token)
    (h : ∀ t ∈ tokens, t.Typ = TokenType.OperatorToken → t.Value ≠ []) :
    EvaluatePostfix tokens ≠ Outcome.fault := by
  unfold EvaluatePostfix
  have hl := evalLoop_not_fault tokens [] h
  cases he : evalLoop tokens [] with
  | ok st =>
    match st with
    | [] => simp
    | [_] => simp
    | _ :: _ :: _ => simp
  | err e => simp
  | fault => exact absurd he hl

theorem ParseExpression_not_fault (tokens : List Token)
    (h : ∀ t ∈ tokens, t.Typ = TokenType.OperatorToken → t.Value ≠ []) :
    ParseExpression tokens ≠ Outcome.fault := by
  cases tokens with
  | nil => simp [ParseExpression]
  | cons first rest =>
    rcases ParseExpression_cases _ (by simp) h with ⟨e, h1⟩ | ⟨m, p, h1⟩
    · rw [h1]; simp
    · rw [h1]; simp

theorem outcome_cases_of_not_fault (r : Outcome ℚ) (h : r ≠ Outcome.fault) :
    (∃ v, r = Outcome.ok v) ∨ (∃ e, r = Outcome.err e) := by
  cases r with
  | ok v => exact Or.inl ⟨v, rfl⟩
  | err e => exact Or.inr ⟨e, rfl⟩
  | fault => exact absurd rfl h

/-- `Calculate` returns on every input, with a rational or an error value. -/
theorem Calculate_cases (s : List Char) :
    (∃ v, Calculate s = some (Outcome.ok v)) ∨ (∃ e, Calculate s = some (Outcome.err e)) := by
  unfold Calculate
  by_cases h0 : TrimSpace s = []
  · simp [h0]
  · simp only [h0, if_false]
    rcases Tokenize_cases (TrimSpace s) with ⟨ts, ht⟩ | ⟨e, ht⟩
    · have hv : ∀ t ∈ ts, t.Typ = TokenType.OperatorToken → t.Value ≠ [] :=
        fun t hmem _ => Tokenize_values_ne_nil _ _ ht t hmem
      simp only [ht]
      cases hp : ParseExpression ts with
      | err e => right; exact ⟨e, rfl⟩
      | fault => exact absurd hp (ParseExpression_not_fault ts hv)
      | ok expr =>
        simp only []
        have hpost := (ParseExpression_ok_shape ts expr hp).2
        have hv2 : ∀ t ∈ expr.PostfixTokens, t.Typ = TokenType.OperatorToken → t.Value ≠ [] :=
          fun t hmem hty => hv t (InfixToPostfix_mem ts _ hpost t hmem) hty
        rcases outcome_cases_of_not_fault _ (EvaluatePostfix_not_fault _ hv2) with
          ⟨v, h1⟩ | ⟨e, h1⟩
        · left; exact ⟨v, by rw [h1]⟩
        · right; exact ⟨e, by rw [h1]⟩
    · simp only [ht]
      right; exact ⟨e, rfl⟩

/-- One iteration of the loop of `Tokenize` on unread text either stops with
InvalidCharacter or goes on with a strictly shorter unread text, the index
advanced by the number of code points consumed. -/
theorem tokenizeLoop_progress (fuel : Nat) (rest : List Char) (i : Nat)
    (tokens : List Token) (hne : rest ≠ []) :
    (∃ c, tokenizeLoop (fuel + 1) rest i tokens =
      some (Outcome.err (CalcError.InvalidCharacter c i))) ∨
    (∃ rest1 tokens1, rest1.length < rest.length ∧
      tokenizeLoop (fuel + 1) rest i tokens =
        tokenizeLoop fuel rest1 (i + (rest.length - rest1.length)) tokens1) := by
  cases rest with
  | nil => exact absurd rfl hne
  | cons ch rest1 =>
    rw [tokenizeLoop]
    by_cases hs : unicodeIsSpace ch = true
    · right
      refine ⟨rest1, tokens, by simp, ?_⟩
      simp [hs]
    · simp only [hs, Bool.false_eq_true, if_false]
      by_cases hn : startsNumber (ch :: rest1) tokens = true
      · right
        have hlt := parseNumberToken_length_lt _ _ hn
        have happ := congrArg List.length (parseNumberToken_append (ch :: rest1))
        rw [List.length_append] at happ
        refine ⟨(parseNumberToken (ch :: rest1)).2,
          tokens ++ [⟨TokenType.NumberToken, (parseNumberToken (ch :: rest1)).1, i⟩], hlt, ?_⟩
        simp only [hn, if_true]
        congr 1
        omega
      · simp only [hn, Bool.false_eq_true, if_false]
        by_cases ho : isOperator ch = true
        · right
          refine ⟨rest1, tokens ++ [⟨TokenType.OperatorToken, [ch], i⟩], by simp, ?_⟩
          simp [ho]
        · left
          exact ⟨ch, by simp [ho]⟩

/-- C20: `Calculate` returns on every input, with an exact rational or one of
the four error kinds; `Tokenize` returns likewise; on every token sequence that
`Tokenize` produces, `ParseExpression`, `InfixToPostfix` and `EvaluatePostfix`
(also on the postfix tokens) raise no index fault; and every iteration of the
tokenizer loop consumes at least one code point. -/
theorem C20_pipeline_total :
    (∀ s : List Char, (∃ v, Calculate s = some (Outcome.ok v)) ∨
      (∃ e, Calculate s = some (Outcome.err e))) ∧
    (∀ s : List Char, (∃ ts, Tokenize s = some (Outcome.ok ts)) ∨
      (∃ e, Tokenize s = some (Outcome.err e))) ∧
    (∀ (s : List Char) (ts : List Token), Tokenize s = some (Outcome.ok ts) →
      ParseExpression ts ≠ Outcome.fault ∧ InfixToPostfix ts ≠ Outcome.fault ∧
      EvaluatePostfix ts ≠ Outcome.fault ∧
      ∀ e, ParseExpression ts = Outcome.ok e →
        EvaluatePostfix e.PostfixTokens ≠ Outcome.fault) ∧
    (∀ (fuel : Nat) (rest : List Char) (i : Nat) (tokens : List Token), rest ≠ [] →
      (∃ c, tokenizeLoop (fuel + 1) rest i tokens =
        some (Outcome.err (CalcError.InvalidCharacter c i))) ∨
      (∃ rest1 tokens1, rest1.length < rest.length ∧
        tokenizeLoop (fuel + 1) rest i tokens =
          tokenizeLoop fuel rest1 (i + (rest.length - rest1.length)) tokens1)) := by
  refine ⟨Calculate_cases, Tokenize_cases, ?_, tokenizeLoop_progress⟩
  intro s ts ht
  have hv : ∀ t ∈ ts, t.Typ = TokenType.OperatorToken → t.Value ≠ [] :=
    fun t hmem _ => Tokenize_values_ne_nil _ _ ht t hmem
  refine ⟨ParseExpression_not_fault ts hv, ?_, EvaluatePostfix_not_fault ts hv, ?_⟩
  · obtain ⟨post, hp⟩ := InfixToPostfix_ok ts hv
    rw [hp]; simp
  · intro e he
    have hpost := (ParseExpression_ok_shape ts e he).2
    exact EvaluatePostfix_not_fault _
      (fun t hmem hty => hv t (InfixToPostfix_mem ts _ hpost t hmem) hty)

/-! ## ParseHexadecimal: accepted texts -/

theorem scanLoop_rest_nil (b : Nat) (l : List Char) :
    ∀ (prev : Char) (inv : Bool) (count : Nat) (dp : Option Nat) (acc : Nat),
      (scanLoop false b false prev inv count dp acc l).rest = [] →
      ∀ c ∈ l, digitValue c < b := by
  induction l with
  | nil => intro prev inv count dp acc _ c hc; simp at hc
  | cons ch t ih =>
    intro prev inv count dp acc h c hc
    rw [scanLoop] at h
    simp only [Bool.false_eq_true, and_false, if_false] at h
    by_cases hd : digitValue ch ≥ b
    · simp [hd] at h
    · simp only [hd, if_false] at h
      rcases List.mem_cons.1 hc with rfl | hc
      · omega
      · exact ih _ _ _ _ _ h c hc

theorem scanFinish_rest (b : Nat) (o : Bool) (st : ScanState) :
    (scanFinish b o st).rest = st.rest := by
  unfold scanFinish
  split
  · split <;> rfl
  · split <;> rfl

theorem isHexDigit_of_digitValue (c : Char) (h : digitValue c < 16) :
    isHexDigit c = true := by
  have e0 : '0'.toNat = 48 := rfl
  have e9 : '9'.toNat = 57 := rfl
  have ea : 'a'.toNat = 97 := rfl
  have ef : 'f'.toNat = 102 := rfl
  have ez : 'z'.toNat = 122 := rfl
  have eA : 'A'.toNat = 65 := rfl
  have eF : 'F'.toNat = 70 := rfl
  have eZ : 'Z'.toNat = 90 := rfl
  simp only [digitValue, e0, e9, ea, ez, eA, eZ] at h
  simp only [isHexDigit, isDigit, e0, e9, ea, ef, eA, eF, Bool.or_eq_true, Bool.and_eq_true,
    decide_eq_true_eq]
  by_cases h1 : 48 ≤ c.toNat ∧ c.toNat ≤ 57
  · exact Or.inl (Or.inl h1)
  · rw [if_neg h1] at h
    by_cases h2 : 97 ≤ c.toNat ∧ c.toNat ≤ 122
    · rw [if_pos h2] at h
      exact Or.inr ⟨h2.1, by omega⟩
    · rw [if_neg h2] at h
      by_cases h3 : 65 ≤ c.toNat ∧ c.toNat ≤ 90
      · rw [if_pos h3] at h
        exact Or.inl (Or.inr ⟨h3.1, by omega⟩)
      · rw [if_neg h3] at h
        omega

/-- When `Int.SetString(d, 16)` succeeds, `d` starts with a sign character or
consists of hex digits only. -/
theorem IntSetString_16_some (d : List Char) (n : Int) (h : IntSetString d 16 = some n) :
    (∃ c t, d = c :: t ∧ (c = '+' ∨ c = '-')) ∨
    (d ≠ [] ∧ ∀ c ∈ d, isHexDigit c = true) := by
  cases d with
  | nil => simp [IntSetString, scanSign] at h
  | cons c t =>
    by_cases hm : c = '-'
    · exact Or.inl ⟨c, t, rfl, Or.inr hm⟩
    · by_cases hp : c = '+'
      · exact Or.inl ⟨c, t, rfl, Or.inl hp⟩
      · right
        refine ⟨by simp, ?_⟩
        unfold IntSetString at h
        simp only [scanSign, hm, hp, if_false] at h
        by_cases he : (natScan (c :: t) 16 false).err = true
        · simp [he] at h
        · simp only [he, Bool.false_eq_true, if_false] at h
          by_cases hr : (natScan (c :: t) 16 false).rest = []
          · have hr2 : (scanLoop false 16 false '.' false 0 none 0 (c :: t)).rest = [] := by
              have : natScan (c :: t) 16 false =
                  scanFinish 16 false (scanLoop false 16 false '.' false 0 none 0 (c :: t)) := by
                simp [natScan]
              rw [this, scanFinish_rest] at hr
              exact hr
            intro x hx
            exact isHexDigit_of_digitValue x (scanLoop_rest_nil 16 _ _ _ _ _ _ hr2 x hx)
          · simp [hr] at h

/-- C18, as stated, fails at ` 0x1` (the text starts with a blank, not with the
prefix, and is accepted after trimming) and at `0x-5` (the `-` after the prefix
is no hex digit, and the result is -5). -/
theorem C18_accepts_padding_and_inner_sign :
    ParseHexadecimal [' ', '0', 'x', '1'] = Outcome.ok 1 ∧
    ([' ', '0', 'x', '1'] : List Char).take 2 ≠ ['0', 'x'] ∧
    ParseHexadecimal ['0', 'x', '-', '5'] = Outcome.ok (-5) ∧
    isHexDigit '-' = false := by
  refine ⟨?_, by decide, ?_, by decide⟩
  · unfold ParseHexadecimal
    simp only [show TrimSpace [' ', '0', 'x', '1'] = ['0', 'x', '1'] by decide]
    rw [if_neg (by decide)]
    simp only [show ((['0', 'x', '1'] : List Char).take 1 = ['-']) = False by simp,
      decide_False, Bool.false_eq_true, if_false]
    rw [if_neg (by decide), if_neg (by decide),
      show IntSetString (List.drop 2 ['0', 'x', '1']) 16 = some 1 by decide]
    norm_num
  · unfold ParseHexadecimal
    simp only [show TrimSpace ['0', 'x', '-', '5'] = ['0', 'x', '-', '5'] by decide]
    rw [if_neg (by decide)]
    simp only [show ((['0', 'x', '-', '5'] : List Char).take 1 = ['-']) = False by simp,
      decide_False, Bool.false_eq_true, if_false]
    rw [if_neg (by decide), if_neg (by decide),
      show IntSetString (List.drop 2 ['0', 'x', '-', '5']) 16 = some (-5) by decide]
    norm_num

/-- C18, amended: `ParseHexadecimal` succeeds only on texts whose form after
trimming surrounding whitespace is an optional `-`, the prefix `0x` or `0X`,
and then either one or more hex digits or a text that starts with a sign
character; every other text (no prefix, nothing after the prefix, a character
that is no hex digit after the prefix and no sign right after it) gets an
error. -/
theorem C18_hexadecimal_accepted_shape (s : List Char) (v : ℚ)
    (h : ParseHexadecimal s = Outcome.ok v) :
    ∃ (neg : Bool) (x : Char) (d : List Char),
      TrimSpace s = (if neg = true then '-' :: '0' :: x :: d else '0' :: x :: d) ∧
      (x = 'x' ∨ x = 'X') ∧ d ≠ [] ∧
      ((∀ c ∈ d, isHexDigit c = true) ∨ (∃ c t, d = c :: t ∧ (c = '+' ∨ c = '-'))) := by
  unfold ParseHexadecimal at h
  simp only [] at h
  by_cases h0 : TrimSpace s = []
  · simp [h0] at h
  · simp only [h0, if_false] at h
    have key : ∀ body : List Char,
        (if body.take 2 ≠ ['0', 'x'] ∧ body.take 2 ≠ ['0', 'X'] then
          (Outcome.err (CalcError.ParseError "Hex number must start with 0x" 0) : Outcome ℚ)
        else if body.drop 2 = [] then
          Outcome.err (CalcError.ParseError "No hex digits after 0x" 2)
        else
          match IntSetString (body.drop 2) 16 with
          | none => Outcome.err (CalcError.ParseError "Invalid hex digits" 2)
          | some bigInt => Outcome.ok (((if decide (List.take 1 (TrimSpace s) = ['-']) = true
              then -bigInt else bigInt : Int) : ℚ))) = Outcome.ok v →
        ∃ (x : Char) (d : List Char), body = '0' :: x :: d ∧ (x = 'x' ∨ x = 'X') ∧ d ≠ [] ∧
          ((∀ c ∈ d, isHexDigit c = true) ∨ (∃ c t, d = c :: t ∧ (c = '+' ∨ c = '-'))) := by
      intro body hb
      by_cases hp : body.take 2 ≠ ['0', 'x'] ∧ body.take 2 ≠ ['0', 'X']
      · rw [if_pos hp] at hb; cases hb
      · rw [if_neg hp] at hb
        by_cases hd : body.drop 2 = []
        · rw [if_pos hd] at hb; cases hb
        · rw [if_neg hd] at hb
          cases hi : IntSetString (body.drop 2) 16 with
          | none => simp [hi] at hb
          | some n =>
            obtain ⟨a, x, d, rfl⟩ : ∃ a x d, body = a :: x :: d := by
              match body, hd with
              | [], hd => simp at hd
              | [_], hd => simp at hd
              | a :: x :: d, _ => exact ⟨a, x, d, rfl⟩
            have hpre : a = '0' ∧ (x = 'x' ∨ x = 'X') := by
              by_contra hcon
              apply hp
              simp only [List.take_succ_cons, List.take_zero, ne_eq, List.cons.injEq, and_true,
                not_and]
              constructor
              · intro ha hx; exact hcon ⟨ha, Or.inl hx⟩
              · intro ha hx; exact hcon ⟨ha, Or.inr hx⟩
            obtain ⟨rfl, hx⟩ := hpre
            refine ⟨x, d, rfl, hx, by simpa using hd, ?_⟩
            rcases IntSetString_16_some _ n hi with hs | ⟨_, hall⟩
            · exact Or.inr (by simpa using hs)
            · exact Or.inl (by simpa using hall)
    by_cases hn : (TrimSpace s).take 1 = ['-']
    · simp only [hn, decide_True, if_true] at h
      have hb := key ((TrimSpace s).drop 1) (by simpa [hn] using h)
      obtain ⟨x, d, hbody, hx, hd, hshape⟩ := hb
      refine ⟨true, x, d, ?_, hx, hd, hshape⟩
      cases ht : TrimSpace s with
      | nil => exact absurd ht h0
      | cons c t =>
        rw [ht] at hn hbody
        simp only [List.take_succ_cons, List.take_zero, List.cons.injEq, and_true] at hn
        simp only [List.drop_succ_cons, List.drop_zero] at hbody
        simp [hn, hbody]
    · simp only [hn, decide_False, Bool.false_eq_true, if_false] at h
      have hb := key (TrimSpace s) (by simpa [hn] using h)
      obtain ⟨x, d, hbody, hx, hd, hshape⟩ := hb
      exact ⟨false, x, d, by simpa using hbody, hx, hd, hshape⟩

/-- C18 (amended) at the text `0xFF`, which is accepted with value 255: its
shape is the prefix followed by hex digits. -/
theorem C18_hexadecimal_accepted_shape_witness :
    ParseHexadecimal ['0', 'x', 'F', 'F'] = Outcome.ok 255 ∧
    ∃ (neg : Bool) (x : Char) (d : List Char),
      TrimSpace ['0', 'x', 'F', 'F'] =
        (if neg = true then '-' :: '0' :: x :: d else '0' :: x :: d) ∧
      (x = 'x' ∨ x = 'X') ∧ d ≠ [] ∧
      ((∀ c ∈ d, isHexDigit c = true) ∨ (∃ c t, d = c :: t ∧ (c = '+' ∨ c = '-'))) := by
  have h : ParseHexadecimal ['0', 'x', 'F', 'F'] = Outcome.ok 255 := by
    have h1 := (ParseHexadecimal_hexDigits ['F', 'F'] 'x' (by decide) (by decide)
      (Or.inl rfl)).1
    rw [h1, show positional 16 ['F', 'F'] = 255 by decide]
    norm_num
  exact ⟨h, C18_hexadecimal_accepted_shape _ _ h⟩

/-! ## Calculate on `0x` followed by letters that are no hex digits -/

theorem exists_first_false (p : Char → Bool) (l : List Char) (h : ∃ c ∈ l, p c = false) :
    ∃ pre c post, l = pre ++ c :: post ∧ (∀ x ∈ pre, p x = true) ∧ p c = false := by
  induction l with
  | nil => obtain ⟨c, hc, _⟩ := h; simp at hc
  | cons a t ih =>
    by_cases ha : p a = true
    · have h2 : ∃ c ∈ t, p c = false := by
        obtain ⟨c, hc, hpc⟩ := h
        rcases List.mem_cons.1 hc with rfl | hc
        · rw [ha] at hpc; cases hpc
        · exact ⟨c, hc, hpc⟩
      obtain ⟨pre, c, post, h3, h4, h5⟩ := ih h2
      refine ⟨a :: pre, c, post, by rw [h3]; rfl, ?_, h5⟩
      intro x hx
      rcases List.mem_cons.1 hx with rfl | hx
      · exact ha
      · exact h4 x hx
    · exact ⟨[], a, t, rfl, by simp, by simpa using ha⟩

theorem findInvalidCharacter_none (s : List Char) :
    ∀ i : Nat, (∀ x ∈ s, isValidCharacter x = true) → findInvalidCharacter s i = none := by
  induction s with
  | nil => intro i _; rfl
  | cons a t ih =>
    intro i h
    rw [findInvalidCharacter]
    simp only [h a (by simp), Bool.not_true, Bool.false_eq_true, if_false]
    exact ih _ (fun x hx => h x (by simp [hx]))

theorem letter_not_space (c : Char) (h : isAsciiLetter c = true) :
    unicodeIsSpace c = false := by
  have ea : 'a'.toNat = 97 := rfl
  have ez : 'z'.toNat = 122 := rfl
  have eA : 'A'.toNat = 65 := rfl
  have eZ : 'Z'.toNat = 90 := rfl
  simp only [isAsciiLetter, ea, ez, eA, eZ, Bool.or_eq_true, Bool.and_eq_true,
    decide_eq_true_eq] at h
  simp only [unicodeIsSpace, Bool.or_eq_false_iff, Bool.and_eq_false_imp,
    decide_eq_true_eq, decide_eq_false_iff_not]
  omega

theorem letter_valid_is_x (c : Char) (hl : isAsciiLetter c = true)
    (hh : isHexDigit c = false) (hv : isValidCharacter c = true) : c = 'x' ∨ c = 'X' := by
  have hs := letter_not_space c hl
  have hd : isDigit c = false := by
    cases hd : isDigit c with
    | false => rfl
    | true => rw [isHexDigit_of_isDigit c hd] at hh; cases hh
  by_cases hx : c = 'x'
  · exact Or.inl hx
  · have hdot : c ≠ '.' := by
      rintro rfl; revert hl; decide
    have hop : isOperator c = false := by
      cases ho : isOperator c with
      | false => rfl
      | true =>
        exfalso
        simp only [isOperator, OperatorMapHas, Bool.or_eq_true, decide_eq_true_eq] at ho
        rcases ho with ((ho | ho) | ho) | ho
        · have := char_eq_of_toNat _ _ ho; subst this; revert hl; decide
        · have := char_eq_of_toNat _ _ ho; subst this; revert hl; decide
        · exact hx (char_eq_of_toNat _ _ ho)
        · have := char_eq_of_toNat _ _ ho; subst this; revert hl; decide
    rcases valid_not_token_start c hv ⟨hs, hd, hdot, hop⟩ with ⟨h1, _⟩ | h1
    · rw [h1] at hh; cases hh
    · exact Or.inr h1

theorem startsNumber_x (r : List Char) (toks : List Token) :
    startsNumber ('x' :: r) toks = false := by
  have h1 : isDigit 'x' = false := by decide
  have h2 : hasHexPrefix ('x' :: r) = false := by
    cases r <;> simp [hasHexPrefix]
  simp [startsNumber, h1, h2]

/-- The loop of `Tokenize` over a run of `x`: one Operator token each. -/
theorem tokenizeLoop_x_run (xs : List Char) (hxs : ∀ c ∈ xs, c = 'x') :
    ∀ (k i : Nat) (toks : List Token) (tail : List Char),
      ∃ ops : List Token, (∀ t ∈ ops, t.Typ = TokenType.OperatorToken) ∧
        ops.length = xs.length ∧
        tokenizeLoop (xs.length + k) (xs ++ tail) i toks =
          tokenizeLoop k tail (i + xs.length) (toks ++ ops) := by
  induction xs with
  | nil => intro k i toks tail; exact ⟨[], by simp, rfl, by simp⟩
  | cons x xs ih =>
    intro k i toks tail
    have hx : x = 'x' := hxs x (by simp)
    subst hx
    obtain ⟨ops, h1, h2, h3⟩ := ih (fun c hc => hxs c (by simp [hc])) k (i + 1)
      (toks ++ [⟨TokenType.OperatorToken, ['x'], i⟩]) tail
    refine ⟨⟨TokenType.OperatorToken, ['x'], i⟩ :: ops, ?_, by simp [h2], ?_⟩
    · intro t ht
      rcases List.mem_cons.1 ht with rfl | ht
      · rfl
      · exact h1 t ht
    · have hfuel : ('x' :: xs).length + k = (xs.length + k) + 1 := by
        simp only [List.length_cons]; omega
      rw [hfuel]
      show tokenizeLoop (xs.length + k + 1) ('x' :: (xs ++ tail)) i toks = _
      rw [tokenizeLoop]
      simp only [show unicodeIsSpace 'x' = false by decide, Bool.false_eq_true, if_false,
        startsNumber_x, show isOperator 'x' = true by decide, if_true]
      rw [h3]
      simp only [List.length_cons, List.append_assoc, List.singleton_append]
      congr 1
      omega

/-- The first iteration on `0x` followed by a character that is no hex digit:
the Number token `0x`. -/
theorem tokenizeLoop_0x_start (fuel : Nat) (L : List Char)
    (hL : ∀ c, L.head? = some c → isHexDigit c = false) :
    tokenizeLoop (fuel + 1) ('0' :: 'x' :: L) 0 [] =
      tokenizeLoop fuel L 2 [⟨TokenType.NumberToken, ['0', 'x'], 0⟩] := by
  have hp : parseNumberToken ('0' :: 'x' :: L) = (['0', 'x'], L) := by
    have hhex : hasHexPrefix ('0' :: 'x' :: L) = true := by simp [hasHexPrefix]
    simp only [parseNumberToken, show ('0' : Char) ≠ '-' by decide, if_false, parseNumberBody,
      hhex, if_true, List.take_succ_cons, List.take_zero, List.drop_succ_cons, List.drop_zero]
    cases L with
    | nil => rfl
    | cons c t =>
      have := hL c rfl
      simp [List.takeWhile, List.dropWhile, this]
  have hs : startsNumber ('0' :: 'x' :: L) [] = true := by
    simp [startsNumber, show isDigit '0' = true by decide]
  rw [tokenizeLoop]
  simp only [show unicodeIsSpace '0' = false by decide, Bool.false_eq_true, if_false, hs,
    if_true, hp, List.nil_append, List.length_cons, List.length_nil]

theorem ParseExpression_trailing_operators (n : Token) (ops : List Token)
    (hn : n.Typ = TokenType.NumberToken) (hne : ops ≠ [])
    (hops : ∀ t ∈ ops, t.Typ = TokenType.OperatorToken) :
    ∃ p, ParseExpression (n :: ops) =
      Outcome.err (CalcError.ParseError "Expression must end with a number" p) := by
  have hlast : (n :: ops).getLast? = some (ops.getLast hne) := by
    rw [List.getLast?_eq_getLast _ (by simp), List.getLast_cons hne]
  have hty : (ops.getLast hne).Typ = TokenType.OperatorToken :=
    hops _ (List.getLast_mem hne)
  refine ⟨(ops.getLast hne).Position, ?_⟩
  simp [ParseExpression, hlast, hn, hty]

theorem Calculate_of_Tokenize_err (s : List Char) (e : CalcError)
    (h1 : TrimSpace s = s) (h2 : s ≠ []) (h3 : Tokenize s = some (Outcome.err e)) :
    Calculate s = some (Outcome.err e) := by
  unfold Calculate
  simp only [h1, h2, if_false, h3]

/-- C15, evaluated at the tests' own input `0xGHI`: the character check of
`Tokenize` stops at `G`, so `Calculate` returns InvalidCharacter for `G` at
position 2, and no ParseError, the kind that the tests' tables name for this
input. -/
theorem C15_0xGHI_is_invalid_character :
    Calculate ['0', 'x', 'G', 'H', 'I'] =
      some (Outcome.err (CalcError.InvalidCharacter 'G' 2)) ∧
    ¬ ∃ m p, Calculate ['0', 'x', 'G', 'H', 'I'] =
      some (Outcome.err (CalcError.ParseError m p)) := by
  have h : Calculate ['0', 'x', 'G', 'H', 'I'] =
      some (Outcome.err (CalcError.InvalidCharacter 'G' 2)) := by decide
  refine ⟨h, ?_⟩
  rintro ⟨m, p, hm⟩
  rw [h] at hm
  cases hm

/-- The error kind of `Calculate` on the prefix `0x` followed by one or more
letters that are no hex digits: InvalidCharacter, carrying a letter other than
`x`, when there is such a letter, and a ParseError only when every letter is
`x`. -/
theorem Calculate_0x_letters_fail (L : List Char) (hne : L ≠ [])
    (hL : ∀ c ∈ L, isAsciiLetter c = true ∧ isHexDigit c = false) :
    ((∃ c ∈ L, c ≠ 'x') →
      ∃ c p, c ∈ L ∧ c ≠ 'x' ∧
        Calculate ('0' :: 'x' :: L) = some (Outcome.err (CalcError.InvalidCharacter c p))) ∧
    ((∀ c ∈ L, c = 'x') →
      ∃ m p, Calculate ('0' :: 'x' :: L) = some (Outcome.err (CalcError.ParseError m p))) := by
  have htrim : TrimSpace ('0' :: 'x' :: L) = '0' :: 'x' :: L := by
    apply TrimSpace_id_of_all
    intro c hc
    simp only [List.mem_cons] at hc
    rcases hc with rfl | rfl | hc
    · decide
    · decide
    · exact letter_not_space c (hL c hc).1
  have hhead : ∀ c, L.head? = some c → isHexDigit c = false :=
    fun c hc => (hL c (List.mem_of_mem_head? hc)).2
  have hnb : TrimSpace ('0' :: 'x' :: L) ≠ [] := by rw [htrim]; simp
  constructor
  · rintro ⟨c0, hc0, hc0x⟩
    by_cases hval : ∀ c ∈ L, isValidCharacter c = true
    · -- every letter is `x` or `X`; the leftmost `X` is reported by the loop
      have hxX : ∀ c ∈ L, c = 'x' ∨ c = 'X' :=
        fun c hc => letter_valid_is_x c (hL c hc).1 (hL c hc).2 (hval c hc)
      obtain ⟨xs, c, post, hsplit, hxs, hc⟩ :=
        exists_first_false (fun c => decide (c = 'x')) L ⟨c0, hc0, by simpa using hc0x⟩
      have hcx : c ≠ 'x' := by simpa using hc
      have hcmem : c ∈ L := by rw [hsplit]; simp
      have hcX : c = 'X' := (hxX c hcmem).resolve_left hcx
      subst hcX
      have hxs2 : ∀ x ∈ xs, x = 'x' := fun x hx => by simpa using hxs x hx
      refine ⟨'X', 2 + xs.length, hcmem, hcx, ?_⟩
      apply Calculate_of_Tokenize_err _ _ htrim (by simp)
      have hallv : ∀ x ∈ '0' :: 'x' :: L, isValidCharacter x = true := by
        intro x hx
        simp only [List.mem_cons] at hx
        rcases hx with rfl | rfl | hx
        · decide
        · decide
        · exact hval x hx
      unfold Tokenize
      have hnb2 : TrimSpace ('0' :: 'x' :: L) ≠ [] := hnb
      simp only [hnb2, if_false, findInvalidCharacter_none _ 0 hallv, ite_self]
      rw [show ('0' :: 'x' :: L).length + 1 = (L.length + 2) + 1 by simp,
        tokenizeLoop_0x_start _ L hhead]
      obtain ⟨ops, _, _, hrun⟩ := tokenizeLoop_x_run xs hxs2 (post.length + 3) 2
        [⟨TokenType.NumberToken, ['0', 'x'], 0⟩] ('X' :: post)
      have hfuel : L.length + 2 = xs.length + (post.length + 3) := by
        rw [hsplit]; simp only [List.length_append, List.length_cons]; omega
      rw [hfuel, hsplit, hrun]
      rw [show post.length + 3 = (post.length + 2) + 1 by omega, tokenizeLoop]
      have hsX : startsNumber ('X' :: post) ([⟨TokenType.NumberToken, ['0', 'x'], 0⟩] ++ ops) =
          false := by
        have h2 : hasHexPrefix ('X' :: post) = false := by
          cases post <;> simp [hasHexPrefix]
        simp [startsNumber, show isDigit 'X' = false by decide, h2]
      simp only [show unicodeIsSpace 'X' = false by decide, Bool.false_eq_true, if_false,
        hsX, show isOperator 'X' = false by decide]
    · -- some letter is outside the allowed set; the pre-check reports the leftmost one
      have hex : ∃ c ∈ L, isValidCharacter c = false := by
        by_contra hcon
        apply hval
        intro c hc
        cases hv : isValidCharacter c with
        | true => rfl
        | false => exact absurd ⟨c, hc, hv⟩ hcon
      obtain ⟨pre, c, post, hsplit, hpre, hc⟩ := exists_first_false isValidCharacter L hex
      have hcmem : c ∈ L := by rw [hsplit]; simp
      have hcx : c ≠ 'x' := by
        rintro rfl; revert hc; decide
      refine ⟨c, utf8Length ('0' :: 'x' :: pre), hcmem, hcx, ?_⟩
      apply Calculate_of_Tokenize_err _ _ htrim (by simp)
      have hpre2 : ∀ x ∈ '0' :: 'x' :: pre, isValidCharacter x = true := by
        intro x hx
        simp only [List.mem_cons] at hx
        rcases hx with rfl | rfl | hx
        · decide
        · decide
        · exact hpre x hx
      have := Tokenize_invalid ('0' :: 'x' :: pre) post c hpre2 hc
      rw [hsplit]
      simpa using this
  · intro hallx
    have hallv : ∀ x ∈ '0' :: 'x' :: L, isValidCharacter x = true := by
      intro x hx
      simp only [List.mem_cons] at hx
      rcases hx with rfl | rfl | hx
      · decide
      · decide
      · rw [hallx x hx]; decide
    obtain ⟨ops, hops, hlen, hrun⟩ := tokenizeLoop_x_run L hallx 2 2
      [⟨TokenType.NumberToken, ['0', 'x'], 0⟩] []
    have htok : Tokenize ('0' :: 'x' :: L) =
        some (Outcome.ok (⟨TokenType.NumberToken, ['0', 'x'], 0⟩ :: ops)) := by
      unfold Tokenize
      have hnb2 : TrimSpace ('0' :: 'x' :: L) ≠ [] := hnb
      simp only [hnb2, if_false, findInvalidCharacter_none _ 0 hallv, ite_self]
      rw [show ('0' :: 'x' :: L).length + 1 = (L.length + 2) + 1 by simp,
        tokenizeLoop_0x_start _ L hhead]
      rw [List.append_nil] at hrun
      rw [hrun]
      simp [tokenizeLoop]
    have hopsne : ops ≠ [] := by
      intro h0
      rw [h0] at hlen
      exact hne (List.length_eq_zero.1 hlen.symm)
    obtain ⟨p, hp⟩ := ParseExpression_trailing_operators
      ⟨TokenType.NumberToken, ['0', 'x'], 0⟩ ops rfl hopsne hops
    refine ⟨"Expression must end with a number", p, ?_⟩
    unfold Calculate
    simp only [htrim, show ('0' :: 'x' :: L) ≠ [] by simp, if_false, htok, hp]

/-- The letters `GHI` and the letter `x` after `0x`: InvalidCharacter for
`0xGHI`, ParseError for `0xx`. -/
theorem Calculate_0x_letters_fail_example :
    (∃ c p, c ∈ ['G', 'H', 'I'] ∧ c ≠ 'x' ∧
      Calculate ['0', 'x', 'G', 'H', 'I'] =
        some (Outcome.err (CalcError.InvalidCharacter c p))) ∧
    (∃ m p, Calculate ['0', 'x', 'x'] = some (Outcome.err (CalcError.ParseError m p))) :=
  ⟨(Calculate_0x_letters_fail ['G', 'H', 'I'] (by decide) (by decide)).1 ⟨'G', by decide, by decide⟩,
   (Calculate_0x_letters_fail ['x'] (by decide) (by decide)).2 (by decide)⟩

/-! ## ParseDecimal against the decimal grammar -/

/-- With `base == 0` and `fracOk`, a leading `0` not followed by a base letter
is scanned as an ordinary decimal digit. -/
theorem natScan_base10_start (r : List Char)
    (h : ∀ c1 rest1, r = '0' :: c1 :: rest1 →
      c1 ≠ 'b' ∧ c1 ≠ 'B' ∧ c1 ≠ 'o' ∧ c1 ≠ 'O' ∧ c1 ≠ 'x' ∧ c1 ≠ 'X') :
    natScan r 0 true = scanFinish 10 false (scanLoop true 10 true '.' false 0 none 0 r) := by
  unfold natScan
  simp only [ne_eq, not_true_eq_false, if_false]
  cases r with
  | nil => rfl
  | cons ch rest =>
    by_cases hch : ch = '0'
    · subst hch
      simp only [ne_eq, not_true_eq_false, if_false]
      cases rest with
      | nil => simp [scanLoop, digitValue]
      | cons c1 rest1 =>
        obtain ⟨n1, n2, n3, n4, n5, n6⟩ := h c1 rest1 rfl
        simp only [n1, n2, n3, n4, n5, n6, or_self, if_false, if_true]
        congr 1
    · simp only [ne_eq, hch, not_false_eq_true, if_true]

theorem alphabet_not_base_letter (c : Char) (h : isDigit c = true ∨ c = '.' ∨ c = '-') :
    c ≠ 'b' ∧ c ≠ 'B' ∧ c ≠ 'o' ∧ c ≠ 'O' ∧ c ≠ 'x' ∧ c ≠ 'X' := by
  rcases h with h | rfl | rfl
  · exact ⟨digit_ne c h _ (by decide), digit_ne c h _ (by decide), digit_ne c h _ (by decide),
      digit_ne c h _ (by decide), digit_ne c h _ (by decide), digit_ne c h _ (by decide)⟩
  · decide
  · decide

/-- The digit loop stops at a `-`, and at a `.` once a radix point was seen. -/
theorem scanLoop_stops (ds : List Char) (hds : ∀ c ∈ ds, isDigit c = true)
    (fracOk : Bool) (prev : Char) (inv : Bool) (count : Nat) (dp : Option Nat) (acc : Nat)
    (c : Char) (r : List Char) (hc : c = '-' ∨ (c = '.' ∧ fracOk = false)) :
    (scanLoop true 10 fracOk prev inv count dp acc (ds ++ c :: r)).rest = c :: r := by
  rw [scanLoop_decDigits ds hds, scanLoop]
  rcases hc with rfl | ⟨rfl, rfl⟩
  · simp [digitValue]
  · simp [digitValue]

theorem scanExponent_other (c : Char) (r : List Char)
    (h : c ≠ 'e' ∧ c ≠ 'E' ∧ c ≠ 'p' ∧ c ≠ 'P') :
    scanExponent (c :: r) = some (0, 10, c :: r) := by
  simp [scanExponent, h.1, h.2.1, h.2.2.1, h.2.2.2]

/-- The float form of `Rat.SetString` fails when the mantissa scan leaves a `.`
or a `-` unread. -/
theorem scanFloat_none_of_rest (s body : List Char) (neg : Bool) (c : Char) (r : List Char)
    (hsign : scanSign s = some (neg, body))
    (hrest : (natScan body 0 true).rest = c :: r) (hc : c = '.' ∨ c = '-') :
    scanFloat s = none := by
  unfold scanFloat
  simp only [hsign]
  by_cases he : (natScan body 0 true).err = true
  · simp [he]
  · have hex : scanExponent (c :: r) = some (0, 10, c :: r) := by
      apply scanExponent_other
      rcases hc with rfl | rfl <;> decide
    simp only [he, Bool.false_eq_true, if_false, hrest, hex]
    simp

theorem takeWhile_all (p : Char → Bool) (l : List Char) : ∀ c ∈ l.takeWhile p, p c = true := by
  intro c hc
  exact (List.mem_takeWhile_imp hc)

/-- On a body made of digits, `.` and `-`, a successful mantissa scan that
leaves nothing unread means the body is in the grammar. -/
theorem body_matches_of_scan (body : List Char)
    (halpha : ∀ c ∈ body, isDigit c = true ∨ c = '.' ∨ c = '-')
    (herr : (natScan body 0 true).err = false)
    (hrest : (natScan body 0 true).rest = []) :
    matchesDecimalBody body = true := by
  have hstart : natScan body 0 true =
      scanFinish 10 false (scanLoop true 10 true '.' false 0 none 0 body) := by
    apply natScan_base10_start
    intro c1 rest1 hb
    exact alphabet_not_base_letter c1 (halpha c1 (by rw [hb]; simp))
  have hsplit := List.takeWhile_append_dropWhile isDigit body
  have hI : ∀ c ∈ body.takeWhile isDigit, isDigit c = true := takeWhile_all _ _
  unfold matchesDecimalBody
  cases hR : body.dropWhile isDigit with
  | nil =>
    simp only []
    rw [hR, List.append_nil] at hsplit
    cases hIe : body.takeWhile isDigit with
    | nil =>
      exfalso
      rw [hIe] at hsplit
      rw [← hsplit] at herr
      revert herr
      decide
    | cons a t => rfl
  | cons c r1 =>
    simp only []
    have hcnd : isDigit c = false := by
      have := List.head_dropWhile_not isDigit body (by simp [hR])
      simpa [hR] using this
    have hcmem : c ∈ body := by
      rw [← hsplit, hR]; simp
    have hc : c = '.' ∨ c = '-' := by
      rcases halpha c hcmem with h | h
      · rw [h] at hcnd; cases hcnd
      · exact h
    rcases hc with rfl | rfl
    · -- a radix point: the fraction digits must reach the end of the body
      have hsplit2 := List.takeWhile_append_dropWhile isDigit r1
      have hF : ∀ c ∈ r1.takeWhile isDigit, isDigit c = true := takeWhile_all _ _
      cases hR2 : r1.dropWhile isDigit with
      | cons c2 r3 =>
        exfalso
        have hc2nd : isDigit c2 = false := by
          have := List.head_dropWhile_not isDigit r1 (by simp [hR2])
          simpa [hR2] using this
        have hc2mem : c2 ∈ body := by
          rw [← hsplit, hR, ← hsplit2, hR2]; simp
        have hc2 : c2 = '.' ∨ c2 = '-' := by
          rcases halpha c2 hc2mem with h | h
          · rw [h] at hc2nd; cases hc2nd
          · exact h
        have hbody : body = body.takeWhile isDigit ++ '.' ::
            (r1.takeWhile isDigit ++ c2 :: r3) := by
          conv_lhs => rw [← hsplit, hR, ← hsplit2, hR2]
        have hscan : (scanLoop true 10 true '.' false 0 none 0 body).rest = c2 :: r3 := by
          rw [hbody, scanLoop_decDigits _ hI, scanLoop]
          simp only [true_and, if_true]
          apply scanLoop_stops _ hF
          rcases hc2 with rfl | rfl
          · exact Or.inr ⟨rfl, rfl⟩
          · exact Or.inl rfl
        rw [hstart, scanFinish_rest, hscan] at hrest
        cases hrest
      | nil =>
        rw [hR2, List.append_nil] at hsplit2
        have hall : r1.all isDigit = true := by
          rw [List.all_eq_true]
          intro x hx
          rw [← hsplit2] at hx
          exact hF x hx
        simp only [decide_True, Bool.true_and, hall]
        by_cases hIe : body.takeWhile isDigit = []
        · by_cases hFe : r1 = []
          · exfalso
            rw [hIe, hR, hFe] at hsplit
            rw [← hsplit] at herr
            revert herr
            decide
          · cases r1 with
            | nil => exact absurd rfl hFe
            | cons a t => simp
        · cases hIc : body.takeWhile isDigit with
          | nil => exact absurd hIc hIe
          | cons a t => simp
    · -- a `-` inside the body is left unread
      exfalso
      have hbody : body = body.takeWhile isDigit ++ '-' :: r1 := by
        conv_lhs => rw [← hsplit, hR]
      have hscan : (scanLoop true 10 true '.' false 0 none 0 body).rest = '-' :: r1 := by
        rw [hbody]
        exact scanLoop_stops _ hI true '.' false 0 none 0 '-' r1 (Or.inl rfl)
      rw [hstart, scanFinish_rest, hscan] at hrest
      cases hrest

theorem scanLoop_rest_mem (base0 : Bool) (b : Nat) (l : List Char) :
    ∀ (fracOk : Bool) (prev : Char) (inv : Bool) (count : Nat) (dp : Option Nat) (acc : Nat),
      ∀ x ∈ (scanLoop base0 b fracOk prev inv count dp acc l).rest, x ∈ l := by
  induction l with
  | nil => intro fracOk prev inv count dp acc x hx; simp [scanLoop] at hx
  | cons ch t ih =>
    intro fracOk prev inv count dp acc x hx
    rw [scanLoop] at hx
    split at hx
    · exact List.mem_cons_of_mem _ (ih _ _ _ _ _ _ x hx)
    · split at hx
      · exact List.mem_cons_of_mem _ (ih _ _ _ _ _ _ x hx)
      · split at hx
        · exact hx
        · exact List.mem_cons_of_mem _ (ih _ _ _ _ _ _ x hx)

theorem ParseDecimal_congr (a b : List Char) (h : TrimSpace a = TrimSpace b) :
    ParseDecimal a = ParseDecimal b := by
  unfold ParseDecimal
  simp only [h]

/-- On a text made of digits, `.` and `-`, the float form of `Rat.SetString`
succeeds only on texts of the decimal grammar. -/
theorem scanFloat_alphabet (t : List Char)
    (halpha : ∀ c ∈ t, isDigit c = true ∨ c = '.' ∨ c = '-')
    (r : Bool × Nat × Int × Int) (h : scanFloat t = some r) :
    matchesDecimal t = true := by
  cases t with
  | nil => simp [scanFloat, scanSign] at h
  | cons c0 t0 =>
    have hplus : c0 ≠ '+' := (decChar_facts c0 (halpha c0 (by simp))).2.2.2.2
    -- the sign and the body
    have hsb : ∃ neg body, scanSign (c0 :: t0) = some (neg, body) ∧
        matchesDecimal (c0 :: t0) = matchesDecimalBody body ∧
        (∀ c ∈ body, isDigit c = true ∨ c = '.' ∨ c = '-') := by
      by_cases hm : c0 = '-'
      · exact ⟨true, t0, by simp [scanSign, hm], by simp [matchesDecimal, hm],
          fun c hc => halpha c (by simp [hc])⟩
      · exact ⟨false, c0 :: t0, by simp [scanSign, hm, hplus], by simp [matchesDecimal, hm],
          halpha⟩
    obtain ⟨neg, body, hsign, hmatch, hbody⟩ := hsb
    rw [hmatch]
    have hstart : natScan body 0 true =
        scanFinish 10 false (scanLoop true 10 true '.' false 0 none 0 body) := by
      apply natScan_base10_start
      intro c1 rest1 hb
      exact alphabet_not_base_letter c1 (hbody c1 (by rw [hb]; simp))
    cases herr : (natScan body 0 true).err with
    | true =>
      exfalso
      unfold scanFloat at h
      simp [hsign, herr] at h
    | false =>
      cases hrest : (natScan body 0 true).rest with
      | nil => exact body_matches_of_scan body hbody herr hrest
      | cons c r1 =>
        exfalso
        have hcmem : c ∈ body := by
          have : c ∈ (natScan body 0 true).rest := by rw [hrest]; simp
          rw [hstart, scanFinish_rest] at this
          exact scanLoop_rest_mem _ _ _ _ _ _ _ _ _ c this
        have hf := decChar_facts c (hbody c hcmem)
        have hc4 : c ≠ 'e' ∧ c ≠ 'E' ∧ c ≠ 'p' ∧ c ≠ 'P' := by
          refine ⟨hf.2.1, hf.2.2.1, ?_, ?_⟩
          · rcases hbody c hcmem with hd | rfl | rfl
            · exact digit_ne c hd _ (by decide)
            · decide
            · decide
          · rcases hbody c hcmem with hd | rfl | rfl
            · exact digit_ne c hd _ (by decide)
            · decide
            · decide
        unfold scanFloat at h
        simp only [hsign, herr, Bool.false_eq_true, if_false, hrest,
          scanExponent_other c r1 hc4] at h
        simp at h

theorem matchesDecimalBody_shape (body : List Char) (h : matchesDecimalBody body = true) :
    ∃ I F : List Char, (∀ c ∈ I, isDigit c = true) ∧ (∀ c ∈ F, isDigit c = true) ∧
      ((body = I ∧ I ≠ []) ∨ (body = I ++ '.' :: F ∧ I ++ F ≠ [])) := by
  have hsplit := List.takeWhile_append_dropWhile isDigit body
  have hI : ∀ c ∈ body.takeWhile isDigit, isDigit c = true := takeWhile_all _ _
  unfold matchesDecimalBody at h
  cases hR : body.dropWhile isDigit with
  | nil =>
    rw [hR] at h hsplit
    rw [List.append_nil] at hsplit
    refine ⟨body.takeWhile isDigit, [], hI, by simp, Or.inl ⟨hsplit.symm, ?_⟩⟩
    intro h0
    rw [h0] at h
    simp at h
  | cons c r =>
    rw [hR] at h hsplit
    simp only [Bool.and_eq_true, decide_eq_true_eq, Bool.or_eq_true, Bool.not_eq_true',
      List.all_eq_true] at h
    obtain ⟨⟨hc, hall⟩, hne⟩ := h
    subst hc
    refine ⟨body.takeWhile isDigit, r, hI, hall, Or.inr ⟨hsplit.symm, ?_⟩⟩
    intro h0
    have h1 := (List.append_eq_nil.1 h0).1
    have h2 := (List.append_eq_nil.1 h0).2
    rw [h1, h2] at hne
    simp at hne

/-! ## Scanning up to a stop character -/

theorem takeWhile_append_stop (p : Char → Bool) (a y : List Char)
    (ha : ∀ c ∈ a, p c = true) (hy : ∀ c, y.head? = some c → p c = false) :
    (a ++ y).takeWhile p = a ∧ (a ++ y).dropWhile p = y := by
  induction a with
  | nil =>
    cases y with
    | nil => simp
    | cons c t =>
      have := hy c rfl
      simp [List.takeWhile, List.dropWhile, this]
  | cons b a ih =>
    have hb : p b = true := ha b (by simp)
    obtain ⟨h1, h2⟩ := ih (fun c hc => ha c (by simp [hc]))
    simp [List.takeWhile, List.dropWhile, hb, h1, h2]

theorem fractionDigits_digits (neg : Bool) (I : List Char) (hI : ∀ c ∈ I, isDigit c = true) :
    fractionDigits (if neg = true then '-' :: I else I) = [] := by
  have h1 : I.dropWhile (fun c => decide (c ≠ '.')) = [] := by
    rw [List.dropWhile_eq_nil_iff]
    intro c hc
    have := digit_ne c (hI c hc) '.' (by decide)
    simpa using this
  cases neg
  · simp only [Bool.false_eq_true, if_false, fractionDigits, h1, List.drop_nil]
  · have hd : ('-' :: I).dropWhile (fun c => decide (c ≠ '.')) =
        I.dropWhile (fun c => decide (c ≠ '.')) := by
      rw [List.dropWhile_cons]; simp
    simp only [if_true, fractionDigits, hd, h1, List.drop_nil]

theorem fractionDigits_point (neg : Bool) (I F : List Char)
    (hI : ∀ c ∈ I, isDigit c = true) :
    fractionDigits (if neg = true then '-' :: (I ++ '.' :: F) else I ++ '.' :: F) = F := by
  have h1 : (I ++ '.' :: F).dropWhile (fun c => decide (c ≠ '.')) = '.' :: F := by
    have := takeWhile_append_stop (fun c => decide (c ≠ '.')) I ('.' :: F)
      (fun c hc => by
        have := digit_ne c (hI c hc) '.' (by decide)
        simpa using this)
      (fun c hc => by
        simp only [List.head?_cons, Option.some.injEq] at hc
        rw [← hc]; decide)
    exact this.2
  cases neg
  · simp only [Bool.false_eq_true, if_false, fractionDigits, h1, List.drop_succ_cons,
      List.drop_zero]
  · have hd : ('-' :: (I ++ '.' :: F)).dropWhile (fun c => decide (c ≠ '.')) =
        (I ++ '.' :: F).dropWhile (fun c => decide (c ≠ '.')) := by
      rw [List.dropWhile_cons]; simp
    simp only [if_true, fractionDigits, hd, h1, List.drop_succ_cons, List.drop_zero]

/-- A list of digits writing zero holds no digit but `0`. -/
theorem positional_foldl_zero (l : List Char) (hl : ∀ c ∈ l, isDigit c = true) :
    ∀ acc : Nat, l.foldl (fun acc c => acc * 10 + hexDigitValue c) acc = 0 →
      acc = 0 ∧ ∀ c ∈ l, c = '0' := by
  induction l with
  | nil => intro acc h; exact ⟨h, by simp⟩
  | cons a t ih =>
    intro acc h
    rw [List.foldl_cons] at h
    obtain ⟨h1, h2⟩ := ih (fun c hc => hl c (by simp [hc])) _ h
    have ha := isDigit_bounds a (hl a (by simp))
    have hv : hexDigitValue a = a.toNat - 48 := by
      have e0 : '0'.toNat = 48 := rfl
      have e9 : '9'.toNat = 57 := rfl
      simp only [hexDigitValue, e0, e9, ha.1, ha.2, and_self, if_true]
    rw [hv] at h1
    refine ⟨by omega, ?_⟩
    intro c hc
    rcases List.mem_cons.1 hc with rfl | hc
    · exact char_eq_of_toNat _ _ (by
        have e0 : '0'.toNat = 48 := rfl
        rw [e0]; omega)
    · exact h2 c hc

theorem positional_ne_zero (l : List Char) (hl : ∀ c ∈ l, isDigit c = true)
    (c : Char) (hc : c ∈ l) (h0 : c ≠ '0') : positional 10 l ≠ 0 := by
  intro h
  exact h0 ((positional_foldl_zero l hl 0 h).2 c hc)

theorem RatSetString_none_reject (s : List Char) (hne : TrimSpace s ≠ [])
    (h : RatSetString (TrimSpace s) = none) :
    ∃ m, ParseDecimal s = Outcome.err (CalcError.ParseError m 0) := by
  unfold ParseDecimal
  simp only [hne, if_false]
  split
  · exact ⟨_, rfl⟩
  · rw [h]
    exact ⟨_, rfl⟩

/-- `ParseDecimal` on the texts of the decimal grammar: accepted with at most
`10^6` fraction digits, rejected with more of them and a digit other than `0`. -/
theorem ParseDecimal_of_matches (t : List Char) (h : matchesDecimal t = true) :
    ((fractionDigits t).length ≤ 1000000 → ∃ v, ParseDecimal t = Outcome.ok v) ∧
    (1000000 < (fractionDigits t).length → (fractionDigits t).length < 9223372036854775808 →
      (∃ c ∈ t, isDigit c = true ∧ c ≠ '0') →
      ParseDecimal t = Outcome.err (CalcError.ParseError "Invalid decimal format" 0)) := by
  have hbodyOk : ∀ (neg : Bool) (body : List Char), matchesDecimalBody body = true →
      ((fractionDigits (if neg = true then '-' :: body else body)).length ≤ 1000000 →
        ∃ v, ParseDecimal (if neg = true then '-' :: body else body) = Outcome.ok v) ∧
      (1000000 < (fractionDigits (if neg = true then '-' :: body else body)).length →
        (fractionDigits (if neg = true then '-' :: body else body)).length <
          9223372036854775808 →
        (∃ c ∈ body, isDigit c = true ∧ c ≠ '0') →
        ParseDecimal (if neg = true then '-' :: body else body) =
          Outcome.err (CalcError.ParseError "Invalid decimal format" 0)) := by
    intro neg body hb
    obtain ⟨I, F, hI, hF, hshape⟩ := matchesDecimalBody_shape body hb
    rcases hshape with ⟨rfl, hne⟩ | ⟨rfl, hne⟩
    · rw [fractionDigits_digits neg body hI]
      refine ⟨fun _ => ?_, fun hk => absurd hk (by simp)⟩
      have hd : (if (body.length : Int) < 0 then (body.length : Int) else 0) =
          -((0 : Nat) : Int) := by
        have : ¬ ((body.length : Int) < 0) := by omega
        simp [this]
      exact ⟨_, ParseDecimal_decimal neg body _ 0 _ (fun c hc => Or.inl (hI c hc)) hne
        (natScan_decimal_int body hI hne) hd (Or.inl (by omega))⟩
    · rw [fractionDigits_point neg I F hI]
      constructor
      · intro hk
        exact ⟨_, ParseDecimal_decimal neg (I ++ '.' :: F) _ F.length _ (point_body I F hI hF)
          (by simp) (natScan_decimal_point I F hI hF hne) (fraction_count _) (Or.inl hk)⟩
      · rintro hk hk2 ⟨c, hc, hcd, hc0⟩
        have hcm : c ∈ I ++ F := by
          simp only [List.mem_append, List.mem_cons] at hc ⊢
          rcases hc with h1 | rfl | h1
          · exact Or.inl h1
          · exact absurd hcd (by decide)
          · exact Or.inr h1
        have hIF : ∀ x ∈ I ++ F, isDigit x = true := by
          intro x hx
          rcases List.mem_append.1 hx with h1 | h1
          · exact hI x h1
          · exact hF x h1
        exact ParseDecimal_decimal_fail neg (I ++ '.' :: F) _ F.length _ (point_body I F hI hF)
          (by simp) (natScan_decimal_point I F hI hF hne) (fraction_count _)
          (positional_ne_zero _ hIF c hcm hc0) hk hk2
  cases t with
  | nil => simp [matchesDecimal] at h
  | cons c t0 =>
    by_cases hm : c = '-'
    · subst hm
      have hb : matchesDecimalBody t0 = true := by simpa [matchesDecimal] using h
      have := hbodyOk true t0 hb
      simp only [if_true] at this
      refine ⟨this.1, fun hk hk2 hex => this.2 hk hk2 ?_⟩
      obtain ⟨x, hx, hxd, hx0⟩ := hex
      rcases List.mem_cons.1 hx with rfl | hx
      · exact absurd hxd (by decide)
      · exact ⟨x, hx, hxd, hx0⟩
    · have hb : matchesDecimalBody (c :: t0) = true := by simpa [matchesDecimal, hm] using h
      have := hbodyOk false (c :: t0) hb
      simp only [Bool.false_eq_true, if_false] at this
      exact this

/-- On a text whose trimmed form is made of digits, `.` and `-` and is not of
the decimal grammar, `ParseDecimal` fails. -/
theorem ParseDecimal_alphabet_reject (s : List Char)
    (halpha : ∀ c ∈ TrimSpace s, isDigit c = true ∨ c = '.' ∨ c = '-')
    (hm : matchesDecimal (TrimSpace s) = false) :
    ∃ m, ParseDecimal s = Outcome.err (CalcError.ParseError m 0) := by
  by_cases h0 : TrimSpace s = []
  · exact ⟨"Empty decimal number", by simp [ParseDecimal, h0]⟩
  · apply RatSetString_none_reject s h0
    have hslash : (TrimSpace s).contains '/' = false := by
      cases hcn : (TrimSpace s).contains '/' with
      | false => rfl
      | true =>
        have hm : '/' ∈ TrimSpace s := by simpa using hcn
        exact absurd rfl (decChar_facts _ (halpha _ hm)).2.2.2.1
    unfold RatSetString
    simp only [h0, if_false, hslash, Bool.false_eq_true]
    cases hf : scanFloat (TrimSpace s) with
    | none => rfl
    | some r =>
      have := scanFloat_alphabet _ halpha r hf
      rw [this] at hm; cases hm

/-- C16, as stated, fails at ` 5 ` (not in the grammar, accepted after trimming
with value 5) and at `1/2`, `+5` and `0b11` (not in the grammar, accepted by
`Rat.SetString` with values 1/2, 5 and 3). -/
theorem C16_accepts_outside_grammar :
    ParseDecimal [' ', '5', ' '] = Outcome.ok 5 ∧ matchesDecimal [' ', '5', ' '] = false ∧
    ParseDecimal ['1', '/', '2'] = Outcome.ok (1 / 2) ∧ matchesDecimal ['1', '/', '2'] = false ∧
    ParseDecimal ['+', '5'] = Outcome.ok 5 ∧ matchesDecimal ['+', '5'] = false ∧
    ParseDecimal ['0', 'b', '1', '1'] = Outcome.ok 3 ∧
    matchesDecimal ['0', 'b', '1', '1'] = false := by
  refine ⟨?_, by decide, ?_, by decide, ?_, by decide, ?_, by decide⟩
  · unfold ParseDecimal RatSetString
    simp only [show TrimSpace [' ', '5', ' '] = ['5'] by decide]
    rw [if_neg (by decide), if_neg (by decide), if_neg (by decide), if_neg (by decide),
      show scanFloat ['5'] = some (false, 5, 0, 0) by decide]
    norm_num [scaleRat]
  · unfold ParseDecimal RatSetString
    simp only [show TrimSpace ['1', '/', '2'] = ['1', '/', '2'] by decide]
    rw [if_neg (by decide), if_neg (by decide), if_neg (by decide), if_pos (by decide),
      show scanFraction ['1', '/', '2'] = some (1, 2) by decide]
    norm_num
  · unfold ParseDecimal RatSetString
    simp only [show TrimSpace ['+', '5'] = ['+', '5'] by decide]
    rw [if_neg (by decide), if_neg (by decide), if_neg (by decide), if_neg (by decide),
      show scanFloat ['+', '5'] = some (false, 5, 0, 0) by decide]
    norm_num [scaleRat]
  · unfold ParseDecimal RatSetString
    simp only [show TrimSpace ['0', 'b', '1', '1'] = ['0', 'b', '1', '1'] by decide]
    rw [if_neg (by decide), if_neg (by decide), if_neg (by decide), if_neg (by decide),
      show scanFloat ['0', 'b', '1', '1'] = some (false, 3, 0, 0) by decide]
    norm_num [scaleRat]

theorem dropWhile_head (p : Char → Bool) (l : List Char) (c : Char) (t : List Char)
    (h : l.dropWhile p = c :: t) : p c = false := by
  induction l with
  | nil => simp at h
  | cons a l ih =>
    by_cases ha : p a = true
    · rw [List.dropWhile_cons_of_pos ha] at h
      exact ih h
    · rw [List.dropWhile_cons_of_neg ha] at h
      simp only [List.cons.injEq] at h
      rw [← h.1]
      simpa using ha

/-! ## Rat.SetString: characters it cannot read -/

theorem digitValue_unreadable (f : Char) (h : readableBySetString f = false) :
    digitValue f = 63 ∧ f ≠ '.' ∧ f ≠ '_' ∧ f ≠ '+' ∧ f ≠ '-' ∧ f ≠ '/' ∧
      isDigit f = false ∧ isAsciiLetter f = false := by
  simp only [readableBySetString, Bool.or_eq_false_iff, decide_eq_false_iff_not] at h
  obtain ⟨⟨⟨⟨⟨⟨hl, hd⟩, h1⟩, h2⟩, h3⟩, h4⟩, h5⟩ := h
  refine ⟨?_, h1, h2, h3, h4, h5, hd, hl⟩
  have e0 : '0'.toNat = 48 := rfl
  have e9 : '9'.toNat = 57 := rfl
  have ea : 'a'.toNat = 97 := rfl
  have ez : 'z'.toNat = 122 := rfl
  have eA : 'A'.toNat = 65 := rfl
  have eZ : 'Z'.toNat = 90 := rfl
  simp only [isDigit, e0, e9, Bool.and_eq_false_imp, decide_eq_true_eq,
    decide_eq_false_iff_not] at hd
  simp only [isAsciiLetter, ea, ez, eA, eZ, Bool.or_eq_false_iff, Bool.and_eq_false_imp,
    decide_eq_true_eq, decide_eq_false_iff_not] at hl
  have n1 : ¬ (48 ≤ f.toNat ∧ f.toNat ≤ 57) := fun h => hd h.1 h.2
  have n2 : ¬ (97 ≤ f.toNat ∧ f.toNat ≤ 122) := fun h => hl.1 h.1 h.2
  have n3 : ¬ (65 ≤ f.toNat ∧ f.toNat ≤ 90) := fun h => hl.2 h.1 h.2
  simp only [digitValue, e0, e9, ea, ez, eA, eZ, n1, n2, n3, if_false]

/-- The digit loop of `nat.scan` leaves unread a character that is no digit in
any base and neither `.` nor `_`. -/
theorem scanLoop_unreadable (base0 : Bool) (b : Nat) (hb : b ≤ 63) (f : Char)
    (hf : digitValue f = 63) (h1 : f ≠ '.') (h2 : f ≠ '_') (l : List Char) :
    ∀ (fracOk : Bool) (prev : Char) (inv : Bool) (count : Nat) (dp : Option Nat) (acc : Nat),
      f ∈ l → f ∈ (scanLoop base0 b fracOk prev inv count dp acc l).rest := by
  induction l with
  | nil => intro _ _ _ _ _ _ h; simp at h
  | cons ch t ih =>
    intro fracOk prev inv count dp acc h
    rw [scanLoop]
    by_cases hc : ch = f
    · subst hc
      have n1 : ¬ (ch = '.' ∧ fracOk = true) := fun h => h1 h.1
      have n2 : ¬ (ch = '_' ∧ base0 = true) := fun h => h2 h.1
      have n3 : digitValue ch ≥ b := by rw [hf]; exact hb
      simp only [n1, n2, n3, if_false, if_true]
      simp
    · have ht : f ∈ t := by
        rcases List.mem_cons.1 h with h | h
        · exact absurd h.symm hc
        · exact h
      split
      · exact ih _ _ _ _ _ _ ht
      · split
        · exact ih _ _ _ _ _ _ ht
        · split
          · exact h
          · exact ih _ _ _ _ _ _ ht

theorem natScan_unreadable (f : Char) (hf : readableBySetString f = false) (s : List Char)
    (fracOk : Bool) (h : f ∈ s) : f ∈ (natScan s 0 fracOk).rest := by
  obtain ⟨hv, h1, h2, _, _, _, hd, hl⟩ := digitValue_unreadable f hf
  have hloop : ∀ (b : Nat), b ≤ 63 → ∀ (o : Bool) (prev : Char) (count : Nat) (l : List Char),
      f ∈ l →
      f ∈ (scanFinish b o (scanLoop true b fracOk prev false count none 0 l)).rest := by
    intro b hb o prev count l hl
    rw [scanFinish_rest]
    exact scanLoop_unreadable true b hb f hv h1 h2 l _ _ _ _ _ _ hl
  have hne : ∀ c : Char, (isDigit c = true ∨ isAsciiLetter c = true) → f ≠ c := by
    rintro c hc rfl
    rcases hc with hc | hc
    · rw [hc] at hd; cases hd
    · rw [hc] at hl; cases hl
  unfold natScan
  simp only [ne_eq, not_true_eq_false, if_false]
  cases s with
  | nil => simp at h
  | cons ch rest =>
    by_cases hch : ch = '0'
    · subst hch
      have hr : f ∈ rest := by
        rcases List.mem_cons.1 h with h | h
        · exact absurd h (hne '0' (Or.inl (by decide)))
        · exact h
      simp only [ne_eq, not_true_eq_false, if_false]
      cases rest with
      | nil => simp at hr
      | cons c1 rest1 =>
        have hr1 : (c1 = 'b' ∨ c1 = 'B' ∨ c1 = 'o' ∨ c1 = 'O' ∨ c1 = 'x' ∨ c1 = 'X') →
            f ∈ rest1 := by
          intro hc1
          rcases List.mem_cons.1 hr with h | h
          · exfalso
            rcases hc1 with rfl | rfl | rfl | rfl | rfl | rfl <;>
              exact hne _ (Or.inr (by decide)) h
          · exact h
        simp only []
        split
        · rename_i hc; exact hloop 2 (by omega) _ _ _ _ (hr1 (by tauto))
        · split
          · rename_i hc; exact hloop 8 (by omega) _ _ _ _ (hr1 (by tauto))
          · split
            · rename_i hc; exact hloop 16 (by omega) _ _ _ _ (hr1 (by tauto))
            · split
              · exact hloop 10 (by omega) _ _ _ _ hr
              · exact hloop 8 (by omega) _ _ _ _ hr
    · simp only [ne_eq, hch, not_false_eq_true, if_true]
      exact hloop 10 (by omega) _ _ _ _ h

theorem scanExpDigits_unreadable (f : Char) (hd : isDigit f = false) (h2 : f ≠ '_')
    (l : List Char) :
    ∀ (acc : Nat) (prev : Char) (inv has : Bool),
      f ∈ l → f ∈ (scanExpDigits acc prev inv has l).2.2.2.2 := by
  induction l with
  | nil => intro _ _ _ _ h; simp at h
  | cons ch t ih =>
    intro acc prev inv has h
    rw [scanExpDigits]
    by_cases hc : ch = f
    · subst hc
      have n1 : ¬ ('0'.toNat ≤ ch.toNat ∧ ch.toNat ≤ '9'.toNat) := by
        intro hh
        have : isDigit ch = true := by
          simp only [isDigit, hh.1, hh.2, decide_True, Bool.and_self]
        rw [this] at hd; cases hd
      simp only [n1, h2, if_false]
      simp
    · have ht : f ∈ t := by
        rcases List.mem_cons.1 h with h | h
        · exact absurd h.symm hc
        · exact h
      split
      · exact ih _ _ _ _ ht
      · split
        · exact ih _ _ _ _ ht
        · exact h

theorem scanExponent_unreadable (f : Char) (hf : readableBySetString f = false)
    (l : List Char) (e : Int) (b : Nat) (r2 : List Char) (h : f ∈ l)
    (hs : scanExponent l = some (e, b, r2)) : f ∈ r2 := by
  obtain ⟨_, _, h2, h3, h4, _, hd, hl⟩ := digitValue_unreadable f hf
  have hne : ∀ c : Char, isAsciiLetter c = true → f ≠ c := by
    rintro c hc rfl
    rw [hc] at hl; cases hl
  cases l with
  | nil => simp at h
  | cons ch rest =>
    unfold scanExponent at hs
    by_cases hx : ch = 'e' ∨ ch = 'E' ∨ ch = 'p' ∨ ch = 'P'
    · have hr : f ∈ rest := by
        rcases List.mem_cons.1 h with h | h
        · exfalso
          rcases hx with rfl | rfl | rfl | rfl <;> exact hne _ (by decide) h
        · exact h
      simp only [hx, if_true] at hs
      have hr1 : f ∈ (match rest with
          | c :: t => if c = '+' ∨ c = '-' then t else rest
          | [] => rest) := by
        cases rest with
        | nil => exact hr
        | cons c t =>
          simp only []
          split
          · rename_i hc
            rcases List.mem_cons.1 hr with h | h
            · exfalso
              rcases hc with rfl | rfl
              · exact h3 h
              · exact h4 h
            · exact h
          · exact hr
      have hmem := scanExpDigits_unreadable f hd h2 _ 0 '.' false false hr1
      have key : ∀ (c1 c2 c3 : Prop) [Decidable c1] [Decidable c2] [Decidable c3] (v : Int)
          (bb : Nat) (r : List Char),
          (if c1 then (none : Option (Int × Nat × List Char)) else if c2 then none
            else if c3 then none else some (v, bb, r)) = some (e, b, r2) → r = r2 := by
        intro c1 c2 c3 _ _ _ v bb r hh
        by_cases k1 : c1
        · rw [if_pos k1] at hh; cases hh
        · rw [if_neg k1] at hh
          by_cases k2 : c2
          · rw [if_pos k2] at hh; cases hh
          · rw [if_neg k2] at hh
            by_cases k3 : c3
            · rw [if_pos k3] at hh; cases hh
            · rw [if_neg k3] at hh
              simp only [Option.some.injEq, Prod.mk.injEq] at hh
              exact hh.2.2
      have hrr := key _ _ _ _ _ _ hs
      rw [← hrr]; exact hmem
    · simp only [hx, if_false, Option.some.injEq, Prod.mk.injEq] at hs
      rw [← hs.2.2]; exact h

theorem scanSign_unreadable (f : Char) (h3 : f ≠ '+') (h4 : f ≠ '-') (s : List Char)
    (h : f ∈ s) : ∃ neg r, scanSign s = some (neg, r) ∧ f ∈ r := by
  cases s with
  | nil => simp at h
  | cons ch rest =>
    have hr : (ch = '-' ∨ ch = '+') → f ∈ rest := by
      intro hc
      rcases List.mem_cons.1 h with h | h
      · exfalso
        rcases hc with rfl | rfl
        · exact h4 h
        · exact h3 h
      · exact h
    unfold scanSign
    by_cases hm : ch = '-'
    · exact ⟨true, rest, by simp [hm], hr (Or.inl hm)⟩
    · by_cases hp : ch = '+'
      · exact ⟨false, rest, by simp [hm, hp], hr (Or.inr hp)⟩
      · exact ⟨false, ch :: rest, by simp [hm, hp], h⟩

theorem IntSetString_unreadable (f : Char) (hf : readableBySetString f = false)
    (a : List Char) (h : f ∈ a) : IntSetString a 0 = none := by
  obtain ⟨_, _, _, h3, h4, _, _, _⟩ := digitValue_unreadable f hf
  obtain ⟨neg, r, hs, hr⟩ := scanSign_unreadable f h3 h4 a h
  have hmem := natScan_unreadable f hf r false hr
  have hne : (natScan r 0 false).rest ≠ [] := by
    intro h0; rw [h0] at hmem; simp at hmem
  unfold IntSetString
  simp only [hs]
  split
  · rfl
  · simp [hne]

/-- `Rat.SetString` fails on a text holding a character it cannot read. -/
theorem RatSetString_unreadable (f : Char) (hf : readableBySetString f = false)
    (t : List Char) (h : f ∈ t) : RatSetString t = none := by
  obtain ⟨_, _, _, h3, h4, h5, _, _⟩ := digitValue_unreadable f hf
  have hne : t ≠ [] := by
    intro h0; rw [h0] at h; simp at h
  unfold RatSetString
  simp only [hne, if_false]
  split
  · -- the fraction form
    have hfr : scanFraction t = none := by
      unfold scanFraction
      simp only []
      have hsplit := List.takeWhile_append_dropWhile (fun c => decide (c ≠ '/')) t
      by_cases ha : f ∈ t.takeWhile (fun c => decide (c ≠ '/'))
      · rw [IntSetString_unreadable f hf _ ha]
      · have hb : f ∈ (t.dropWhile (fun c => decide (c ≠ '/'))).drop 1 := by
          have hd : f ∈ t.dropWhile (fun c => decide (c ≠ '/')) := by
            rw [← hsplit] at h
            rcases List.mem_append.1 h with h | h
            · exact absurd h ha
            · exact h
          cases hdw : t.dropWhile (fun c => decide (c ≠ '/')) with
          | nil => rw [hdw] at hd; simp at hd
          | cons c r =>
            rw [hdw] at hd
            have hc := dropWhile_head _ t c r hdw
            have hc2 : c = '/' := by simpa using hc
            rcases List.mem_cons.1 hd with h | h
            · exact absurd (h.trans hc2) h5
            · simpa using h
        have hmem := natScan_unreadable f hf _ false hb
        have hne2 : (natScan ((t.dropWhile (fun c => decide (c ≠ '/'))).drop 1) 0 false).rest ≠
            [] := by
          intro h0; rw [h0] at hmem; simp at hmem
        cases IntSetString (t.takeWhile (fun c => decide (c ≠ '/'))) 0 with
        | none => rfl
        | some n =>
          by_cases he : (natScan ((t.dropWhile (fun c => decide (c ≠ '/'))).drop 1) 0
              false).err = true
          · simp only [he, if_true]
          · simp only [he, hne2, if_false, if_true, not_false_eq_true, ne_eq,
              Bool.false_eq_true]
    rw [hfr]
  · -- the floating-point form
    obtain ⟨neg, r, hs, hr⟩ := scanSign_unreadable f h3 h4 t h
    have hmem := natScan_unreadable f hf r true hr
    have hfl : scanFloat t = none := by
      unfold scanFloat
      simp only [hs]
      split
      · rfl
      · cases hex : scanExponent (natScan r 0 true).rest with
        | none => rfl
        | some p =>
          obtain ⟨e, b, r2⟩ := p
          have hr2 := scanExponent_unreadable f hf _ e b r2 hmem hex
          have hne2 : r2 ≠ [] := by
            intro h0; rw [h0] at hr2; simp at hr2
          simp [hne2]
    rw [hfl]

/-! ## Rat.SetString: a letter where the number starts -/

theorem natScan_letter_start (c : Char) (hc : isAsciiLetter c = true) (r : List Char)
    (fracOk : Bool) : (natScan (c :: r) 0 fracOk).err = true := by
  have ea : 'a'.toNat = 97 := rfl
  have ez : 'z'.toNat = 122 := rfl
  have eA : 'A'.toNat = 65 := rfl
  have eZ : 'Z'.toNat = 90 := rfl
  have e0 : '0'.toNat = 48 := rfl
  have e9 : '9'.toNat = 57 := rfl
  have hb : (97 ≤ c.toNat ∧ c.toNat ≤ 122) ∨ (65 ≤ c.toNat ∧ c.toNat ≤ 90) := by
    simpa [isAsciiLetter, ea, ez, eA, eZ] using hc
  have h0 : c ≠ '0' := by rintro rfl; revert hc; decide
  have h1 : c ≠ '.' := by rintro rfl; revert hc; decide
  have h2 : c ≠ '_' := by rintro rfl; revert hc; decide
  have hv : digitValue c ≥ 10 := by
    simp only [digitValue, e0, e9, ea, ez, eA, eZ]
    split
    · omega
    · split
      · omega
      · split
        · omega
        · omega
  unfold natScan
  simp only [ne_eq, not_true_eq_false, if_false, h0, not_false_eq_true, if_true]
  rw [scanLoop]
  simp only [h1, h2, false_and, if_false, hv, if_true, scanFinish]
  simp

/-- `Rat.SetString` fails on a text whose first character after an optional
sign is a letter. -/
theorem RatSetString_letter_start (pre : List Char) (c : Char) (r : List Char)
    (hpre : pre = [] ∨ pre = ['-'] ∨ pre = ['+']) (hc : isAsciiLetter c = true) :
    RatSetString (pre ++ c :: r) = none := by
  have hcm : c ≠ '-' := by rintro rfl; revert hc; decide
  have hcp : c ≠ '+' := by rintro rfl; revert hc; decide
  have hcs : c ≠ '/' := by rintro rfl; revert hc; decide
  have hsign : ∀ x : List Char, ∃ neg, scanSign (pre ++ c :: x) = some (neg, c :: x) := by
    intro x
    rcases hpre with rfl | rfl | rfl
    · exact ⟨false, by simp [scanSign, hcm, hcp]⟩
    · exact ⟨true, by simp [scanSign]⟩
    · exact ⟨false, by simp [scanSign]⟩
  have hne : pre ++ c :: r ≠ [] := by simp
  unfold RatSetString
  simp only [hne, if_false]
  split
  · have hfr : scanFraction (pre ++ c :: r) = none := by
      unfold scanFraction
      simp only []
      have htw : (pre ++ c :: r).takeWhile (fun x => decide (x ≠ '/')) =
          pre ++ c :: r.takeWhile (fun x => decide (x ≠ '/')) := by
        rcases hpre with rfl | rfl | rfl <;> simp [List.takeWhile, hcs]
      obtain ⟨neg, hs⟩ := hsign (r.takeWhile (fun x => decide (x ≠ '/')))
      have hint : IntSetString (pre ++ c :: r.takeWhile (fun x => decide (x ≠ '/'))) 0 =
          none := by
        unfold IntSetString
        simp only [hs, natScan_letter_start c hc _ false, if_true]
      rw [htw, hint]
    rw [hfr]
  · obtain ⟨neg, hs⟩ := hsign r
    have hfl : scanFloat (pre ++ c :: r) = none := by
      unfold scanFloat
      simp only [hs, natScan_letter_start c hc r true, if_true]
    rw [hfl]

/-- The text `0.` followed by `n` zeros and further digits `l`: it has no
surrounding whitespace, it is of the decimal grammar, and it has `n + |l|`
fraction digits. -/
theorem zero_point_text (n : Nat) (l : List Char) (hl : ∀ c ∈ l, isDigit c = true) :
    TrimSpace ('0' :: '.' :: (List.replicate n '0' ++ l)) =
      '0' :: '.' :: (List.replicate n '0' ++ l) ∧
    matchesDecimal ('0' :: '.' :: (List.replicate n '0' ++ l)) = true ∧
    (fractionDigits ('0' :: '.' :: (List.replicate n '0' ++ l))).length = n + l.length := by
  have hF := replicate_zero_digits n l hl
  have hI : ∀ c ∈ ['0'], isDigit c = true := by decide
  refine ⟨?_, ?_, ?_⟩
  · apply TrimSpace_id_of_all
    intro c hc
    have hc2 : isDigit c = true ∨ c = '.' := point_body ['0'] _ hI hF c hc
    exact (decChar_facts c (hc2.elim Or.inl (fun h => Or.inr (Or.inl h)))).1
  · have hs := takeWhile_append_stop isDigit ['0'] ('.' :: (List.replicate n '0' ++ l)) hI
      (fun c hc => by
        simp only [List.head?_cons, Option.some.injEq] at hc
        rw [← hc]; decide)
    have hall : (List.replicate n '0' ++ l).all isDigit = true := by
      rw [List.all_eq_true]; exact hF
    have hb : matchesDecimalBody (['0'] ++ '.' :: (List.replicate n '0' ++ l)) = true := by
      unfold matchesDecimalBody
      rw [hs.1, hs.2]
      simp [hall]
    have hm : matchesDecimal ('0' :: '.' :: (List.replicate n '0' ++ l)) =
        matchesDecimalBody (['0'] ++ '.' :: (List.replicate n '0' ++ l)) := by
      simp [matchesDecimal]
    rw [hm, hb]
  · have h := fractionDigits_point false ['0'] (List.replicate n '0' ++ l) hI
    simp only [Bool.false_eq_true, if_false] at h
    have h2 : ['0'] ++ '.' :: (List.replicate n '0' ++ l) =
        '0' :: '.' :: (List.replicate n '0' ++ l) := rfl
    rw [h2] at h
    rw [h, List.length_append, List.length_replicate]

/-- C16, amended: `ParseDecimal` trims surrounding whitespace first.  A trimmed
text of the decimal grammar `-?(\d+(\.\d*)?|\.\d+)` is accepted when it has at
most `10^6` fraction digits, and rejected when it has more of them and a digit
other than `0`.  A trimmed text is rejected with a ParseError when it is made of
digits, `.` and `-` without being of the grammar, when it holds a character
other than an ASCII letter, a digit, `.`, `_`, `+`, `-`, `/`, and when its first
character after an optional sign is a letter. -/
theorem C16_decimal_grammar_on_its_alphabet (s : List Char) :
    (matchesDecimal (TrimSpace s) = true →
      (fractionDigits (TrimSpace s)).length ≤ 1000000 →
      ∃ v, ParseDecimal s = Outcome.ok v) ∧
    (matchesDecimal (TrimSpace s) = true →
      1000000 < (fractionDigits (TrimSpace s)).length →
      (fractionDigits (TrimSpace s)).length < 9223372036854775808 →
      (∃ c ∈ TrimSpace s, isDigit c = true ∧ c ≠ '0') →
      ∃ m, ParseDecimal s = Outcome.err (CalcError.ParseError m 0)) ∧
    ((∀ c ∈ TrimSpace s, isDigit c = true ∨ c = '.' ∨ c = '-') →
      matchesDecimal (TrimSpace s) = false →
      ∃ m, ParseDecimal s = Outcome.err (CalcError.ParseError m 0)) ∧
    ((∃ c ∈ TrimSpace s, readableBySetString c = false) →
      ∃ m, ParseDecimal s = Outcome.err (CalcError.ParseError m 0)) ∧
    ((∃ pre c r, TrimSpace s = pre ++ c :: r ∧ (pre = [] ∨ pre = ['-'] ∨ pre = ['+']) ∧
        isAsciiLetter c = true) →
      ∃ m, ParseDecimal s = Outcome.err (CalcError.ParseError m 0)) := by
  have hgram : matchesDecimal (TrimSpace s) = true →
      ParseDecimal s = ParseDecimal (TrimSpace s) := by
    intro hm
    have halpha : ∀ c ∈ TrimSpace s, unicodeIsSpace c = false := by
      intro c hc
      cases ht : TrimSpace s with
      | nil => rw [ht] at hc; simp at hc
      | cons c0 t0 =>
        rw [ht] at hm hc
        have hbody : ∀ body : List Char, matchesDecimalBody body = true →
            ∀ x ∈ body, unicodeIsSpace x = false := by
          intro body hb x hx
          obtain ⟨I, F, hI, hF, hshape⟩ := matchesDecimalBody_shape body hb
          have hxa : isDigit x = true ∨ x = '.' := by
            rcases hshape with ⟨rfl, _⟩ | ⟨rfl, _⟩
            · exact Or.inl (hI x hx)
            · exact point_body I F hI hF x hx
          exact (decChar_facts x (hxa.elim Or.inl (fun h => Or.inr (Or.inl h)))).1
        by_cases hmin : c0 = '-'
        · subst hmin
          have hb : matchesDecimalBody t0 = true := by simpa [matchesDecimal] using hm
          rcases List.mem_cons.1 hc with rfl | hc
          · decide
          · exact hbody t0 hb c hc
        · have hb : matchesDecimalBody (c0 :: t0) = true := by
            simpa [matchesDecimal, hmin] using hm
          exact hbody _ hb c hc
    exact ParseDecimal_congr s (TrimSpace s) (TrimSpace_id_of_all _ halpha).symm
  refine ⟨?_, ?_, ?_, ?_, ?_⟩
  · intro hm hk
    rw [hgram hm]
    exact (ParseDecimal_of_matches _ hm).1 hk
  · intro hm hk hk2 hex
    rw [hgram hm]
    exact ⟨_, (ParseDecimal_of_matches _ hm).2 hk hk2 hex⟩
  · intro halpha hm
    exact ParseDecimal_alphabet_reject s halpha hm
  · rintro ⟨c, hc, hcf⟩
    have hne : TrimSpace s ≠ [] := by
      intro h0; rw [h0] at hc; simp at hc
    exact RatSetString_none_reject s hne (RatSetString_unreadable c hcf _ hc)
  · rintro ⟨pre, c, r, ht, hpre, hc⟩
    have hne : TrimSpace s ≠ [] := by
      rw [ht]; simp
    apply RatSetString_none_reject s hne
    rw [ht]
    exact RatSetString_letter_start pre c r hpre hc

/-- C16 (amended) at `-3.14` (accepted), `0.` followed by `10^6` zeros and a `1`
(of the grammar, too many fraction digits: rejected), `1.2.3` and `.` (made of
digits and points, not of the grammar: rejected), `1@2` (a character that
cannot be read: rejected) and `abc` (a letter first: rejected). -/
theorem C16_decimal_grammar_on_its_alphabet_witness :
    (∃ v, ParseDecimal ['-', '3', '.', '1', '4'] = Outcome.ok v) ∧
    (∃ m, ParseDecimal ('0' :: '.' :: (List.replicate 1000000 '0' ++ ['1'])) =
      Outcome.err (CalcError.ParseError m 0)) ∧
    (∃ m, ParseDecimal ['1', '.', '2', '.', '3'] = Outcome.err (CalcError.ParseError m 0)) ∧
    (∃ m, ParseDecimal ['.'] = Outcome.err (CalcError.ParseError m 0)) ∧
    (∃ m, ParseDecimal ['1', '@', '2'] = Outcome.err (CalcError.ParseError m 0)) ∧
    (∃ m, ParseDecimal ['a', 'b', 'c'] = Outcome.err (CalcError.ParseError m 0)) := by
  have hz := zero_point_text 1000000 ['1'] (by decide)
  refine ⟨?_, ?_, ?_, ?_, ?_, ?_⟩
  · exact (C16_decimal_grammar_on_its_alphabet ['-', '3', '.', '1', '4']).1 (by decide)
      (by decide)
  · refine (C16_decimal_grammar_on_its_alphabet
      ('0' :: '.' :: (List.replicate 1000000 '0' ++ ['1']))).2.1 ?_ ?_ ?_ ?_
    · rw [hz.1]; exact hz.2.1
    · rw [hz.1, hz.2.2]; exact Nat.lt_succ_self 1000000
    · rw [hz.1, hz.2.2]; decide
    · rw [hz.1]
      exact ⟨'1', List.mem_cons_of_mem _ (List.mem_cons_of_mem _
        (List.mem_append_right _ (List.mem_singleton.2 rfl))), by decide, by decide⟩
  · exact (C16_decimal_grammar_on_its_alphabet ['1', '.', '2', '.', '3']).2.2.1 (by decide)
      (by decide)
  · exact (C16_decimal_grammar_on_its_alphabet ['.']).2.2.1 (by decide) (by decide)
  · exact (C16_decimal_grammar_on_its_alphabet ['1', '@', '2']).2.2.2.1
      ⟨'@', by decide, by decide⟩
  · exact (C16_decimal_grammar_on_its_alphabet ['a', 'b', 'c']).2.2.2.2
      ⟨[], 'a', ['b', 'c'], by decide, Or.inl rfl, by decide⟩

/-! ## Evaluator: literals that do not parse -/

/-- C22: when `EvaluatePostfix` reaches a Number token whose Value does not parse
(`ParseHexadecimal` fails on a Value starting with `0x` or `-0x`, `ParseDecimal`
fails on any other Value), it fails with a ParseError at that token's own
Position, whatever position the number parser reported. -/
theorem C22_unparseable_literal_position (pre post : List Token) (t : Token) (stack : List ℚ)
    (hpre : evalLoop pre [] = Outcome.ok stack)
    (ht : t.Typ = TokenType.NumberToken)
    (hhex : t.Value.take 2 = ['0', 'x'] ∨ t.Value.take 3 = ['-', '0', 'x'] →
      ∃ e, ParseHexadecimal t.Value = Outcome.err e)
    (hdec : ¬ (t.Value.take 2 = ['0', 'x'] ∨ t.Value.take 3 = ['-', '0', 'x']) →
      ∃ e, ParseDecimal t.Value = Outcome.err e) :
    EvaluatePostfix (pre ++ t :: post) =
      Outcome.err (CalcError.ParseError ("Invalid number format: " ++ String.mk t.Value)
        t.Position) := by
  have hv : parseNumberValue t =
      Outcome.err (CalcError.ParseError ("Invalid number format: " ++ String.mk t.Value)
        t.Position) := by
    unfold parseNumberValue
    by_cases h2 : t.Value.take 2 = ['0', 'x']
    · obtain ⟨e, he⟩ := hhex (Or.inl h2)
      simp [h2, he]
    · by_cases h3 : t.Value.take 3 = ['-', '0', 'x']
      · obtain ⟨e, he⟩ := hhex (Or.inr h3)
        simp [h2, h3, he]
      · obtain ⟨e, he⟩ := hdec (by simp [h2, h3])
        simp [h2, h3, he]
  have hs : evalStep t stack =
      Outcome.err (CalcError.ParseError ("Invalid number format: " ++ String.mk t.Value)
        t.Position) := by
    simp [evalStep, ht, hv]
  unfold EvaluatePostfix
  rw [evalLoop_append, hpre]
  simp [evalLoop, hs]

theorem C22_unparseable_literal_position_witness :
    ParseHexadecimal ['0', 'x'] = Outcome.err (CalcError.ParseError "No hex digits after 0x" 2) ∧
    EvaluatePostfix ([] ++ (⟨TokenType.NumberToken, ['0', 'x'], 4⟩ : Token) :: []) =
      Outcome.err (CalcError.ParseError ("Invalid number format: " ++ String.mk ['0', 'x']) 4) ∧
    EvaluatePostfix ([] ++ (⟨TokenType.NumberToken, ['.'], 4⟩ : Token) :: []) =
      Outcome.err (CalcError.ParseError ("Invalid number format: " ++ String.mk ['.']) 4) :=
  ⟨by decide,
   C22_unparseable_literal_position [] [] ⟨TokenType.NumberToken, ['0', 'x'], 4⟩ [] rfl rfl
     (fun _ => ⟨CalcError.ParseError "No hex digits after 0x" 2, by decide⟩)
     (fun h => absurd (Or.inl rfl) h),
   C22_unparseable_literal_position [] [] ⟨TokenType.NumberToken, ['.'], 4⟩ [] rfl rfl
     (fun h => absurd h (by decide)) (fun _ => ⟨CalcError.ParseError "Invalid decimal format" 0, by decide⟩)⟩

/-! ## Caller-built token sequences -/

/-- C29 (fails on an Operator token whose Value is empty): `InfixToPostfix`
faults on the single such token, and `EvaluatePostfix` faults on `5 3` followed
by such a token, because both read `token.Value[0]` without a length check. -/
theorem C29_empty_operator_value_faults :
    InfixToPostfix [⟨TokenType.OperatorToken, [], 0⟩] = Outcome.fault ∧
    EvaluatePostfix [⟨TokenType.NumberToken, ['5'], 0⟩, ⟨TokenType.NumberToken, ['3'], 2⟩,
      ⟨TokenType.OperatorToken, [], 4⟩] = Outcome.fault := by
  refine ⟨by decide, ?_⟩
  have h5 := parseNumberValue_nat ['5'] TokenType.NumberToken 0 (by decide) (by decide)
  have h3 := parseNumberValue_nat ['3'] TokenType.NumberToken 2 (by decide) (by decide)
  simp [EvaluatePostfix, evalLoop, evalStep, h5, h3, firstByte]

/-! ## Structural parser: position of the reported error -/

/-- An error of the alternation loop carries the Position of the first token
whose kind breaks the alternation. -/
theorem checkAlternation_first (tokens : List Token) :
    ∀ (k : Nat) (e : CalcError), checkAlternation k tokens = some e →
      ∃ (i : Nat) (t : Token) (m : String), tokens[i]? = some t ∧
        BreaksAlternation (k + i) t ∧
        (∀ (j : Nat) (u : Token), j < i → tokens[j]? = some u →
          ¬ BreaksAlternation (k + j) u) ∧
        e = CalcError.ParseError m t.Position := by
  induction tokens with
  | nil => intro k e h; simp [checkAlternation] at h
  | cons token rest ih =>
    intro k e h
    unfold checkAlternation at h
    by_cases hk : k % 2 = 0
    · simp only [hk, if_true] at h
      by_cases hty : token.Typ = TokenType.NumberToken
      · simp only [hty, ne_eq, not_true_eq_false, if_false] at h
        obtain ⟨i, t, m, hi, hb, hmin, he⟩ := ih _ _ h
        refine ⟨i + 1, t, m, by simpa using hi, ?_, ?_, he⟩
        · have : k + (i + 1) = k + 1 + i := by omega
          rw [this]; exact hb
        · intro j u hj hu
          cases j with
          | zero =>
            simp only [List.getElem?_cons_zero, Option.some.injEq] at hu
            subst hu
            rintro (⟨_, h2⟩ | ⟨h1, _⟩)
            · exact h2 hty
            · simp only [Nat.add_zero] at h1; omega
          | succ j =>
            have : k + (j + 1) = k + 1 + j := by omega
            rw [this]
            exact hmin j u (by omega) (by simpa using hu)
      · simp only [hty, ne_eq, not_false_eq_true, if_true] at h
        refine ⟨0, token, "Expected number", by simp, Or.inl ⟨by simpa using hk, hty⟩,
          fun j u hj _ => absurd hj (by omega), (Option.some.inj h).symm⟩
    · simp only [hk, if_false] at h
      by_cases hty : token.Typ = TokenType.OperatorToken
      · simp only [hty, ne_eq, not_true_eq_false, if_false] at h
        obtain ⟨i, t, m, hi, hb, hmin, he⟩ := ih _ _ h
        refine ⟨i + 1, t, m, by simpa using hi, ?_, ?_, he⟩
        · have : k + (i + 1) = k + 1 + i := by omega
          rw [this]; exact hb
        · intro j u hj hu
          cases j with
          | zero =>
            simp only [List.getElem?_cons_zero, Option.some.injEq] at hu
            subst hu
            rintro (⟨h1, _⟩ | ⟨_, h2⟩)
            · simp only [Nat.add_zero] at h1; omega
            · exact h2 hty
          | succ j =>
            have : k + (j + 1) = k + 1 + j := by omega
            rw [this]
            exact hmin j u (by omega) (by simpa using hu)
      · simp only [hty, ne_eq, not_false_eq_true, if_true] at h
        refine ⟨0, token, "Expected operator", by simp,
          Or.inr ⟨by simp only [Nat.add_zero]; omega, hty⟩,
          fun j u hj _ => absurd hj (by omega), (Option.some.inj h).symm⟩

/-- C26: when `ParseExpression` fails with a ParseError, the reported Position is
the first token's if the first token is not a Number; otherwise the last
token's if the last token is not a Number; otherwise that of the token of
lowest index whose kind breaks the Number/Operator alternation. -/
theorem C26_parse_error_position (tokens : List Token) (m : String) (p : Nat)
    (h : ParseExpression tokens = Outcome.err (CalcError.ParseError m p)) :
    ∃ first last, tokens.head? = some first ∧ tokens.getLast? = some last ∧
      (first.Typ ≠ TokenType.NumberToken → p = first.Position) ∧
      (first.Typ = TokenType.NumberToken → last.Typ ≠ TokenType.NumberToken →
        p = last.Position) ∧
      (first.Typ = TokenType.NumberToken → last.Typ = TokenType.NumberToken →
        ∃ (i : Nat) (t : Token), tokens[i]? = some t ∧ BreaksAlternation i t ∧
          (∀ (j : Nat) (u : Token), j < i → tokens[j]? = some u →
            ¬ BreaksAlternation j u) ∧
          p = t.Position) := by
  cases tokens with
  | nil => simp [ParseExpression] at h
  | cons first rest =>
    obtain ⟨last, hl1⟩ : ∃ last, (first :: rest).getLast? = some last :=
      ⟨_, List.getLast?_eq_getLast _ (by simp)⟩
    simp only [ParseExpression, List.head?_cons, hl1] at h
    refine ⟨first, last, rfl, hl1, ?_, ?_, ?_⟩
    · intro h1
      simp only [h1, ne_eq, not_false_eq_true, if_true, Outcome.err.injEq,
        CalcError.ParseError.injEq] at h
      exact h.2.symm
    · intro h1 h2
      simp only [h1, h2, ne_eq, not_true_eq_false, not_false_eq_true, if_true, if_false,
        Outcome.err.injEq, CalcError.ParseError.injEq] at h
      exact h.2.symm
    · intro h1 h2
      simp only [h1, h2, ne_eq, not_true_eq_false, if_false] at h
      cases hc : checkAlternation 0 (first :: rest) with
      | none =>
        rw [hc] at h
        simp only at h
        cases hi : InfixToPostfix (first :: rest) with
        | ok ts => rw [hi] at h; cases h
        | err e =>
          unfold InfixToPostfix at hi
          split at hi <;> cases hi
        | fault => rw [hi] at h; cases h
      | some e =>
        rw [hc] at h
        simp only [Outcome.err.injEq] at h
        obtain ⟨i, t, m2, hi, hb, hmin, he⟩ := checkAlternation_first _ 0 e hc
        rw [h] at he
        simp only [CalcError.ParseError.injEq] at he
        refine ⟨i, t, hi, by simpa using hb, ?_, he.2⟩
        intro j u hj hu
        simpa using hmin j u hj hu

theorem C26_parse_error_position_witness :
    (Tokenize ['5', ' ', '+', ' ', '+', ' ', '3'] = some (Outcome.ok
      [⟨TokenType.NumberToken, ['5'], 0⟩, ⟨TokenType.OperatorToken, ['+'], 2⟩,
       ⟨TokenType.OperatorToken, ['+'], 4⟩, ⟨TokenType.NumberToken, ['3'], 6⟩]) ∧
     ParseExpression
      [⟨TokenType.NumberToken, ['5'], 0⟩, ⟨TokenType.OperatorToken, ['+'], 2⟩,
       ⟨TokenType.OperatorToken, ['+'], 4⟩, ⟨TokenType.NumberToken, ['3'], 6⟩] =
      Outcome.err (CalcError.ParseError "Expected number" 4)) ∧
    (Tokenize ['5', ' ', '+'] = some (Outcome.ok
      [⟨TokenType.NumberToken, ['5'], 0⟩, ⟨TokenType.OperatorToken, ['+'], 2⟩]) ∧
     ParseExpression
      [⟨TokenType.NumberToken, ['5'], 0⟩, ⟨TokenType.OperatorToken, ['+'], 2⟩] =
      Outcome.err (CalcError.ParseError "Expression must end with a number" 2)) ∧
    ∃ first last,
      List.head? [(⟨TokenType.NumberToken, ['5'], 0⟩ : Token),
        ⟨TokenType.OperatorToken, ['+'], 2⟩] = some first ∧
      List.getLast? [(⟨TokenType.NumberToken, ['5'], 0⟩ : Token),
        ⟨TokenType.OperatorToken, ['+'], 2⟩] = some last ∧
      (first.Typ ≠ TokenType.NumberToken → 2 = first.Position) ∧
      (first.Typ = TokenType.NumberToken → last.Typ ≠ TokenType.NumberToken →
        2 = last.Position) ∧
      (first.Typ = TokenType.NumberToken → last.Typ = TokenType.NumberToken →
        ∃ (i : Nat) (t : Token),
          [(⟨TokenType.NumberToken, ['5'], 0⟩ : Token),
            ⟨TokenType.OperatorToken, ['+'], 2⟩][i]? = some t ∧ BreaksAlternation i t ∧
          (∀ (j : Nat) (u : Token), j < i →
            [(⟨TokenType.NumberToken, ['5'], 0⟩ : Token),
              ⟨TokenType.OperatorToken, ['+'], 2⟩][j]? = some u →
            ¬ BreaksAlternation j u) ∧
          2 = t.Position) :=
  ⟨⟨by decide, by simp [ParseExpression, checkAlternation]⟩,
   ⟨by decide, by simp [ParseExpression]⟩,
   C26_parse_error_position
     [⟨TokenType.NumberToken, ['5'], 0⟩, ⟨TokenType.OperatorToken, ['+'], 2⟩]
     "Expression must end with a number" 2 (by simp [ParseExpression])⟩

/-! ## Calculate: order of the checks -/

theorem mem_of_mem_TrimSpace (s : List Char) (c : Char) (h : c ∈ TrimSpace s) : c ∈ s := by
  unfold TrimSpace at h
  have h1 := (List.dropWhile_sublist unicodeIsSpace).subset (List.mem_reverse.1 h)
  exact (List.dropWhile_sublist unicodeIsSpace).subset (List.mem_reverse.1 h1)

theorem checkAlternation_message (tokens : List Token) :
    ∀ (k : Nat) (e : CalcError), checkAlternation k tokens = some e →
      ∃ m p, e = CalcError.ParseError m p ∧ m ∈ structuralMessages := by
  induction tokens with
  | nil => intro k e h; simp [checkAlternation] at h
  | cons token rest ih =>
    intro k e h
    unfold checkAlternation at h
    split at h
    · split at h
      · exact ⟨_, _, (Option.some.inj h).symm, by simp [structuralMessages]⟩
      · exact ih _ _ h
    · split at h
      · exact ⟨_, _, (Option.some.inj h).symm, by simp [structuralMessages]⟩
      · exact ih _ _ h

/-- A sequence that is not empty and not well shaped is rejected by
`ParseExpression` with one of the structural messages. -/
theorem ParseExpression_structural (tokens : List Token) (hne : tokens ≠ [])
    (hw : ¬ WellShaped tokens)
    (h : ∀ t ∈ tokens, t.Typ = TokenType.OperatorToken → t.Value ≠ []) :
    ∃ m p, m ∈ structuralMessages ∧
      ParseExpression tokens = Outcome.err (CalcError.ParseError m p) := by
  have hno : ¬ ∃ e, ParseExpression tokens = Outcome.ok e :=
    fun he => hw ((ParseExpression_ok_iff tokens h).1 he)
  obtain ⟨ts, hts⟩ := InfixToPostfix_ok tokens h
  cases tokens with
  | nil => exact absurd rfl hne
  | cons first rest =>
    obtain ⟨last, hl1⟩ : ∃ last, (first :: rest).getLast? = some last :=
      ⟨_, List.getLast?_eq_getLast _ (by simp)⟩
    simp only [ParseExpression, List.head?_cons, hl1] at hno ⊢
    by_cases h1 : first.Typ = TokenType.NumberToken
    · by_cases h2 : last.Typ = TokenType.NumberToken
      · cases hc : checkAlternation 0 (first :: rest) with
        | some e2 =>
          obtain ⟨m, p, rfl, hm⟩ := checkAlternation_message _ _ _ hc
          exact ⟨m, p, hm, by simp [h1, h2]⟩
        | none =>
          exact absurd ⟨⟨[], first :: rest, ts, none⟩, by simp [h1, h2, hc, hts]⟩ hno
      · exact ⟨"Expression must end with a number", last.Position,
          by simp [structuralMessages], by simp [h1, h2]⟩
    · exact ⟨"Expression must start with a number", first.Position,
        by simp [structuralMessages], by simp [h1]⟩

/-- C25: `Calculate` reports errors in pipeline order.  An input holding a
character outside the allowed set gives InvalidCharacter, whatever else is wrong
with it (`5 / 0 + @`); an input whose tokens are not a strict Number/Operator
alternation gives a structural ParseError, whatever division by zero or
unparseable literal it holds (`1 / 0 +`). -/
theorem C25_errors_in_pipeline_order :
    (∀ s : List Char, (∃ c ∈ s, isValidCharacter c = false) →
      ∃ c p, c ∈ s ∧ isValidCharacter c = false ∧
        Calculate s = some (Outcome.err (CalcError.InvalidCharacter c p))) ∧
    (∀ (s : List Char) (ts : List Token),
      Tokenize (TrimSpace s) = some (Outcome.ok ts) → ¬ WellShaped ts →
      ∃ m p, m ∈ structuralMessages ∧
        Calculate s = some (Outcome.err (CalcError.ParseError m p))) ∧
    Calculate ['5', ' ', '/', ' ', '0', ' ', '+', ' ', '@'] =
      some (Outcome.err (CalcError.InvalidCharacter '@' 8)) ∧
    Calculate ['1', ' ', '/', ' ', '0', ' ', '+'] =
      some (Outcome.err (CalcError.ParseError "Expression must end with a number" 6)) := by
  refine ⟨?_, ?_, by decide, by decide⟩
  · rintro s ⟨c, hc, hv⟩
    have hmem : c ∈ TrimSpace s := mem_TrimSpace s c (not_space_of_invalid c hv) hc
    obtain ⟨pre, c2, post, hs, hpre, hc2⟩ :=
      exists_first_false isValidCharacter (TrimSpace s) ⟨c, hmem, hv⟩
    have hne : TrimSpace s ≠ [] := by rw [hs]; simp
    refine ⟨c2, utf8Length pre, mem_of_mem_TrimSpace s c2 (by rw [hs]; simp), hc2, ?_⟩
    have ht := Tokenize_invalid pre post c2 hpre hc2
    rw [← hs] at ht
    unfold Calculate
    simp only [hne, if_false, ht]
  · intro s ts ht hw
    by_cases hne : TrimSpace s = []
    · rw [hne] at ht
      simp [Tokenize, TrimSpace] at ht
    · have hts : ts ≠ [] := Tokenize_ok_ne_nil _ ts (TrimSpace_not_blank s hne) ht
      have hv : ∀ t ∈ ts, t.Typ = TokenType.OperatorToken → t.Value ≠ [] :=
        fun t h _ => Tokenize_values_ne_nil _ ts ht t h
      obtain ⟨m, p, hm, hp⟩ := ParseExpression_structural ts hts hw hv
      refine ⟨m, p, hm, ?_⟩
      unfold Calculate
      simp only [hne, if_false, ht, hp]

/-! ## Evaluator: well-formed postfix sequences -/

theorem performOperation_known (left right : ℚ) (r p : Nat) (h : OperatorMapHas r = true) :
    (∃ res, performOperation left right r p = Outcome.ok res) ∨
    performOperation left right r p = Outcome.err (CalcError.DivisionByZero p) := by
  unfold performOperation
  by_cases h1 : r = '+'.toNat
  · left; exact ⟨left + right, by simp [h1]⟩
  · by_cases h2 : r = '-'.toNat
    · left; exact ⟨left - right, by simp [h1, h2]⟩
    · by_cases h3 : r = 'x'.toNat
      · left; exact ⟨left * right, by simp [h1, h2, h3]⟩
      · have h4 : r = '/'.toNat := by
          simp only [OperatorMapHas, Bool.or_eq_true, decide_eq_true_eq] at h
          rcases h with ((h | h) | h) | h
          · exact absurd h h1
          · exact absurd h h2
          · exact absurd h h3
          · exact h
        by_cases h0 : right = 0
        · right; simp [h1, h2, h3, h4, h0]
        · left; exact ⟨left / right, by simp [h1, h2, h3, h4, h0]⟩

/-- With literals that parse and known operator symbols, the loop of
`EvaluatePostfix` either meets a division by zero or follows `postfixDepth`. -/
theorem evalLoop_depth (tokens : List Token) :
    ∀ (stack : List ℚ),
      (∀ t ∈ tokens, t.Typ = TokenType.NumberToken → ∃ v, parseNumberValue t = Outcome.ok v) →
      (∀ t ∈ tokens, t.Typ = TokenType.OperatorToken →
        ∃ r, firstByte t.Value = some r ∧ OperatorMapHas r = true) →
      (∃ p, evalLoop tokens stack = Outcome.err (CalcError.DivisionByZero p)) ∨
      (∀ p, postfixDepth tokens stack.length = Depth.underflow p →
        evalLoop tokens stack =
          Outcome.err (CalcError.ParseError "Insufficient operands for operator" p)) ∧
      (∀ d, postfixDepth tokens stack.length = Depth.depth d →
        ∃ st, evalLoop tokens stack = Outcome.ok st ∧ st.length = d) := by
  induction tokens with
  | nil =>
    intro stack _ _
    right
    refine ⟨fun p h => by simp [postfixDepth] at h, fun d h => ?_⟩
    simp only [postfixDepth, Depth.depth.injEq] at h
    exact ⟨stack, rfl, h⟩
  | cons t rest ih =>
    intro stack hlit hops
    have hlit2 : ∀ t ∈ rest, t.Typ = TokenType.NumberToken →
        ∃ v, parseNumberValue t = Outcome.ok v := fun u hu => hlit u (by simp [hu])
    have hops2 : ∀ t ∈ rest, t.Typ = TokenType.OperatorToken →
        ∃ r, firstByte t.Value = some r ∧ OperatorMapHas r = true :=
      fun u hu => hops u (by simp [hu])
    cases hty : t.Typ with
    | NumberToken =>
      obtain ⟨v, hv⟩ := hlit t (by simp) hty
      have hs := evalStep_number t v stack hty hv
      simp only [evalLoop, hs, postfixDepth, hty]
      exact ih (v :: stack) hlit2 hops2
    | OperatorToken =>
      obtain ⟨r, hr, hmap⟩ := hops t (by simp) hty
      cases stack with
      | nil =>
        right
        have hs : evalStep t [] = Outcome.err
            (CalcError.ParseError "Insufficient operands for operator" t.Position) := by
          simp [evalStep, hty]
        simp only [evalLoop, hs, postfixDepth, hty, List.length_nil]
        refine ⟨fun p h => ?_, fun d h => ?_⟩
        · simp only [show (0 : Nat) < 2 by omega, if_true, Depth.underflow.injEq] at h
          rw [h]
        · simp at h
      | cons right stack1 =>
        cases stack1 with
        | nil =>
          right
          have hs : evalStep t [right] = Outcome.err
              (CalcError.ParseError "Insufficient operands for operator" t.Position) := by
            simp [evalStep, hty]
          simp only [evalLoop, hs, postfixDepth, hty, List.length_cons, List.length_nil]
          refine ⟨fun p h => ?_, fun d h => ?_⟩
          · simp only [show (0 + 1 : Nat) < 2 by omega, if_true, Depth.underflow.injEq] at h
            rw [h]
          · simp at h
        | cons left stack2 =>
          have hs := evalStep_operator t r right left stack2 hty hr
          have hd : ¬ ((right :: left :: stack2).length < 2) := by
            simp only [List.length_cons]; omega
          have hl : (right :: left :: stack2).length - 1 = (left :: stack2).length := by
            simp only [List.length_cons]; omega
          rcases performOperation_known left right r t.Position hmap with ⟨res, hres⟩ | hdz
          · rw [hres] at hs
            simp only [evalLoop, hs, postfixDepth, hty, hd, if_false, hl]
            have := ih (res :: stack2) hlit2 hops2
            simpa only [List.length_cons] using this
          · rw [hdz] at hs
            left
            exact ⟨t.Position, by simp only [evalLoop, hs]⟩
    | WhitespaceToken =>
      have hs : evalStep t stack = Outcome.ok stack := by simp [evalStep, hty]
      simp only [evalLoop, hs, postfixDepth, hty]
      exact ih stack hlit2 hops2

/-- C21: for a sequence of Number tokens whose literals parse and Operator
tokens whose symbols are among `+ - x /`, evaluated without a division by zero:
`EvaluatePostfix` fails with ParseError at the operator's Position when an
operator is reached with fewer than two values on the stack, fails with
ParseError when the stack does not hold exactly one value after the last token,
and succeeds otherwise, that is exactly on the well-formed postfix
expressions. -/
theorem C21_postfix_well_formed (tokens : List Token)
    (hlit : ∀ t ∈ tokens, t.Typ = TokenType.NumberToken →
      ∃ v, parseNumberValue t = Outcome.ok v)
    (hops : ∀ t ∈ tokens, t.Typ = TokenType.OperatorToken →
      ∃ r, firstByte t.Value = some r ∧ OperatorMapHas r = true)
    (hdz : ∀ p, EvaluatePostfix tokens ≠ Outcome.err (CalcError.DivisionByZero p)) :
    (∀ p, postfixDepth tokens 0 = Depth.underflow p →
      EvaluatePostfix tokens =
        Outcome.err (CalcError.ParseError "Insufficient operands for operator" p)) ∧
    (∀ d, postfixDepth tokens 0 = Depth.depth d → d ≠ 1 →
      EvaluatePostfix tokens =
        Outcome.err (CalcError.ParseError "Invalid expression structure" 0)) ∧
    ((∃ v, EvaluatePostfix tokens = Outcome.ok v) ↔ postfixDepth tokens 0 = Depth.depth 1) := by
  rcases evalLoop_depth tokens [] hlit hops with ⟨p, hp⟩ | ⟨hu, hd⟩
  · exact absurd (by simp [EvaluatePostfix, hp]) (hdz p)
  · simp only [List.length_nil] at hu hd
    have h1 : ∀ p, postfixDepth tokens 0 = Depth.underflow p →
        EvaluatePostfix tokens =
          Outcome.err (CalcError.ParseError "Insufficient operands for operator" p) := by
      intro p h
      simp [EvaluatePostfix, hu p h]
    have h2 : ∀ d, postfixDepth tokens 0 = Depth.depth d → d ≠ 1 →
        EvaluatePostfix tokens =
          Outcome.err (CalcError.ParseError "Invalid expression structure" 0) := by
      intro d h hne
      obtain ⟨st, hst, hlen⟩ := hd d h
      unfold EvaluatePostfix
      rw [hst]
      cases st with
      | nil => rfl
      | cons a st1 =>
        cases st1 with
        | nil => simp at hlen; exact absurd hlen.symm hne
        | cons b st2 => rfl
    refine ⟨h1, h2, ?_, ?_⟩
    · rintro ⟨v, hv⟩
      cases hpd : postfixDepth tokens 0 with
      | underflow p => rw [h1 p hpd] at hv; cases hv
      | depth d =>
        by_cases hone : d = 1
        · rw [hone]
        · rw [h2 d hpd hone] at hv; cases hv
    · intro h
      obtain ⟨st, hst, hlen⟩ := hd 1 h
      cases st with
      | nil => simp at hlen
      | cons a st1 =>
        cases st1 with
        | nil => exact ⟨a, by simp [EvaluatePostfix, hst]⟩
        | cons b st2 => simp at hlen

/-- C21 at the sequences of the edge-case tests: `5 3 2 +` leaves two values, the
empty sequence none, and `5 +` reaches `+` with one value. -/
theorem C21_postfix_well_formed_witness :
    EvaluatePostfix [⟨TokenType.NumberToken, ['5'], 0⟩, ⟨TokenType.NumberToken, ['3'], 2⟩,
      ⟨TokenType.NumberToken, ['2'], 4⟩, ⟨TokenType.OperatorToken, ['+'], 6⟩] =
      Outcome.err (CalcError.ParseError "Invalid expression structure" 0) ∧
    EvaluatePostfix [] =
      Outcome.err (CalcError.ParseError "Invalid expression structure" 0) ∧
    EvaluatePostfix [⟨TokenType.NumberToken, ['5'], 0⟩, ⟨TokenType.OperatorToken, ['+'], 2⟩] =
      Outcome.err (CalcError.ParseError "Insufficient operands for operator" 2) := by
  have h5 := parseNumberValue_nat ['5'] TokenType.NumberToken 0 (by decide) (by decide)
  have h3 := parseNumberValue_nat ['3'] TokenType.NumberToken 2 (by decide) (by decide)
  have h2 := parseNumberValue_nat ['2'] TokenType.NumberToken 4 (by decide) (by decide)
  have hplus : ∀ p : Nat, ∃ r, firstByte (⟨TokenType.OperatorToken, ['+'], p⟩ : Token).Value =
      some r ∧ OperatorMapHas r = true := fun _ => ⟨43, rfl, by decide⟩
  refine ⟨(C21_postfix_well_formed _ ?_ ?_ ?_).2.1 2 (by decide) (by decide),
    (C21_postfix_well_formed [] (by simp) (by simp) (by simp [EvaluatePostfix, evalLoop])).2.1 0
      (by decide) (by decide),
    (C21_postfix_well_formed _ ?_ ?_ ?_).1 2 (by decide)⟩
  · intro t ht hty
    simp only [List.mem_cons, List.mem_singleton, List.not_mem_nil, or_false] at ht
    rcases ht with rfl | rfl | rfl | rfl
    · exact ⟨_, h5⟩
    · exact ⟨_, h3⟩
    · exact ⟨_, h2⟩
    · cases hty
  · intro t ht hty
    simp only [List.mem_cons, List.mem_singleton, List.not_mem_nil, or_false] at ht
    rcases ht with rfl | rfl | rfl | rfl
    · cases hty
    · cases hty
    · cases hty
    · exact hplus 6
  · intro p h
    simp [EvaluatePostfix, evalLoop, evalStep, h5, h3, h2, firstByte, utf8Lead,
      performOperation] at h
  · intro t ht hty
    simp only [List.mem_cons, List.mem_singleton, List.not_mem_nil, or_false] at ht
    rcases ht with rfl | rfl
    · exact ⟨_, h5⟩
    · cases hty
  · intro t ht hty
    simp only [List.mem_cons, List.mem_singleton, List.not_mem_nil, or_false] at ht
    rcases ht with rfl | rfl
    · cases hty
    · exact hplus 2
  · intro p h
    simp [EvaluatePostfix, evalLoop, evalStep, h5, firstByte] at h

/-! ## Tokenizer: form of the emitted tokens -/

theorem dropWhile_takeWhile_append (p : Char → Bool) (l : List Char) (c : Char)
    (x : List Char) (hc : p c = false) :
    (l.takeWhile p ++ c :: x).dropWhile p = c :: x := by
  induction l with
  | nil => simp [List.dropWhile, hc]
  | cons a t ih =>
    by_cases ha : p a = true
    · simp only [List.takeWhile_cons_of_pos ha, List.cons_append,
        List.dropWhile_cons_of_pos ha]
      exact ih
    · simp [List.takeWhile_cons_of_neg ha, List.dropWhile, hc]

theorem dropWhile_takeWhile_self (p : Char → Bool) (l : List Char) :
    (l.takeWhile p).dropWhile p = [] := by
  rw [List.dropWhile_eq_nil_iff]
  exact fun c hc => List.mem_takeWhile_imp hc

/-- The text scanned by `parseNumberBody` is a hex text or a decimal text. -/
theorem parseNumberBody_form (r : List Char) :
    isHexText (parseNumberBody r).1 = true ∨ isDecimalText (parseNumberBody r).1 = true := by
  unfold parseNumberBody
  by_cases hh : hasHexPrefix r = true
  · left
    simp only [hh, if_true]
    cases r with
    | nil => simp [hasHexPrefix] at hh
    | cons c0 r1 =>
      cases r1 with
      | nil => simp [hasHexPrefix] at hh
      | cons c1 t =>
        simp only [hasHexPrefix] at hh
        simp only [isHexText, hasHexPrefix, List.take_succ_cons, List.take_zero,
          List.drop_succ_cons, List.drop_zero, List.cons_append, List.nil_append, hh,
          Bool.true_and, List.all_eq_true]
        exact fun c hc => List.mem_takeWhile_imp hc
  · right
    simp only [hh, Bool.false_eq_true, if_false]
    cases hd : r.dropWhile isDigit with
    | nil => simp [isDecimalText, dropWhile_takeWhile_self]
    | cons c t =>
      by_cases hc : c = '.'
      · simp only [hc, if_true, isDecimalText]
        rw [dropWhile_takeWhile_append isDigit r '.' _ (by decide)]
        simp only [decide_True, Bool.true_and, List.all_eq_true]
        exact fun c hc => List.mem_takeWhile_imp hc
      · simp [hc, isDecimalText, dropWhile_takeWhile_self]

theorem parseNumberBody_head (r : List Char) (c : Char)
    (h : (parseNumberBody r).1.head? = some c) : c ≠ '-' := by
  have happ := parseNumberBody_append r
  cases hb : (parseNumberBody r).1 with
  | nil => rw [hb] at h; simp at h
  | cons b t =>
    rw [hb] at h happ
    simp only [List.head?_cons, Option.some.injEq] at h
    subst h
    rintro rfl
    cases r with
    | nil => simp at happ
    | cons a r1 =>
      simp only [List.cons_append, List.cons.injEq] at happ
      obtain ⟨ha, -⟩ := happ
      subst ha
      have hnh : hasHexPrefix ('-' :: r1) = false := by
        cases r1 <;> simp [hasHexPrefix]
      have hnd : isDigit '-' = false := by decide
      simp [parseNumberBody, hnh, List.takeWhile, List.dropWhile, hnd] at hb

theorem unsignedText_of_head (v : List Char) (h : ∀ c, v.head? = some c → c ≠ '-') :
    unsignedText v = v := by
  cases v with
  | nil => rfl
  | cons c t => simp [unsignedText, h c rfl]

/-- A token text scanned where a number starts has the emitted form. -/
theorem parseNumberToken_form (rest : List Char) (tokens : List Token)
    (h : startsNumber rest tokens = true) :
    emittedNumberText (parseNumberToken rest).1 = true := by
  have hne := parseNumberToken_ne_nil rest tokens h
  cases rest with
  | nil => simp [startsNumber] at h
  | cons ch rest1 =>
    unfold parseNumberToken at hne ⊢
    by_cases hc : ch = '-'
    · subst hc
      simp only [if_true] at hne ⊢
      have hu : unsignedText ('-' :: (parseNumberBody rest1).1) = (parseNumberBody rest1).1 := by
        simp [unsignedText]
      have hd : isDigit '-' = false := by decide
      have hx : hasHexPrefix ('-' :: rest1) = false := by
        cases rest1 <;> simp [hasHexPrefix]
      have hb : (parseNumberBody rest1).1 ≠ [] := by
        simp only [startsNumber, hd, hx, Bool.false_or, decide_True, Bool.true_and,
          decide_False, Bool.or_false] at h
        cases rest1 with
        | nil => simp [isStartOfNumber] at h
        | cons next r2 =>
          have hs : startsNumber (next :: r2) [] = true := by
            simp only [isStartOfNumber, ne_eq, not_true_eq_false, if_false] at h
            simp only [startsNumber, Bool.or_eq_true, decide_eq_true_eq]
            by_cases h1 : (isDigit next || decide (next = '.')) = true
            · simp only [Bool.or_eq_true, decide_eq_true_eq] at h1
              rcases h1 with h1 | h1
              · exact Or.inl (Or.inl (Or.inl h1))
              · exact Or.inl (Or.inl (Or.inr h1))
            · simp only [h1, Bool.false_eq_true, if_false] at h
              by_cases h2 : hasHexPrefix (next :: r2) = true
              · exact Or.inl (Or.inr h2)
              · simp [h2] at h
          have hn2 := parseNumberToken_ne_nil (next :: r2) [] hs
          have hnm : next ≠ '-' := by
            rintro rfl
            have hx2 : hasHexPrefix ('-' :: r2) = false := by
              cases r2 <;> simp [hasHexPrefix]
            simp [startsNumber, hd, hx2, isStartOfNumber] at hs
            simp only [isStartOfNumber, ne_eq, not_true_eq_false, if_false] at h
            cases r2 with
            | nil => simp at hs
            | cons n3 r3 =>
              simp only [hd, Bool.false_or, decide_False, Bool.false_eq_true, if_false,
                hx2] at h
              cases h
          simpa [parseNumberToken, hnm] using hn2
      rw [emittedNumberText, hu]
      have hf := parseNumberBody_form rest1
      cases hv : (parseNumberBody rest1).1 with
      | nil => exact absurd hv hb
      | cons a t =>
        rw [hv] at hf
        rcases hf with hf | hf <;> simp [hf]
    · simp only [hc, if_false] at hne ⊢
      have hu := unsignedText_of_head (parseNumberBody (ch :: rest1)).1
        (parseNumberBody_head (ch :: rest1))
      rw [emittedNumberText, hu]
      have hf := parseNumberBody_form (ch :: rest1)
      cases hv : (parseNumberBody (ch :: rest1)).1 with
      | nil => exact absurd hv hne
      | cons a t =>
        rw [hv] at hf
        rcases hf with hf | hf <;> simp [hf]

theorem isOperator_cases (c : Char) (h : isOperator c = true) :
    c = '+' ∨ c = '-' ∨ c = 'x' ∨ c = '/' := by
  simp only [isOperator, OperatorMapHas, Bool.or_eq_true, decide_eq_true_eq] at h
  rcases h with ((h | h) | h) | h
  · exact Or.inl (char_eq_of_toNat _ _ h)
  · exact Or.inr (Or.inl (char_eq_of_toNat _ _ h))
  · exact Or.inr (Or.inr (Or.inl (char_eq_of_toNat _ _ h)))
  · exact Or.inr (Or.inr (Or.inr (char_eq_of_toNat _ _ h)))

/-- Every token the loop of `Tokenize` adds is a Number token scanned where a
number starts or an Operator token holding one operator character. -/
theorem tokenizeLoop_tokens (fuel : Nat) :
    ∀ (rest : List Char) (i : Nat) (tokens ts : List Token),
      tokenizeLoop fuel rest i tokens = some (Outcome.ok ts) →
      ∀ t ∈ ts, t ∈ tokens ∨
        (t.Typ = TokenType.NumberToken ∧ emittedNumberText t.Value = true) ∨
        (t.Typ = TokenType.OperatorToken ∧ ∃ c, t.Value = [c] ∧ isOperator c = true) := by
  induction fuel with
  | zero => intro rest i tokens ts h; simp [tokenizeLoop] at h
  | succ fuel ih =>
    intro rest i tokens ts h t ht
    cases rest with
    | nil =>
      simp only [tokenizeLoop, Option.some.injEq, Outcome.ok.injEq] at h
      subst h
      exact Or.inl ht
    | cons ch rest1 =>
      rw [tokenizeLoop] at h
      by_cases hs : unicodeIsSpace ch = true
      · simp only [hs, if_true] at h
        exact ih _ _ _ _ h t ht
      · simp only [hs, Bool.false_eq_true, if_false] at h
        by_cases hn : startsNumber (ch :: rest1) tokens = true
        · simp only [hn, if_true] at h
          rcases ih _ _ _ _ h t ht with h1 | h1
          · rcases List.mem_append.1 h1 with h2 | h2
            · exact Or.inl h2
            · simp only [List.mem_singleton] at h2
              subst h2
              exact Or.inr (Or.inl ⟨rfl, parseNumberToken_form _ _ hn⟩)
          · exact Or.inr h1
        · simp only [hn, Bool.false_eq_true, if_false] at h
          by_cases ho : isOperator ch = true
          · simp only [ho, if_true] at h
            rcases ih _ _ _ _ h t ht with h1 | h1
            · rcases List.mem_append.1 h1 with h2 | h2
              · exact Or.inl h2
              · simp only [List.mem_singleton] at h2
                subst h2
                exact Or.inr (Or.inr ⟨rfl, ch, rfl, ho⟩)
            · exact Or.inr h1
          · simp [ho] at h

/-- The tokens of a successful `Tokenize`: Number tokens of the emitted form and
Operator tokens holding one operator character. -/
theorem Tokenize_tokens (s : List Char) (ts : List Token)
    (h : Tokenize s = some (Outcome.ok ts)) :
    ∀ t ∈ ts,
      (t.Typ = TokenType.NumberToken ∧ emittedNumberText t.Value = true) ∨
      (t.Typ = TokenType.OperatorToken ∧ ∃ c, t.Value = [c] ∧ isOperator c = true) := by
  unfold Tokenize at h
  split at h
  · cases h
  · split at h
    · cases h
    · intro t ht
      rcases tokenizeLoop_tokens _ _ _ _ _ h t ht with h1 | h1
      · simp at h1
      · exact h1

/-- C28, as stated, fails at the input `0x`: `Tokenize` emits the Number token
`0x`, whose prefix is followed by no hex digit and which is no decimal text. -/
theorem C28_emits_0x_without_digits :
    Tokenize ['0', 'x'] = some (Outcome.ok [⟨TokenType.NumberToken, ['0', 'x'], 0⟩]) ∧
    specNumberText ['0', 'x'] = false ∧
    Tokenize ['-', '0', 'X', '+', '1'] = some (Outcome.ok
      [⟨TokenType.NumberToken, ['-', '0', 'X'], 0⟩, ⟨TokenType.OperatorToken, ['+'], 3⟩,
       ⟨TokenType.NumberToken, ['1'], 4⟩]) ∧
    specNumberText ['-', '0', 'X'] = false := by
  decide

/-- C28, amended: every Number token emitted by `Tokenize` has a Value made of an
optional leading `-` and a non-empty text that is either a `0x`/`0X` prefix
followed by zero or more hex digits, or a run of digits optionally followed by
`.` and more digits, either run possibly empty; every Operator token has a
one-character Value among `+ - x /`. -/
theorem C28_token_forms (s : List Char) (ts : List Token)
    (h : Tokenize s = some (Outcome.ok ts)) :
    ∀ t ∈ ts,
      (t.Typ = TokenType.NumberToken ∧ emittedNumberText t.Value = true) ∨
      (t.Typ = TokenType.OperatorToken ∧
        ∃ c, t.Value = [c] ∧ (c = '+' ∨ c = '-' ∨ c = 'x' ∨ c = '/')) := by
  intro t ht
  rcases Tokenize_tokens s ts h t ht with h1 | ⟨h1, c, hc, ho⟩
  · exact Or.inl h1
  · exact Or.inr ⟨h1, c, hc, isOperator_cases c ho⟩

/-- C28 at the input `-.x0x`: the Number token `-.` and the Operator token `x`
have the forms stated. -/
theorem C28_token_forms_witness :
    Tokenize ['-', '.', 'x', '0', 'x'] = some (Outcome.ok
      [⟨TokenType.NumberToken, ['-', '.'], 0⟩, ⟨TokenType.OperatorToken, ['x'], 2⟩,
       ⟨TokenType.NumberToken, ['0', 'x'], 3⟩]) ∧
    (((⟨TokenType.NumberToken, ['-', '.'], 0⟩ : Token).Typ = TokenType.NumberToken ∧
        emittedNumberText (⟨TokenType.NumberToken, ['-', '.'], 0⟩ : Token).Value = true) ∨
      ((⟨TokenType.NumberToken, ['-', '.'], 0⟩ : Token).Typ = TokenType.OperatorToken ∧
        ∃ c, (⟨TokenType.NumberToken, ['-', '.'], 0⟩ : Token).Value = [c] ∧
          (c = '+' ∨ c = '-' ∨ c = 'x' ∨ c = '/'))) ∧
    (((⟨TokenType.OperatorToken, ['x'], 2⟩ : Token).Typ = TokenType.NumberToken ∧
        emittedNumberText (⟨TokenType.OperatorToken, ['x'], 2⟩ : Token).Value = true) ∨
      ((⟨TokenType.OperatorToken, ['x'], 2⟩ : Token).Typ = TokenType.OperatorToken ∧
        ∃ c, (⟨TokenType.OperatorToken, ['x'], 2⟩ : Token).Value = [c] ∧
          (c = '+' ∨ c = '-' ∨ c = 'x' ∨ c = '/'))) :=
  ⟨by decide,
   C28_token_forms ['-', '.', 'x', '0', 'x']
     [⟨TokenType.NumberToken, ['-', '.'], 0⟩, ⟨TokenType.OperatorToken, ['x'], 2⟩,
      ⟨TokenType.NumberToken, ['0', 'x'], 3⟩] (by decide) _ (by simp),
   C28_token_forms ['-', '.', 'x', '0', 'x']
     [⟨TokenType.NumberToken, ['-', '.'], 0⟩, ⟨TokenType.OperatorToken, ['x'], 2⟩,
      ⟨TokenType.NumberToken, ['0', 'x'], 3⟩] (by decide) _ (by simp)⟩

/-! ## InfixToPostfix against the reference postfix order -/

theorem precedence_cases (r : Nat) (h : OperatorMapHas r = true) :
    (OperatorMap r).Precedence = 1 ∨ (OperatorMap r).Precedence = 2 := by
  simp only [OperatorMapHas, Bool.or_eq_true, decide_eq_true_eq] at h
  rcases h with ((h | h) | h) | h <;> subst h
  · left; decide
  · left; decide
  · right; decide
  · right; decide

theorem popOperators_pending (pending : Option Token)
    (hp : ∀ p, pending = some p →
      ∃ r, firstByte p.Value = some r ∧ (OperatorMap r).Precedence = 1) :
    (∀ x, popOperators 2 x pending.toList = some (x, pending.toList)) ∧
    (∀ x, popOperators 1 x pending.toList = some (x ++ pending.toList, [])) := by
  cases pending with
  | none => simp [popOperators]
  | some p =>
    obtain ⟨r, hr, hprec⟩ := hp p rfl
    simp [popOperators, hr, hprec]

/-- The loop of `InfixToPostfix` over the rest of a well-shaped sequence with
operator symbols among `+ - x /` yields the reference postfix order. -/
theorem infixLoop_postfixGo (rest : List Token) (halt : AltTail rest) :
    (∀ t ∈ rest, t.Typ = TokenType.OperatorToken →
      ∃ r, firstByte t.Value = some r ∧ OperatorMapHas r = true) →
    ∀ (output opStack out2 : List Token) (pending : Option Token),
      popOperators 2 output opStack = some (out2, pending.toList) →
      (∀ p, pending = some p →
        ∃ r, firstByte p.Value = some r ∧ (OperatorMap r).Precedence = 1) →
      ∃ out st, infixLoop rest output opStack = some (out, st) ∧
        out ++ st = out2 ++ postfixGo pending rest := by
  induction halt with
  | nil =>
    intro _ output opStack out2 pending hpop _
    refine ⟨output, opStack, rfl, ?_⟩
    rw [← popOperators_append _ _ _ _ _ hpop]
    simp [postfixGo]
  | cons o n rest ho hn _ ih =>
    intro hops output opStack out2 pending hpop hpend
    obtain ⟨r, hr, hmap⟩ := hops o (by simp) ho
    have hops2 : ∀ t ∈ rest, t.Typ = TokenType.OperatorToken →
        ∃ r, firstByte t.Value = some r ∧ OperatorMapHas r = true :=
      fun t ht => hops t (by simp [ht])
    obtain ⟨hp2, hp1⟩ := popOperators_pending pending hpend
    have htp : tokenPrecedence o = (OperatorMap r).Precedence := by
      simp [tokenPrecedence, hr]
    rw [infixLoop]
    simp only [ho, hr]
    rcases precedence_cases r hmap with hprec | hprec
    · have hpop1 : popOperators 1 output opStack = some (out2 ++ pending.toList, []) := by
        rw [popOperators_mono _ _ _ _ hpop, hp1]
      rw [hprec, hpop1]
      simp only
      rw [infixLoop]
      simp only [hn]
      obtain ⟨out, st, hl, he⟩ := ih hops2 (out2 ++ pending.toList ++ [n]) [o]
        (out2 ++ pending.toList ++ [n]) (some o)
        (by simp [popOperators, hr, hprec])
        (fun p hp => by
          simp only [Option.some.injEq] at hp
          subst hp
          exact ⟨r, hr, hprec⟩)
      refine ⟨out, st, hl, ?_⟩
      rw [he, postfixGo]
      simp [htp, hprec]
    · rw [hprec, hpop]
      simp only
      rw [infixLoop]
      simp only [hn]
      obtain ⟨out, st, hl, he⟩ := ih hops2 (out2 ++ [n]) (o :: pending.toList)
        (out2 ++ [n] ++ [o]) pending
        (by
          rw [popOperators]
          simp only [hr, hprec, ge_iff_le, le_refl, if_true]
          exact hp2 _)
        hpend
      refine ⟨out, st, hl, ?_⟩
      rw [he, postfixGo]
      simp [htp, hprec]

/-- `InfixToPostfix` on a well-shaped sequence with operator symbols among
`+ - x /`: the first operand followed by the reference postfix order. -/
theorem InfixToPostfix_postfixGo (n0 : Token) (rest : List Token)
    (hn0 : n0.Typ = TokenType.NumberToken) (halt : AltTail rest)
    (hops : ∀ t ∈ rest, t.Typ = TokenType.OperatorToken →
      ∃ r, firstByte t.Value = some r ∧ OperatorMapHas r = true) :
    InfixToPostfix (n0 :: rest) = Outcome.ok (n0 :: postfixGo none rest) := by
  obtain ⟨out, st, hl, he⟩ := infixLoop_postfixGo rest halt hops [n0] [] [n0] none
    (by simp [popOperators]) (by simp)
  have hloop : infixLoop (n0 :: rest) [] [] = some (out, st) := by
    rw [infixLoop]
    simp only [hn0, List.nil_append]
    exact hl
  simp [InfixToPostfix, hloop, he]

/-- The reference postfix order keeps the stack depth: entered with the
current term (and the total, when an operator is pending), it ends with one
value. -/
theorem postfixDepth_postfixGo (rest : List Token) (halt : AltTail rest) :
    ∀ (pending : Option Token),
      (∀ p, pending = some p → p.Typ = TokenType.OperatorToken) →
      postfixDepth (postfixGo pending rest) (1 + pending.toList.length) = Depth.depth 1 := by
  induction halt with
  | nil =>
    intro pending hp
    cases pending with
    | none => simp [postfixGo, postfixDepth]
    | some p => simp [postfixGo, postfixDepth, hp p rfl]
  | cons o n rest ho hn _ ih =>
    intro pending hp
    rw [postfixGo]
    by_cases h2 : tokenPrecedence o = 2
    · simp only [h2, if_true, postfixDepth, hn, ho]
      have : ¬ (1 + pending.toList.length + 1 < 2) := by omega
      simp only [this, if_false, Nat.add_sub_cancel]
      exact ih pending hp
    · simp only [h2, if_false]
      have h3 := ih (some o) (fun p hp => by
        simp only [Option.some.injEq] at hp
        subst hp
        exact ho)
      cases pending with
      | none =>
        simp only [Option.toList, List.nil_append, List.length_nil, postfixDepth, hn]
        simpa using h3
      | some p =>
        simp only [Option.toList, List.singleton_append, List.length_singleton, postfixDepth,
          hp p rfl, hn]
        simpa using h3

/-! ## Evaluator: no stack error on the postfix form of an accepted sequence -/

theorem parseNumberValue_err_message (t : Token) (e : CalcError)
    (h : parseNumberValue t = Outcome.err e) :
    e = CalcError.ParseError ("Invalid number format: " ++ String.mk t.Value) t.Position := by
  unfold parseNumberValue at h
  split at h
  · cases h
  · exact (Outcome.err.inj h).symm

theorem performOperation_err_message (left right : ℚ) (r p : Nat) (e : CalcError)
    (h : performOperation left right r p = Outcome.err e) :
    e = CalcError.DivisionByZero p ∨
    e = CalcError.ParseError ("Unknown operator: " ++ String.singleton (Char.ofNat r)) p := by
  unfold performOperation at h
  split at h
  · cases h
  · split at h
    · cases h
    · split at h
      · cases h
      · split at h
        · split at h
          · left; exact (Outcome.err.inj h).symm
          · cases h
        · right; exact (Outcome.err.inj h).symm

theorem not_StackError_number (s : String) (p : Nat) :
    ¬ StackError (CalcError.ParseError ("Invalid number format: " ++ s) p) := by
  rintro ⟨q, h | h⟩
  · simp only [CalcError.ParseError.injEq] at h
    have h2 := congrArg String.data h.1
    simp at h2
  · simp only [CalcError.ParseError.injEq] at h
    have h2 := congrArg String.data h.1
    simp at h2

theorem not_StackError_operator (s : String) (p : Nat) :
    ¬ StackError (CalcError.ParseError ("Unknown operator: " ++ s) p) := by
  rintro ⟨q, h | h⟩
  · simp only [CalcError.ParseError.injEq] at h
    have h2 := congrArg String.data h.1
    simp at h2
  · simp only [CalcError.ParseError.injEq] at h
    have h2 := congrArg String.data h.1
    simp at h2

theorem not_StackError_divisionByZero (p : Nat) :
    ¬ StackError (CalcError.DivisionByZero p) := by
  rintro ⟨q, h | h⟩ <;> cases h

/-- Where `postfixDepth` meets no underflow, the loop of `EvaluatePostfix`
does not fail with a stack error, and a stack it returns has the depth
computed. -/
theorem evalLoop_depth_ok (tokens : List Token) :
    ∀ (stack : List ℚ) (d : Nat), postfixDepth tokens stack.length = Depth.depth d →
      (∀ st, evalLoop tokens stack = Outcome.ok st → st.length = d) ∧
      (∀ e, evalLoop tokens stack = Outcome.err e → ¬ StackError e) := by
  induction tokens with
  | nil =>
    intro stack d h
    simp only [postfixDepth, Depth.depth.injEq] at h
    refine ⟨fun st hst => ?_, fun e he => by simp [evalLoop] at he⟩
    simp only [evalLoop, Outcome.ok.injEq] at hst
    rw [← hst, h]
  | cons t rest ih =>
    intro stack d h
    cases hty : t.Typ with
    | NumberToken =>
      simp only [postfixDepth, hty] at h
      cases hv : parseNumberValue t with
      | ok v =>
        have hs := evalStep_number t v stack hty hv
        simp only [evalLoop, hs]
        exact ih (v :: stack) d (by simpa using h)
      | err e1 =>
        have hs : evalStep t stack = Outcome.err e1 := by simp [evalStep, hty, hv]
        have hl : evalLoop (t :: rest) stack = Outcome.err e1 := by simp only [evalLoop, hs]
        rw [hl]
        refine ⟨fun st hst => (by cases hst), fun e he => ?_⟩
        simp only [Outcome.err.injEq] at he
        subst he
        rw [parseNumberValue_err_message t e1 hv]
        exact not_StackError_number _ _
      | fault => exact absurd hv (parseNumberValue_not_fault t)
    | OperatorToken =>
      simp only [postfixDepth, hty] at h
      by_cases hlt : stack.length < 2
      · simp [hlt] at h
      · simp only [hlt, if_false] at h
        cases stack with
        | nil => simp at hlt
        | cons right stack1 =>
          cases stack1 with
          | nil => simp at hlt
          | cons left stack2 =>
            cases hb : firstByte t.Value with
            | none =>
              have hs : evalStep t (right :: left :: stack2) = Outcome.fault := by
                simp [evalStep, hty, hb]
              have hl : evalLoop (t :: rest) (right :: left :: stack2) = Outcome.fault := by
                simp only [evalLoop, hs]
              rw [hl]
              exact ⟨fun st hst => (by cases hst), fun e he => by cases he⟩
            | some r =>
              have hs := evalStep_operator t r right left stack2 hty hb
              cases hop : performOperation left right r t.Position with
              | ok res =>
                rw [hop] at hs
                simp only [evalLoop, hs]
                exact ih (res :: stack2) d (by simpa using h)
              | err e1 =>
                rw [hop] at hs
                have hl : evalLoop (t :: rest) (right :: left :: stack2) = Outcome.err e1 := by
                  simp only [evalLoop, hs]
                rw [hl]
                refine ⟨fun st hst => (by cases hst), fun e he => ?_⟩
                simp only [Outcome.err.injEq] at he
                subst he
                rcases performOperation_err_message _ _ _ _ _ hop with h1 | h1
                · rw [h1]; exact not_StackError_divisionByZero _
                · rw [h1]; exact not_StackError_operator _ _
              | fault => exact absurd hop (performOperation_not_fault _ _ _ _)
    | WhitespaceToken =>
      simp only [postfixDepth, hty] at h
      have hs : evalStep t stack = Outcome.ok stack := by simp [evalStep, hty]
      simp only [evalLoop, hs]
      exact ih stack d h

/-- `EvaluatePostfix` on the postfix form of a well-shaped sequence with
operator symbols among `+ - x /` does not fail with a stack error. -/
theorem EvaluatePostfix_no_StackError (tokens : List Token) (e : Expression)
    (hp : ParseExpression tokens = Outcome.ok e)
    (hops : ∀ t ∈ tokens, t.Typ = TokenType.OperatorToken →
      ∃ r, firstByte t.Value = some r ∧ OperatorMapHas r = true) :
    ∀ err, EvaluatePostfix e.PostfixTokens = Outcome.err err → ¬ StackError err := by
  obtain ⟨hshape, hpost⟩ := ParseExpression_ok_shape tokens e hp
  obtain ⟨n0, rest, rfl, hn0, halt⟩ := WellShaped_cons tokens hshape
  have hpf := InfixToPostfix_postfixGo n0 rest hn0 halt (fun t ht => hops t (by simp [ht]))
  rw [hpf] at hpost
  have hpt : e.PostfixTokens = n0 :: postfixGo none rest := (Outcome.ok.inj hpost).symm
  have hd : postfixDepth (n0 :: postfixGo none rest) ([] : List ℚ).length = Depth.depth 1 := by
    have := postfixDepth_postfixGo rest halt none (by simp)
    simpa [postfixDepth, hn0] using this
  obtain ⟨hlen, herr⟩ := evalLoop_depth_ok _ [] 1 hd
  intro err he
  rw [hpt] at he
  unfold EvaluatePostfix at he
  cases hl : evalLoop (n0 :: postfixGo none rest) [] with
  | ok st =>
    have h1 := hlen st hl
    rw [hl] at he
    cases st with
    | nil => simp at h1
    | cons a st1 =>
      cases st1 with
      | nil => cases he
      | cons b st2 => simp at h1
  | err e1 =>
    rw [hl] at he
    simp only [Outcome.err.injEq] at he
    subst he
    exact herr _ hl
  | fault => rw [hl] at he; cases he

theorem Tokenize_err_kinds (s : List Char) (e : CalcError)
    (h : Tokenize s = some (Outcome.err e)) :
    e = CalcError.EmptyExpression ∨ ∃ c p, e = CalcError.InvalidCharacter c p := by
  unfold Tokenize at h
  split at h
  · left; simpa using h.symm
  · split at h
    · right
      simp only [Option.some.injEq, Outcome.err.injEq] at h
      exact ⟨_, _, h.symm⟩
    · right
      rcases tokenizeLoop_result _ _ _ _ _ h with ⟨c, p, hc⟩ | ⟨ts, hts, _⟩
      · exact ⟨c, p, Outcome.err.inj hc⟩
      · cases hts

theorem ParseExpression_err_kinds (tokens : List Token) (e : CalcError)
    (h : ParseExpression tokens = Outcome.err e) :
    e = CalcError.EmptyExpression ∨
    ∃ m p, e = CalcError.ParseError m p ∧ m ∈ structuralMessages := by
  cases tokens with
  | nil => left; simpa [ParseExpression] using h.symm
  | cons first rest =>
    right
    obtain ⟨last, hl1⟩ : ∃ last, (first :: rest).getLast? = some last :=
      ⟨_, List.getLast?_eq_getLast _ (by simp)⟩
    simp only [ParseExpression, List.head?_cons, hl1] at h
    by_cases h1 : first.Typ = TokenType.NumberToken
    · by_cases h2 : last.Typ = TokenType.NumberToken
      · simp only [h1, h2, ne_eq, not_true_eq_false, if_false] at h
        cases hc : checkAlternation 0 (first :: rest) with
        | some e2 =>
          rw [hc] at h
          simp only [Outcome.err.injEq] at h
          subst h
          obtain ⟨m, p, rfl, hm⟩ := checkAlternation_message _ _ _ hc
          exact ⟨m, p, rfl, hm⟩
        | none =>
          rw [hc] at h
          simp only at h
          cases hi : InfixToPostfix (first :: rest) with
          | ok ts => rw [hi] at h; cases h
          | err e3 =>
            unfold InfixToPostfix at hi
            split at hi <;> cases hi
          | fault => rw [hi] at h; cases h
      · simp only [h1, h2, ne_eq, not_true_eq_false, not_false_eq_true, if_true, if_false,
          Outcome.err.injEq] at h
        exact ⟨_, _, h.symm, by simp [structuralMessages]⟩
    · simp only [h1, ne_eq, not_false_eq_true, if_true, Outcome.err.injEq] at h
      exact ⟨_, _, h.symm, by simp [structuralMessages]⟩

theorem structuralMessages_not_StackError (m : String) (p : Nat)
    (hm : m ∈ structuralMessages) : ¬ StackError (CalcError.ParseError m p) := by
  rintro ⟨q, h | h⟩
  · simp only [CalcError.ParseError.injEq] at h
    rw [h.1] at hm
    revert hm; decide
  · simp only [CalcError.ParseError.injEq] at h
    rw [h.1] at hm
    revert hm; decide

theorem Tokenize_operator_symbols (s : List Char) (ts : List Token)
    (h : Tokenize s = some (Outcome.ok ts)) :
    ∀ t ∈ ts, t.Typ = TokenType.OperatorToken →
      ∃ r, firstByte t.Value = some r ∧ OperatorMapHas r = true := by
  intro t ht hty
  rcases Tokenize_tokens s ts h t ht with ⟨h1, _⟩ | ⟨_, c, hc, ho⟩
  · rw [hty] at h1; cases h1
  · rw [hc]
    rcases isOperator_cases c ho with rfl | rfl | rfl | rfl
    · exact ⟨_, rfl, by decide⟩
    · exact ⟨_, rfl, by decide⟩
    · exact ⟨_, rfl, by decide⟩
    · exact ⟨_, rfl, by decide⟩

/-- `Calculate` never returns a stack error. -/
theorem Calculate_no_StackError (s : List Char) (e : CalcError)
    (h : Calculate s = some (Outcome.err e)) : ¬ StackError e := by
  unfold Calculate at h
  by_cases h0 : TrimSpace s = []
  · simp only [h0, if_true, Option.some.injEq, Outcome.err.injEq] at h
    subst h
    rintro ⟨q, h | h⟩ <;> cases h
  · simp only [h0, if_false] at h
    cases ht : Tokenize (TrimSpace s) with
    | none => rw [ht] at h; cases h
    | some r =>
      cases r with
      | err e1 =>
        rw [ht] at h
        simp only [Option.some.injEq, Outcome.err.injEq] at h
        subst h
        rcases Tokenize_err_kinds _ _ ht with rfl | ⟨c, p, rfl⟩
        · rintro ⟨q, h | h⟩ <;> cases h
        · rintro ⟨q, h | h⟩ <;> cases h
      | fault => rw [ht] at h; cases h
      | ok ts =>
        rw [ht] at h
        simp only at h
        cases hp : ParseExpression ts with
        | err e1 =>
          rw [hp] at h
          simp only [Option.some.injEq, Outcome.err.injEq] at h
          subst h
          rcases ParseExpression_err_kinds _ _ hp with rfl | ⟨m, p, rfl, hm⟩
          · rintro ⟨q, h | h⟩ <;> cases h
          · exact structuralMessages_not_StackError m p hm
        | fault => rw [hp] at h; cases h
        | ok expr =>
          rw [hp] at h
          simp only [Option.some.injEq] at h
          exact EvaluatePostfix_no_StackError ts expr hp
            (Tokenize_operator_symbols _ ts ht) e h

/-- C23: for a token sequence accepted by `ParseExpression` whose operator
symbols are among `+ - x /`, `EvaluatePostfix` of the postfix tokens fails
neither with the ParseError `Insufficient operands for operator` nor with the
ParseError `Invalid expression structure`; and `Calculate` returns neither of
the two for any input. -/
theorem C23_no_stack_errors :
    (∀ (tokens : List Token) (e : Expression),
      ParseExpression tokens = Outcome.ok e →
      (∀ t ∈ tokens, t.Typ = TokenType.OperatorToken →
        ∃ r, firstByte t.Value = some r ∧ OperatorMapHas r = true) →
      ∀ p,
        EvaluatePostfix e.PostfixTokens ≠
          Outcome.err (CalcError.ParseError "Insufficient operands for operator" p) ∧
        EvaluatePostfix e.PostfixTokens ≠
          Outcome.err (CalcError.ParseError "Invalid expression structure" p)) ∧
    (∀ (s : List Char) (p : Nat),
      Calculate s ≠
        some (Outcome.err (CalcError.ParseError "Insufficient operands for operator" p)) ∧
      Calculate s ≠
        some (Outcome.err (CalcError.ParseError "Invalid expression structure" p))) := by
  refine ⟨fun tokens e hp hops p => ⟨fun h => ?_, fun h => ?_⟩,
    fun s p => ⟨fun h => ?_, fun h => ?_⟩⟩
  · exact EvaluatePostfix_no_StackError tokens e hp hops _ h ⟨p, Or.inl rfl⟩
  · exact EvaluatePostfix_no_StackError tokens e hp hops _ h ⟨p, Or.inr rfl⟩
  · exact Calculate_no_StackError s _ h ⟨p, Or.inl rfl⟩
  · exact Calculate_no_StackError s _ h ⟨p, Or.inr rfl⟩

/-! ## Evaluator: division by zero on the postfix form of an accepted sequence -/

theorem firstZeroDivision_cons (o n : Token) (rest : List Token) :
    firstZeroDivision (o :: n :: rest) =
      if isDivision o && isZeroLiteral n then some o.Position
      else firstZeroDivision (n :: rest) := by
  rw [firstZeroDivision]

/-- The position found by `firstZeroDivision` is that of a `/` token followed by
a zero literal with no such pair to its left. -/
theorem firstZeroDivision_some_iff (tokens : List Token) (p : Nat) :
    firstZeroDivision tokens = some p ↔
      ∃ (i : Nat) (o n : Token), tokens[i]? = some o ∧ tokens[i + 1]? = some n ∧
        isDivision o = true ∧ isZeroLiteral n = true ∧ o.Position = p ∧
        ∀ (j : Nat) (o2 n2 : Token), j < i → tokens[j]? = some o2 →
          tokens[j + 1]? = some n2 → ¬ (isDivision o2 = true ∧ isZeroLiteral n2 = true) := by
  induction tokens with
  | nil => simp [firstZeroDivision]
  | cons o tl ih =>
    cases tl with
    | nil =>
      simp only [firstZeroDivision]
      constructor
      · intro h; cases h
      · rintro ⟨i, o1, n1, _, h2, _⟩
        simp at h2
    | cons n rest =>
      rw [firstZeroDivision_cons]
      by_cases hz : (isDivision o && isZeroLiteral n) = true
      · simp only [hz, if_true, Option.some.injEq]
        have hz2 : isDivision o = true ∧ isZeroLiteral n = true := by
          simpa using hz
        constructor
        · intro hp
          exact ⟨0, o, n, by simp, by simp, hz2.1, hz2.2, hp,
            fun j _ _ hj => absurd hj (by omega)⟩
        · rintro ⟨i, o1, n1, h1, h2, h3, h4, h5, hmin⟩
          cases i with
          | zero =>
            simp only [List.getElem?_cons_zero, Option.some.injEq] at h1
            rw [h1]; exact h5
          | succ i =>
            exact absurd hz2 (hmin 0 o n (by omega) (by simp) (by simp))
      · simp only [hz, Bool.false_eq_true, if_false]
        rw [ih]
        constructor
        · rintro ⟨i, o1, n1, h1, h2, h3, h4, h5, hmin⟩
          refine ⟨i + 1, o1, n1, by simpa using h1, by simpa using h2, h3, h4, h5, ?_⟩
          intro j o2 n2 hj ho2 hn2
          cases j with
          | zero =>
            simp only [List.getElem?_cons_zero, Option.some.injEq] at ho2
            simp only [Nat.zero_add, List.getElem?_cons_succ, List.getElem?_cons_zero,
              Option.some.injEq] at hn2
            subst ho2; subst hn2
            intro hc
            exact hz (by simp [hc.1, hc.2])
          | succ j =>
            exact hmin j o2 n2 (by omega) (by simpa using ho2) (by simpa using hn2)
        · rintro ⟨i, o1, n1, h1, h2, h3, h4, h5, hmin⟩
          cases i with
          | zero =>
            simp only [List.getElem?_cons_zero, Option.some.injEq] at h1
            simp only [Nat.zero_add, List.getElem?_cons_succ, List.getElem?_cons_zero,
              Option.some.injEq] at h2
            subst h1; subst h2
            exact absurd (by simp [h3, h4]) hz
          | succ i =>
            refine ⟨i, o1, n1, by simpa using h1, by simpa using h2, h3, h4, h5, ?_⟩
            intro j o2 n2 hj ho2 hn2
            exact hmin (j + 1) o2 n2 (by omega) (by simpa using ho2) (by simpa using hn2)

theorem evalLoop_cons_ok (t : Token) (rest : List Token) (stack s1 : List ℚ)
    (h : evalStep t stack = Outcome.ok s1) :
    evalLoop (t :: rest) stack = evalLoop rest s1 := by
  simp only [evalLoop, h]

theorem evalLoop_cons_err (t : Token) (rest : List Token) (stack : List ℚ) (e : CalcError)
    (h : evalStep t stack = Outcome.err e) :
    evalLoop (t :: rest) stack = Outcome.err e := by
  simp only [evalLoop, h]

theorem operator_cases (r : Nat) (h : OperatorMapHas r = true) :
    r = '+'.toNat ∨ r = '-'.toNat ∨ r = 'x'.toNat ∨ r = '/'.toNat := by
  simp only [OperatorMapHas, Bool.or_eq_true, decide_eq_true_eq] at h
  rcases h with ((h | h) | h) | h
  · exact Or.inl h
  · exact Or.inr (Or.inl h)
  · exact Or.inr (Or.inr (Or.inl h))
  · exact Or.inr (Or.inr (Or.inr h))

/-- Evaluation of the reference postfix order from the current term (above the
total, when an additive operator is pending): DivisionByZero at the leftmost
`/` followed by a zero literal, a single value when there is none. -/
theorem evalLoop_postfixGo (rest : List Token) (halt : AltTail rest) :
    (∀ t ∈ rest, t.Typ = TokenType.NumberToken → ∃ v, parseNumberValue t = Outcome.ok v) →
    (∀ t ∈ rest, t.Typ = TokenType.OperatorToken →
      ∃ r, firstByte t.Value = some r ∧ OperatorMapHas r = true) →
    ∀ (nprev : Token) (pending : Option Token) (term : ℚ) (B : List ℚ),
      nprev.Typ = TokenType.NumberToken →
      (pending = none → B = []) →
      (∀ p, pending = some p → p.Typ = TokenType.OperatorToken ∧
        ∃ r, firstByte p.Value = some r ∧ (r = '+'.toNat ∨ r = '-'.toNat) ∧ ∃ s, B = [s]) →
      (∀ q, firstZeroDivision (nprev :: rest) = some q →
        evalLoop (postfixGo pending rest) (term :: B) =
          Outcome.err (CalcError.DivisionByZero q)) ∧
      (firstZeroDivision (nprev :: rest) = none →
        ∃ v, evalLoop (postfixGo pending rest) (term :: B) = Outcome.ok [v]) := by
  induction halt with
  | nil =>
    intro _ _ nprev pending term B _ hnone hsome
    refine ⟨fun q hq => by simp [firstZeroDivision] at hq, fun _ => ?_⟩
    cases pending with
    | none =>
      rw [hnone rfl]
      exact ⟨term, by simp [postfixGo, evalLoop]⟩
    | some p =>
      obtain ⟨hp, r, hr, hcase, s, rfl⟩ := hsome p rfl
      have hs := evalStep_operator p r term s [] hp hr
      rcases hcase with rfl | rfl
      · exact ⟨s + term, by simp [postfixGo, evalLoop, hs, performOperation]⟩
      · exact ⟨s - term, by simp [postfixGo, evalLoop, hs, performOperation]⟩
  | cons o n rest ho hn _ ih =>
    intro hlit hops nprev pending term B hprev hnone hsome
    obtain ⟨r, hr, hmap⟩ := hops o (by simp) ho
    obtain ⟨v, hv⟩ := hlit n (by simp) hn
    have hlit2 : ∀ t ∈ rest, t.Typ = TokenType.NumberToken →
        ∃ v, parseNumberValue t = Outcome.ok v := fun t ht => hlit t (by simp [ht])
    have hops2 : ∀ t ∈ rest, t.Typ = TokenType.OperatorToken →
        ∃ r, firstByte t.Value = some r ∧ OperatorMapHas r = true :=
      fun t ht => hops t (by simp [ht])
    have hnd : isDivision nprev = false := by simp [isDivision, hprev]
    have htp : tokenPrecedence o = (OperatorMap r).Precedence := by
      simp [tokenPrecedence, hr]
    have hfz : firstZeroDivision (nprev :: o :: n :: rest) =
        if isDivision o && isZeroLiteral n then some o.Position
        else firstZeroDivision (n :: rest) := by
      rw [firstZeroDivision_cons, hnd, firstZeroDivision_cons]
      simp
    have hdiv : isDivision o = decide (r = '/'.toNat) := by
      simp [isDivision, ho, hr]
    have hzero : isZeroLiteral n = decide (v = 0) := by
      simp [isZeroLiteral, hn, hv]
    rw [hfz, hdiv, hzero, postfixGo, htp]
    -- an operator of precedence 2 applied to the current term
    have hmult : (OperatorMap r).Precedence = 2 → ∀ res,
        performOperation term v r o.Position = Outcome.ok res →
        ∀ X, evalLoop (n :: o :: X) (term :: B) = evalLoop X (res :: B) := by
      intro _ res hres X
      rw [evalLoop_cons_ok n _ _ _ (evalStep_number n v _ hn hv)]
      have hs := evalStep_operator o r v term B ho hr
      rw [hres] at hs
      rw [evalLoop_cons_ok o _ _ _ hs]
    -- an operator of precedence 1: the pending operator is applied first
    have hadd : (r = '+'.toNat ∨ r = '-'.toNat) →
        (∀ q, firstZeroDivision (n :: rest) = some q →
          evalLoop (pending.toList ++ n :: postfixGo (some o) rest) (term :: B) =
            Outcome.err (CalcError.DivisionByZero q)) ∧
        (firstZeroDivision (n :: rest) = none →
          ∃ w, evalLoop (pending.toList ++ n :: postfixGo (some o) rest) (term :: B) =
            Outcome.ok [w]) := by
      intro hcase
      have hpend : ∃ total, evalLoop (pending.toList ++ n :: postfixGo (some o) rest)
          (term :: B) = evalLoop (postfixGo (some o) rest) [v, total] := by
        cases pending with
        | none =>
          rw [hnone rfl]
          refine ⟨term, ?_⟩
          simp only [Option.toList, List.nil_append]
          rw [evalLoop_cons_ok n _ _ _ (evalStep_number n v _ hn hv)]
        | some p =>
          obtain ⟨hp, rp, hrp, hcp, s, rfl⟩ := hsome p rfl
          have hs := evalStep_operator p rp term s [] hp hrp
          simp only [Option.toList, List.singleton_append]
          rcases hcp with rfl | rfl
          · refine ⟨s + term, ?_⟩
            have hs2 : evalStep p [term, s] = Outcome.ok [s + term] := by
              rw [hs]; simp [performOperation]
            rw [evalLoop_cons_ok p _ _ _ hs2,
              evalLoop_cons_ok n _ _ _ (evalStep_number n v _ hn hv)]
          · refine ⟨s - term, ?_⟩
            have hs2 : evalStep p [term, s] = Outcome.ok [s - term] := by
              rw [hs]; simp [performOperation]
            rw [evalLoop_cons_ok p _ _ _ hs2,
              evalLoop_cons_ok n _ _ _ (evalStep_number n v _ hn hv)]
      obtain ⟨total, htot⟩ := hpend
      rw [htot]
      exact ih hlit2 hops2 n (some o) v [total] hn (by simp)
        (fun p hp => by
          simp only [Option.some.injEq] at hp
          subst hp
          exact ⟨ho, r, hr, hcase, total, rfl⟩)
    rcases operator_cases r hmap with h1 | h1 | h1 | h1
    · subst h1
      have hp1 : (OperatorMap '+'.toNat).Precedence ≠ 2 := by decide
      have hnd2 : decide ('+'.toNat = '/'.toNat) = false := by decide
      simp only [hp1, if_false, hnd2, Bool.false_and, Bool.false_eq_true]
      exact hadd (Or.inl rfl)
    · subst h1
      have hp1 : (OperatorMap '-'.toNat).Precedence ≠ 2 := by decide
      have hnd2 : decide ('-'.toNat = '/'.toNat) = false := by decide
      simp only [hp1, if_false, hnd2, Bool.false_and, Bool.false_eq_true]
      exact hadd (Or.inr rfl)
    · subst h1
      have hp2 : (OperatorMap 'x'.toNat).Precedence = 2 := by decide
      have hnd2 : decide ('x'.toNat = '/'.toNat) = false := by decide
      simp only [hp2, if_true, hnd2, Bool.false_and, Bool.false_eq_true, if_false]
      rw [hmult hp2 (term * v) (by simp [performOperation])]
      exact ih hlit2 hops2 n pending (term * v) B hn hnone hsome
    · subst h1
      have hp2 : (OperatorMap '/'.toNat).Precedence = 2 := by decide
      simp only [hp2, if_true, decide_True, Bool.true_and]
      by_cases hz : v = 0
      · subst hz
        simp only [decide_True, if_true, Option.some.injEq]
        refine ⟨fun q hq => ?_, fun h => by cases h⟩
        rw [evalLoop_cons_ok n _ _ _ (evalStep_number n 0 _ hn hv)]
        have hs := evalStep_operator o _ 0 term B ho hr
        have hdz : performOperation term 0 '/'.toNat o.Position =
            Outcome.err (CalcError.DivisionByZero o.Position) := by
          simp [performOperation]
        rw [hdz] at hs
        rw [evalLoop_cons_err o _ _ _ hs, hq]
      · simp only [hz, decide_False, Bool.false_eq_true, if_false]
        rw [hmult hp2 (term / v) (by simp [performOperation, hz])]
        exact ih hlit2 hops2 n pending (term / v) B hn hnone hsome

/-- C24: for a token sequence accepted by `ParseExpression` all of whose Number
literals parse and whose operator symbols are among `+ - x /`, `EvaluatePostfix`
of the postfix form fails with DivisionByZero exactly when some `/` token is
immediately followed in the infix sequence by a literal of value zero; the
Position reported is that of the leftmost such `/`; otherwise the evaluation
succeeds. -/
theorem C24_division_by_zero_leftmost (tokens : List Token) (e : Expression)
    (hp : ParseExpression tokens = Outcome.ok e)
    (hlit : ∀ t ∈ tokens, t.Typ = TokenType.NumberToken →
      ∃ v, parseNumberValue t = Outcome.ok v)
    (hops : ∀ t ∈ tokens, t.Typ = TokenType.OperatorToken →
      ∃ r, firstByte t.Value = some r ∧ OperatorMapHas r = true) :
    (∀ p, EvaluatePostfix e.PostfixTokens = Outcome.err (CalcError.DivisionByZero p) ↔
      ∃ (i : Nat) (o n : Token), tokens[i]? = some o ∧ tokens[i + 1]? = some n ∧
        isDivision o = true ∧ isZeroLiteral n = true ∧ o.Position = p ∧
        ∀ (j : Nat) (o2 n2 : Token), j < i → tokens[j]? = some o2 →
          tokens[j + 1]? = some n2 →
          ¬ (isDivision o2 = true ∧ isZeroLiteral n2 = true)) ∧
    ((¬ ∃ (i : Nat) (o n : Token), tokens[i]? = some o ∧ tokens[i + 1]? = some n ∧
        isDivision o = true ∧ isZeroLiteral n = true) →
      ∃ v, EvaluatePostfix e.PostfixTokens = Outcome.ok v) := by
  obtain ⟨hshape, hpost⟩ := ParseExpression_ok_shape tokens e hp
  obtain ⟨n0, rest, rfl, hn0, halt⟩ := WellShaped_cons tokens hshape
  have hpf := InfixToPostfix_postfixGo n0 rest hn0 halt (fun t ht => hops t (by simp [ht]))
  rw [hpf] at hpost
  have hpt : e.PostfixTokens = n0 :: postfixGo none rest := (Outcome.ok.inj hpost).symm
  obtain ⟨v0, hv0⟩ := hlit n0 (by simp) hn0
  have hstart : evalLoop (n0 :: postfixGo none rest) [] =
      evalLoop (postfixGo none rest) [v0] :=
    evalLoop_cons_ok n0 _ _ _ (evalStep_number n0 v0 [] hn0 hv0)
  obtain ⟨hsome, hnone⟩ := evalLoop_postfixGo rest halt
    (fun t ht => hlit t (by simp [ht])) (fun t ht => hops t (by simp [ht]))
    n0 none v0 [] hn0 (fun _ => rfl) (fun p hp => by cases hp)
  have hcases : ∀ p, EvaluatePostfix e.PostfixTokens =
      Outcome.err (CalcError.DivisionByZero p) ↔
      firstZeroDivision (n0 :: rest) = some p := by
    intro p
    rw [hpt]
    unfold EvaluatePostfix
    rw [hstart]
    cases hf : firstZeroDivision (n0 :: rest) with
    | some q =>
      rw [hsome q hf]
      simp
    | none =>
      obtain ⟨v, hv⟩ := hnone hf
      rw [hv]
      simp
  refine ⟨fun p => ?_, fun hno => ?_⟩
  · rw [hcases p]
    exact firstZeroDivision_some_iff _ p
  · cases hf : firstZeroDivision (n0 :: rest) with
    | some q =>
      obtain ⟨i, o, n, h1, h2, h3, h4, _⟩ := (firstZeroDivision_some_iff _ q).1 hf
      exact absurd ⟨i, o, n, h1, h2, h3, h4⟩ hno
    | none =>
      obtain ⟨v, hv⟩ := hnone hf
      refine ⟨v, ?_⟩
      rw [hpt]
      unfold EvaluatePostfix
      rw [hstart, hv]

/-- C24 at the tokens of `1 / 0`: the postfix form `1 0 /` fails with
DivisionByZero at position 2, the Position of the `/`. -/
theorem C24_division_by_zero_leftmost_witness :
    EvaluatePostfix [⟨TokenType.NumberToken, ['1'], 0⟩, ⟨TokenType.NumberToken, ['0'], 4⟩,
      ⟨TokenType.OperatorToken, ['/'], 2⟩] = Outcome.err (CalcError.DivisionByZero 2) := by
  have h1 : parseNumberValue ⟨TokenType.NumberToken, ['1'], 0⟩ = Outcome.ok 1 := by
    have h := parseNumberValue_nat ['1'] TokenType.NumberToken 0 (by decide) (by decide)
    rw [show positional 10 ['1'] = 1 by decide] at h
    simpa using h
  have h0 : parseNumberValue ⟨TokenType.NumberToken, ['0'], 4⟩ = Outcome.ok 0 := by
    have h := parseNumberValue_nat ['0'] TokenType.NumberToken 4 (by decide) (by decide)
    rw [show positional 10 ['0'] = 0 by decide] at h
    simpa using h
  have hp : ParseExpression [⟨TokenType.NumberToken, ['1'], 0⟩,
      ⟨TokenType.OperatorToken, ['/'], 2⟩, ⟨TokenType.NumberToken, ['0'], 4⟩] =
      Outcome.ok ⟨[], [⟨TokenType.NumberToken, ['1'], 0⟩,
        ⟨TokenType.OperatorToken, ['/'], 2⟩, ⟨TokenType.NumberToken, ['0'], 4⟩],
        [⟨TokenType.NumberToken, ['1'], 0⟩, ⟨TokenType.NumberToken, ['0'], 4⟩,
          ⟨TokenType.OperatorToken, ['/'], 2⟩], none⟩ := by
    simp [ParseExpression, checkAlternation, InfixToPostfix, infixLoop, popOperators,
      firstByte]
  refine ((C24_division_by_zero_leftmost _ _ hp ?_ ?_).1 2).2
    ⟨1, ⟨TokenType.OperatorToken, ['/'], 2⟩, ⟨TokenType.NumberToken, ['0'], 4⟩,
      by simp, by simp, by decide, by simp [isZeroLiteral, h0], rfl, ?_⟩
  · intro t ht hty
    simp only [List.mem_cons, List.mem_singleton, List.not_mem_nil, or_false] at ht
    rcases ht with rfl | rfl | rfl
    · exact ⟨_, h1⟩
    · cases hty
    · exact ⟨_, h0⟩
  · intro t ht hty
    simp only [List.mem_cons, List.mem_singleton, List.not_mem_nil, or_false] at ht
    rcases ht with rfl | rfl | rfl
    · cases hty
    · exact ⟨47, rfl, by decide⟩
    · cases hty
  · intro j o2 n2 hj ho2 _
    have hj0 : j = 0 := by omega
    subst hj0
    simp only [List.getElem?_cons_zero, Option.some.injEq] at ho2
    subst ho2
    simp [isDivision]

/-! ## Tokenizer: the loop without its iteration bound -/

theorem tokenizeLoop_fuel_mono (f1 : Nat) :
    ∀ (rest : List Char) (i : Nat) (tokens : List Token) (r : Outcome (List Token)),
      tokenizeLoop f1 rest i tokens = some r →
      ∀ f2, f1 ≤ f2 → tokenizeLoop f2 rest i tokens = some r := by
  induction f1 with
  | zero => intro rest i tokens r h; simp [tokenizeLoop] at h
  | succ f1 ih =>
    intro rest i tokens r h f2 hle
    obtain ⟨f3, rfl⟩ : ∃ f3, f2 = f3 + 1 := ⟨f2 - 1, by omega⟩
    have hle2 : f1 ≤ f3 := by omega
    cases rest with
    | nil => simpa [tokenizeLoop] using h
    | cons ch rest1 =>
      rw [tokenizeLoop] at h ⊢
      by_cases hs : unicodeIsSpace ch = true
      · simp only [hs, if_true] at h ⊢
        exact ih _ _ _ _ h _ hle2
      · simp only [hs, Bool.false_eq_true, if_false] at h ⊢
        by_cases hn : startsNumber (ch :: rest1) tokens = true
        · simp only [hn, if_true] at h ⊢
          exact ih _ _ _ _ h _ hle2
        · simp only [hn, Bool.false_eq_true, if_false] at h ⊢
          by_cases ho : isOperator ch = true
          · simp only [ho, if_true] at h ⊢
            exact ih _ _ _ _ h _ hle2
          · simp only [ho, Bool.false_eq_true, if_false] at h ⊢
            exact h

theorem Runs_nil (i : Nat) (tokens ts : List Token) : Runs [] i tokens ts ↔ ts = tokens := by
  constructor
  · rintro ⟨fuel, h⟩
    cases fuel with
    | zero => simp [tokenizeLoop] at h
    | succ fuel =>
      simp only [tokenizeLoop, Option.some.injEq, Outcome.ok.injEq] at h
      exact h.symm
  · rintro rfl
    exact ⟨1, rfl⟩

/-- One iteration of the loop of `Tokenize`. -/
theorem Runs_cons (ch : Char) (rest1 : List Char) (i : Nat) (tokens ts : List Token) :
    Runs (ch :: rest1) i tokens ts ↔
      if unicodeIsSpace ch = true then Runs rest1 (i + 1) tokens ts
      else if startsNumber (ch :: rest1) tokens = true then
        Runs (parseNumberToken (ch :: rest1)).2 (i + (parseNumberToken (ch :: rest1)).1.length)
          (tokens ++ [⟨TokenType.NumberToken, (parseNumberToken (ch :: rest1)).1, i⟩]) ts
      else if isOperator ch = true then
        Runs rest1 (i + 1) (tokens ++ [⟨TokenType.OperatorToken, [ch], i⟩]) ts
      else False := by
  constructor
  · rintro ⟨fuel, h⟩
    cases fuel with
    | zero => simp [tokenizeLoop] at h
    | succ fuel =>
      rw [tokenizeLoop] at h
      by_cases hs : unicodeIsSpace ch = true
      · simp only [hs, if_true] at h ⊢
        exact ⟨fuel, h⟩
      · simp only [hs, Bool.false_eq_true, if_false] at h ⊢
        by_cases hn : startsNumber (ch :: rest1) tokens = true
        · simp only [hn, if_true] at h ⊢
          exact ⟨fuel, h⟩
        · simp only [hn, Bool.false_eq_true, if_false] at h ⊢
          by_cases ho : isOperator ch = true
          · simp only [ho, if_true] at h ⊢
            exact ⟨fuel, h⟩
          · simp [ho] at h
  · intro h
    by_cases hs : unicodeIsSpace ch = true
    · simp only [hs, if_true] at h
      obtain ⟨fuel, hf⟩ := h
      exact ⟨fuel + 1, by rw [tokenizeLoop]; simp only [hs, if_true]; exact hf⟩
    · simp only [hs, Bool.false_eq_true, if_false] at h
      by_cases hn : startsNumber (ch :: rest1) tokens = true
      · simp only [hn, if_true] at h
        obtain ⟨fuel, hf⟩ := h
        exact ⟨fuel + 1, by
          rw [tokenizeLoop]
          simp only [hs, Bool.false_eq_true, if_false, hn, if_true]
          exact hf⟩
      · simp only [hn, Bool.false_eq_true, if_false] at h
        by_cases ho : isOperator ch = true
        · simp only [ho, if_true] at h
          obtain ⟨fuel, hf⟩ := h
          exact ⟨fuel + 1, by
            rw [tokenizeLoop]
            simp only [hs, Bool.false_eq_true, if_false, hn, ho, if_true]
            exact hf⟩
        · simp [ho] at h

/-- Leading whitespace is skipped. -/
theorem Runs_blank (w : List Char) :
    ∀ (r : List Char) (i : Nat) (tokens ts : List Token), Blank w →
      (Runs (w ++ r) i tokens ts ↔ Runs r (i + w.length) tokens ts) := by
  induction w with
  | nil => intro r i tokens ts _; simp
  | cons a w ih =>
    intro r i tokens ts hb
    have ha : unicodeIsSpace a = true := hb a (by simp)
    have hw : Blank w := fun c hc => hb c (by simp [hc])
    rw [List.cons_append, Runs_cons]
    simp only [ha, if_true]
    rw [ih r (i + 1) tokens ts hw]
    simp only [List.length_cons]
    rw [show i + 1 + w.length = i + (w.length + 1) by omega]

/-- The loop only appends to the tokens it starts with. -/
theorem Runs_prefix (fuel : Nat) :
    ∀ (rest : List Char) (i : Nat) (tokens ts : List Token),
      tokenizeLoop fuel rest i tokens = some (Outcome.ok ts) →
      ∃ more, ts = tokens ++ more := by
  induction fuel with
  | zero => intro rest i tokens ts h; simp [tokenizeLoop] at h
  | succ fuel ih =>
    intro rest i tokens ts h
    cases rest with
    | nil =>
      simp only [tokenizeLoop, Option.some.injEq, Outcome.ok.injEq] at h
      exact ⟨[], by simp [h]⟩
    | cons ch rest1 =>
      rw [tokenizeLoop] at h
      by_cases hs : unicodeIsSpace ch = true
      · simp only [hs, if_true] at h
        exact ih _ _ _ _ h
      · simp only [hs, Bool.false_eq_true, if_false] at h
        by_cases hn : startsNumber (ch :: rest1) tokens = true
        · simp only [hn, if_true] at h
          obtain ⟨more, hm⟩ := ih _ _ _ _ h
          exact ⟨[_] ++ more, by rw [hm, List.append_assoc]⟩
        · simp only [hn, Bool.false_eq_true, if_false] at h
          by_cases ho : isOperator ch = true
          · simp only [ho, if_true] at h
            obtain ⟨more, hm⟩ := ih _ _ _ _ h
            exact ⟨[_] ++ more, by rw [hm, List.append_assoc]⟩
          · simp [ho] at h

/-- A successful `Tokenize` is a run of the loop from the start of the text. -/
theorem Runs_of_Tokenize (s : List Char) (ts : List Token)
    (h : Tokenize s = some (Outcome.ok ts)) : Runs s 0 [] ts := by
  unfold Tokenize at h
  split at h
  · cases h
  · split at h
    · cases h
    · exact ⟨_, h⟩

/-- A run of the loop on a text that passes the two checks of `Tokenize` is its
result. -/
theorem Tokenize_of_Runs (s : List Char) (ts : List Token) (hne : TrimSpace s ≠ [])
    (hvalid : ∀ c ∈ s, isValidCharacter c = true) (h : Runs s 0 [] ts) :
    Tokenize s = some (Outcome.ok ts) := by
  obtain ⟨fuel, hf⟩ := h
  obtain ⟨r, hr⟩ := tokenizeLoop_total (s.length + 1) s 0 [] (by omega)
  have h1 := tokenizeLoop_fuel_mono _ _ _ _ _ hf (max fuel (s.length + 1)) (le_max_left _ _)
  have h2 := tokenizeLoop_fuel_mono _ _ _ _ _ hr (max fuel (s.length + 1)) (le_max_right _ _)
  rw [h1] at h2
  rw [← Option.some.inj h2] at hr
  unfold Tokenize
  simp only [hne, if_false, findInvalidCharacter_none s 0 hvalid, ite_self]
  exact hr

theorem space_not_hexDigit (c : Char) (h : unicodeIsSpace c = true) : isHexDigit c = false := by
  cases hx : isHexDigit c with
  | false => rfl
  | true => rw [hexDigit_not_space c hx] at h; cases h

theorem space_not_digit (c : Char) (h : unicodeIsSpace c = true) : isDigit c = false := by
  cases hd : isDigit c with
  | false => rfl
  | true => rw [hexDigit_not_space c (isHexDigit_of_isDigit c hd)] at h; cases h

theorem space_ne_point (c : Char) (h : unicodeIsSpace c = true) : c ≠ '.' := by
  rintro rfl; revert h; decide

theorem hasHexPrefix_cons_cons (c0 c1 : Char) (t t2 : List Char) :
    hasHexPrefix (c0 :: c1 :: t) = hasHexPrefix (c0 :: c1 :: t2) := by
  simp [hasHexPrefix]

/-- A stop character for `y2` from one for `y`. -/
theorem HeadCompat_stop (p : Char → Bool) (y y2 : List Char) (hc : HeadCompat y y2)
    (hsp : ∀ c, unicodeIsSpace c = true → p c = false)
    (hy : ∀ c, y.head? = some c → p c = false) :
    ∀ c, y2.head? = some c → p c = false := by
  intro c h
  rcases hc c h with h1 | h1
  · exact hsp c h1
  · exact hy c h1

/-- No hex prefix appears when the continuation of a run of digits changes to
one whose first character is whitespace or unchanged. -/
theorem hasHexPrefix_digits_stop (b y y2 : List Char) (hc : HeadCompat y y2)
    (hb : ∀ c ∈ b, isDigit c = true) (hy : ∀ c, y.head? = some c → isDigit c = false)
    (hh : hasHexPrefix (b ++ y) = false) : hasHexPrefix (b ++ y2) = false := by
  have hy2 := HeadCompat_stop isDigit y y2 hc space_not_digit hy
  cases hx : hasHexPrefix (b ++ y2) with
  | false => rfl
  | true =>
    exfalso
    cases b with
    | nil =>
      cases y2 with
      | nil => simp [hasHexPrefix] at hx
      | cons c t =>
        have h0 := hasHexPrefix_head c t hx
        have := hy2 c rfl
        rw [h0] at this
        revert this; decide
    | cons d b1 =>
      cases b1 with
      | nil =>
        cases y2 with
        | nil => simp [hasHexPrefix] at hx
        | cons c t =>
          rcases hc c rfl with h1 | h1
          · simp only [List.cons_append, List.nil_append, hasHexPrefix, Bool.and_eq_true,
              Bool.or_eq_true, decide_eq_true_eq] at hx
            rcases hx.2 with rfl | rfl <;> revert h1 <;> decide
          · cases y with
            | nil => simp at h1
            | cons c2 t2 =>
              simp only [List.head?_cons, Option.some.injEq] at h1
              subst h1
              rw [List.cons_append, List.nil_append,
                hasHexPrefix_cons_cons d c2 t2 t] at hh
              simp only [List.cons_append, List.nil_append] at hx
              rw [hx] at hh; cases hh
      | cons d2 b2 =>
        have hd2 : isDigit d2 = true := hb d2 (by simp)
        simp only [List.cons_append, hasHexPrefix, Bool.and_eq_true, Bool.or_eq_true,
          decide_eq_true_eq] at hx
        rcases hx.2 with rfl | rfl <;> revert hd2 <;> decide

/-- The shapes of a text scanned by `parseNumberBody`, with the condition on
the character it stopped at. -/
theorem parseNumberBody_shape (b y : List Char) (h : parseNumberBody (b ++ y) = (b, y)) :
    (∃ c0 c1 bt, b = c0 :: c1 :: bt ∧ hasHexPrefix (c0 :: c1 :: bt) = true ∧
      (∀ c ∈ bt, isHexDigit c = true) ∧ ∀ c, y.head? = some c → isHexDigit c = false) ∨
    (hasHexPrefix (b ++ y) = false ∧ (∀ c ∈ b, isDigit c = true) ∧
      ∀ c, y.head? = some c → isDigit c = false ∧ c ≠ '.') ∨
    (hasHexPrefix (b ++ y) = false ∧ ∃ I F, b = I ++ '.' :: F ∧
      (∀ c ∈ I, isDigit c = true) ∧ (∀ c ∈ F, isDigit c = true) ∧
      ∀ c, y.head? = some c → isDigit c = false) := by
  unfold parseNumberBody at h
  by_cases hh : hasHexPrefix (b ++ y) = true
  · left
    simp only [hh, if_true, Prod.mk.injEq] at h
    obtain ⟨h1, h2⟩ := h
    cases hr : b ++ y with
    | nil => rw [hr] at hh; simp [hasHexPrefix] at hh
    | cons c0 r1 =>
      cases r1 with
      | nil => rw [hr] at hh; simp [hasHexPrefix] at hh
      | cons c1 T =>
        rw [hr] at h1 h2 hh
        simp only [List.take_succ_cons, List.take_zero, List.drop_succ_cons, List.drop_zero,
          List.cons_append, List.nil_append] at h1 h2
        refine ⟨c0, c1, T.takeWhile isHexDigit, h1.symm, ?_, fun c hc => List.mem_takeWhile_imp hc,
          ?_⟩
        · rw [hasHexPrefix_cons_cons c0 c1 _ T]; exact hh
        · intro c hc
          cases y with
          | nil => simp at hc
          | cons c2 t2 =>
            simp only [List.head?_cons, Option.some.injEq] at hc
            subst hc
            exact dropWhile_head isHexDigit T c2 t2 h2
  · right
    have hh2 : hasHexPrefix (b ++ y) = false := by simpa using hh
    simp only [hh, Bool.false_eq_true, if_false] at h
    cases hd : (b ++ y).dropWhile isDigit with
    | nil =>
      rw [hd] at h
      simp only [Prod.mk.injEq] at h
      left
      refine ⟨hh2, ?_, ?_⟩
      · intro c hc
        rw [← h.1] at hc
        exact List.mem_takeWhile_imp hc
      · intro c hc
        rw [← h.2] at hc
        simp at hc
    | cons c t =>
      rw [hd] at h
      by_cases hp : c = '.'
      · right
        simp only [hp, if_true, Prod.mk.injEq] at h
        refine ⟨hh2, (b ++ y).takeWhile isDigit, t.takeWhile isDigit, h.1.symm,
          fun c hc => List.mem_takeWhile_imp hc, fun c hc => List.mem_takeWhile_imp hc, ?_⟩
        intro c2 hc2
        cases y with
        | nil => simp at hc2
        | cons c3 t3 =>
          simp only [List.head?_cons, Option.some.injEq] at hc2
          subst hc2
          exact dropWhile_head isDigit t c3 t3 h.2
      · left
        simp only [hp, if_false, Prod.mk.injEq] at h
        refine ⟨hh2, ?_, ?_⟩
        · intro c2 hc2
          rw [← h.1] at hc2
          exact List.mem_takeWhile_imp hc2
        · intro c2 hc2
          rw [← h.2] at hc2
          simp only [List.head?_cons, Option.some.injEq] at hc2
          subst hc2
          exact ⟨dropWhile_head isDigit _ c t hd, hp⟩

/-- The text scanned by `parseNumberBody` stays the same when the text after it
changes to one whose first character is whitespace or unchanged. -/
theorem parseNumberBody_stop (b y y2 : List Char) (hc : HeadCompat y y2)
    (h : parseNumberBody (b ++ y) = (b, y)) : parseNumberBody (b ++ y2) = (b, y2) := by
  rcases parseNumberBody_shape b y h with
    ⟨c0, c1, bt, rfl, hh, hbt, hy⟩ | ⟨hh, hb, hy⟩ | ⟨hh, I, F, rfl, hI, hF, hy⟩
  · have hy2 := HeadCompat_stop isHexDigit y y2 hc space_not_hexDigit hy
    obtain ⟨h1, h2⟩ := takeWhile_append_stop isHexDigit bt y2 hbt hy2
    unfold parseNumberBody
    have hh2 : hasHexPrefix (c0 :: c1 :: (bt ++ y2)) = true := by
      rw [hasHexPrefix_cons_cons c0 c1 _ bt]; exact hh
    simp only [hh2, if_true, List.cons_append, List.take_succ_cons, List.take_zero,
      List.drop_succ_cons, List.drop_zero, h1, h2, List.nil_append]
  · have hy2 := HeadCompat_stop isDigit y y2 hc space_not_digit (fun c hc => (hy c hc).1)
    have hx := hasHexPrefix_digits_stop b y y2 hc hb (fun c hc => (hy c hc).1) hh
    obtain ⟨h1, h2⟩ := takeWhile_append_stop isDigit b y2 hb hy2
    unfold parseNumberBody
    simp only [hx, Bool.false_eq_true, if_false, h1, h2]
    cases y2 with
    | nil => rfl
    | cons c t =>
      have hne : c ≠ '.' := by
        rcases hc c rfl with h3 | h3
        · exact space_ne_point c h3
        · exact (hy c h3).2
      simp only [hne, if_false]
  · have hy2 := HeadCompat_stop isDigit y y2 hc space_not_digit hy
    have hpoint : isDigit '.' = false := by decide
    have hx : hasHexPrefix (I ++ '.' :: F ++ y2) = false := by
      have := hasHexPrefix_digits_stop I ('.' :: (F ++ y)) ('.' :: (F ++ y2))
        (fun c hc => Or.inr (by simpa using hc)) hI
        (fun c hc => by
          simp only [List.head?_cons, Option.some.injEq] at hc
          rw [← hc]; exact hpoint)
        (by simpa [List.append_assoc] using hh)
      simpa [List.append_assoc] using this
    obtain ⟨h1, h2⟩ := takeWhile_append_stop isDigit I ('.' :: (F ++ y2)) hI
      (fun c hc => by
        simp only [List.head?_cons, Option.some.injEq] at hc
        rw [← hc]; exact hpoint)
    obtain ⟨h3, h4⟩ := takeWhile_append_stop isDigit F y2 hF hy2
    have he : I ++ '.' :: F ++ y2 = I ++ '.' :: (F ++ y2) := by simp [List.append_assoc]
    unfold parseNumberBody
    rw [he] at hx ⊢
    simp only [hx, Bool.false_eq_true, if_false, h1, h2, if_true, h3, h4]

/-- The token text scanned by `parseNumberToken` stays the same when the text
after it changes to one whose first character is whitespace or unchanged. -/
theorem parseNumberToken_stop (v y y2 : List Char) (hv : v ≠ []) (hc : HeadCompat y y2)
    (h : parseNumberToken (v ++ y) = (v, y)) : parseNumberToken (v ++ y2) = (v, y2) := by
  cases v with
  | nil => exact absurd rfl hv
  | cons c vt =>
    simp only [List.cons_append, parseNumberToken] at h ⊢
    by_cases hm : c = '-'
    · simp only [hm, if_true, Prod.mk.injEq, List.cons.injEq, true_and] at h ⊢
      have hb : parseNumberBody (vt ++ y) = (vt, y) := Prod.ext h.1 h.2
      rw [parseNumberBody_stop vt y y2 hc hb]
      exact ⟨rfl, rfl⟩
    · simp only [hm, if_false] at h ⊢
      exact parseNumberBody_stop (c :: vt) y y2 hc h

/-! ## Tokenizer: the decision at the start of a token -/

theorem atStartOrAfterOperator_congr (toks toks2 : List Token)
    (h : toks2.map kindValue = toks.map kindValue) :
    atStartOrAfterOperator toks2 = atStartOrAfterOperator toks := by
  have h1 : (toks2.map kindValue).getLast? = (toks.map kindValue).getLast? := by rw [h]
  rw [List.getLast?_map, List.getLast?_map] at h1
  unfold atStartOrAfterOperator
  cases h2 : toks2.getLast? with
  | none =>
    cases h3 : toks.getLast? with
    | none => rfl
    | some t => rw [h2, h3] at h1; simp at h1
  | some t2 =>
    cases h3 : toks.getLast? with
    | none => rw [h2, h3] at h1; simp at h1
    | some t =>
      rw [h2, h3] at h1
      simp only [Option.map_some', Option.some.injEq, kindValue, Prod.mk.injEq] at h1
      simp only [h1.1]

/-- A number token starts at the same place when the text after it changes to
one whose first character is whitespace or unchanged. -/
theorem startsNumber_stop_number (v y y2 : List Char) (toks toks2 : List Token)
    (hc : HeadCompat y y2) (hp : parseNumberToken (v ++ y) = (v, y))
    (hs : startsNumber (v ++ y) toks = true)
    (ha : atStartOrAfterOperator toks2 = atStartOrAfterOperator toks) :
    startsNumber (v ++ y2) toks2 = true := by
  cases v with
  | nil =>
    have h1 := parseNumberToken_ne_nil _ toks hs
    rw [hp] at h1
    exact absurd rfl h1
  | cons c vt =>
    by_cases hd : isDigit c = true
    · simp [startsNumber, hd]
    · by_cases hpt : c = '.'
      · simp [startsNumber, hpt]
      · have hx : hasHexPrefix (c :: (vt ++ y)) = false := by
          cases hx : hasHexPrefix (c :: (vt ++ y)) with
          | false => rfl
          | true =>
            have := hasHexPrefix_head c _ hx
            rw [this] at hd
            exact absurd (by decide) hd
        simp only [List.cons_append, startsNumber, hd, hpt, hx, Bool.false_or, decide_False,
          Bool.and_eq_true, decide_eq_true_eq] at hs
        obtain ⟨hm, hst⟩ := hs
        subst hm
        simp only [List.cons_append, parseNumberToken, if_true, Prod.mk.injEq, List.cons.injEq,
          true_and] at hp
        have hb : parseNumberBody (vt ++ y) = (vt, y) := Prod.ext hp.1 hp.2
        cases vt with
        | nil =>
          exfalso
          simp only [List.nil_append] at hb hst
          cases y with
          | nil => simp [isStartOfNumber] at hst
          | cons n t =>
            rcases parseNumberBody_shape [] (n :: t) hb with
              ⟨c0, c1, bt, h0, _⟩ | ⟨hh, _, hy⟩ | ⟨_, I, F, h0, _⟩
            · cases h0
            · have h1 := hy n rfl
              simp only [List.nil_append] at hh
              simp [isStartOfNumber, h1.1, h1.2, hh] at hst
            · simp at h0
        | cons n vt2 =>
          simp only [isStartOfNumber, ne_eq, not_true_eq_false, if_false,
            List.cons_append] at hst
          have hn : (isDigit n || decide (n = '.')) = true := by
            by_cases hn : (isDigit n || decide (n = '.')) = true
            · exact hn
            · simp only [hn, Bool.false_eq_true, if_false] at hst
              by_cases hx2 : hasHexPrefix (n :: (vt2 ++ y)) = true
              · have := hasHexPrefix_head n _ hx2
                subst this
                exact absurd (by decide) hn
              · simp [hx2] at hst
          have hat : atStartOrAfterOperator toks = true := by
            simpa [hn] using hst
          have hd2 : isDigit '-' = false := by decide
          simp only [List.cons_append, startsNumber, isStartOfNumber, ne_eq, not_true_eq_false,
            if_false, hn, if_true, ha, hat, decide_True, Bool.and_self, Bool.or_true]

/-- An operator character stays an operator when the text after it changes to
one whose first character is whitespace or unchanged. -/
theorem startsNumber_stop_operator (c : Char) (y y2 : List Char) (toks toks2 : List Token)
    (hc : HeadCompat y y2) (hs : startsNumber (c :: y) toks = false)
    (ha : atStartOrAfterOperator toks2 = atStartOrAfterOperator toks) :
    startsNumber (c :: y2) toks2 = false := by
  simp only [startsNumber, Bool.or_eq_false_iff, Bool.and_eq_false_imp,
    decide_eq_false_iff_not, decide_eq_true_eq] at hs
  obtain ⟨⟨⟨hd, hpt⟩, hx⟩, hmin⟩ := hs
  have hx2 : hasHexPrefix (c :: y2) = false := by
    cases hx2 : hasHexPrefix (c :: y2) with
    | false => rfl
    | true =>
      have := hasHexPrefix_head c _ hx2
      subst this
      exact absurd hd (by decide)
  simp only [startsNumber, hd, hx2, Bool.false_or, Bool.or_false, Bool.and_eq_false_imp,
    decide_eq_false_iff_not, decide_eq_true_eq, Bool.or_eq_false_iff]
  refine ⟨hpt, fun hm => ?_⟩
  have hst := hmin hm
  subst hm
  cases y2 with
  | nil => simp [isStartOfNumber]
  | cons n t =>
    rcases hc n rfl with h1 | h1
    · have hn1 := space_not_digit n h1
      have hn2 := space_ne_point n h1
      have hn3 : hasHexPrefix (n :: t) = false := by
        cases h3 : hasHexPrefix (n :: t) with
        | false => rfl
        | true =>
          have := hasHexPrefix_head n _ h3
          subst this
          exact absurd hn1 (by decide)
      simp [isStartOfNumber, hn1, hn2, hn3]
    · cases y with
      | nil => simp at h1
      | cons n2 t2 =>
        simp only [List.head?_cons, Option.some.injEq] at h1
        subst h1
        simp only [isStartOfNumber, ne_eq, not_true_eq_false, if_false] at hst ⊢
        by_cases hn : (isDigit n2 || decide (n2 = '.')) = true
        · simp only [hn, if_true] at hst ⊢
          rw [ha]; exact hst
        · simp only [hn, Bool.false_eq_true, if_false]
          have hn3 : hasHexPrefix (n2 :: t) = false := by
            cases h3 : hasHexPrefix (n2 :: t) with
            | false => rfl
            | true =>
              have := hasHexPrefix_head n2 _ h3
              subst this
              exact absurd (by decide) hn
          simp [hn3]

/-! ## Tokenizer: facts about the texts of the emitted tokens -/

theorem emittedNumberText_head (v : List Char) (h : emittedNumberText v = true) :
    v ≠ [] ∧ ∀ c, v.head? = some c → unicodeIsSpace c = false := by
  cases v with
  | nil => simp [emittedNumberText, unsignedText] at h
  | cons a t =>
    refine ⟨by simp, fun c hc => ?_⟩
    simp only [List.head?_cons, Option.some.injEq] at hc
    subst hc
    by_cases hm : a = '-'
    · subst hm; decide
    · simp only [emittedNumberText, unsignedText, hm, if_false, Bool.and_eq_true,
        Bool.or_eq_true] at h
      rcases h.2 with h1 | h1
      · simp only [isHexText, Bool.and_eq_true] at h1
        have := hasHexPrefix_head a t h1.1
        subst this; decide
      · by_cases hd : isDigit a = true
        · exact hexDigit_not_space a (isHexDigit_of_isDigit a hd)
        · simp only [isDecimalText, List.dropWhile_cons_of_neg hd, Bool.and_eq_true,
            decide_eq_true_eq] at h1
          rw [h1.1]; decide

theorem Tokenize_value_head (s : List Char) (ts : List Token)
    (h : Tokenize s = some (Outcome.ok ts)) :
    ∀ t ∈ ts, t.Value ≠ [] ∧ ∀ c, t.Value.head? = some c → unicodeIsSpace c = false := by
  intro t ht
  rcases Tokenize_tokens s ts h t ht with ⟨_, h1⟩ | ⟨_, c, hc, ho⟩
  · exact emittedNumberText_head _ h1
  · rw [hc]
    refine ⟨by simp, fun c2 hc2 => ?_⟩
    simp only [List.head?_cons, Option.some.injEq] at hc2
    subst hc2
    rcases isOperator_cases c ho with rfl | rfl | rfl | rfl <;> decide

theorem findInvalidCharacter_none_valid (s : List Char) :
    ∀ i : Nat, findInvalidCharacter s i = none → ∀ c ∈ s, isValidCharacter c = true := by
  induction s with
  | nil => intro i _ c hc; simp at hc
  | cons a t ih =>
    intro i h c hc
    rw [findInvalidCharacter] at h
    by_cases ha : isValidCharacter a = true
    · simp only [ha, Bool.not_true, Bool.false_eq_true, if_false] at h
      rcases List.mem_cons.1 hc with rfl | h2
      · exact ha
      · exact ih _ h c h2
    · simp [ha] at h

theorem Tokenize_ok_valid (s : List Char) (ts : List Token)
    (h : Tokenize s = some (Outcome.ok ts)) : ∀ c ∈ s, isValidCharacter c = true := by
  unfold Tokenize at h
  split at h
  · cases h
  · by_cases hm : ValidCharacterSetMatch s = true
    · intro c hc
      exact isValidCharacter_of_class c (List.all_eq_true.1 hm c hc)
    · simp only [hm, Bool.not_false, Bool.false_eq_true, not_false_eq_true, if_true] at h
      cases hf : findInvalidCharacter s 0 with
      | none => exact findInvalidCharacter_none_valid s 0 hf
      | some p => simp [hf] at h

theorem space_valid (c : Char) (h : unicodeIsSpace c = true) : isValidCharacter c = true := by
  simp [isValidCharacter, h]

/-! ## Tokenizer: inserting whitespace at the token boundaries -/

theorem HeadCompat_segments (g : Segment) (segs : List Segment)
    (hg : Blank g.padded ∧ (g.padded = [] → g.gap = []))
    (hs : ∀ g2 ∈ segs, g2.text ≠ []) :
    HeadCompat (g.gap ++ originalText segs) (g.padded ++ paddedText segs) := by
  intro c hc
  cases hp : g.padded with
  | nil =>
    rw [hp] at hc
    rw [hg.2 hp]
    simp only [List.nil_append] at hc ⊢
    cases segs with
    | nil => simp [paddedText] at hc
    | cons g2 rest =>
      right
      have hne := hs g2 (by simp)
      cases ht : g2.text with
      | nil => exact absurd ht hne
      | cons a t =>
        simp only [paddedText, ht, List.cons_append, List.head?_cons] at hc
        simp only [originalText, ht, List.cons_append, List.head?_cons]
        exact hc
  | cons a t =>
    left
    rw [hp] at hc
    simp only [List.cons_append, List.head?_cons, Option.some.injEq] at hc
    rw [← hc]
    exact hg.1 a (by rw [hp]; simp)

/-- The loop of `Tokenize` on the padded text emits tokens of the same kinds
and Values as on the original text. -/
theorem Runs_padded (segs : List Segment) :
    ∀ (w w2 : List Char) (i i2 : Nat) (toks toks2 ts : List Token),
      Blank w → Blank w2 →
      (∀ g ∈ segs, Blank g.gap ∧ Blank g.padded ∧ (g.padded = [] → g.gap = []) ∧
        g.text ≠ [] ∧ ∀ c, g.text.head? = some c → unicodeIsSpace c = false) →
      Runs (w ++ originalText segs) i toks ts →
      ts.map (fun t => t.Value) = toks.map (fun t => t.Value) ++ segs.map (fun g => g.text) →
      toks2.map kindValue = toks.map kindValue →
      ∃ ts2, Runs (w2 ++ paddedText segs) i2 toks2 ts2 ∧
        ts2.map kindValue = ts.map kindValue := by
  induction segs with
  | nil =>
    intro w w2 i i2 toks toks2 ts hw hw2 _ hrun _ hkv
    rw [Runs_blank w _ _ _ _ hw] at hrun
    simp only [originalText] at hrun
    rw [Runs_nil] at hrun
    refine ⟨toks2, ?_, by rw [hrun, hkv]⟩
    rw [Runs_blank w2 _ _ _ _ hw2]
    simp only [paddedText]
    rw [Runs_nil]
  | cons g segs ih =>
    intro w w2 i i2 toks toks2 ts hw hw2 hsegs hrun hv hkv
    obtain ⟨hgap, hpad, hpg, hne, hhead⟩ := hsegs g (by simp)
    have hsegs2 : ∀ g ∈ segs, Blank g.gap ∧ Blank g.padded ∧ (g.padded = [] → g.gap = []) ∧
        g.text ≠ [] ∧ ∀ c, g.text.head? = some c → unicodeIsSpace c = false :=
      fun g2 h2 => hsegs g2 (by simp [h2])
    have hcompat : HeadCompat (g.gap ++ originalText segs) (g.padded ++ paddedText segs) :=
      HeadCompat_segments g segs ⟨hpad, hpg⟩ (fun g2 h2 => (hsegs2 g2 h2).2.2.2.1)
    have hat := atStartOrAfterOperator_congr toks toks2 hkv
    rw [Runs_blank w _ _ _ _ hw] at hrun
    simp only [originalText] at hrun
    -- the value of the token emitted next is the text of the segment
    have hnext : ∀ (tok : Token) (r : List Char) (j : Nat),
        Runs r j (toks ++ [tok]) ts →
        tok.Value = g.text ∧
        ts.map (fun t => t.Value) =
          (toks ++ [tok]).map (fun t => t.Value) ++ segs.map (fun g => g.text) := by
      intro tok r j hr
      obtain ⟨fuel, hf⟩ := hr
      obtain ⟨more, hm⟩ := Runs_prefix fuel _ _ _ _ hf
      have h1 := hv
      rw [hm] at h1
      simp only [List.map_append, List.map_cons, List.map_nil, List.append_assoc,
        List.singleton_append] at h1
      have h2 := List.append_cancel_left h1
      simp only [List.cons.injEq] at h2
      refine ⟨h2.1, ?_⟩
      rw [hv]
      simp [h2.1]
    cases htext : g.text with
    | nil => exact absurd htext hne
    | cons c vt =>
      have hcs : unicodeIsSpace c = false := hhead c (by rw [htext]; rfl)
      rw [htext] at hrun
      rw [List.cons_append, Runs_cons] at hrun
      simp only [hcs, Bool.false_eq_true, if_false] at hrun
      by_cases hn : startsNumber (c :: (vt ++ (g.gap ++ originalText segs))) toks = true
      · simp only [hn, if_true] at hrun
        obtain ⟨hval, hv2⟩ := hnext _ _ _ hrun
        simp only at hval
        have happ := parseNumberToken_append (c :: (vt ++ (g.gap ++ originalText segs)))
        rw [hval, htext] at happ
        have h2 : (parseNumberToken (c :: (vt ++ (g.gap ++ originalText segs)))).2 =
            g.gap ++ originalText segs := by
          have : (c :: vt) ++ (parseNumberToken (c :: (vt ++ (g.gap ++ originalText segs)))).2 =
              (c :: vt) ++ (g.gap ++ originalText segs) := by simpa using happ
          exact List.append_cancel_left this
        have hpt : parseNumberToken ((c :: vt) ++ (g.gap ++ originalText segs)) =
            (c :: vt, g.gap ++ originalText segs) := by
          apply Prod.ext
          · exact hval.trans htext
          · exact h2
        have hpt2 := parseNumberToken_stop (c :: vt) _ _ (by simp) hcompat hpt
        have hn2 := startsNumber_stop_number (c :: vt) _ _ toks toks2 hcompat hpt
          (by simpa using hn) hat
        rw [h2] at hrun
        obtain ⟨ts2, hr2, hk2⟩ := ih g.gap g.padded _ (i2 + w2.length + (c :: vt).length)
          _ (toks2 ++ [⟨TokenType.NumberToken, c :: vt, i2 + w2.length⟩]) ts hgap hpad hsegs2
          hrun hv2
          (by
            simp only [List.map_append, List.map_cons, List.map_nil, hkv, kindValue]
            rw [hval, htext])
        refine ⟨ts2, ?_, hk2⟩
        rw [Runs_blank w2 _ _ _ _ hw2]
        simp only [paddedText, htext]
        rw [List.cons_append, Runs_cons]
        simp only [hcs, Bool.false_eq_true, if_false]
        simp only [List.cons_append] at hn2 hpt2
        simp only [hn2, if_true, hpt2]
        exact hr2
      · simp only [hn, Bool.false_eq_true, if_false] at hrun
        by_cases ho : isOperator c = true
        · simp only [ho, if_true] at hrun
          obtain ⟨hval, hv2⟩ := hnext _ _ _ hrun
          simp only at hval
          rw [htext] at hval
          simp only [List.cons.injEq, true_and] at hval
          rw [← hval] at hrun hn
          simp only [List.nil_append] at hrun hn
          have hn2 := startsNumber_stop_operator c _ _ toks toks2 hcompat
            (by simpa using hn) hat
          obtain ⟨ts2, hr2, hk2⟩ := ih g.gap g.padded _ (i2 + w2.length + 1)
            _ (toks2 ++ [⟨TokenType.OperatorToken, [c], i2 + w2.length⟩]) ts hgap hpad hsegs2
            hrun hv2
            (by simp only [List.map_append, List.map_cons, List.map_nil, hkv, kindValue])
          refine ⟨ts2, ?_, hk2⟩
          rw [Runs_blank w2 _ _ _ _ hw2]
          simp only [paddedText, htext, ← hval, List.cons_append, List.nil_append]
          rw [Runs_cons]
          simp only [hcs, Bool.false_eq_true, if_false, hn2, ho, if_true]
          exact hr2
        · simp [ho] at hrun

theorem mem_originalText (segs : List Segment) (g : Segment) (hg : g ∈ segs) (c : Char)
    (hc : c ∈ g.text) : c ∈ originalText segs := by
  induction segs with
  | nil => simp at hg
  | cons g2 rest ih =>
    simp only [originalText, List.mem_append]
    rcases List.mem_cons.1 hg with rfl | h2
    · exact Or.inl hc
    · exact Or.inr (Or.inr (ih h2))

theorem mem_paddedText (segs : List Segment) (c : Char) (hc : c ∈ paddedText segs) :
    ∃ g ∈ segs, c ∈ g.text ∨ c ∈ g.padded := by
  induction segs with
  | nil => simp [paddedText] at hc
  | cons g2 rest ih =>
    simp only [paddedText, List.mem_append] at hc
    rcases hc with h | h | h
    · exact ⟨g2, by simp, Or.inl h⟩
    · exact ⟨g2, by simp, Or.inr h⟩
    · obtain ⟨g, hg, h3⟩ := ih h
      exact ⟨g, by simp [hg], h3⟩

/-- C27: whitespace between tokens does not change tokenization.  Let `Tokenize`
succeed on an input with tokens whose Values are the texts of `segs`, so that
the input is a leading gap `w0` and then every token text followed by its gap;
let the padded input have the same texts, with whitespace inserted into the
leading gap (`w1`) and into the gaps (`padded`).  Then `Tokenize` succeeds on
the padded input with tokens of the same kinds and Values. -/
theorem C27_whitespace_between_tokens (w0 w1 : List Char) (segs : List Segment)
    (ts : List Token)
    (hs : Tokenize (w0 ++ originalText segs) = some (Outcome.ok ts))
    (hv : ts.map (fun t => t.Value) = segs.map (fun g => g.text))
    (hw : Blank w1 ∧ w0.Sublist w1)
    (hg : ∀ g ∈ segs, Blank g.padded ∧ g.gap.Sublist g.padded) :
    ∃ ts2, Tokenize (w1 ++ paddedText segs) = some (Outcome.ok ts2) ∧
      ts2.map kindValue = ts.map kindValue := by
  have hw0 : Blank w0 := fun c hc => hw.1 c (hw.2.subset hc)
  have htext : ∀ g ∈ segs, g.text ≠ [] ∧
      ∀ c, g.text.head? = some c → unicodeIsSpace c = false := by
    intro g hgm
    have h1 : g.text ∈ ts.map (fun t => t.Value) := by
      rw [hv]; exact List.mem_map.2 ⟨g, hgm, rfl⟩
    obtain ⟨t, ht, hval⟩ := List.mem_map.1 h1
    have := Tokenize_value_head _ ts hs t ht
    rw [hval] at this
    exact this
  have hsegs : ∀ g ∈ segs, Blank g.gap ∧ Blank g.padded ∧ (g.padded = [] → g.gap = []) ∧
      g.text ≠ [] ∧ ∀ c, g.text.head? = some c → unicodeIsSpace c = false := by
    intro g hgm
    obtain ⟨h1, h2⟩ := hg g hgm
    refine ⟨fun c hc => h1 c (h2.subset hc), h1, fun hp => ?_, htext g hgm⟩
    rw [hp] at h2
    exact List.eq_nil_of_sublist_nil h2
  obtain ⟨ts2, hr2, hk2⟩ := Runs_padded segs w0 w1 0 0 [] [] ts hw0 hw.1 hsegs
    (Runs_of_Tokenize _ ts hs) (by simpa using hv) rfl
  refine ⟨ts2, Tokenize_of_Runs _ ts2 ?_ ?_ hr2, hk2⟩
  · -- the padded input is not blank
    intro h0
    have hb := (TrimSpace_eq_nil_iff _).1 h0
    cases segs with
    | nil =>
      have hne : TrimSpace (w0 ++ originalText []) ≠ [] := by
        intro h1
        unfold Tokenize at hs
        simp [h1] at hs
      apply hne
      rw [TrimSpace_eq_nil_iff]
      intro c hc
      simp only [originalText, List.append_nil] at hc
      exact hw0 c hc
    | cons g rest =>
      obtain ⟨hne, hhead⟩ := htext g (by simp)
      cases ht : g.text with
      | nil => exact absurd ht hne
      | cons c vt =>
        have h1 := hhead c (by rw [ht]; rfl)
        have h2 := hb c (by simp [paddedText, ht])
        rw [h1] at h2; cases h2
  · -- every character of the padded input is allowed
    intro c hc
    rcases List.mem_append.1 hc with h1 | h1
    · exact space_valid c (hw.1 c h1)
    · obtain ⟨g, hgm, h2 | h2⟩ := mem_paddedText segs c h1
      · exact Tokenize_ok_valid _ ts hs c
          (List.mem_append.2 (Or.inr (mem_originalText segs g hgm c h2)))
      · exact space_valid c ((hg g hgm).1 c h2)

/-- C27 at `5--3` and `5 - -3`: both give the tokens `5`, `-`, `-3`. -/
theorem C27_whitespace_between_tokens_witness :
    Tokenize ['5', '-', '-', '3'] = some (Outcome.ok
      [⟨TokenType.NumberToken, ['5'], 0⟩, ⟨TokenType.OperatorToken, ['-'], 1⟩,
       ⟨TokenType.NumberToken, ['-', '3'], 2⟩]) ∧
    ∃ ts2, Tokenize ['5', ' ', '-', ' ', '-', '3'] = some (Outcome.ok ts2) ∧
      ts2.map kindValue =
        [(TokenType.NumberToken, ['5']), (TokenType.OperatorToken, ['-']),
         (TokenType.NumberToken, ['-', '3'])] :=
  ⟨by decide,
   C27_whitespace_between_tokens [] []
     [⟨['5'], [], [' ']⟩, ⟨['-'], [], [' ']⟩, ⟨['-', '3'], [], []⟩]
     [⟨TokenType.NumberToken, ['5'], 0⟩, ⟨TokenType.OperatorToken, ['-'], 1⟩,
      ⟨TokenType.NumberToken, ['-', '3'], 2⟩]
     (by decide) (by decide) ⟨by unfold Blank; decide, List.Sublist.refl _⟩
     (by
       intro g hgm
       simp only [List.mem_cons, List.mem_singleton, List.not_mem_nil, or_false] at hgm
       rcases hgm with rfl | rfl | rfl
       · exact ⟨by unfold Blank; decide, List.nil_sublist _⟩
       · exact ⟨by unfold Blank; decide, List.nil_sublist _⟩
       · exact ⟨by unfold Blank; decide, List.nil_sublist _⟩)⟩

end PreciseCalc
